import Mathlib

/-!
# yagods: ordered-container kernel

A shallow embedding of the array list (`lists/arraylist`) and the doubly-linked
list (`lists/doublylinkedlist`) with their iterators, the linked hash set
(`sets/linkedhashset`) with its enumerable functions, the JSON serialization of the
linked hash map (`maps/linkedhashmap`), the array stack (`stacks/arraystack`) and the
string comparator (`utils`) of `monitor1379/yagods`, followed by theorems about them.

Conventions.
* Go `int` arguments are `Int`; sizes and capacities, which the code never makes
  negative, are `Nat`.
* A function that can panic (nil dereference, index out of range, slice bounds
  out of range) returns `Option`; `none` is the panic.
* The zero value of the element type `V` is `default` of `[Inhabited V]`.
* Byte slices are lists of naturals; `json.Marshal`, `json.Unmarshal` and `utils.Sort`
  are parameters of the functions that call them.
-/

set_option autoImplicit false
set_option linter.unusedSectionVars false

/-! ## Go slices -/

/-- Go slice `[]V`: `arr` is the underlying array from the slice's first element up
to its capacity, `len` is the slice length (`len ≤ arr.length` for a real slice). -/
structure Slice (V : Type) where
  arr : List V
  len : Nat
deriving DecidableEq, Repr

namespace Slice

variable {V : Type}

/-- Builtin `cap(s)`. -/
def cap (s : Slice V) : Nat := s.arr.length

/-- The elements `range s` visits, in order. -/
def toList (s : Slice V) : List V := s.arr.take s.len

/-- Nil slice and `[]V{}`: length and capacity zero. -/
def empty : Slice V := ⟨[], 0⟩

/-- Builtin `make([]V, n, n)`. -/
def make [Inhabited V] (n : Nat) : Slice V := ⟨List.replicate n default, n⟩

/-- Read `s[i]`, a panic when `i` is not below `len(s)`. -/
def get? (s : Slice V) (i : Nat) : Option V :=
  if i < s.len then s.arr[i]? else none

/-- Write `s[i] = v`, a panic when `i` is not below `len(s)`. -/
def set? (s : Slice V) (i : Nat) (v : V) : Option (Slice V) :=
  if i < s.len ∧ i < s.arr.length then some { s with arr := s.arr.set i v } else none

/-- Statement `copy(s[dst:], src)` for a source that does not alias `s`: a panic when
`dst > len(s)`, otherwise `min(len(s) - dst, len(src))` elements are copied. -/
def copyFrom (s : Slice V) (dst : Nat) (src : List V) : Option (Slice V) :=
  if dst ≤ s.len ∧ s.len ≤ s.arr.length then
    let k := min (s.len - dst) src.length
    some { s with arr := s.arr.take dst ++ src.take k ++ s.arr.drop (dst + k) }
  else none

/-- Statement `copy(s[dst:], s[lo:hi])` inside one slice (`copy` reads the source
before it is overwritten): a panic when `dst > len(s)` or not `lo ≤ hi ≤ cap(s)`. -/
def copyWithin (s : Slice V) (dst lo hi : Nat) : Option (Slice V) :=
  if lo ≤ hi ∧ hi ≤ s.arr.length then s.copyFrom dst ((s.arr.drop lo).take (hi - lo)) else none

end Slice

/-- Loop `for index, element := range values { if element == value { return index } }`
followed by `return -1`, from position `index` on. -/
def scanIndex {V : Type} [DecidableEq V] (value : V) : List V → Int → Int
  | [], _ => -1
  | element :: rest, index =>
    if element = value then index else scanIndex value rest (index + 1)

/-! ## lists/arraylist -/

namespace arraylist

variable {V : Type}

/-- Conversion `float32(x)` of a non-negative integer: exact below `2^24`, otherwise
rounded to a 24-bit significand, to nearest, ties to even. -/
def float32 (x : Nat) : Nat :=
  if x < 2 ^ 24 then x
  else
    let e := Nat.log2 x - 23
    let q := x / 2 ^ e
    let r := x % 2 ^ e
    let half := 2 ^ (e - 1)
    if r < half then q * 2 ^ e
    else if half < r then (q + 1) * 2 ^ e
    else if q % 2 = 0 then q * 2 ^ e
    else (q + 1) * 2 ^ e

/-- Struct `List[V]` of the package: the backing slice and the logical size. -/
structure ArrayList (V : Type) where
  values : Slice V
  size : Nat
deriving DecidableEq, Repr

namespace ArrayList

variable [Inhabited V]

/-- The list `&List[V]{}` that `New` starts from. -/
def empty : ArrayList V := ⟨Slice.empty, 0⟩

/-- Method `withinRange`: `index >= 0 && index < l.size`. -/
def withinRange (l : ArrayList V) (index : Int) : Bool :=
  decide (0 ≤ index) && decide (index < (l.size : Int))

/-- Method `resize`: a fresh slice of length and capacity `cap`, the old contents copied in. -/
def resize (l : ArrayList V) (cap : Nat) : ArrayList V :=
  let newValues : Slice V := Slice.make cap
  match newValues.copyFrom 0 l.values.toList with
  | some nv => { l with values := nv }
  | none => l

/-- Method `growBy`: when `size + n` reaches the capacity, resize to
`int(growthFactor * float32(currentCapacity + n))` with `growthFactor = 2.0`. -/
def growBy (l : ArrayList V) (n : Nat) : ArrayList V :=
  let currentCapacity := l.values.cap
  if currentCapacity ≤ l.size + n then l.resize (2 * float32 (currentCapacity + n)) else l

/-- Method `shrink`: `shrinkFactor = 0.25` is not zero, so the list is resized to `size`
when `size <= int(float32(currentCapacity) * shrinkFactor)`. -/
def shrink (l : ArrayList V) : ArrayList V :=
  let currentCapacity := l.values.cap
  if l.size ≤ float32 currentCapacity / 4 then l.resize l.size else l

/-- One iteration of the loop of `Add`: `l.values[l.size] = value; l.size++`. -/
def addStep (l : ArrayList V) (value : V) : Option (ArrayList V) :=
  (l.values.set? l.size value).map fun vs => { values := vs, size := l.size + 1 }

/-- Method `Add`. -/
def Add (l : ArrayList V) (values : List V) : Option (ArrayList V) :=
  values.foldlM addStep (l.growBy values.length)

/-- Function `New`. -/
def New (values : List V) : Option (ArrayList V) :=
  if 0 < values.length then (empty : ArrayList V).Add values else some empty

/-- Method `Get`. -/
def Get (l : ArrayList V) (index : Int) : Option (V × Bool) :=
  if !l.withinRange index then some (default, false)
  else (l.values.get? index.toNat).map fun v => (v, true)

/-- Method `Remove`. -/
def Remove (l : ArrayList V) (index : Int) : Option (ArrayList V) :=
  if !l.withinRange index then some l
  else do
    let i := index.toNat
    let vs ← l.values.set? i default
    let vs ← vs.copyWithin i (i + 1) l.size
    pure (shrink { values := vs, size := l.size - 1 })

/-- Method `Contains`: for every searched value the inner loop runs over
`range l.values`, the whole backing slice. -/
def Contains (l : ArrayList V) [DecidableEq V] (values : List V) : Bool :=
  values.all fun searchValue => l.values.toList.any fun value => decide (value = searchValue)

/-- Method `Values`: a fresh slice holding `l.values[:l.size]`. -/
def Values (l : ArrayList V) : Option (List V) :=
  if l.size ≤ l.values.cap then some (l.values.arr.take l.size) else none

/-- Method `IndexOf`: the loop runs over `range l.values`, the whole backing slice. -/
def IndexOf (l : ArrayList V) [DecidableEq V] (v : V) : Int :=
  if l.size = 0 then -1 else scanIndex v l.values.toList 0

/-- Method `Empty`. -/
def Empty (l : ArrayList V) : Bool := decide (l.size = 0)

/-- Method `Size`. -/
def Size (l : ArrayList V) : Int := (l.size : Int)

/-- Method `Clear`. -/
def Clear (_l : ArrayList V) : ArrayList V := ⟨Slice.empty, 0⟩

/-- Method `Swap`. -/
def Swap (l : ArrayList V) (i j : Int) : Option (ArrayList V) :=
  if l.withinRange i && l.withinRange j then do
    let vi ← l.values.get? i.toNat
    let vj ← l.values.get? j.toNat
    let vs ← l.values.set? i.toNat vj
    let vs ← vs.set? j.toNat vi
    pure { l with values := vs }
  else some l

/-- Method `Insert`. -/
def Insert (l : ArrayList V) (index : Int) (values : List V) : Option (ArrayList V) :=
  if !l.withinRange index then
    if index = (l.size : Int) then l.Add values else some l
  else do
    let i := index.toNat
    let n := values.length
    let l1 := l.growBy n
    let size := l1.size + n
    let vs ← l1.values.copyWithin (i + n) i (size - n)
    let vs ← vs.copyFrom i values
    pure { values := vs, size := size }

/-- Method `Set`. -/
def Set (l : ArrayList V) (index : Int) (value : V) : Option (ArrayList V) :=
  if !l.withinRange index then
    if index = (l.size : Int) then l.Add [value] else some l
  else (l.values.set? index.toNat value).map fun vs => { l with values := vs }

end ArrayList

/-- Struct `Iterator[V]` of the array list without its `list` pointer: the methods take
the list the iterator points to, in its current state. -/
structure Iterator where
  index : Int
deriving DecidableEq, Repr

namespace Iterator

variable [Inhabited V]

/-- Method `List.Iterator`. -/
def new : Iterator := ⟨-1⟩

/-- Method `Next`; it returns the iterator after the call and the boolean result. -/
def Next (l : ArrayList V) (i : Iterator) : Iterator × Bool :=
  let index := if i.index < (l.size : Int) then i.index + 1 else i.index
  (⟨index⟩, l.withinRange index)

/-- Method `Prev`. -/
def Prev (l : ArrayList V) (i : Iterator) : Iterator × Bool :=
  let index := if 0 ≤ i.index then i.index - 1 else i.index
  (⟨index⟩, l.withinRange index)

/-- Method `Value`: `i.list.values[i.index]`. -/
def Value (l : ArrayList V) (i : Iterator) : Option V :=
  if 0 ≤ i.index then l.values.get? i.index.toNat else none

/-- Method `Index`. -/
def Index (i : Iterator) : Int := i.index

/-- Method `Begin`. -/
def Begin (_i : Iterator) : Iterator := ⟨-1⟩

/-- Method `End`. -/
def End (l : ArrayList V) (_i : Iterator) : Iterator := ⟨(l.size : Int)⟩

/-- Method `First`. -/
def First (l : ArrayList V) (i : Iterator) : Iterator × Bool := Next l (Begin i)

/-- Method `Last`. -/
def Last (l : ArrayList V) (i : Iterator) : Iterator × Bool := Prev l (End l i)

end Iterator

/-- The array list `l` holds the sequence `xs`: the backing slice is full (`len = cap`),
`size` fits in it, and its first `size` cells are `xs`. -/
structure Models (l : ArrayList V) (xs : List V) : Prop where
  len_eq : l.values.len = l.values.arr.length
  size_le : l.size ≤ l.values.len
  content : l.values.arr.take l.size = xs

/-- The array list built by `New(1, 2, 3)`. -/
def sampleArrayList : ArrayList Nat := ⟨⟨[1, 2, 3, 0, 0, 0], 6⟩, 3⟩

/-- A call of one of the mutators `Add`, `Insert`, `Remove`, `Set`, `Swap`. -/
inductive Op (V : Type) where
  | add (values : List V)
  | insert (index : Int) (values : List V)
  | remove (index : Int)
  | set (index : Int) (value : V)
  | swap (i j : Int)

/-- The call `op` made on the array list `l`. -/
def Op.call [Inhabited V] (l : ArrayList V) : Op V → Option (ArrayList V)
  | .add values => l.Add values
  | .insert index values => l.Insert index values
  | .remove index => l.Remove index
  | .set index value => l.Set index value
  | .swap i j => l.Swap i j

/-- A sequence of calls made, in order, on an empty array list. -/
def runOps [Inhabited V] (ops : List (Op V)) : Option (ArrayList V) :=
  ops.foldlM Op.call ArrayList.empty

/-- Reference sequence of the specification, one call: `Add` appends, `Insert` splices the
batch at a valid index (appends when `index == size`, does nothing otherwise), `Remove`
deletes the element at a valid index, `Set` overwrites a valid index (appends when
`index == size`), `Swap` exchanges two valid positions. -/
def refStep [Inhabited V] (xs : List V) : Op V → List V
  | .add values => xs ++ values
  | .insert index values =>
    if 0 ≤ index ∧ index < (xs.length : Int) then
      xs.take index.toNat ++ values ++ xs.drop index.toNat
    else if index = (xs.length : Int) then xs ++ values
    else xs
  | .remove index =>
    if 0 ≤ index ∧ index < (xs.length : Int) then xs.eraseIdx index.toNat else xs
  | .set index value =>
    if 0 ≤ index ∧ index < (xs.length : Int) then xs.set index.toNat value
    else if index = (xs.length : Int) then xs ++ [value]
    else xs
  | .swap i j =>
    if (0 ≤ i ∧ i < (xs.length : Int)) ∧ (0 ≤ j ∧ j < (xs.length : Int)) then
      (xs.set i.toNat (xs.getD j.toNat default)).set j.toNat (xs.getD i.toNat default)
    else xs

/-- Reference sequence after a sequence of calls, starting from the empty sequence. -/
def refRun [Inhabited V] (ops : List (Op V)) : List V :=
  ops.foldl refStep []

end arraylist

/-! ## lists/doublylinkedlist -/

namespace doublylinkedlist

variable {V : Type}

/-- Struct `element[V]`. A pointer `*element[V]` is an `Option Nat`: `none` is nil and
`some a` points to cell `a` of the heap of the list. -/
structure element (V : Type) where
  value : V
  prev : Option Nat
  next : Option Nat
deriving DecidableEq, Repr

/-- Dereference of a pointer, a panic on nil. -/
def load (heap : List (element V)) (p : Option Nat) : Option (element V) :=
  p.bind fun a => heap[a]?

/-- Assignment `p.next = q`, a panic when `p` is nil. -/
def storeNext (heap : List (element V)) (p q : Option Nat) : Option (List (element V)) :=
  match p with
  | none => none
  | some a => (heap[a]?).map fun n => heap.set a { n with next := q }

/-- Assignment `p.prev = q`, a panic when `p` is nil. -/
def storePrev (heap : List (element V)) (p q : Option Nat) : Option (List (element V)) :=
  match p with
  | none => none
  | some a => (heap[a]?).map fun n => heap.set a { n with prev := q }

/-- Assignment `p.value = v`, a panic when `p` is nil. -/
def storeValue (heap : List (element V)) (p : Option Nat) (v : V) : Option (List (element V)) :=
  match p with
  | none => none
  | some a => (heap[a]?).map fun n => heap.set a { n with value := v }

/-- Arguments of one call `fmt.Println("Set last", index, value, foundElement,
foundElement.prev)`, that is one line written to standard output by `Set`. -/
structure SetLine (V : Type) where
  index : Int
  value : V
  foundElement : Option Nat
  prev : Option Nat
deriving DecidableEq, Repr

/-- Struct `List[V]` of the package together with the cells its pointers refer to:
`&element[V]{...}` puts the new node in the next free cell, `heap.length`. -/
structure DList (V : Type) where
  heap : List (element V)
  first : Option Nat
  last : Option Nat
  size : Nat
deriving DecidableEq, Repr

/-- Loop `for e := start; e != index; e, element = e+1, element.next {}`, from the state
`(e, element)`; it returns the final `element`. -/
def walkNext (heap : List (element V)) (index : Int) : Nat → Int → Option Nat → Option (Option Nat)
  | 0, e, element => if e = index then some element else none
  | fuel + 1, e, element =>
    if e = index then some element
    else (load heap element).bind fun n => walkNext heap index fuel (e + 1) n.next

/-- Loop `for e := start; e != index; e, element = e-1, element.prev {}`. -/
def walkPrev (heap : List (element V)) (index : Int) : Nat → Int → Option Nat → Option (Option Nat)
  | 0, e, element => if e = index then some element else none
  | fuel + 1, e, element =>
    if e = index then some element
    else (load heap element).bind fun n => walkPrev heap index fuel (e - 1) n.prev

/-- Backward loop of `Set`: `for e := start; e != index; { fmt.Println("Set last", index,
value, foundElement, foundElement.prev); e, foundElement = e-1, foundElement.prev }`; the
state is `(e, foundElement)` and the lines printed so far. -/
def setWalkPrev (heap : List (element V)) (index : Int) (value : V) :
    Nat → Int → Option Nat → List (SetLine V) → Option (Option Nat × List (SetLine V))
  | 0, e, foundElement, out => if e = index then some (foundElement, out) else none
  | fuel + 1, e, foundElement, out =>
    if e = index then some (foundElement, out)
    else (load heap foundElement).bind fun n =>
      setWalkPrev heap index value fuel (e - 1) n.prev
        (out ++ [⟨index, value, foundElement, n.prev⟩])

/-- Loop of `Swap`: `for e, currentElement := 0, l.first; element1 == nil || element2 ==
nil; e, currentElement = e+1, currentElement.next { switch e { case i: element1 =
currentElement; case j: element2 = currentElement } }`; the state is `(e, currentElement,
element1, element2)`. -/
def swapLoop (heap : List (element V)) (i j : Int) :
    Nat → Int → Option Nat → Option Nat → Option Nat → Option (Option Nat × Option Nat)
  | 0, _, _, element1, element2 =>
    if element1 = none ∨ element2 = none then none else some (element1, element2)
  | fuel + 1, e, currentElement, element1, element2 =>
    if element1 = none ∨ element2 = none then
      (load heap currentElement).bind fun n =>
        swapLoop heap i j fuel (e + 1) n.next
          (if e = i then currentElement else element1)
          (if e = i then element2 else if e = j then currentElement else element2)
    else some (element1, element2)

/-- Forward loop of `Insert`, whose body is `beforeElement = foundElement`; the state is
`(beforeElement, foundElement)`. -/
def insertWalkNext (heap : List (element V)) (index : Int) :
    Nat → Int → Option Nat → Option Nat → Option (Option Nat × Option Nat)
  | 0, e, beforeElement, foundElement =>
    if e = index then some (beforeElement, foundElement) else none
  | fuel + 1, e, beforeElement, foundElement =>
    if e = index then some (beforeElement, foundElement)
    else (load heap foundElement).bind fun n =>
      insertWalkNext heap index fuel (e + 1) foundElement n.next

/-- Backward loop of `Insert`, whose body is `beforeElement = foundElement.prev`. -/
def insertWalkPrev (heap : List (element V)) (index : Int) :
    Nat → Int → Option Nat → Option Nat → Option (Option Nat × Option Nat)
  | 0, e, beforeElement, foundElement =>
    if e = index then some (beforeElement, foundElement) else none
  | fuel + 1, e, beforeElement, foundElement =>
    if e = index then some (beforeElement, foundElement)
    else (load heap foundElement).bind fun n =>
      insertWalkPrev heap index fuel (e - 1) n.prev n.prev

/-- Body of the `range values` loop in the head branch of `Insert`; the state is
`(heap, l.first, beforeElement, i)`. -/
def insertHeadStep (st : List (element V) × Option Nat × Option Nat × Nat) (value : V) :
    Option (List (element V) × Option Nat × Option Nat × Nat) :=
  let newElement := some st.1.length
  if st.2.2.2 = 0 then
    some (st.1 ++ [⟨value, none, none⟩], newElement, newElement, st.2.2.2 + 1)
  else
    (storeNext (st.1 ++ [⟨value, st.2.2.1, none⟩]) st.2.2.1 newElement).map fun heap =>
      (heap, st.2.1, newElement, st.2.2.2 + 1)

/-- Body of the `range values` loop in the other branch of `Insert`; the state is
`(heap, beforeElement)`. -/
def insertMidStep (st : List (element V) × Option Nat) (value : V) :
    Option (List (element V) × Option Nat) :=
  let newElement := some st.1.length
  (storeNext (st.1 ++ [⟨value, st.2, none⟩]) st.2 newElement).map fun heap => (heap, newElement)

/-- Loop of `Values`: `values[e] = element.value` for every node reached from `first`;
the write panics once `e` reaches `len(values)`. -/
def valuesLoop (heap : List (element V)) : Nat → Nat → Option Nat → List V → Option (List V)
  | _, _, none, values => some values
  | 0, _, some _, _ => none
  | fuel + 1, e, some a, values =>
    match heap[a]? with
    | none => none
    | some n =>
      if e < values.length then valuesLoop heap fuel (e + 1) n.next (values.set e n.value)
      else none

namespace DList

variable [Inhabited V]

/-- The list `&List[V]{}` that `New` starts from. -/
def empty : DList V := ⟨[], none, none, 0⟩

/-- Method `withinRange`: `index >= 0 && index < l.size`. -/
def withinRange (l : DList V) (index : Int) : Bool :=
  decide (0 ≤ index) && decide (index < (l.size : Int))

/-- Body of the loop of `Add`. -/
def addStep (l : DList V) (value : V) : Option (DList V) :=
  let newElement := some l.heap.length
  let heap := l.heap ++ [⟨value, l.last, none⟩]
  if l.size = 0 then some ⟨heap, newElement, newElement, l.size + 1⟩
  else (storeNext heap l.last newElement).map fun heap => ⟨heap, l.first, newElement, l.size + 1⟩

/-- Method `Add`. -/
def Add (l : DList V) (values : List V) : Option (DList V) :=
  values.foldlM addStep l

/-- Method `Append`. -/
def Append (l : DList V) (values : List V) : Option (DList V) :=
  l.Add values

/-- Function `New`. -/
def New (values : List V) : Option (DList V) :=
  if 0 < values.length then (empty : DList V).Add values else some empty

/-- Body of the loop of `Prepend`. -/
def prependStep (l : DList V) (value : V) : Option (DList V) :=
  let newElement := some l.heap.length
  let heap := l.heap ++ [⟨value, none, l.first⟩]
  if l.size = 0 then some ⟨heap, newElement, newElement, l.size + 1⟩
  else (storePrev heap l.first newElement).map fun heap => ⟨heap, newElement, l.last, l.size + 1⟩

/-- Method `Prepend`: the values are taken from the last to the first. -/
def Prepend (l : DList V) (values : List V) : Option (DList V) :=
  values.reverse.foldlM prependStep l

/-- Method `Get`. -/
def Get (l : DList V) (index : Int) : Option (V × Bool) :=
  if !l.withinRange index then some (default, false)
  else if (l.size : Int) - index < index then
    (walkPrev l.heap index l.size ((l.size : Int) - 1) l.last).bind fun element =>
      (load l.heap element).map fun n => (n.value, true)
  else
    (walkNext l.heap index l.size 0 l.first).bind fun element =>
      (load l.heap element).map fun n => (n.value, true)

/-- Method `Clear`. -/
def Clear (l : DList V) : DList V :=
  { l with size := 0, first := none, last := none }

/-- Method `Remove`. -/
def Remove (l : DList V) (index : Int) : Option (DList V) :=
  if !l.withinRange index then some l
  else if l.size = 1 then some l.Clear
  else do
    let element ←
      (if (l.size : Int) - index < index then
        walkPrev l.heap index l.size ((l.size : Int) - 1) l.last
      else walkNext l.heap index l.size 0 l.first)
    let n ← load l.heap element
    let first := if element = l.first then n.next else l.first
    let last := if element = l.last then n.prev else l.last
    let heap ← (if n.prev ≠ none then storeNext l.heap n.prev n.next else some l.heap)
    let n ← load heap element
    let heap ← (if n.next ≠ none then storePrev heap n.next n.prev else some heap)
    pure ⟨heap, first, last, l.size - 1⟩

/-- Method `Values`. -/
def Values (l : DList V) : Option (List V) :=
  valuesLoop l.heap (l.size + 1) 0 l.first (List.replicate l.size default)

/-- Method `IndexOf`: a scan of `l.Values()`. -/
def IndexOf (l : DList V) [DecidableEq V] (value : V) : Option Int :=
  if l.size = 0 then some (-1) else l.Values.map fun values => scanIndex value values 0

/-- Method `Empty`. -/
def Empty (l : DList V) : Bool := decide (l.size = 0)

/-- Method `Size`. -/
def Size (l : DList V) : Int := (l.size : Int)

/-- Method `Insert`. -/
def Insert (l : DList V) (index : Int) (values : List V) : Option (DList V) :=
  if !l.withinRange index then
    if index = (l.size : Int) then l.Add values else some l
  else do
    let size := l.size + values.length
    let (beforeElement, foundElement) ←
      (if (size : Int) - index < index then
        insertWalkPrev l.heap index size ((size : Int) - 1) none l.last
      else insertWalkNext l.heap index size 0 none l.first)
    if foundElement = l.first then
      let oldNextElement := l.first
      let (heap, first, beforeElement, _) ←
        values.foldlM insertHeadStep (l.heap, l.first, beforeElement, 0)
      let heap ← storePrev heap oldNextElement beforeElement
      let heap ← storeNext heap beforeElement oldNextElement
      pure ⟨heap, first, l.last, size⟩
    else
      let oldNextElement ← (load l.heap beforeElement).map fun n => n.next
      let (heap, beforeElement) ← values.foldlM insertMidStep (l.heap, beforeElement)
      let heap ← storePrev heap oldNextElement beforeElement
      let heap ← storeNext heap beforeElement oldNextElement
      pure ⟨heap, l.first, l.last, size⟩

/-- Method `Set`; it returns the list after the call and the lines written to standard
output. -/
def Set (l : DList V) (index : Int) (value : V) : Option (DList V × List (SetLine V)) :=
  if !l.withinRange index then
    if index = (l.size : Int) then (l.Add [value]).map fun l1 => (l1, []) else some (l, [])
  else
    (if (l.size : Int) - index < index then
        setWalkPrev l.heap index value l.size ((l.size : Int) - 1) l.last []
      else (walkNext l.heap index l.size 0 l.first).map fun p => (p, [])).bind fun r =>
      (storeValue l.heap r.1 value).map fun heap => ({ l with heap := heap }, r.2)

/-- Method `Swap`. -/
def Swap (l : DList V) (i j : Int) : Option (DList V) :=
  if l.withinRange i && l.withinRange j && decide (i ≠ j) then
    (swapLoop l.heap i j l.size 0 l.first none none).bind fun r =>
      (load l.heap r.1).bind fun n1 =>
        (load l.heap r.2).bind fun n2 =>
          (storeValue l.heap r.1 n2.value).bind fun heap =>
            (storeValue heap r.2 n1.value).map fun heap => { l with heap := heap }
  else some l

end DList

/-- Struct `Iterator[V]` without its `list` pointer: the methods take the list the
iterator points to, in its current state. -/
structure Iterator where
  index : Int
  element : Option Nat
deriving DecidableEq, Repr

namespace Iterator

variable [Inhabited V]

/-- Method `List.Iterator`. -/
def new : Iterator := ⟨-1, none⟩

/-- Method `Next`; it returns the iterator after the call and the boolean result. -/
def Next (l : DList V) (i : Iterator) : Option (Iterator × Bool) :=
  let index := if i.index < (l.size : Int) then i.index + 1 else i.index
  if !l.withinRange index then some (⟨index, none⟩, false)
  else if index ≠ 0 then (load l.heap i.element).map fun n => (⟨index, n.next⟩, true)
  else some (⟨index, l.first⟩, true)

/-- Method `Value`: `i.element.value`. -/
def Value (l : DList V) (i : Iterator) : Option V :=
  (load l.heap i.element).map fun n => n.value

/-- Method `Index`. -/
def Index (i : Iterator) : Int := i.index

/-- Method `Prev`. -/
def Prev (l : DList V) (i : Iterator) : Option (Iterator × Bool) :=
  let index := if 0 ≤ i.index then i.index - 1 else i.index
  if !l.withinRange index then some (⟨index, none⟩, false)
  else if index = (l.size : Int) - 1 then some (⟨index, l.last⟩, l.withinRange index)
  else (load l.heap i.element).map fun n => (⟨index, n.prev⟩, l.withinRange index)

/-- Method `Begin`. -/
def Begin (_i : Iterator) : Iterator := ⟨-1, none⟩

/-- Method `End`. -/
def End (l : DList V) (_i : Iterator) : Iterator := ⟨(l.size : Int), l.last⟩

/-- Method `First`. -/
def First (l : DList V) (i : Iterator) : Option (Iterator × Bool) := Next l (Begin i)

/-- Method `Last`. -/
def Last (l : DList V) (i : Iterator) : Option (Iterator × Bool) := Prev l (End l i)

/-- Caller loop `for it.Next() { visit(it.Index(), it.Value()) }`: it returns the
iterator after the call that returned false and the visits, in order. -/
def nextLoop (l : DList V) : Nat → Iterator → List (Int × V) → Option (Iterator × List (Int × V))
  | 0, _, _ => none
  | fuel + 1, it, seen =>
    (Next l it).bind fun r =>
      if !r.2 then some (r.1, seen)
      else (Value l r.1).bind fun v => nextLoop l fuel r.1 (seen ++ [(r.1.Index, v)])

/-- Caller loop `for it.Prev() { visit(it.Index(), it.Value()) }`. -/
def prevLoop (l : DList V) : Nat → Iterator → List (Int × V) → Option (Iterator × List (Int × V))
  | 0, _, _ => none
  | fuel + 1, it, seen =>
    (Prev l it).bind fun r =>
      if !r.2 then some (r.1, seen)
      else (Value l r.1).bind fun v => prevLoop l fuel r.1 (seen ++ [(r.1.Index, v)])

end Iterator

/-- The pairs `(0, xs[0]), (1, xs[1]), ...` that a traversal of `xs` by index and value
visits. -/
def indexed (xs : List V) : List (Int × V) :=
  xs.enum.map fun p => ((p.1 : Int), p.2)

/-- Pointer to the node before position `i` of the chain `as`: nil at the head. -/
def prevPtr (as : List Nat) (i : Nat) : Option Nat :=
  if i = 0 then none else as[i - 1]?

/-- The cell `as[k]` of the heap holds the value `xs[k]`, the `prev` pointer `P k` and
the `next` pointer `N k`, for every position `k` of `as`. -/
def Nodes (heap : List (element V)) (as : List Nat) (xs : List V) (P N : Nat → Option Nat) :
    Prop :=
  ∀ k a, as[k]? = some a → ∃ x, xs[k]? = some x ∧ heap[a]? = some (element.mk x (P k) (N k))

/-- The list `l` is the chain of the distinct cells `as` holding the values `xs`:
`first` and `last` point to the ends of the chain (nil when it is empty), `size` is
its length, and the node at position `i` holds `xs[i]`, its `prev` points to the node
at position `i - 1` (nil at the head) and its `next` to the node at position `i + 1`
(nil at the tail). -/
structure Chain [Inhabited V] (l : DList V) (as : List Nat) (xs : List V) : Prop where
  len_as : as.length = l.size
  len_xs : xs.length = l.size
  nodup : as.Nodup
  first : l.first = as[0]?
  last : l.last = as[l.size - 1]?
  node : Nodes l.heap as xs (prevPtr as) (fun i => as[i + 1]?)

/-- Well-formed list: it is a chain of `size` distinct nodes linked both ways. -/
def WellFormed [Inhabited V] (l : DList V) : Prop :=
  ∃ as xs, Chain l as xs

/-- The list built by `New(10, 20, 30, 40, 50)`. -/
def sampleList : DList Nat :=
  ⟨[⟨10, none, some 1⟩, ⟨20, some 0, some 2⟩, ⟨30, some 1, some 3⟩, ⟨40, some 2, some 4⟩,
    ⟨50, some 3, none⟩], some 0, some 4, 5⟩

end doublylinkedlist

/-! ## sets/linkedhashset -/

namespace linkedhashset

open doublylinkedlist

variable {V : Type}

/-- Struct `Set[V]`: the key set of the Go map `table` and the ordering list. -/
structure LinkedHashSet (V : Type) where
  table : Finset V
  ordering : DList V

instance {V : Type} [DecidableEq V] : DecidableEq (LinkedHashSet V) := fun a b =>
  decidable_of_iff (a.table = b.table ∧ a.ordering = b.ordering) (by
    cases a; cases b; simp)

/-- Loop `for it.Next() { values[it.Index()] = it.Value() }` of `Values`. -/
def valuesLoop [Inhabited V] (l : DList V) : Nat → Iterator → List V → Option (List V)
  | 0, _, _ => none
  | fuel + 1, it, values =>
    (Iterator.Next l it).bind fun r =>
      if !r.2 then some values
      else (Iterator.Value l r.1).bind fun v =>
        if 0 ≤ r.1.Index ∧ r.1.Index < (values.length : Int) then
          valuesLoop l fuel r.1 (values.set r.1.Index.toNat v)
        else none

namespace LinkedHashSet

variable [Inhabited V] [DecidableEq V]

/-- The set `New` starts from: an empty table and `doublylinkedlist.New[V]()`. -/
def empty : LinkedHashSet V := ⟨∅, DList.empty⟩

/-- Body of the loop of `Add`. -/
def addStep (set : LinkedHashSet V) (item : V) : Option (LinkedHashSet V) :=
  if item ∉ set.table then
    (set.ordering.Append [item]).map fun ordering => ⟨insert item set.table, ordering⟩
  else some set

/-- Method `Add`. -/
def Add (set : LinkedHashSet V) (items : List V) : Option (LinkedHashSet V) :=
  items.foldlM addStep set

/-- Function `New`. -/
def New (values : List V) : Option (LinkedHashSet V) :=
  if 0 < values.length then (empty : LinkedHashSet V).Add values else some empty

/-- Body of the loop of `Remove`. -/
def removeStep (set : LinkedHashSet V) (item : V) : Option (LinkedHashSet V) :=
  if item ∈ set.table then
    (set.ordering.IndexOf item).bind fun index =>
      (set.ordering.Remove index).map fun ordering => ⟨set.table.erase item, ordering⟩
  else some set

/-- Method `Remove`. -/
def Remove (set : LinkedHashSet V) (items : List V) : Option (LinkedHashSet V) :=
  items.foldlM removeStep set

/-- Method `Contains`. -/
def Contains (set : LinkedHashSet V) (items : List V) : Bool :=
  items.all fun item => decide (item ∈ set.table)

/-- Method `Size`. -/
def Size (set : LinkedHashSet V) : Int := set.ordering.Size

/-- Method `Empty`. -/
def Empty (set : LinkedHashSet V) : Bool := decide (set.Size = 0)

/-- Method `Clear`. -/
def Clear (set : LinkedHashSet V) : LinkedHashSet V := ⟨∅, set.ordering.Clear⟩

/-- Method `Values`. -/
def Values (set : LinkedHashSet V) : Option (List V) :=
  valuesLoop set.ordering (set.ordering.size + 1) Iterator.new
    (List.replicate set.ordering.size default)

/-- Method `FromJSON`, over the decoder `unmarshal` standing for `json.Unmarshal` into a
`[]V`: it returns the set after the call and the error, if any. -/
def FromJSON {D E : Type} (unmarshal : D → Except E (List V)) (set : LinkedHashSet V) (data : D) :
    Option (LinkedHashSet V × Option E) :=
  match unmarshal data with
  | .ok elements => (set.Clear.Add elements).map fun s => (s, none)
  | .error err => some (set, some err)

/-- Method `ToJSON`, over the encoder `marshal` standing for `json.Marshal` of a `[]V`:
`json.Marshal(set.Values())`. -/
def ToJSON {D E : Type} (marshal : List V → Except E D) (set : LinkedHashSet V) :
    Option (Except E D) :=
  set.Values.map marshal

/-- Loop `for iterator.Next() { newSet.Add(f(iterator.Index(), iterator.Value())) }` of
`Map`; the state is the iterator over `set` and the set `newSet`. -/
def mapLoop (f : Int → V → V) (set : LinkedHashSet V) :
    Nat → Iterator → LinkedHashSet V → Option (LinkedHashSet V)
  | 0, _, _ => none
  | fuel + 1, it, newSet =>
    (Iterator.Next set.ordering it).bind fun r =>
      if !r.2 then some newSet
      else (Iterator.Value set.ordering r.1).bind fun v =>
        (newSet.Add [f r.1.Index v]).bind fun s => mapLoop f set fuel r.1 s

/-- Method `Map`. -/
def Map (set : LinkedHashSet V) (f : Int → V → V) : Option (LinkedHashSet V) :=
  (New ([] : List V)).bind fun newSet =>
    mapLoop f set (set.ordering.size + 1) Iterator.new newSet

/-- Loop `for iterator.Next() { if f(iterator.Index(), iterator.Value()) {
newSet.Add(iterator.Value()) } }` of `Select`. -/
def selectLoop (f : Int → V → Bool) (set : LinkedHashSet V) :
    Nat → Iterator → LinkedHashSet V → Option (LinkedHashSet V)
  | 0, _, _ => none
  | fuel + 1, it, newSet =>
    (Iterator.Next set.ordering it).bind fun r =>
      if !r.2 then some newSet
      else (Iterator.Value set.ordering r.1).bind fun v =>
        if f r.1.Index v then (newSet.Add [v]).bind fun s => selectLoop f set fuel r.1 s
        else selectLoop f set fuel r.1 newSet

/-- Method `Select`. -/
def Select (set : LinkedHashSet V) (f : Int → V → Bool) : Option (LinkedHashSet V) :=
  (New ([] : List V)).bind fun newSet =>
    selectLoop f set (set.ordering.size + 1) Iterator.new newSet

/-- Loop `for iterator.Next() { if f(iterator.Index(), iterator.Value()) { return true } }`
of `Any`, followed by `return false`. -/
def anyLoop (f : Int → V → Bool) (set : LinkedHashSet V) : Nat → Iterator → Option Bool
  | 0, _ => none
  | fuel + 1, it =>
    (Iterator.Next set.ordering it).bind fun r =>
      if !r.2 then some false
      else (Iterator.Value set.ordering r.1).bind fun v =>
        if f r.1.Index v then some true else anyLoop f set fuel r.1

/-- Method `Any`. -/
def Any (set : LinkedHashSet V) (f : Int → V → Bool) : Option Bool :=
  anyLoop f set (set.ordering.size + 1) Iterator.new

/-- Loop `for iterator.Next() { if !f(iterator.Index(), iterator.Value()) { return false } }`
of `All`, followed by `return true`. -/
def allLoop (f : Int → V → Bool) (set : LinkedHashSet V) : Nat → Iterator → Option Bool
  | 0, _ => none
  | fuel + 1, it =>
    (Iterator.Next set.ordering it).bind fun r =>
      if !r.2 then some true
      else (Iterator.Value set.ordering r.1).bind fun v =>
        if !f r.1.Index v then some false else allLoop f set fuel r.1

/-- Method `All`. -/
def All (set : LinkedHashSet V) (f : Int → V → Bool) : Option Bool :=
  allLoop f set (set.ordering.size + 1) Iterator.new

/-- Loop `for iterator.Next() { if f(iterator.Index(), iterator.Value()) { return
iterator.Index(), iterator.Value(), true } }` of `Find`, followed by `return -1, zeroV,
false`. -/
def findLoop (f : Int → V → Bool) (set : LinkedHashSet V) :
    Nat → Iterator → Option (Int × V × Bool)
  | 0, _ => none
  | fuel + 1, it =>
    (Iterator.Next set.ordering it).bind fun r =>
      if !r.2 then some (-1, default, false)
      else (Iterator.Value set.ordering r.1).bind fun v =>
        if f r.1.Index v then
          (Iterator.Value set.ordering r.1).map fun value => (r.1.Index, value, true)
        else findLoop f set fuel r.1

/-- Method `Find`. -/
def Find (set : LinkedHashSet V) (f : Int → V → Bool) : Option (Int × V × Bool) :=
  findLoop f set (set.ordering.size + 1) Iterator.new

end LinkedHashSet

/-- Sets built by `New` and then changed by `Add`, `Remove`, `Clear` and `FromJSON`
(with any decoder and input). -/
inductive Reachable [Inhabited V] [DecidableEq V] : LinkedHashSet V → Prop where
  | new (values : List V) (s : LinkedHashSet V) :
    LinkedHashSet.New values = some s → Reachable s
  | add (s : LinkedHashSet V) (items : List V) (s1 : LinkedHashSet V) :
    Reachable s → s.Add items = some s1 → Reachable s1
  | remove (s : LinkedHashSet V) (items : List V) (s1 : LinkedHashSet V) :
    Reachable s → s.Remove items = some s1 → Reachable s1
  | clear (s : LinkedHashSet V) : Reachable s → Reachable s.Clear
  | fromJSON {D E : Type} (unmarshal : D → Except E (List V)) (s : LinkedHashSet V) (data : D)
    (s1 : LinkedHashSet V) (err : Option E) :
    Reachable s → s.FromJSON unmarshal data = some (s1, err) → Reachable s1

/-- Invariant of the table and order composition: the ordering list is the chain `as`
of the values `xs`, no value occurs twice in `xs`, and the table keys are the values
of `xs`. -/
structure Inv [Inhabited V] [DecidableEq V] (s : LinkedHashSet V) (as : List Nat) (xs : List V) :
    Prop where
  chain : Chain s.ordering as xs
  nodup : xs.Nodup
  keys : ∀ v, v ∈ s.table ↔ v ∈ xs

/-- The set built by `New(3, 1, 2)`. -/
def sampleSet : LinkedHashSet Nat :=
  ⟨insert 2 (insert 1 (insert 3 ∅)),
    ⟨[⟨3, none, some 1⟩, ⟨1, some 0, some 2⟩, ⟨2, some 1, none⟩], some 0, some 2, 3⟩⟩

/-- The items of a batch that are not in `xs`, each once, in the order of their first
occurrence in the batch. -/
def freshItems [DecidableEq V] (xs : List V) (items : List V) : List V :=
  items.foldl (fun acc item => if item ∈ xs ∨ item ∈ acc then acc else acc ++ [item]) []

end linkedhashset

/-! ## maps/linkedhashmap -/

/-- Function `bytes.Index(s, sep)` of the Go library, scanning `s` from offset `off`:
the offset of the first instance of `sep`, or -1. -/
def bytesIndexFrom (sep : List Nat) : List Nat → Int → Int
  | [], off => if sep = [] then off else -1
  | b :: s, off => if sep.isPrefixOf (b :: s) then off else bytesIndexFrom sep s (off + 1)

/-- Function `bytes.Index(s, sep)`. -/
def bytesIndex (s sep : List Nat) : Int := bytesIndexFrom sep s 0

/-- The entries of a JSON object as `ToJSON` writes them: each one is followed by a comma
(byte 44) unless its index is `lastIndex`. -/
def commaJoin (lastIndex : Int) : Int → List (List Nat) → List Nat
  | _, [] => []
  | index, x :: rest =>
    x ++ (if index ≠ lastIndex then [44] else []) ++ commaJoin lastIndex (index + 1) rest

/-- The JSON encoding of a string with no character that needs escaping: the bytes of
the string between two quotes (byte 34). -/
def quote (s : String) : List Nat :=
  [34] ++ s.toList.map Char.toNat ++ [34]

/-- Statement `esc, _ := json.Marshal(key)` of `FromJSON`: the error is dropped, and `esc`
is nil when there is one. -/
def escOf {K E : Type} (marshalK : K → Except E (List Nat)) (key : K) : List Nat :=
  match marshalK key with
  | .ok esc => esc
  | .error _ => []

/-- A sorting function standing for `utils.Sort` in the examples: insertion sort by the
comparator. -/
def sortBy {K : Type} (keys : List K) (comparator : K → K → Int) : List K :=
  keys.insertionSort fun a b => comparator a b ≤ 0

namespace linkedhashmap

open doublylinkedlist

variable {K V : Type}

/-- Modelled from the spec: struct `Map[K, V]` of `maps/linkedhashmap`, whose file
`linkedhashmap.go` is not among the sources: an unordered table mapping keys to values
and an Ordered List of the keys recording insertion order. -/
structure Map (K V : Type) where
  table : K → Option V
  ordering : DList K

namespace Map

variable [Inhabited K] [Inhabited V] [DecidableEq K]

/-- Modelled from the spec: the empty map `New` returns. -/
def empty : Map K V := ⟨fun _ => none, DList.empty⟩

/-- Modelled from the spec: method `Put`. If the key is absent from the table it is
appended to the Ordered List (new keys go to the end); in both cases the table value is
set, the order of a present key is unchanged. -/
def Put (m : Map K V) (key : K) (value : V) : Option (Map K V) :=
  if (m.table key).isNone then
    (m.ordering.Append [key]).map fun ordering =>
      ⟨Function.update m.table key (some value), ordering⟩
  else some ⟨Function.update m.table key (some value), m.ordering⟩

/-- Modelled from the spec: method `Clear` resets both structures. -/
def Clear (m : Map K V) : Map K V := ⟨fun _ => none, m.ordering.Clear⟩

/-- Modelled from the spec: method `Size`, the number of keys of the Ordered List. -/
def Size (m : Map K V) : Int := m.ordering.Size

/-- Modelled from the spec: method `Keys` reflects the Ordered List traversal order. -/
def Keys (m : Map K V) : Option (List K) := m.ordering.Values

/-- Modelled from the spec: method `Values`, the table values of the keys in the
Ordered List traversal order. -/
def Values (m : Map K V) : Option (List V) :=
  m.ordering.Values.map fun keys => keys.map fun key => (m.table key).getD default

end Map

/-- Modelled from the spec: method `Next` of the map iterator, which is the iterator of
the Ordered List of keys. -/
def iterNext [Inhabited K] (m : Map K V) (it : Iterator) : Option (Iterator × Bool) :=
  Iterator.Next m.ordering it

/-- Modelled from the spec: method `Key` of the map iterator, the key at the current
position of the Ordered List. -/
def iterKey [Inhabited K] (m : Map K V) (it : Iterator) : Option K :=
  Iterator.Value m.ordering it

/-- Modelled from the spec: method `Value` of the map iterator, the table value of the
current key (the zero value when the table has none). -/
def iterValue [Inhabited K] [Inhabited V] (m : Map K V) (it : Iterator) : Option V :=
  (iterKey m it).map fun key => (m.table key).getD default

/-- Loop `for it.Next() { ... }` of `ToJSON`; the state is the iterator, `index` and the
buffer. Byte 58 is the colon and byte 44 the comma. -/
def toJSONLoop {E : Type} [Inhabited K] [Inhabited V] (marshalK : K → Except E (List Nat))
    (marshalV : V → Except E (List Nat)) (m : Map K V) (lastIndex : Int) :
    Nat → Iterator → Int → List Nat → Option (Except E (List Nat))
  | 0, _, _, _ => none
  | fuel + 1, it, index, buf =>
    (iterNext m it).bind fun r =>
      if !r.2 then some (.ok buf)
      else (iterKey m r.1).bind fun key =>
        match marshalK key with
        | .error err => some (.error err)
        | .ok km =>
          (iterValue m r.1).bind fun value =>
            match marshalV value with
            | .error err => some (.error err)
            | .ok vm =>
              toJSONLoop marshalK marshalV m lastIndex fuel r.1 (index + 1)
                (buf ++ km ++ [58] ++ vm ++ (if index ≠ lastIndex then [44] else []))

namespace Map

variable [Inhabited K] [Inhabited V] [DecidableEq K]

/-- Method `ToJSON`, over the encoders `marshalK` and `marshalV` standing for
`json.Marshal` of a key and of a value; byte 123 is the opening and byte 125 the closing
brace. -/
def ToJSON {E : Type} (marshalK : K → Except E (List Nat)) (marshalV : V → Except E (List Nat))
    (m : Map K V) : Option (Except E (List Nat)) :=
  (toJSONLoop marshalK marshalV m (m.Size - 1) (m.ordering.size + 1) Iterator.new 0 [123]).map
    fun r => r.map fun buf => buf ++ [125]

/-- Method `FromJSON`. The decoder `unmarshal` stands for `json.Unmarshal` into a
`map[K]V` and returns the decoded entries in the order `range elements` visits them;
`sort` stands for `utils.Sort`, whose file is not among the sources. The result is the
map after the call and the error, if any. -/
def FromJSON {E : Type} (marshalK : K → Except E (List Nat))
    (unmarshal : List Nat → Except E (List (K × V)))
    (sort : List K → (K → K → Int) → List K) (m : Map K V) (data : List Nat) :
    Option (Map K V × Option E) :=
  match unmarshal data with
  | .error err => some (m, some err)
  | .ok elements =>
    let r := elements.foldl (fun (st : (K → Int) × List K) kv =>
      (Function.update st.1 kv.1 (bytesIndex data (escOf marshalK kv.1)), st.2 ++ [kv.1]))
      (fun _ => 0, [])
    let byIndex := fun a b => r.1 a - r.1 b
    let keys := sort r.2 byIndex
    (keys.foldlM (fun (m1 : Map K V) key => m1.Put key ((elements.lookup key).getD default))
      m.Clear).map fun m1 => (m1, none)

end Map

/-- The map `m` holds the entries `entries` in insertion order: its Ordered List is a
chain of the keys, no key occurs twice, and the table maps each key to its value and no
other key. -/
structure Holds [Inhabited K] [Inhabited V] [DecidableEq K] (m : Map K V)
    (entries : List (K × V)) : Prop where
  chain : ∃ as, Chain m.ordering as (entries.map Prod.fst)
  nodup : (entries.map Prod.fst).Nodup
  table : ∀ k, m.table k = entries.lookup k

/-- The map built by `Put("a", "c")`, `Put("b", "z")`, `Put("c", "w")` on an empty map. -/
def sampleMap : Map String String :=
  ⟨Function.update (Function.update (Function.update (fun _ => none) "a" (some "c")) "b"
      (some "z")) "c" (some "w"),
    ⟨[⟨"a", none, some 1⟩, ⟨"b", some 0, some 2⟩, ⟨"c", some 1, none⟩], some 0, some 2, 3⟩⟩

/-- The text `{"a":"c","b":"z","c":"w"}` that `ToJSON` returns for `sampleMap`. -/
def sampleText : List Nat :=
  [123] ++ quote "a" ++ [58] ++ quote "c" ++ [44] ++ quote "b" ++ [58] ++ quote "z" ++ [44] ++
    quote "c" ++ [58] ++ quote "w" ++ [125]

/-- What `json.Unmarshal` into a `map[string]string` returns for `sampleText`: the three
entries, here in one of the orders `range` may visit them. -/
def sampleDecode (data : List Nat) : Except Unit (List (String × String)) :=
  if data = sampleText then .ok [("c", "w"), ("a", "c"), ("b", "z")] else .error ()

/-- The map built by `Put("b", "x")`, `Put("a", "y")` on an empty map. -/
def orderedMap : Map String String :=
  ⟨Function.update (Function.update (fun _ => none) "b" (some "x")) "a" (some "y"),
    ⟨[⟨"b", none, some 1⟩, ⟨"a", some 0, none⟩], some 0, some 1, 2⟩⟩

/-- The text `{"b":"x","a":"y"}` that `ToJSON` returns for `orderedMap`. -/
def orderedText : List Nat :=
  [123] ++ quote "b" ++ [58] ++ quote "x" ++ [44] ++ quote "a" ++ [58] ++ quote "y" ++ [125]

/-- What `json.Unmarshal` into a `map[string]string` returns for `orderedText`. -/
def orderedDecode (data : List Nat) : Except Unit (List (String × String)) :=
  if data = orderedText then .ok [("a", "y"), ("b", "x")] else .error ()

/-- Function `json.Marshal` of the Go library for an `int`: its decimal digits. -/
def marshalInt (k : Int) : Except Unit (List Nat) :=
  .ok ((toString k).toList.map Char.toNat)

/-- White space that the scanner of `encoding/json` skips: space, tab, line feed and
carriage return. -/
def skipSpace : List Nat → List Nat
  | [] => []
  | b :: rest => if b = 32 ∨ b = 9 ∨ b = 10 ∨ b = 13 then skipSpace rest else b :: rest

/-- The start of the syntax check that `json.Unmarshal` of the Go library runs over the
whole text before it decodes anything (package `encoding/json`, function `checkValid`,
scanner states `stateBeginValue`, `stateBeginStringOrEmpty` and `stateBeginString`), for
a text that opens an object: after the opening brace (byte 123) and any white space
comes the closing brace (byte 125) or the quote (byte 34) that opens a key string. Any
other byte there is the syntax error "invalid character ... looking for beginning of
object key string", and the end of the text is the error "unexpected end of JSON input".
The result is false at these errors; it is true for a text that does not open an
object, about which this part of the check says nothing. -/
def objectKeyStarts (data : List Nat) : Bool :=
  match skipSpace data with
  | 123 :: rest =>
    match skipSpace rest with
    | 34 :: _ => true
    | 125 :: _ => true
    | _ => false
  | _ => true

/-- Function `json.Unmarshal(data, &elements)` for a `map[K]V`: when the text opens an
object and this part of the syntax check fails, the syntax error is returned and nothing
is decoded; `decode` stands for the function on every other text. -/
def unmarshalObject {E : Type} (syntaxError : E) (decode : List Nat → Except E (List (K × V)))
    (data : List Nat) : Except E (List (K × V)) :=
  if objectKeyStarts data then decode data else .error syntaxError

/-- The map built by `Put(2, "b")`, `Put(1, "a")` on an empty `Map[int, string]`. -/
def intMap : Map Int String :=
  ⟨Function.update (Function.update (fun _ => none) 2 (some "b")) 1 (some "a"),
    ⟨[⟨2, none, some 1⟩, ⟨1, some 0, none⟩], some 0, some 1, 2⟩⟩

/-- The text `{2:"b",1:"a"}`. -/
def intText : List Nat :=
  [123, 50, 58] ++ quote "b" ++ [44, 49, 58] ++ quote "a" ++ [125]

end linkedhashmap

/-! ## lists/arraylist: serialization -/

/-- One array element of `json.Unmarshal(data, &s)` of the Go library (package
`encoding/json`, function `array`) for a slice `s`; the state is the slice and the index
`i` of the element. When `i` has reached the capacity the slice is reallocated with
capacity `cap + cap/2`, at least 4 (from Go 1.20 on it grows as `append` does); when `i`
has reached the length, the length becomes `i + 1`; then the element is stored in `s[i]`.
While the capacity suffices the backing array is kept. -/
def unmarshalElement {V : Type} [Inhabited V] (st : Slice V × Nat) (x : V) : Slice V × Nat :=
  let s1 : Slice V :=
    if st.1.cap ≤ st.2 then
      let newcap := if st.1.cap + st.1.cap / 2 < 4 then 4 else st.1.cap + st.1.cap / 2
      ⟨st.1.toList ++ List.replicate (newcap - st.1.len) default, st.1.len⟩
    else st.1
  let s2 : Slice V := if s1.len ≤ st.2 then { s1 with len := st.2 + 1 } else s1
  ({ s2 with arr := s2.arr.set st.2 x }, st.2 + 1)

/-- Function `json.Unmarshal(data, &s)` of the Go library for a slice `s` and a text that
is the JSON array of the values `elements`, all of the element type: "Unmarshal resets
the slice length to zero and then appends each element to the slice", and an empty array
gives a new empty slice. The result is the slice after the call. -/
def unmarshalArray {V : Type} [Inhabited V] (elements : List V) (s : Slice V) : Slice V :=
  let r := elements.foldl unmarshalElement (s, 0)
  if r.2 = 0 then Slice.empty
  else if r.2 < r.1.len then { r.1 with len := r.2 } else r.1

/-- One array element of `json.Unmarshal(data, &s)` that is not of the element type (a
JSON string where a number is expected, say): the slice is grown and lengthened as for
any element, the error is saved and the element is skipped ("Unmarshal skips that field
and completes the unmarshaling as best it can"), so `s[i]` keeps what it held. -/
def unmarshalSkipped {V : Type} [Inhabited V] (st : Slice V × Nat) : Slice V × Nat :=
  let s1 : Slice V :=
    if st.1.cap ≤ st.2 then
      let newcap := if st.1.cap + st.1.cap / 2 < 4 then 4 else st.1.cap + st.1.cap / 2
      ⟨st.1.toList ++ List.replicate (newcap - st.1.len) default, st.1.len⟩
    else st.1
  let s2 : Slice V := if s1.len ≤ st.2 then { s1 with len := st.2 + 1 } else s1
  (s2, st.2 + 1)

/-- Function `json.Unmarshal(data, &s)` of the Go library for a slice `s` and a text that
is a JSON array; an element of the element type is `some` of its value, an element of
another JSON type is `none`. Every element takes its position, and the length ends as
the number of elements. The result is the slice after the call and the error: the
`UnmarshalTypeError` saved at a skipped element, if there is one. -/
def unmarshalMixed {V : Type} [Inhabited V] (elements : List (Option V)) (s : Slice V) :
    Slice V × Option Unit :=
  let r := elements.foldl (fun st x =>
    match x with
    | some v => unmarshalElement st v
    | none => unmarshalSkipped st) (s, 0)
  (if r.2 = 0 then Slice.empty else if r.2 < r.1.len then { r.1 with len := r.2 } else r.1,
    if elements.all Option.isSome then none else some ())

namespace arraylist

variable {V : Type}

namespace ArrayList

variable [Inhabited V]

/-- Method `ToJSON`, over the encoder `marshal` standing for `json.Marshal` of a `[]V`:
`json.Marshal(l.values[:l.size])`; the slice expression panics when `l.size` is above the
capacity. -/
def ToJSON {D E : Type} (marshal : List V → Except E D) (l : ArrayList V) :
    Option (Except E D) :=
  if l.size ≤ l.values.cap then some (marshal (l.values.arr.take l.size)) else none

/-- Method `FromJSON`, over `unmarshal` standing for `json.Unmarshal(data, &l.values)`,
which returns the slice `l.values` after the call and the error, if any; `l.size` becomes
`len(l.values)` when there is no error. The result is the list after the call and the
error. -/
def FromJSON {D E : Type} (unmarshal : D → Slice V → Slice V × Option E) (l : ArrayList V)
    (data : D) : ArrayList V × Option E :=
  match (unmarshal data l.values).2 with
  | none => (⟨(unmarshal data l.values).1, (unmarshal data l.values).1.len⟩, none)
  | some err => (⟨(unmarshal data l.values).1, l.size⟩, some err)

end ArrayList

/-- The array list `l` stores the sequence `xs` in its slice: `size ≤ len(values) ≤
cap(values)` and the first `size` cells are `xs`. Unlike in `Models` the slice may have
spare capacity beyond its length, as it can after `FromJSON`. -/
structure Stores (l : ArrayList V) (xs : List V) : Prop where
  size_le : l.size ≤ l.values.len
  len_le : l.values.len ≤ l.values.arr.length
  content : l.values.arr.take l.size = xs

end arraylist

/-! ## stacks/arraystack -/

namespace arraystack

open arraylist

variable {V : Type}

/-- Struct `Stack[V]`: the array list holding the elements, the top last. -/
structure Stack (V : Type) where
  list : ArrayList V
deriving DecidableEq, Repr

/-- Loop `for i := 1; i <= size; i++ { elements[size-i], _ = stack.list.Get(i - 1) }` of
`Values`, from `i` on. -/
def valuesLoop [Inhabited V] (list : ArrayList V) (size : Nat) :
    Nat → Nat → Slice V → Option (Slice V)
  | 0, i, elements => if i ≤ size then none else some elements
  | fuel + 1, i, elements =>
    if i ≤ size then
      (list.Get ((i : Int) - 1)).bind fun r =>
        (elements.set? (size - i) r.1).bind fun elements =>
          valuesLoop list size fuel (i + 1) elements
    else some elements

namespace Stack

variable [Inhabited V]

/-- Function `New`: `&Stack[V]{list: arraylist.New[V]()}`. -/
def New : Option (Stack V) :=
  (ArrayList.New ([] : List V)).map Stack.mk

/-- Method `Push`. -/
def Push (stack : Stack V) (value : V) : Option (Stack V) :=
  (stack.list.Add [value]).map Stack.mk

/-- Method `Pop`; it returns `value`, `ok` and the stack after the call. -/
def Pop (stack : Stack V) : Option (V × Bool × Stack V) :=
  (stack.list.Get (stack.list.Size - 1)).bind fun r =>
    (stack.list.Remove (stack.list.Size - 1)).map fun list => (r.1, r.2, ⟨list⟩)

/-- Method `Peek`; it only reads the list. -/
def Peek (stack : Stack V) : Option (V × Bool) :=
  stack.list.Get (stack.list.Size - 1)

/-- Method `Empty`. -/
def Empty (stack : Stack V) : Bool := stack.list.Empty

/-- Method `Size`. -/
def Size (stack : Stack V) : Int := stack.list.Size

/-- Method `Clear`. -/
def Clear (stack : Stack V) : Stack V := ⟨stack.list.Clear⟩

/-- Method `Values`: the elements in LIFO order. -/
def Values (stack : Stack V) : Option (List V) :=
  (valuesLoop stack.list stack.list.size stack.list.size 1 (Slice.make stack.list.size)).map
    Slice.toList

/-- Method `ToJSON`; it only reads the list. -/
def ToJSON {D E : Type} (marshal : List V → Except E D) (stack : Stack V) :
    Option (Except E D) :=
  stack.list.ToJSON marshal

/-- Method `FromJSON`; it returns the stack after the call and the error, if any. -/
def FromJSON {D E : Type} (unmarshal : D → Slice V → Slice V × Option E) (stack : Stack V)
    (data : D) : Stack V × Option E :=
  (⟨(stack.list.FromJSON unmarshal data).1⟩, (stack.list.FromJSON unmarshal data).2)

end Stack

/-- The stack after `Push(1)`, `Push(2)`, `Push(3)` on a new stack. -/
def sampleStack : Stack Nat := ⟨sampleArrayList⟩

end arraystack

/-! ## utils -/

namespace utils

/-- Loop `for i := 0; i < min && diff == 0; i++ { diff = int(s1[i]) - int(s2[i]) }` of
`StringComparator`, from the state `(i, diff)`; a string is the list of its bytes. -/
def stringComparatorLoop (s1 s2 : List Nat) (min : Nat) : Nat → Nat → Int → Option Int
  | 0, i, diff => if i < min ∧ diff = 0 then none else some diff
  | fuel + 1, i, diff =>
    if i < min ∧ diff = 0 then
      (s1[i]?).bind fun c1 => (s2[i]?).bind fun c2 =>
        stringComparatorLoop s1 s2 min fuel (i + 1) ((c1 : Int) - (c2 : Int))
    else some diff

/-- Tail of `StringComparator`: `if diff == 0 { diff = len(s1) - len(s2) }`, then -1 for
a negative `diff`, 1 for a positive one, 0 otherwise. -/
def stringComparatorSign (s1 s2 : List Nat) (diff : Int) : Int :=
  let diff := if diff = 0 then (s1.length : Int) - (s2.length : Int) else diff
  if diff < 0 then -1 else if diff > 0 then 1 else 0

/-- Function `StringComparator`. -/
def StringComparator (a b : List Nat) : Option Int :=
  let s1 := a
  let s2 := b
  let min := if s1.length < s2.length then s1.length else s2.length
  (stringComparatorLoop s1 s2 min min 0 0).map fun diff => stringComparatorSign s1 s2 diff

/-- Reference comparison of two byte strings, the native order of strings: -1, 0 or 1 as
the first string is smaller than, equal to or greater than the second in the
lexicographic order by byte values, a proper prefix being smaller than the longer
string. -/
def lexSign : List Nat → List Nat → Int
  | [], [] => 0
  | [], _ :: _ => -1
  | _ :: _, [] => 1
  | x :: a, y :: b => if x < y then -1 else if y < x then 1 else lexSign a b

end utils

/-! ## lists/doublylinkedlist: sorting, reachable lists and iterator calls -/

/-- The comparator decides a total order: any two values are comparable (one of
`comparator(a, b) <= 0`, `comparator(b, a) <= 0` holds) and `<= 0` is transitive. -/
structure TotalOrder {V : Type} (comparator : V → V → Int) : Prop where
  total : ∀ a b, comparator a b ≤ 0 ∨ comparator b a ≤ 0
  trans : ∀ a b c, comparator a b ≤ 0 → comparator b c ≤ 0 → comparator a c ≤ 0

/-- A sequence with every later duplicate removed: the first occurrence of each value is
kept, in order. -/
def dedupFirst {V : Type} [DecidableEq V] : List V → List V
  | [] => []
  | x :: xs => x :: (dedupFirst xs).filter fun y => decide (y ≠ x)

namespace doublylinkedlist

variable {V : Type}

namespace DList

variable [Inhabited V]

/-- Method `Sort` (a reserved word here, hence the name), over `sort` standing for
`utils.Sort`, whose file is not among the sources: `sort values comparator` is the slice
`values` after the call. -/
def SortWith (sort : List V → (V → V → Int) → List V) (l : DList V) (comparator : V → V → Int) :
    Option (DList V) :=
  if l.size < 2 then some l
  else l.Values.bind fun values => l.Clear.Add (sort values comparator)

end DList

/-- Lists built by `New` and then changed by `Add`, `Append`, `Prepend`, `Insert`,
`Remove`, `Set`, `Swap`, `Sort` (with any sorting function and comparator) and `Clear`;
only calls that return count. -/
inductive ReachableList [Inhabited V] : DList V → Prop where
  | new (values : List V) (l : DList V) : DList.New values = some l → ReachableList l
  | add (l : DList V) (values : List V) (l1 : DList V) :
    ReachableList l → l.Add values = some l1 → ReachableList l1
  | append (l : DList V) (values : List V) (l1 : DList V) :
    ReachableList l → l.Append values = some l1 → ReachableList l1
  | prepend (l : DList V) (values : List V) (l1 : DList V) :
    ReachableList l → l.Prepend values = some l1 → ReachableList l1
  | insert (l : DList V) (index : Int) (values : List V) (l1 : DList V) :
    ReachableList l → l.Insert index values = some l1 → ReachableList l1
  | remove (l : DList V) (index : Int) (l1 : DList V) :
    ReachableList l → l.Remove index = some l1 → ReachableList l1
  | set (l : DList V) (index : Int) (value : V) (l1 : DList V) (out : List (SetLine V)) :
    ReachableList l → l.Set index value = some (l1, out) → ReachableList l1
  | swap (l : DList V) (i j : Int) (l1 : DList V) :
    ReachableList l → l.Swap i j = some l1 → ReachableList l1
  | sort (sort : List V → (V → V → Int) → List V) (l : DList V) (comparator : V → V → Int)
    (l1 : DList V) : ReachableList l → l.SortWith sort comparator = some l1 → ReachableList l1
  | clear (l : DList V) : ReachableList l → ReachableList l.Clear

/-- A call of one of the iterator methods `Begin`, `End`, `First`, `Last`, `Next`, `Prev`. -/
inductive IterCall where
  | begin
  | toEnd
  | first
  | last
  | next
  | prev
deriving DecidableEq, Repr

/-- State of a caller that makes iterator calls on one iterator: the iterator, the result
of the most recent `Next`, `Prev`, `First` or `Last` call (if any) and the result of the
last call when that was one of these four. -/
structure IterState where
  iterator : Iterator
  recent : Option Bool
  latest : Option Bool
deriving DecidableEq, Repr

/-- One iterator call made on the list `l`, which is not changed. -/
def IterCall.call [Inhabited V] (l : DList V) (st : IterState) : IterCall → Option IterState
  | .begin => some ⟨st.iterator.Begin, st.recent, none⟩
  | .toEnd => some ⟨Iterator.End l st.iterator, st.recent, none⟩
  | .first => (Iterator.First l st.iterator).map fun r => ⟨r.1, some r.2, some r.2⟩
  | .last => (Iterator.Last l st.iterator).map fun r => ⟨r.1, some r.2, some r.2⟩
  | .next => (Iterator.Next l st.iterator).map fun r => ⟨r.1, some r.2, some r.2⟩
  | .prev => (Iterator.Prev l st.iterator).map fun r => ⟨r.1, some r.2, some r.2⟩

/-- A sequence of iterator calls made, in order, on the iterator `l.Iterator()`. -/
def runCalls [Inhabited V] (l : DList V) (calls : List IterCall) : Option IterState :=
  calls.foldlM (IterCall.call l) ⟨Iterator.new, none, none⟩

/-- The pointer reached from `p` by following `k` times the `next` link; nil when the
walk has left the list. -/
def followNext (heap : List (element V)) : Nat → Option Nat → Option Nat
  | 0, p => p
  | k + 1, p => followNext heap k ((load heap p).bind fun n => n.next)

/-- The pointer reached from `p` by following `k` times the `prev` link; nil when the
walk has left the list. -/
def followPrev (heap : List (element V)) : Nat → Option Nat → Option Nat
  | 0, p => p
  | k + 1, p => followPrev heap k ((load heap p).bind fun n => n.prev)

/-- The list built by `New(10, 20, 30, 40, 50)` followed by `Insert(1, 7, 8)`. -/
def insertedList : DList Nat :=
  ⟨[⟨10, none, some 5⟩, ⟨20, some 6, some 2⟩, ⟨30, some 1, some 3⟩, ⟨40, some 2, some 4⟩,
    ⟨50, some 3, none⟩, ⟨7, some 0, some 6⟩, ⟨8, some 5, some 1⟩], some 0, some 4, 7⟩

end doublylinkedlist

/-! # Theorems -/

/-! ## Array list: the backing slice models the reference sequence -/

namespace arraylist
variable {V : Type} [Inhabited V]

theorem float32_ge_half (x : Nat) : x ≤ 2 * float32 x := by
  unfold float32
  by_cases h : x < 2 ^ 24
  · simp only [h, if_true]; omega
  · simp only [h, if_false]
    have hx : x ≠ 0 := by intro h0; subst h0; simp at h
    have hlog : 2 ^ (Nat.log2 x) ≤ x := Nat.log2_self_le hx
    have hpow : 2 ^ (Nat.log2 x - 23) ≤ 2 ^ (Nat.log2 x) :=
      Nat.pow_le_pow_right (by norm_num) (Nat.sub_le _ _)
    have hpos : 0 < 2 ^ (Nat.log2 x - 23) := Nat.pos_pow_of_pos _ (by norm_num)
    generalize 2 ^ (Nat.log2 x - 23) = d at hpow hpos ⊢
    have hdx : d ≤ x := le_trans hpow hlog
    have hq : 1 ≤ x / d := (Nat.one_le_div_iff hpos).2 hdx
    have hdm := Nat.div_add_mod x d
    have hml := Nat.mod_lt x hpos
    have h1 : d ≤ x / d * d := Nat.le_mul_of_pos_left d hq
    have h2 : x / d * d ≤ (x / d + 1) * d := Nat.mul_le_mul_right d (Nat.le_succ _)
    have h3 : d * (x / d) = x / d * d := Nat.mul_comm _ _
    split_ifs <;> omega

theorem take_succ_set {α : Type} (v : α) : ∀ (l : List α) (n : Nat), n < l.length →
    List.take (n + 1) (l.set n v) = List.take n l ++ [v]
  | [], _, h => by simp at h
  | _ :: _, 0, _ => by simp
  | a :: l, n + 1, h => by
    have := take_succ_set v l n (by simpa using h)
    simp [List.set, this]

theorem take_set_self {α : Type} (v : α) (l : List α) (n : Nat) :
    List.take n (l.set n v) = List.take n l := by
  rw [List.set_eq_take_append_cons_drop]
  split_ifs with h
  · rw [List.take_left' (by simp; omega)]
  · rfl

theorem Models.length_eq {l : ArrayList V} {xs : List V} (h : Models l xs) :
    xs.length = l.size := by
  have h1 := h.len_eq
  have h2 := h.size_le
  rw [← h.content, List.length_take]
  omega

theorem models_empty : Models (ArrayList.empty : ArrayList V) [] :=
  ⟨rfl, Nat.le_refl _, rfl⟩

theorem resize_models {l : ArrayList V} {xs : List V} (h : Models l xs) (c : Nat)
    (hc : l.size ≤ c) :
    Models (l.resize c) xs ∧ (l.resize c).values.arr.length = c ∧ (l.resize c).size = l.size := by
  obtain ⟨h1, h2, h3⟩ := h
  have hk : l.size ≤ min c l.values.arr.length := by omega
  have hr : l.resize c = ⟨⟨List.take (min c l.values.arr.length) l.values.arr ++
      List.drop (min c l.values.arr.length) (List.replicate c default), c⟩, l.size⟩ := by
    simp [ArrayList.resize, Slice.make, Slice.copyFrom, Slice.toList, h1, List.take_take]
  rw [hr]
  refine ⟨⟨?_, ?_, ?_⟩, ?_, rfl⟩
  · simp
  · exact hc
  · show List.take l.size (List.take _ _ ++ _) = xs
    rw [List.take_append_of_le_length (by simp; omega), List.take_take, Nat.min_eq_left hk]
    exact h3
  · simp

theorem growBy_models {l : ArrayList V} {xs : List V} (h : Models l xs) (n : Nat) :
    Models (l.growBy n) xs ∧ (l.growBy n).size = l.size ∧
      l.size + n ≤ (l.growBy n).values.arr.length := by
  have hf := float32_ge_half (l.values.cap + n)
  have h1 := h.len_eq
  have h2 := h.size_le
  by_cases hg : l.values.cap ≤ l.size + n
  · have hr : l.growBy n = l.resize (2 * float32 (l.values.cap + n)) := by
      simp only [ArrayList.growBy]; rw [if_pos hg]
    rw [hr]
    have hc : l.size ≤ 2 * float32 (l.values.cap + n) := by
      simp only [Slice.cap] at hf hg ⊢; omega
    obtain ⟨r1, r2, r3⟩ := resize_models h _ hc
    refine ⟨r1, r3, ?_⟩
    rw [r2]; simp only [Slice.cap] at hf hg ⊢; omega
  · have hr : l.growBy n = l := by
      simp only [ArrayList.growBy]; rw [if_neg hg]
    rw [hr]
    simp only [Slice.cap] at hg
    exact ⟨h, rfl, by omega⟩

theorem shrink_models {l : ArrayList V} {xs : List V} (h : Models l xs) :
    Models l.shrink xs ∧ l.shrink.size = l.size := by
  simp only [ArrayList.shrink]
  split_ifs
  · obtain ⟨r1, _, r3⟩ := resize_models h l.size (Nat.le_refl _)
    exact ⟨r1, r3⟩
  · exact ⟨h, rfl⟩

theorem addStep_models {l : ArrayList V} {xs : List V} (h : Models l xs) (v : V)
    (hlt : l.size < l.values.arr.length) :
    ∃ l1, l.addStep v = some l1 ∧ Models l1 (xs ++ [v]) ∧
      l1.values.arr.length = l.values.arr.length := by
  obtain ⟨h1, h2, h3⟩ := h
  have hlen : l.size < l.values.len := by omega
  have he : l.addStep v = some ⟨⟨l.values.arr.set l.size v, l.values.len⟩, l.size + 1⟩ := by
    simp [ArrayList.addStep, Slice.set?, hlen, hlt]
  refine ⟨_, he, ⟨?_, ?_, ?_⟩, ?_⟩
  · simpa using h1
  · show l.size + 1 ≤ l.values.len
    omega
  · show List.take (l.size + 1) (l.values.arr.set l.size v) = xs ++ [v]
    rw [← h3]
    exact take_succ_set v _ _ hlt
  · simp

theorem foldl_addStep_models (vs : List V) : ∀ {l : ArrayList V} {xs : List V}, Models l xs →
    l.size + vs.length ≤ l.values.arr.length →
    ∃ l1, vs.foldlM ArrayList.addStep l = some l1 ∧ Models l1 (xs ++ vs) := by
  induction vs with
  | nil => intro l xs h _; exact ⟨l, rfl, by simpa using h⟩
  | cons v vs ih =>
    intro l xs h hlen
    simp only [List.length_cons] at hlen
    obtain ⟨l1, e1, m1, c1⟩ := addStep_models h v (by omega)
    have hs : l1.size = l.size + 1 := by
      have := m1.length_eq; have := h.length_eq; simp at *; omega
    obtain ⟨l2, e2, m2⟩ := ih m1 (by omega)
    exact ⟨l2, by simp [List.foldlM, e1, e2], by simpa using m2⟩

theorem Add_models {l : ArrayList V} {xs : List V} (h : Models l xs) (vs : List V) :
    ∃ l1, l.Add vs = some l1 ∧ Models l1 (xs ++ vs) := by
  obtain ⟨g1, g2, g3⟩ := growBy_models h vs.length
  exact foldl_addStep_models vs g1 (by omega)

theorem copyFrom_fits (s : Slice V) (dst : Nat) (src : List V)
    (h1 : dst + src.length ≤ s.len) (h2 : s.len ≤ s.arr.length) :
    s.copyFrom dst src =
      some ⟨s.arr.take dst ++ src ++ s.arr.drop (dst + src.length), s.len⟩ := by
  have hk : min (s.len - dst) src.length = src.length := by omega
  have hd : dst ≤ s.len := by omega
  simp [Slice.copyFrom, hd, h2, hk]

theorem arr_withinRange_iff (l : ArrayList V) (index : Int) :
    l.withinRange index = true ↔ 0 ≤ index ∧ index < (l.size : Int) := by
  simp [ArrayList.withinRange]

theorem Get_models {l : ArrayList V} {xs : List V} (h : Models l xs) (index : Int) :
    l.Get index =
      some (if 0 ≤ index ∧ index < (xs.length : Int) then (xs.getD index.toNat default, true)
        else (default, false)) := by
  have hlen := h.length_eq
  obtain ⟨h1, h2, h3⟩ := h
  by_cases hw : 0 ≤ index ∧ index < (l.size : Int)
  · have hw2 : l.withinRange index = true := (arr_withinRange_iff l index).2 hw
    have hi : index.toNat < l.size := by omega
    have hi2 : index.toNat < l.values.len := by omega
    have hx : xs[index.toNat]? = l.values.arr[index.toNat]? := by
      rw [← h3, List.getElem?_take]; simp [hi]
    have hi3 : index.toNat < l.values.arr.length := by omega
    have hi4 : index.toNat < xs.length := by omega
    simp only [ArrayList.Get, hw2, Slice.get?, hi2, hlen, hw, List.getD_eq_getElem?_getD, hx]
    simp [hi3]
  · have hw2 : l.withinRange index = false := by
      rw [← Bool.not_eq_true, arr_withinRange_iff]; exact hw
    simp [ArrayList.Get, hw2, hlen, hw]

theorem Remove_models {l : ArrayList V} {xs : List V} (h : Models l xs) (index : Int) :
    ∃ l1, l.Remove index = some l1 ∧ Models l1 (refStep xs (.remove index)) := by
  have hlen := h.length_eq
  by_cases hw : 0 ≤ index ∧ index < (l.size : Int)
  · have hw2 : l.withinRange index = true := (arr_withinRange_iff l index).2 hw
    have hr : refStep xs (.remove index) = xs.eraseIdx index.toNat := by
      simp [refStep, hlen, hw]
    rw [hr]
    obtain ⟨h1, h2, h3⟩ := h
    have hi : index.toNat < l.size := by omega
    simp only [ArrayList.Remove, hw2, Bool.not_true, Bool.false_eq_true, if_false]
    generalize index.toNat = i at hi ⊢
    have hi2 : i < l.values.len := by omega
    have hi3 : i < l.values.arr.length := by omega
    have e1 : l.values.set? i default = some ⟨l.values.arr.set i default, l.values.len⟩ := by
      simp [Slice.set?, hi2, hi3]
    have hsrc : ((l.values.arr.set i default).drop (i + 1)).take (l.size - (i + 1)) =
        (l.values.arr.drop (i + 1)).take (l.size - (i + 1)) := by
      rw [List.drop_set_of_lt _ _ (Nat.lt_succ_self i)]
    have hsl : ((l.values.arr.drop (i + 1)).take (l.size - (i + 1))).length = l.size - (i + 1) := by
      simp; omega
    have e2 : (⟨l.values.arr.set i default, l.values.len⟩ : Slice V).copyWithin i (i + 1) l.size =
        some ⟨l.values.arr.take i ++ (l.values.arr.drop (i + 1)).take (l.size - (i + 1)) ++
          (l.values.arr.set i default).drop (i + (l.size - (i + 1))), l.values.len⟩ := by
      have c1 : i + 1 ≤ l.size ∧ l.size ≤ (l.values.arr.set i default).length := by
        simp; omega
      simp only [Slice.copyWithin, c1, and_self, if_true, hsrc]
      rw [copyFrom_fits _ _ _ (by simp only [hsl]; omega) (by simp; omega)]
      simp only [hsl, take_set_self]
    simp only [e1, e2, Option.bind_eq_bind, Option.some_bind, Option.pure_def]
    have hm : Models (⟨⟨l.values.arr.take i ++ (l.values.arr.drop (i + 1)).take (l.size - (i + 1)) ++
          (l.values.arr.set i default).drop (i + (l.size - (i + 1))), l.values.len⟩,
          l.size - 1⟩ : ArrayList V) (xs.eraseIdx i) := by
      refine ⟨?_, ?_, ?_⟩
      · simp; omega
      · show l.size - 1 ≤ l.values.len
        omega
      · show List.take (l.size - 1) (_ ++ _ ++ _) = _
        rw [List.take_left' (by simp; omega), ← h3, List.eraseIdx_eq_take_drop_succ,
          List.take_take, List.drop_take, Nat.min_eq_left (Nat.le_of_lt hi)]
    exact ⟨_, rfl, (shrink_models hm).1⟩
  · have hw2 : l.withinRange index = false := by
      rw [← Bool.not_eq_true, arr_withinRange_iff]; exact hw
    refine ⟨l, by simp [ArrayList.Remove, hw2], ?_⟩
    simpa [refStep, hlen, hw] using h

theorem Insert_models {l : ArrayList V} {xs : List V} (h : Models l xs) (index : Int)
    (values : List V) :
    ∃ l1, l.Insert index values = some l1 ∧ Models l1 (refStep xs (.insert index values)) := by
  have hlen := h.length_eq
  by_cases hw : 0 ≤ index ∧ index < (l.size : Int)
  · have hw2 : l.withinRange index = true := (arr_withinRange_iff l index).2 hw
    have hr : refStep xs (.insert index values) =
        xs.take index.toNat ++ values ++ xs.drop index.toNat := by
      simp [refStep, hlen, hw]
    rw [hr]
    have hi : index.toNat < l.size := by omega
    simp only [ArrayList.Insert, hw2, Bool.not_true, Bool.false_eq_true, if_false]
    generalize index.toNat = i at hi ⊢
    obtain ⟨⟨h1, h2, h3⟩, g2, g3⟩ := growBy_models h values.length
    generalize l.growBy values.length = l1 at h1 h2 h3 g2 g3 ⊢
    rw [g2] at h3 h2 ⊢
    have hsl : ((l1.values.arr.drop i).take (l.size - i)).length = l.size - i := by
      simp; omega
    have e1 : l1.values.copyWithin (i + values.length) i (l.size + values.length - values.length) =
        some ⟨l1.values.arr.take (i + values.length) ++ (l1.values.arr.drop i).take (l.size - i) ++
          l1.values.arr.drop (i + values.length + (l.size - i)), l1.values.len⟩ := by
      have c1 : i ≤ l.size ∧ l.size ≤ l1.values.arr.length := by omega
      simp only [Slice.copyWithin, Nat.add_sub_cancel, c1, and_self, if_true]
      rw [copyFrom_fits _ _ _ (by simp only [hsl]; omega) (by omega)]
      simp only [hsl]
    have e2 : (⟨l1.values.arr.take (i + values.length) ++ (l1.values.arr.drop i).take (l.size - i) ++
          l1.values.arr.drop (i + values.length + (l.size - i)), l1.values.len⟩ : Slice V).copyFrom i
          values =
        some ⟨l1.values.arr.take i ++ values ++ ((l1.values.arr.drop i).take (l.size - i) ++
          l1.values.arr.drop (i + values.length + (l.size - i))), l1.values.len⟩ := by
      have ht : (l1.values.arr.take (i + values.length)).length = i + values.length := by
        simp; omega
      rw [copyFrom_fits _ _ _ (by show i + values.length ≤ l1.values.len; omega)
        (by simp; omega)]
      simp only [List.append_assoc]
      rw [List.take_append_of_le_length (by omega), List.take_take,
        Nat.min_eq_left (Nat.le_add_right _ _), List.drop_left' ht]
    simp only [e1, e2, Option.bind_eq_bind, Option.some_bind, Option.pure_def]
    refine ⟨_, rfl, ?_, ?_, ?_⟩
    · simp; omega
    · show l.size + values.length ≤ l1.values.len
      omega
    · show List.take (l.size + values.length) (_ ++ _ ++ (_ ++ _)) = _
      rw [← List.append_assoc, List.take_left' (by simp; omega), ← h3, List.take_take,
        List.drop_take, Nat.min_eq_left (Nat.le_of_lt hi)]
  · have hw2 : l.withinRange index = false := by
      rw [← Bool.not_eq_true, arr_withinRange_iff]; exact hw
    by_cases he : index = (l.size : Int)
    · obtain ⟨l1, a1, a2⟩ := Add_models h values
      refine ⟨l1, by rw [he] at hw2; simp [ArrayList.Insert, hw2, he, a1], ?_⟩
      simpa [refStep, hlen, hw, he] using a2
    · refine ⟨l, by simp [ArrayList.Insert, hw2, he], ?_⟩
      simpa [refStep, hlen, hw, he] using h

theorem Set_models {l : ArrayList V} {xs : List V} (h : Models l xs) (index : Int) (value : V) :
    ∃ l1, l.Set index value = some l1 ∧ Models l1 (refStep xs (.set index value)) := by
  have hlen := h.length_eq
  by_cases hw : 0 ≤ index ∧ index < (l.size : Int)
  · have hw2 : l.withinRange index = true := (arr_withinRange_iff l index).2 hw
    have hr : refStep xs (.set index value) = xs.set index.toNat value := by
      simp [refStep, hlen, hw]
    rw [hr]
    have hi : index.toNat < l.size := by omega
    simp only [ArrayList.Set, hw2, Bool.not_true, Bool.false_eq_true, if_false]
    generalize index.toNat = i at hi ⊢
    obtain ⟨h1, h2, h3⟩ := h
    have hi2 : i < l.values.len := by omega
    have hi3 : i < l.values.arr.length := by omega
    refine ⟨_, by simp [Slice.set?, hi2, hi3]; rfl, ?_, ?_, ?_⟩
    · simpa using h1
    · exact h2
    · show List.take l.size (l.values.arr.set i value) = _
      rw [← h3, List.set_take]
  · have hw2 : l.withinRange index = false := by
      rw [← Bool.not_eq_true, arr_withinRange_iff]; exact hw
    by_cases he : index = (l.size : Int)
    · obtain ⟨l1, a1, a2⟩ := Add_models h [value]
      refine ⟨l1, by rw [he] at hw2; simp [ArrayList.Set, hw2, he, a1], ?_⟩
      simpa [refStep, hlen, hw, he] using a2
    · refine ⟨l, by simp [ArrayList.Set, hw2, he], ?_⟩
      simpa [refStep, hlen, hw, he] using h

theorem Swap_models {l : ArrayList V} {xs : List V} (h : Models l xs) (i j : Int) :
    ∃ l1, l.Swap i j = some l1 ∧ Models l1 (refStep xs (.swap i j)) := by
  have hlen := h.length_eq
  by_cases hw : (0 ≤ i ∧ i < (l.size : Int)) ∧ (0 ≤ j ∧ j < (l.size : Int))
  · have hwi : l.withinRange i = true := (arr_withinRange_iff l i).2 hw.1
    have hwj : l.withinRange j = true := (arr_withinRange_iff l j).2 hw.2
    have hr : refStep xs (.swap i j) =
        (xs.set i.toNat (xs.getD j.toNat default)).set j.toNat (xs.getD i.toNat default) := by
      simp only [refStep, hlen, hw, and_self, if_true]
    rw [hr]
    have hi : i.toNat < l.size := by omega
    have hj : j.toNat < l.size := by omega
    simp only [ArrayList.Swap, hwi, hwj, Bool.and_self, if_true]
    generalize i.toNat = a at hi ⊢
    generalize j.toNat = b at hj ⊢
    obtain ⟨h1, h2, h3⟩ := h
    have ha : xs[a]? = l.values.arr[a]? := by rw [← h3, List.getElem?_take]; simp [hi]
    have hb : xs[b]? = l.values.arr[b]? := by rw [← h3, List.getElem?_take]; simp [hj]
    have ha2 : a < l.values.arr.length := by omega
    have hb2 : b < l.values.arr.length := by omega
    have ea : l.values.get? a = some (xs.getD a default) := by
      simp [Slice.get?, show a < l.values.len by omega, ha, ha2]
    have eb : l.values.get? b = some (xs.getD b default) := by
      simp [Slice.get?, show b < l.values.len by omega, hb, hb2]
    refine ⟨⟨⟨(l.values.arr.set a (xs.getD b default)).set b (xs.getD a default), l.values.len⟩,
      l.size⟩, ?_, ?_, ?_, ?_⟩
    · simp [ea, eb, Slice.set?, show a < l.values.len by omega, show b < l.values.len by omega,
        ha2, hb2]
    · simpa using h1
    · exact h2
    · show List.take l.size ((l.values.arr.set a _).set b _) = _
      rw [← h3, List.set_take, List.set_take]
  · have hw2 : (l.withinRange i && l.withinRange j) = false := by
      rw [← Bool.not_eq_true, Bool.and_eq_true, arr_withinRange_iff, arr_withinRange_iff]; exact hw
    refine ⟨l, by simp only [ArrayList.Swap, hw2]; rfl, ?_⟩
    simpa only [refStep, hlen, hw, if_false] using h

theorem call_models {l : ArrayList V} {xs : List V} (h : Models l xs) (op : Op V) :
    ∃ l1, op.call l = some l1 ∧ Models l1 (refStep xs op) := by
  cases op with
  | add values => exact Add_models h values
  | insert index values => exact Insert_models h index values
  | remove index => exact Remove_models h index
  | set index value => exact Set_models h index value
  | swap i j => exact Swap_models h i j

theorem foldl_call_models (ops : List (Op V)) : ∀ {l : ArrayList V} {xs : List V}, Models l xs →
    ∃ l1, ops.foldlM Op.call l = some l1 ∧ Models l1 (ops.foldl refStep xs) := by
  induction ops with
  | nil => intro l xs h; exact ⟨l, rfl, h⟩
  | cons op ops ih =>
    intro l xs h
    obtain ⟨l1, e1, m1⟩ := call_models h op
    obtain ⟨l2, e2, m2⟩ := ih m1
    exact ⟨l2, by simp [List.foldlM, e1, e2], m2⟩

theorem runOps_models (ops : List (Op V)) :
    ∃ l, runOps ops = some l ∧ Models l (refRun ops) :=
  foldl_call_models ops models_empty

end arraylist

/-! ## Doubly-linked list: chains of nodes -/

namespace doublylinkedlist
variable {V : Type} [Inhabited V]

theorem nodup_getElem?_inj {as : List Nat} (hn : as.Nodup) {i j a : Nat}
    (hi : as[i]? = some a) (hj : as[j]? = some a) : i = j := by
  obtain ⟨hi1, hi2⟩ := List.getElem?_eq_some.1 hi
  obtain ⟨hj1, hj2⟩ := List.getElem?_eq_some.1 hj
  exact (List.Nodup.getElem_inj_iff hn).1 (hi2.trans hj2.symm)

theorem Chain.at {l : DList V} {as : List Nat} {xs : List V} (h : Chain l as xs) {i : Nat}
    (hi : i < l.size) :
    ∃ a x, as[i]? = some a ∧ xs[i]? = some x ∧
      l.heap[a]? = some (element.mk x (prevPtr as i) as[i + 1]?) := by
  have ha : i < as.length := by rw [h.len_as]; exact hi
  obtain ⟨x, hx, hn⟩ := h.node i as[i] (List.getElem?_eq_getElem ha)
  exact ⟨as[i], x, List.getElem?_eq_getElem ha, hx, hn⟩

theorem Chain.load_at {l : DList V} {as : List Nat} {xs : List V} (h : Chain l as xs) {i : Nat}
    (hi : i < l.size) :
    ∃ x, xs[i]? = some x ∧
      load l.heap as[i]? = some (element.mk x (prevPtr as i) as[i + 1]?) := by
  obtain ⟨a, x, ha, hx, hn⟩ := h.at hi
  exact ⟨x, hx, by simp [load, ha, hn]⟩

theorem Chain.walkNext_eq {l : DList V} {as : List Nat} {xs : List V} (h : Chain l as xs)
    (index : Int) : ∀ (fuel : Nat) (e : Int) (i k : Nat), index = e + k → k ≤ fuel →
      i + k ≤ l.size → walkNext l.heap index fuel e as[i]? = some as[i + k]? := by
  intro fuel
  induction fuel with
  | zero =>
    intro e i k he hk _
    have : k = 0 := by omega
    subst this
    simp [doublylinkedlist.walkNext, he]
  | succ fuel ih =>
    intro e i k he hk hik
    by_cases hz : k = 0
    · subst hz
      simp [doublylinkedlist.walkNext, he]
    · have hne : ¬ e = index := by omega
      obtain ⟨x, _, hl⟩ := h.load_at (show i < l.size by omega)
      simp only [doublylinkedlist.walkNext, hne, if_false, hl, Option.some_bind]
      rw [ih (e + 1) (i + 1) (k - 1) (by omega) (by omega) (by omega)]
      congr 2; omega

theorem Chain.walkPrev_eq {l : DList V} {as : List Nat} {xs : List V} (h : Chain l as xs)
    (index : Int) : ∀ (fuel : Nat) (e : Int) (i k : Nat), e = index + k → k ≤ fuel →
      k ≤ i → i < l.size → walkPrev l.heap index fuel e as[i]? = some as[i - k]? := by
  intro fuel
  induction fuel with
  | zero =>
    intro e i k he hk _ _
    have : k = 0 := by omega
    subst this
    simp [doublylinkedlist.walkPrev, he]
  | succ fuel ih =>
    intro e i k he hk hki hi
    by_cases hz : k = 0
    · subst hz
      simp [doublylinkedlist.walkPrev, he]
    · have hne : ¬ e = index := by omega
      obtain ⟨x, _, hl⟩ := h.load_at hi
      have hp : prevPtr as i = as[i - 1]? := by
        simp [prevPtr, show i ≠ 0 by omega]
      simp only [doublylinkedlist.walkPrev, hne, if_false, hl, Option.some_bind, hp]
      rw [ih (e - 1) (i - 1) (k - 1) (by omega) (by omega) (by omega) (by omega)]
      congr 2; omega

theorem withinRange_iff (l : DList V) (index : Int) :
    l.withinRange index = true ↔ 0 ≤ index ∧ index < (l.size : Int) := by
  simp [DList.withinRange]

theorem Chain.Get_eq {l : DList V} {as : List Nat} {xs : List V} (h : Chain l as xs)
    (index : Int) :
    l.Get index =
      some (if 0 ≤ index ∧ index < (xs.length : Int) then (xs.getD index.toNat default, true)
        else (default, false)) := by
  have hlen := h.len_xs
  by_cases hw : 0 ≤ index ∧ index < (l.size : Int)
  · have hw2 : l.withinRange index = true := (withinRange_iff l index).2 hw
    have hi : index.toNat < l.size := by omega
    obtain ⟨x, hx, hl⟩ := h.load_at hi
    have hget : xs.getD index.toNat default = x := by simp [hx]
    simp only [DList.Get, hw2, Bool.not_true, Bool.false_eq_true, if_false, hlen, hw, and_self,
      if_true, hget]
    by_cases hd : (l.size : Int) - index < index
    · rw [if_pos hd, h.last,
        h.walkPrev_eq index l.size ((l.size : Int) - 1) (l.size - 1) (l.size - 1 - index.toNat)
          (by omega) (by omega) (by omega) (by omega)]
      have : l.size - 1 - (l.size - 1 - index.toNat) = index.toNat := by omega
      simp [this, hl]
    · rw [if_neg hd, h.first,
        h.walkNext_eq index l.size 0 0 index.toNat (by omega) (by omega) (by omega)]
      simp [hl]
  · have hw2 : l.withinRange index = false := by
      rw [← Bool.not_eq_true, withinRange_iff]; exact hw
    simp [DList.Get, hw2, hlen, hw]

theorem set_fill {α : Type} (d x : α) (xs : List α) (e n : Nat) (he : e < n)
    (hx : xs[e]? = some x) (hn : xs.length = n) :
    (xs.take e ++ List.replicate (n - e) d).set e x =
      xs.take (e + 1) ++ List.replicate (n - (e + 1)) d := by
  have hlen : (xs.take e).length = e := by simp; omega
  have hr : List.replicate (n - e) d = d :: List.replicate (n - (e + 1)) d := by
    rw [show n - e = (n - (e + 1)) + 1 by omega, List.replicate_succ]
  rw [List.set_append, if_neg (by omega), hlen, Nat.sub_self, hr, List.set_cons_zero,
    List.take_succ, hx]
  simp

theorem Chain.valuesLoop_eq {l : DList V} {as : List Nat} {xs : List V} (h : Chain l as xs) :
    ∀ (fuel e : Nat), e ≤ l.size → l.size - e < fuel →
      valuesLoop l.heap fuel e as[e]? (xs.take e ++ List.replicate (l.size - e) default) =
        some xs := by
  intro fuel
  induction fuel with
  | zero => intro e _ hf; omega
  | succ fuel ih =>
    intro e he hf
    by_cases hlt : e < l.size
    · obtain ⟨a, x, ha, hx, hn⟩ := h.at hlt
      have hvl : e < (xs.take e ++ List.replicate (l.size - e) (default : V)).length := by
        have := h.len_xs
        simp; omega
      rw [ha]
      simp only [doublylinkedlist.valuesLoop, hn, hvl, if_true]
      rw [set_fill default x xs e l.size hlt hx h.len_xs]
      exact ih (e + 1) (by omega) (by omega)
    · have hee : e = l.size := by omega
      have hnone : as[e]? = none := by
        rw [List.getElem?_eq_none_iff, h.len_as]; omega
      rw [hnone]
      simp only [doublylinkedlist.valuesLoop]
      rw [hee, Nat.sub_self, List.replicate_zero, List.append_nil, ← h.len_xs, List.take_length]

theorem Chain.Values_eq {l : DList V} {as : List Nat} {xs : List V} (h : Chain l as xs) :
    l.Values = some xs := by
  have := h.valuesLoop_eq (l.size + 1) 0 (Nat.zero_le _) (by omega)
  simpa [DList.Values, h.first] using this

theorem chain_empty : Chain (DList.empty : DList V) [] [] :=
  ⟨rfl, rfl, List.nodup_nil, rfl, rfl, by intro i a h; simp at h⟩

theorem chain_Clear (l : DList V) : Chain l.Clear [] [] :=
  ⟨rfl, rfl, List.nodup_nil, rfl, rfl, by intro i a h; simp at h⟩

theorem Chain.lt_heap {l : DList V} {as : List Nat} {xs : List V} (h : Chain l as xs)
    {a : Nat} (ha : a ∈ as) : a < l.heap.length := by
  obtain ⟨i, hi⟩ := List.mem_iff_getElem?.1 ha
  obtain ⟨x, _, hn⟩ := h.node i a hi
  exact (List.getElem?_eq_some.1 hn).1

theorem Chain.addStep_chain {l : DList V} {as : List Nat} {xs : List V} (h : Chain l as xs) (v : V) :
    ∃ l1, l.addStep v = some l1 ∧ Chain l1 (as ++ [l.heap.length]) (xs ++ [v]) ∧
      l1.size = l.size + 1 := by
  have hfresh : l.heap.length ∉ as := fun hm => Nat.lt_irrefl _ (h.lt_heap hm)
  have hnd : (as ++ [l.heap.length]).Nodup := by
    rw [List.nodup_append]
    refine ⟨h.nodup, List.nodup_singleton _, ?_⟩
    intro a ha hb
    rw [List.mem_singleton] at hb
    exact hfresh (hb ▸ ha)
  have hla := h.len_as
  have hlx := h.len_xs
  by_cases hz : l.size = 0
  · have has : as = [] := List.length_eq_zero.1 (hla.trans hz)
    have hxs : xs = [] := List.length_eq_zero.1 (hlx.trans hz)
    have hlast : l.last = none := by rw [h.last, has]; rfl
    subst has hxs
    have he : l.addStep v = some ⟨l.heap ++ [element.mk v l.last none], some l.heap.length,
        some l.heap.length, l.size + 1⟩ := by
      simp only [DList.addStep, hz, if_true]
    refine ⟨_, he, ⟨by simp [hz], by simp [hz], hnd, by simp, by simp [hz], ?_⟩, rfl⟩
    intro i a hi
    have hi0 : i = 0 := by
      by_contra hne
      rw [List.getElem?_eq_none_iff.2 (by simp; omega)] at hi
      exact Option.noConfusion hi
    subst hi0
    simp only [List.nil_append, List.getElem?_cons_zero, Option.some.injEq] at hi
    subst hi
    exact ⟨v, by simp, by simp [prevPtr, hlast]⟩
  · obtain ⟨q, x, hq, hx, hn⟩ := h.at (show l.size - 1 < l.size by omega)
    have hql : q < l.heap.length := (List.getElem?_eq_some.1 hn).1
    have hs1 : l.size - 1 + 1 = l.size := by omega
    rw [hs1] at hn
    have hnone : as[l.size]? = none := List.getElem?_eq_none_iff.2 (by omega)
    rw [hnone] at hn
    have hst : storeNext (l.heap ++ [element.mk v l.last none]) l.last (some l.heap.length) =
        some ((l.heap ++ [element.mk v l.last none]).set q
          (element.mk x (prevPtr as (l.size - 1)) (some l.heap.length))) := by
      rw [h.last, hq]
      simp only [storeNext]
      rw [List.getElem?_append_left hql, hn]
      rfl
    have he : l.addStep v = some ⟨(l.heap ++ [element.mk v l.last none]).set q
          (element.mk x (prevPtr as (l.size - 1)) (some l.heap.length)), l.first,
        some l.heap.length, l.size + 1⟩ := by
      simp only [DList.addStep, hz, if_false, hst, Option.map_some']
    refine ⟨_, he, ⟨by simp [hla], by simp [hlx], hnd, ?_, ?_, ?_⟩, rfl⟩
    · show l.first = _
      rw [h.first, List.getElem?_append_left (by omega)]
    · show some l.heap.length = (as ++ [l.heap.length])[l.size + 1 - 1]?
      rw [Nat.add_sub_cancel, ← hla, List.getElem?_append_right (Nat.le_refl _)]
      simp
    · intro i a hi
      show ∃ y, (xs ++ [v])[i]? = some y ∧
        ((l.heap ++ [element.mk v l.last none]).set q _)[a]? = _
      beta_reduce
      rw [List.getElem?_set]
      by_cases hin : i < l.size
      · rw [List.getElem?_append_left (by omega)] at hi
        obtain ⟨y, hy, hny⟩ := h.node i a hi
        have hal : a < l.heap.length := (List.getElem?_eq_some.1 hny).1
        refine ⟨y, by rw [List.getElem?_append_left (by omega)]; exact hy, ?_⟩
        have hpp : prevPtr (as ++ [l.heap.length]) i = prevPtr as i := by
          simp only [prevPtr]
          split_ifs
          · rfl
          · rw [List.getElem?_append_left (by omega)]
        by_cases hqa : q = a
        · subst hqa
          have hii : i = l.size - 1 := nodup_getElem?_inj h.nodup hi hq
          subst hii
          have hy2 : y = x := by rw [hx] at hy; exact (Option.some.inj hy).symm
          rw [if_pos rfl, if_pos (by simp; omega), hpp, hs1, ← hla,
            List.getElem?_append_right (Nat.le_refl _), hy2]
          simp
        · rw [if_neg hqa, List.getElem?_append_left hal, hny, hpp,
            List.getElem?_append_left (by
              have : i ≠ l.size - 1 := fun he => hqa (by
                rw [he] at hi; rw [hq] at hi; exact Option.some.inj hi)
              omega)]
      · have hil : as.length ≤ i := by omega
        rw [List.getElem?_append_right hil] at hi
        have hi0 : i - as.length = 0 := by
          by_contra hne
          rw [List.getElem?_eq_none_iff.2 (by simp; omega)] at hi
          exact Option.noConfusion hi
        have hie : i = l.size := by omega
        subst hie
        simp only [hi0, List.getElem?_cons_zero, Option.some.injEq] at hi
        subst hi
        refine ⟨v, by rw [List.getElem?_append_right (by omega)]; simp [hlx], ?_⟩
        have hne : ¬ q = l.heap.length := by omega
        rw [if_neg hne, List.getElem?_append_right (Nat.le_refl _)]
        have hpp : prevPtr (as ++ [l.heap.length]) l.size = l.last := by
          simp only [prevPtr, if_neg hz]
          rw [List.getElem?_append_left (by omega), h.last]
        have hnn : (as ++ [l.heap.length])[l.size + 1]? = none :=
          List.getElem?_eq_none_iff.2 (by simp; omega)
        simp [hpp, hnn]

theorem Nodes.storeNext_nodes {heap : List (element V)} {as : List Nat} {xs : List V}
    {P N : Nat → Option Nat} (h : Nodes heap as xs P N) (hn : as.Nodup) {j b : Nat}
    (hj : as[j]? = some b) (q : Option Nat) :
    ∃ heap1, storeNext heap (some b) q = some heap1 ∧ heap1.length = heap.length ∧
      Nodes heap1 as xs P (Function.update N j q) := by
  obtain ⟨x, hx, hb⟩ := h j b hj
  have hbl : b < heap.length := (List.getElem?_eq_some.1 hb).1
  refine ⟨heap.set b (element.mk x (P j) q), by simp [doublylinkedlist.storeNext, hb], by simp, ?_⟩
  intro k a hk
  obtain ⟨y, hy, ha⟩ := h k a hk
  refine ⟨y, hy, ?_⟩
  rw [List.getElem?_set]
  by_cases hba : b = a
  · subst hba
    have hkj : k = j := nodup_getElem?_inj hn hk hj
    subst hkj
    rw [hx] at hy
    rw [if_pos rfl, if_pos hbl, Function.update_same, Option.some.inj hy]
  · have hkj : k ≠ j := fun he => hba (by
      rw [he, hj] at hk; exact Option.some.inj hk)
    rw [if_neg hba, Function.update_noteq hkj, ha]

theorem Nodes.storePrev_nodes {heap : List (element V)} {as : List Nat} {xs : List V}
    {P N : Nat → Option Nat} (h : Nodes heap as xs P N) (hn : as.Nodup) {j b : Nat}
    (hj : as[j]? = some b) (q : Option Nat) :
    ∃ heap1, storePrev heap (some b) q = some heap1 ∧ heap1.length = heap.length ∧
      Nodes heap1 as xs (Function.update P j q) N := by
  obtain ⟨x, hx, hb⟩ := h j b hj
  have hbl : b < heap.length := (List.getElem?_eq_some.1 hb).1
  refine ⟨heap.set b (element.mk x q (N j)), by simp [doublylinkedlist.storePrev, hb], by simp, ?_⟩
  intro k a hk
  obtain ⟨y, hy, ha⟩ := h k a hk
  refine ⟨y, hy, ?_⟩
  rw [List.getElem?_set]
  by_cases hba : b = a
  · subst hba
    have hkj : k = j := nodup_getElem?_inj hn hk hj
    subst hkj
    rw [hx] at hy
    rw [if_pos rfl, if_pos hbl, Function.update_same, Option.some.inj hy]
  · have hkj : k ≠ j := fun he => hba (by
      rw [he, hj] at hk; exact Option.some.inj hk)
    rw [if_neg hba, Function.update_noteq hkj, ha]

theorem Nodes.congr {heap : List (element V)} {as : List Nat} {xs : List V}
    {P N P1 N1 : Nat → Option Nat} (h : Nodes heap as xs P N)
    (hP : ∀ k, k < as.length → P k = P1 k) (hN : ∀ k, k < as.length → N k = N1 k) :
    Nodes heap as xs P1 N1 := by
  intro k a hk
  have hkl : k < as.length := (List.getElem?_eq_some.1 hk).1
  obtain ⟨y, hy, ha⟩ := h k a hk
  exact ⟨y, hy, by rw [← hP k hkl, ← hN k hkl]; exact ha⟩

theorem Nodes.load_eq {heap : List (element V)} {as : List Nat} {xs : List V}
    {P N : Nat → Option Nat} (h : Nodes heap as xs P N) {k a : Nat} (hk : as[k]? = some a) :
    ∃ x, xs[k]? = some x ∧ load heap (some a) = some (element.mk x (P k) (N k)) := by
  obtain ⟨y, hy, ha⟩ := h k a hk
  exact ⟨y, hy, by simp [doublylinkedlist.load, ha]⟩

/-- The two unlinking assignments of `Remove` on the node at position `i` of a chain. -/
theorem Chain.unlink {l : DList V} {as : List Nat} {xs : List V} (h : Chain l as xs) {i a : Nat}
    (hi : as[i]? = some a) :
    ∃ heap1 heap2,
      (if prevPtr as i ≠ none then storeNext l.heap (prevPtr as i) as[i + 1]? else some l.heap) =
        some heap1 ∧
      (∃ x, load heap1 (some a) = some (element.mk x (prevPtr as i) as[i + 1]?)) ∧
      (if as[i + 1]? ≠ none then storePrev heap1 as[i + 1]? (prevPtr as i) else some heap1) =
        some heap2 ∧
      Nodes heap2 as xs (fun k => if k = i + 1 then prevPtr as i else prevPtr as k)
        (fun k => if k + 1 = i then as[i + 1]? else as[k + 1]?) := by
  have hil : i < as.length := (List.getElem?_eq_some.1 hi).1
  -- first assignment
  have s1 : ∃ heap1, (if prevPtr as i ≠ none then storeNext l.heap (prevPtr as i) as[i + 1]?
        else some l.heap) = some heap1 ∧
      Nodes heap1 as xs (prevPtr as) (fun k => if k + 1 = i then as[i + 1]? else as[k + 1]?) := by
    by_cases hz : i = 0
    · refine ⟨l.heap, by simp [prevPtr, hz], h.node.congr (fun _ _ => rfl) ?_⟩
      intro k _
      simp [hz]
    · have hp : prevPtr as i = some as[i - 1] := by
        simp only [prevPtr, if_neg hz]
        exact List.getElem?_eq_getElem (by omega)
      obtain ⟨heap1, e1, _, n1⟩ := h.node.storeNext_nodes h.nodup
        (List.getElem?_eq_getElem (show i - 1 < as.length by omega)) as[i + 1]?
      refine ⟨heap1, by rw [hp]; simpa using e1, n1.congr (fun _ _ => rfl) ?_⟩
      intro k _
      by_cases hk : k = i - 1
      · subst hk
        rw [Function.update_same, if_pos (by omega)]
      · rw [Function.update_noteq hk, if_neg (by omega)]
  obtain ⟨heap1, e1, n1⟩ := s1
  obtain ⟨x, _, hl⟩ := n1.load_eq hi
  have hl2 : load heap1 (some a) = some (element.mk x (prevPtr as i) as[i + 1]?) := by
    rw [hl]; simp
  -- second assignment
  have s2 : ∃ heap2, (if as[i + 1]? ≠ none then storePrev heap1 as[i + 1]? (prevPtr as i)
        else some heap1) = some heap2 ∧
      Nodes heap2 as xs (fun k => if k = i + 1 then prevPtr as i else prevPtr as k)
        (fun k => if k + 1 = i then as[i + 1]? else as[k + 1]?) := by
    by_cases hz : i + 1 < as.length
    · have hp : as[i + 1]? = some as[i + 1] := List.getElem?_eq_getElem hz
      obtain ⟨heap2, e2, _, n2⟩ := n1.storePrev_nodes h.nodup hp (prevPtr as i)
      refine ⟨heap2, by rw [hp]; simpa using e2, n2.congr ?_ (fun _ _ => rfl)⟩
      intro k _
      by_cases hk : k = i + 1
      · subst hk
        rw [Function.update_same, if_pos rfl]
      · rw [Function.update_noteq hk, if_neg hk]
    · have hp : as[i + 1]? = none := List.getElem?_eq_none_iff.2 (by omega)
      refine ⟨heap1, by simp [hp], n1.congr ?_ (fun _ _ => rfl)⟩
      intro k hk
      rw [if_neg (by omega)]
  obtain ⟨heap2, e2, n2⟩ := s2
  exact ⟨heap1, heap2, e1, ⟨x, hl2⟩, e2, n2⟩

/-- The node-locating code of `Get`, `Remove` and `Set` finds the node at `index`. -/
theorem Chain.locate {l : DList V} {as : List Nat} {xs : List V} (h : Chain l as xs)
    {index : Int} (hw : 0 ≤ index ∧ index < (l.size : Int)) :
    (if (l.size : Int) - index < index then
        walkPrev l.heap index l.size ((l.size : Int) - 1) l.last
      else walkNext l.heap index l.size 0 l.first) = some as[index.toNat]? := by
  by_cases hd : (l.size : Int) - index < index
  · rw [if_pos hd, h.last,
      h.walkPrev_eq index l.size ((l.size : Int) - 1) (l.size - 1) (l.size - 1 - index.toNat)
        (by omega) (by omega) (by omega) (by omega)]
    congr 2; omega
  · rw [if_neg hd, h.first,
      h.walkNext_eq index l.size 0 0 index.toNat (by omega) (by omega) (by omega)]
    simp

theorem Chain.Remove_chain {l : DList V} {as : List Nat} {xs : List V} (h : Chain l as xs)
    {index : Int} (hw : 0 ≤ index ∧ index < (l.size : Int)) :
    ∃ l1, l.Remove index = some l1 ∧
      Chain l1 (as.eraseIdx index.toNat) (xs.eraseIdx index.toNat) := by
  have hw2 : l.withinRange index = true := (withinRange_iff l index).2 hw
  have hla := h.len_as
  have hlx := h.len_xs
  have hi : index.toNat < l.size := by omega
  by_cases h1 : l.size = 1
  · refine ⟨l.Clear, by simp [DList.Remove, hw2, h1], ?_⟩
    have hi0 : index.toNat = 0 := by omega
    have e1 : as.eraseIdx index.toNat = [] :=
      List.eraseIdx_eq_nil.2 (Or.inr ⟨by omega, hi0⟩)
    have e2 : xs.eraseIdx index.toNat = [] :=
      List.eraseIdx_eq_nil.2 (Or.inr ⟨by omega, hi0⟩)
    rw [e1, e2]
    exact chain_Clear l
  · have hloc := h.locate hw
    generalize index.toNat = i at hi hloc ⊢
    obtain ⟨a, x, ha, hx, hn⟩ := h.at hi
    have hload : load l.heap (some a) = some (element.mk x (prevPtr as i) as[i + 1]?) := by
      simp [load, hn]
    obtain ⟨heap1, heap2, e1, ⟨x1, hl1⟩, e2, n2⟩ := h.unlink ha
    rw [ha] at hloc
    have he : l.Remove index = some ⟨heap2,
        if some a = l.first then as[i + 1]? else l.first,
        if some a = l.last then prevPtr as i else l.last, l.size - 1⟩ := by
      simp only [DList.Remove, hw2, Bool.not_true, Bool.false_eq_true, if_false, h1, hloc,
        Option.bind_eq_bind, Option.some_bind, hload, e1, hl1, e2, Option.pure_def]
    refine ⟨_, he, ⟨?_, ?_, ?_, ?_, ?_, ?_⟩⟩
    · show (as.eraseIdx i).length = l.size - 1
      rw [List.length_eraseIdx_of_lt (by omega), hla]
    · show (xs.eraseIdx i).length = l.size - 1
      rw [List.length_eraseIdx_of_lt (by omega), hlx]
    · exact h.nodup.eraseIdx i
    · show (if some a = l.first then as[i + 1]? else l.first) = (as.eraseIdx i)[0]?
      rw [List.getElem?_eraseIdx, h.first]
      by_cases hz : i = 0
      · subst hz
        rw [if_pos ha.symm, if_neg (Nat.lt_irrefl 0)]
      · have hne : ¬ some a = as[0]? := fun he => hz (nodup_getElem?_inj h.nodup ha he.symm)
        rw [if_neg hne, if_pos (by omega)]
    · show (if some a = l.last then prevPtr as i else l.last) = (as.eraseIdx i)[l.size - 1 - 1]?
      rw [List.getElem?_eraseIdx, h.last]
      by_cases hz : i = l.size - 1
      · subst hz
        rw [if_pos ha.symm, if_pos (by omega)]
        simp [prevPtr, show l.size - 1 ≠ 0 by omega]
      · have hne : ¬ some a = as[l.size - 1]? :=
          fun he => hz (nodup_getElem?_inj h.nodup ha he.symm)
        rw [if_neg hne, if_neg (by omega)]
        congr 1; omega
    · intro j b hj
      rw [List.getElem?_eraseIdx] at hj
      show ∃ y, (xs.eraseIdx i)[j]? = some y ∧ heap2[b]? = _
      beta_reduce
      rw [List.getElem?_eraseIdx xs, List.getElem?_eraseIdx as]
      by_cases hji : j < i
      · rw [if_pos hji] at hj
        obtain ⟨y, hy, hb⟩ := n2 j b hj
        refine ⟨y, by rw [if_pos hji]; exact hy, ?_⟩
        rw [hb]
        beta_reduce
        have f1 : ¬ j = i + 1 := by omega
        have hp : prevPtr (as.eraseIdx i) j = prevPtr as j := by
          simp only [prevPtr]
          split_ifs
          · rfl
          · rw [List.getElem?_eraseIdx, if_pos (by omega)]
        rw [if_neg f1, hp]
        by_cases hj1 : j + 1 = i
        · have f2 : ¬ j + 1 < i := by omega
          rw [if_pos hj1, if_neg f2, hj1]
        · have f2 : j + 1 < i := by omega
          rw [if_neg hj1, if_pos f2]
      · rw [if_neg hji] at hj
        obtain ⟨y, hy, hb⟩ := n2 (j + 1) b hj
        refine ⟨y, by rw [if_neg hji]; exact hy, ?_⟩
        rw [hb]
        beta_reduce
        have f1 : ¬ j + 1 + 1 = i := by omega
        have f2 : ¬ j + 1 < i := by omega
        have hp : (if j + 1 = i + 1 then prevPtr as i else prevPtr as (j + 1)) =
            prevPtr (as.eraseIdx i) j := by
          simp only [prevPtr]
          by_cases hje : j = i
          · subst hje
            rw [if_pos rfl]
            split_ifs with hz
            · rfl
            · rw [List.getElem?_eraseIdx, if_pos (by omega)]
          · have g1 : ¬ j + 1 = i + 1 := by omega
            have g2 : ¬ j + 1 = 0 := by omega
            have g3 : ¬ j = 0 := by omega
            have g4 : ¬ j - 1 < i := by omega
            rw [if_neg g1, if_neg g2, if_neg g3, List.getElem?_eraseIdx, if_neg g4]
            congr 1; omega
        rw [hp, if_neg f1, if_neg f2]

theorem Chain.foldl_addStep {xs : List V} (vs : List V) : ∀ {l : DList V} {as : List Nat},
    Chain l as xs → ∃ l1 as1, vs.foldlM DList.addStep l = some l1 ∧ Chain l1 as1 (xs ++ vs) := by
  induction vs generalizing xs with
  | nil => intro l as h; exact ⟨l, as, rfl, by simpa using h⟩
  | cons v vs ih =>
    intro l as h
    obtain ⟨l1, e1, c1, _⟩ := h.addStep_chain v
    obtain ⟨l2, as2, e2, c2⟩ := ih c1
    exact ⟨l2, as2, by simp [List.foldlM, e1, e2], by simpa using c2⟩

theorem Chain.Add_chain {l : DList V} {as : List Nat} {xs : List V} (h : Chain l as xs)
    (vs : List V) : ∃ l1 as1, l.Add vs = some l1 ∧ Chain l1 as1 (xs ++ vs) :=
  h.foldl_addStep vs

theorem New_chain (vs : List V) : ∃ l as, DList.New vs = some l ∧ Chain l as vs := by
  by_cases hv : 0 < vs.length
  · obtain ⟨l1, as1, e1, c1⟩ := (chain_empty : Chain (DList.empty : DList V) [] []).Add_chain vs
    exact ⟨l1, as1, by simp only [DList.New, hv, if_true, e1], by simpa using c1⟩
  · have : vs = [] := List.length_eq_zero.1 (by omega)
    subst this
    exact ⟨DList.empty, [], by simp [DList.New], chain_empty⟩

/-- One `Next` from the position before `e` moves to position `e`. -/
theorem Chain.Next_eq {l : DList V} {as : List Nat} {xs : List V} (h : Chain l as xs)
    {e : Nat} (he : e ≤ l.size) :
    Iterator.Next l ⟨(e : Int) - 1, prevPtr as e⟩ = some (⟨(e : Int), as[e]?⟩, decide (e < l.size)) := by
  have hidx : (if (e : Int) - 1 < (l.size : Int) then (e : Int) - 1 + 1 else (e : Int) - 1) = e := by
    rw [if_pos (by omega)]; omega
  simp only [Iterator.Next, hidx]
  by_cases hlt : e < l.size
  · have hw : l.withinRange (e : Int) = true := (withinRange_iff l e).2 ⟨by omega, by omega⟩
    simp only [hw, Bool.not_true, Bool.false_eq_true, if_false, hlt, decide_True]
    by_cases hz : e = 0
    · subst hz
      simp [h.first]
    · have hne : ¬ (e : Int) = 0 := by omega
      have hp : prevPtr as e = as[e - 1]? := by simp [prevPtr, hz]
      obtain ⟨x, _, hl⟩ := h.load_at (show e - 1 < l.size by omega)
      rw [if_pos (by simpa using hne), hp, hl]
      simp only [Option.map_some', show e - 1 + 1 = e by omega]
  · have hw : l.withinRange (e : Int) = false := by
      rw [← Bool.not_eq_true, withinRange_iff]; omega
    have hnone : as[e]? = none := List.getElem?_eq_none_iff.2 (by rw [h.len_as]; omega)
    simp [hw, hlt, hnone]

end doublylinkedlist

/-! ## The index scan -/

theorem scanIndex_of_mem {V : Type} [DecidableEq V] (v : V) : ∀ (xs : List V) (start : Int),
    v ∈ xs → ∃ k : Nat, scanIndex v xs start = start + k ∧ k < xs.length ∧
      xs.eraseIdx k = xs.erase v
  | [], _, h => by simp at h
  | x :: xs, start, h => by
    by_cases hx : x = v
    · subst hx
      exact ⟨0, by simp [scanIndex], by simp, by simp⟩
    · have hm : v ∈ xs := by
        rcases List.mem_cons.1 h with h1 | h1
        · exact absurd h1.symm hx
        · exact h1
      obtain ⟨k, e1, e2, e3⟩ := scanIndex_of_mem v xs (start + 1) hm
      refine ⟨k + 1, ?_, by simpa using e2, ?_⟩
      · simp only [scanIndex, hx, if_false, e1]
        push_cast
        ring
      · rw [List.eraseIdx_cons_succ, e3, List.erase_cons_tail (by simpa using hx)]

theorem scanIndex_of_not_mem {V : Type} [DecidableEq V] (v : V) : ∀ (xs : List V) (start : Int),
    v ∉ xs → scanIndex v xs start = -1
  | [], _, _ => rfl
  | x :: xs, start, h => by
    have hx : ¬ x = v := fun he => h (by simp [he])
    have hm : v ∉ xs := fun hm => h (List.mem_cons_of_mem _ hm)
    simp only [scanIndex, hx, if_false]
    exact scanIndex_of_not_mem v xs (start + 1) hm

/-! ## Linked hash set: the table and the ordering list agree -/

namespace linkedhashset
open doublylinkedlist
variable {V : Type} [Inhabited V]

theorem iter_valuesLoop_eq {l : DList V} {as : List Nat} {xs : List V} (h : Chain l as xs) :
    ∀ (fuel e : Nat), e ≤ l.size → l.size - e < fuel →
      valuesLoop l fuel ⟨(e : Int) - 1, prevPtr as e⟩
        (xs.take e ++ List.replicate (l.size - e) default) = some xs := by
  intro fuel
  induction fuel with
  | zero => intro e _ hf; omega
  | succ fuel ih =>
    intro e he hf
    simp only [valuesLoop, h.Next_eq he, Option.some_bind]
    by_cases hlt : e < l.size
    · obtain ⟨x, hx, hl⟩ := h.load_at hlt
      have hvl : (e : Int) < ((xs.take e ++ List.replicate (l.size - e) (default : V)).length : Int) := by
        have := h.len_xs
        simp; omega
      have hnext : (⟨(e : Int), as[e]?⟩ : Iterator) = ⟨((e + 1 : Nat) : Int) - 1, prevPtr as (e + 1)⟩ := by
        simp [prevPtr]
      simp only [hlt, decide_True, Bool.not_true, Bool.false_eq_true, if_false, Iterator.Value, hl,
        Option.map_some', Option.some_bind, Iterator.Index, hvl, Int.toNat_ofNat, and_true,
        Int.natCast_nonneg, if_true]
      rw [set_fill default x xs e l.size hlt hx h.len_xs, hnext]
      exact ih (e + 1) (by omega) (by omega)
    · have hee : e = l.size := by omega
      simp only [hlt, decide_False, Bool.not_false, if_true]
      rw [hee, Nat.sub_self, List.replicate_zero, List.append_nil, ← h.len_xs, List.take_length]

variable [DecidableEq V]

theorem Inv.set_Values_eq {s : LinkedHashSet V} {as : List Nat} {xs : List V} (h : Inv s as xs) :
    s.Values = some xs := by
  have := iter_valuesLoop_eq h.chain (s.ordering.size + 1) 0 (Nat.zero_le _) (by omega)
  simpa [LinkedHashSet.Values, Iterator.new, prevPtr] using this

theorem inv_empty : Inv (LinkedHashSet.empty : LinkedHashSet V) [] [] :=
  ⟨chain_empty, List.nodup_nil, by intro v; simp [LinkedHashSet.empty]⟩

theorem inv_Clear (s : LinkedHashSet V) : Inv s.Clear [] [] :=
  ⟨chain_Clear _, List.nodup_nil, by intro v; simp [LinkedHashSet.Clear]⟩

theorem Inv.addStep_inv {s : LinkedHashSet V} {as : List Nat} {xs : List V} (h : Inv s as xs)
    (item : V) :
    ∃ s1 as1, s.addStep item = some s1 ∧
      Inv s1 as1 (if item ∈ xs then xs else xs ++ [item]) := by
  by_cases hm : item ∈ xs
  · have ht : item ∈ s.table := (h.keys item).2 hm
    exact ⟨s, as, by simp [LinkedHashSet.addStep, ht], by simpa [hm] using h⟩
  · have ht : item ∉ s.table := fun ht => hm ((h.keys item).1 ht)
    obtain ⟨l1, e1, c1, _⟩ := h.chain.addStep_chain item
    have e2 : s.ordering.Append [item] = some l1 := by
      simp [DList.Append, DList.Add, List.foldlM, e1]
    refine ⟨⟨insert item s.table, l1⟩, as ++ [s.ordering.heap.length],
      by simp [LinkedHashSet.addStep, ht, e2], ?_⟩
    rw [if_neg hm]
    refine ⟨c1, ?_, ?_⟩
    · rw [List.nodup_append]
      exact ⟨h.nodup, List.nodup_singleton _, by
        intro a ha hb
        rw [List.mem_singleton] at hb
        exact hm (hb ▸ ha)⟩
    · intro v
      simp only [Finset.mem_insert, List.mem_append, List.mem_singleton, h.keys v]
      tauto

theorem Inv.foldl_addStep_inv {xs : List V} (items : List V) :
    ∀ {s : LinkedHashSet V} {as : List Nat} (acc : List V), Inv s as (xs ++ acc) →
      ∃ s1 as1, items.foldlM LinkedHashSet.addStep s = some s1 ∧
        Inv s1 as1 (xs ++ items.foldl
          (fun acc item => if item ∈ xs ∨ item ∈ acc then acc else acc ++ [item]) acc) := by
  induction items with
  | nil => intro s as acc h; exact ⟨s, as, rfl, h⟩
  | cons item items ih =>
    intro s as acc h
    obtain ⟨s1, as1, e1, i1⟩ := h.addStep_inv item
    have hacc : (if item ∈ xs ++ acc then xs ++ acc else xs ++ acc ++ [item]) =
        xs ++ (if item ∈ xs ∨ item ∈ acc then acc else acc ++ [item]) := by
      simp only [List.mem_append]
      split_ifs <;> simp
    rw [hacc] at i1
    obtain ⟨s2, as2, e2, i2⟩ := ih _ i1
    exact ⟨s2, as2, by simp [List.foldlM, e1, e2], by simpa using i2⟩

theorem Inv.Add_inv {s : LinkedHashSet V} {as : List Nat} {xs : List V} (h : Inv s as xs)
    (items : List V) :
    ∃ s1 as1, s.Add items = some s1 ∧ Inv s1 as1 (xs ++ freshItems xs items) :=
  Inv.foldl_addStep_inv items [] (by simpa using h)

theorem Inv.removeStep_inv {s : LinkedHashSet V} {as : List Nat} {xs : List V} (h : Inv s as xs)
    (item : V) :
    ∃ s1 as1, s.removeStep item = some s1 ∧ Inv s1 as1 (xs.erase item) := by
  by_cases hm : item ∈ xs
  · have ht : item ∈ s.table := (h.keys item).2 hm
    obtain ⟨k, e1, e2, e3⟩ := scanIndex_of_mem item xs 0 hm
    have hsz : s.ordering.size ≠ 0 := by
      have := h.chain.len_xs; omega
    have hio : s.ordering.IndexOf item = some (k : Int) := by
      simp [DList.IndexOf, hsz, h.chain.Values_eq, e1]
    have hw : 0 ≤ (k : Int) ∧ (k : Int) < (s.ordering.size : Int) := by
      have := h.chain.len_xs; omega
    obtain ⟨l1, r1, c1⟩ := h.chain.Remove_chain hw
    rw [Int.toNat_ofNat, e3] at c1
    refine ⟨⟨s.table.erase item, l1⟩, as.eraseIdx k,
      by simp [LinkedHashSet.removeStep, ht, hio, r1], c1,
      h.nodup.erase item, ?_⟩
    intro v
    rw [Finset.mem_erase, h.nodup.mem_erase_iff, h.keys v]
  · have ht : item ∉ s.table := fun ht => hm ((h.keys item).1 ht)
    exact ⟨s, as, by simp [LinkedHashSet.removeStep, ht], by
      rw [List.erase_of_not_mem hm]; exact h⟩

theorem Inv.Remove_inv (items : List V) : ∀ {s : LinkedHashSet V} {as : List Nat} {xs : List V},
    Inv s as xs → ∃ s1 as1, s.Remove items = some s1 ∧
      Inv s1 as1 (items.foldl (fun acc item => acc.erase item) xs) := by
  induction items with
  | nil => intro s as xs h; exact ⟨s, as, rfl, h⟩
  | cons item items ih =>
    intro s as xs h
    obtain ⟨s1, as1, e1, i1⟩ := h.removeStep_inv item
    obtain ⟨s2, as2, e2, i2⟩ := ih i1
    exact ⟨s2, as2, by
      have : s1.Remove items = some s2 := e2
      simp [LinkedHashSet.Remove, List.foldlM, e1] at this ⊢
      exact this, by simpa using i2⟩

theorem New_inv (values : List V) (s : LinkedHashSet V) (h : LinkedHashSet.New values = some s) :
    ∃ as xs, Inv s as xs := by
  by_cases hv : 0 < values.length
  · obtain ⟨s1, as1, e1, i1⟩ := (inv_empty : Inv (LinkedHashSet.empty : LinkedHashSet V) [] []).Add_inv values
    simp only [LinkedHashSet.New, hv, if_true, e1, Option.some.injEq] at h
    exact ⟨as1, _, h ▸ i1⟩
  · simp only [LinkedHashSet.New, hv, if_false, Option.some.injEq] at h
    exact ⟨[], [], h ▸ inv_empty⟩

theorem Reachable.inv {s : LinkedHashSet V} (h : Reachable s) : ∃ as xs, Inv s as xs := by
  induction h with
  | new values s hn => exact New_inv values s hn
  | add s items s1 _ ha ih =>
    obtain ⟨as, xs, i⟩ := ih
    obtain ⟨s2, as2, e2, i2⟩ := i.Add_inv items
    rw [ha] at e2
    exact ⟨as2, _, (Option.some.inj e2) ▸ i2⟩
  | remove s items s1 _ ha ih =>
    obtain ⟨as, xs, i⟩ := ih
    obtain ⟨s2, as2, e2, i2⟩ := i.Remove_inv items
    rw [ha] at e2
    exact ⟨as2, _, (Option.some.inj e2) ▸ i2⟩
  | clear s _ _ => exact ⟨[], [], inv_Clear s⟩
  | fromJSON unmarshal s data s1 err _ hf ih =>
    obtain ⟨as, xs, i⟩ := ih
    simp only [LinkedHashSet.FromJSON] at hf
    cases hu : unmarshal data with
    | error e =>
      rw [hu] at hf
      simp only [Option.some.injEq, Prod.mk.injEq] at hf
      exact ⟨as, xs, hf.1 ▸ i⟩
    | ok elements =>
      rw [hu] at hf
      obtain ⟨s2, as2, e2, i2⟩ := (inv_Clear s).Add_inv elements
      dsimp only at hf
      rw [e2] at hf
      simp only [Option.map_some', Option.some.injEq, Prod.mk.injEq] at hf
      exact ⟨as2, _, hf.1 ▸ i2⟩

end linkedhashset

/-! ## The claims -/

namespace doublylinkedlist

/-- C1, on the failing input. On the list `[a,b,c,d,e]`, `Insert(4, x, y)` takes the
backward walk (`size` has already been increased by the batch length) and splices the
batch after the node at position 2: the result is `[a,b,c,x,y,d,e]`, of size 7, and not
`[a,b,c,d,x,y,e]`. -/
theorem Insert_backward_misplaces_batch :
    ∃ l l1 : DList String,
      DList.New ["a", "b", "c", "d", "e"] = some l ∧
      l.Values = some ["a", "b", "c", "d", "e"] ∧
      l.Insert 4 ["x", "y"] = some l1 ∧
      l1.Values = some ["a", "b", "c", "x", "y", "d", "e"] ∧
      l1.Values ≠ some (["a", "b", "c", "d", "e"].take 4 ++ ["x", "y"] ++
        ["a", "b", "c", "d", "e"].drop 4) ∧
      l1.Size = 7 := by
  refine ⟨_, _, rfl, ?_, rfl, ?_, ?_, ?_⟩ <;> decide

end doublylinkedlist

namespace arraylist

variable {V : Type} [Inhabited V]

/-- C2. Every sequence of `Add`, `Insert`, `Remove`, `Set` and `Swap` calls on an empty
array list runs without a panic and leaves a list that agrees with the reference
sequence: `Size()` is its length, `Values()` is the sequence, and `Get(i)` is
`(reference[i], true)` for `0 ≤ i < Size()` and `(zero, false)` for every other `i`. In
particular after single-element `Add` calls of `vs[0], vs[1], ...` the size is `len(vs)`
and `Get(k)` returns `vs[k]`. -/
theorem runOps_agrees_with_reference :
    (∀ ops : List (Op V), ∃ l, runOps ops = some l ∧
      l.Size = ((refRun ops).length : Int) ∧
      l.Values = some (refRun ops) ∧
      ∀ i : Int, l.Get i =
        some (if 0 ≤ i ∧ i < l.Size then ((refRun ops).getD i.toNat default, true)
          else (default, false))) ∧
    (∀ vs : List V, ∃ l, runOps (vs.map fun v => Op.add [v]) = some l ∧
      l.Size = (vs.length : Int) ∧
      ∀ k : Nat, l.Get (k : Int) =
        some (if k < vs.length then (vs.getD k default, true) else (default, false))) := by
  have main : ∀ ops : List (Op V), ∃ l, runOps ops = some l ∧
      l.Size = ((refRun ops).length : Int) ∧
      l.Values = some (refRun ops) ∧
      ∀ i : Int, l.Get i =
        some (if 0 ≤ i ∧ i < l.Size then ((refRun ops).getD i.toNat default, true)
          else (default, false)) := by
    intro ops
    obtain ⟨l, hl, hm⟩ := runOps_models ops
    have hlen := hm.length_eq
    refine ⟨l, hl, by simp [ArrayList.Size, hlen], ?_, ?_⟩
    · have h1 := hm.len_eq
      have h2 := hm.size_le
      have hc : l.size ≤ l.values.cap := by simp only [Slice.cap]; omega
      simp only [ArrayList.Values, hc, if_true, hm.content]
    · intro i
      rw [Get_models hm i]
      simp only [ArrayList.Size, hlen]
  refine ⟨main, ?_⟩
  intro vs
  have href : refRun (vs.map fun v => Op.add [v]) = vs := by
    have gen : ∀ (ws acc : List V),
        (ws.map fun v => Op.add [v]).foldl refStep acc = acc ++ ws := by
      intro ws
      induction ws with
      | nil => intro acc; simp
      | cons w ws ih => intro acc; simp [refStep, ih]
    simpa [refRun] using gen vs []
  obtain ⟨l, hl, hs, _, hg⟩ := main (vs.map fun v => Op.add [v])
  rw [href] at hs hg
  refine ⟨l, hl, hs, ?_⟩
  intro k
  rw [hg (k : Int), hs]
  simp

/-- C3, on the failing inputs. `Contains` scans the whole backing slice: on the list
`New(1)`, whose `Values()` is `[1]`, `Contains(0)` is true because of the zero-valued
spare cell; and after `New(1,...,8)`, `Remove(0)`, `Remove(6)` the removed value 8 is
still found although `Values()` is `[2,...,7]`. -/
theorem Contains_scans_spare_capacity :
    (∃ l : ArrayList Nat, ArrayList.New [1] = some l ∧ l.Values = some [1] ∧
      l.Contains [0] = true) ∧
    (∃ l l1 l2 : ArrayList Nat, ArrayList.New [1, 2, 3, 4, 5, 6, 7, 8] = some l ∧
      l.Remove 0 = some l1 ∧ l1.Remove 6 = some l2 ∧ l2.Values = some [2, 3, 4, 5, 6, 7] ∧
      l2.Contains [8] = true) := by
  refine ⟨⟨_, rfl, ?_, ?_⟩, ⟨_, _, _, rfl, rfl, rfl, ?_, ?_⟩⟩ <;> decide

/-- C4, on the failing input. `IndexOf` scans the whole backing slice: on the list
`New(1)`, of size 1 and with `Values()` equal to `[1]`, `IndexOf(0)` is 1, an index that
is not below `Size()`, for a value that does not occur in the list. -/
theorem IndexOf_scans_spare_capacity :
    ∃ l : ArrayList Nat, ArrayList.New [1] = some l ∧ l.Values = some [1] ∧ l.Size = 1 ∧
      l.IndexOf 0 = 1 ∧ l.Get 1 = some (0, false) := by
  refine ⟨_, rfl, ?_, ?_, ?_, ?_⟩ <;> decide

end arraylist

namespace doublylinkedlist
variable {V : Type} [Inhabited V]

theorem New_wellFormed {vs : List V} {l : DList V} (h : DList.New vs = some l) :
    WellFormed l := by
  obtain ⟨l1, as, e, c⟩ := New_chain vs
  rw [h] at e
  exact ⟨as, vs, (Option.some.inj e) ▸ c⟩

theorem sampleList_wellFormed : WellFormed sampleList :=
  @New_wellFormed Nat _ [10, 20, 30, 40, 50] sampleList (by decide)

end doublylinkedlist

namespace linkedhashset
open doublylinkedlist
variable {V : Type} [Inhabited V] [DecidableEq V]

theorem sampleSet_reachable : Reachable sampleSet :=
  Reachable.new [3, 1, 2] sampleSet (by decide)

theorem freshItems_foldl (xs : List V) (items : List V) : ∀ acc : List V,
    acc.Nodup → (∀ v ∈ acc, v ∉ xs) →
    (items.foldl (fun acc item => if item ∈ xs ∨ item ∈ acc then acc else acc ++ [item])
        acc).Nodup ∧
      ∀ v, v ∈ items.foldl
          (fun acc item => if item ∈ xs ∨ item ∈ acc then acc else acc ++ [item]) acc ↔
        v ∈ acc ∨ (v ∈ items ∧ v ∉ xs) := by
  induction items with
  | nil => intro acc hn _; exact ⟨hn, by simp⟩
  | cons item items ih =>
    intro acc hn hd
    simp only [List.foldl_cons]
    by_cases hc : item ∈ xs ∨ item ∈ acc
    · rw [if_pos hc]
      obtain ⟨r1, r2⟩ := ih acc hn hd
      refine ⟨r1, fun v => ?_⟩
      rw [r2 v, List.mem_cons]
      constructor
      · rintro (h | ⟨h1, h2⟩)
        · exact Or.inl h
        · exact Or.inr ⟨Or.inr h1, h2⟩
      · rintro (h | ⟨h1 | h1, h2⟩)
        · exact Or.inl h
        · subst h1
          rcases hc with hc | hc
          · exact absurd hc h2
          · exact Or.inl hc
        · exact Or.inr ⟨h1, h2⟩
    · rw [if_neg hc]
      have hx : item ∉ xs := fun h => hc (Or.inl h)
      have ha : item ∉ acc := fun h => hc (Or.inr h)
      have hn1 : (acc ++ [item]).Nodup := by
        rw [List.nodup_append]
        exact ⟨hn, List.nodup_singleton _, by
          intro a h1 h2
          rw [List.mem_singleton] at h2
          exact ha (h2 ▸ h1)⟩
      have hd1 : ∀ v ∈ acc ++ [item], v ∉ xs := by
        intro v hv
        rcases List.mem_append.1 hv with h | h
        · exact hd v h
        · rw [List.mem_singleton] at h; exact h ▸ hx
      obtain ⟨r1, r2⟩ := ih (acc ++ [item]) hn1 hd1
      refine ⟨r1, fun v => ?_⟩
      rw [r2 v, List.mem_append, List.mem_singleton, List.mem_cons]
      constructor
      · rintro ((h | h) | ⟨h1, h2⟩)
        · exact Or.inl h
        · exact Or.inr ⟨Or.inl h, h ▸ hx⟩
        · exact Or.inr ⟨Or.inr h1, h2⟩
      · rintro (h | ⟨h1 | h1, h2⟩)
        · exact Or.inl (Or.inl h)
        · exact Or.inl (Or.inr h1)
        · exact Or.inr ⟨h1, h2⟩

theorem Reachable.inv_of_Values {s : LinkedHashSet V} {xs : List V} (hr : Reachable s)
    (hv : s.Values = some xs) : ∃ as, Inv s as xs := by
  obtain ⟨as, ys, i⟩ := hr.inv
  have := i.set_Values_eq
  rw [hv] at this
  exact ⟨as, (Option.some.inj this) ▸ i⟩

theorem Contains_iff_table (s : LinkedHashSet V) (items : List V) :
    s.Contains items = true ↔ ∀ x ∈ items, x ∈ s.table := by
  simp [LinkedHashSet.Contains]

/-- C5. When `Contains(x)` is true, `Add(x)` returns without touching the set: the state,
and so `Values()` (content and order) and `Size()`, are what they were. -/
theorem Add_contained_item_is_noop (s : LinkedHashSet V) (x : V)
    (hx : s.Contains [x] = true) :
    ∃ s1, s.Add [x] = some s1 ∧ s1.Values = s.Values ∧ s1.Size = s.Size ∧ s1 = s := by
  have ht : x ∈ s.table := (Contains_iff_table s [x]).1 hx x (List.mem_singleton_self x)
  exact ⟨s, by simp [LinkedHashSet.Add, List.foldlM, LinkedHashSet.addStep, ht], rfl, rfl, rfl⟩

theorem Add_contained_item_is_noop_witness :
    sampleSet.Contains [1] = true ∧
      ∃ s1, sampleSet.Add [1] = some s1 ∧ s1.Values = sampleSet.Values ∧
        s1.Size = sampleSet.Size ∧ s1 = sampleSet :=
  ⟨by decide, Add_contained_item_is_noop sampleSet 1 (by decide)⟩

/-- C6. On a reachable set with `Values() = xs`, `Add(items...)` returns and `Values()`
becomes `xs` followed by the fresh items of the batch: those not in `xs`, each once (the
fresh items are distinct and are exactly the batch items outside `xs`), in the order of
their first occurrence. -/
theorem Add_appends_fresh_items (s : LinkedHashSet V) (xs items : List V)
    (hr : Reachable s) (hv : s.Values = some xs) :
    ∃ s1, s.Add items = some s1 ∧ s1.Values = some (xs ++ freshItems xs items) ∧
      (freshItems xs items).Nodup ∧
      ∀ v, v ∈ freshItems xs items ↔ v ∈ items ∧ v ∉ xs := by
  obtain ⟨as, i⟩ := hr.inv_of_Values hv
  obtain ⟨s1, as1, e1, i1⟩ := i.Add_inv items
  obtain ⟨f1, f2⟩ := freshItems_foldl xs items [] List.nodup_nil (by simp)
  exact ⟨s1, e1, i1.set_Values_eq, f1, fun v => by simpa [freshItems] using f2 v⟩

theorem Add_appends_fresh_items_witness :
    Reachable sampleSet ∧ sampleSet.Values = some [3, 1, 2] ∧
      ∃ s1, sampleSet.Add [5, 1, 4, 5, 3] = some s1 ∧
        s1.Values = some ([3, 1, 2] ++ freshItems [3, 1, 2] [5, 1, 4, 5, 3]) ∧
        (freshItems [3, 1, 2] [5, 1, 4, 5, 3]).Nodup ∧
        ∀ v, v ∈ freshItems [3, 1, 2] [5, 1, 4, 5, 3] ↔ v ∈ [5, 1, 4, 5, 3] ∧ v ∉ [3, 1, 2] :=
  ⟨sampleSet_reachable, by decide,
    Add_appends_fresh_items sampleSet [3, 1, 2] [5, 1, 4, 5, 3] sampleSet_reachable (by decide)⟩

/-- C7. On a reachable set with `Values() = xs`, `Remove(x)` returns, `Values()` becomes
`xs` without `x`, the other elements keeping their order, and `Contains(x)` is false
afterwards; when `x` was not in the set `Values()` is still `xs`. -/
theorem Remove_deletes_item (s : LinkedHashSet V) (xs : List V) (x : V)
    (hr : Reachable s) (hv : s.Values = some xs) :
    ∃ s1, s.Remove [x] = some s1 ∧
      s1.Values = some (xs.filter fun y => decide (y ≠ x)) ∧
      s1.Contains [x] = false ∧
      (s.Contains [x] = false → s1.Values = some xs) := by
  obtain ⟨as, i⟩ := hr.inv_of_Values hv
  obtain ⟨s1, as1, e1, i1⟩ := i.removeStep_inv x
  have hf : xs.erase x = xs.filter fun y => decide (y ≠ x) := by
    rw [i.nodup.erase_eq_filter]
    congr 1
    funext y
    by_cases h : y = x <;> simp [h]
  refine ⟨s1, by simp [LinkedHashSet.Remove, List.foldlM, e1], ?_, ?_, ?_⟩
  · rw [← hf]; exact i1.set_Values_eq
  · rw [← Bool.not_eq_true, Contains_iff_table]
    intro hc
    have h1 : x ∈ xs.erase x := (i1.keys x).1 (hc x (List.mem_singleton_self x))
    exact ((i.nodup.mem_erase_iff).1 h1).1 rfl
  · intro hc
    have hnx : x ∉ xs := by
      intro hm
      rw [← Bool.not_eq_true, Contains_iff_table] at hc
      exact hc (fun y hy => by
        rw [List.mem_singleton] at hy
        exact hy ▸ (i.keys x).2 hm)
    have := i1.set_Values_eq
    rwa [List.erase_of_not_mem hnx] at this

theorem Remove_deletes_item_witness :
    Reachable sampleSet ∧ sampleSet.Values = some [3, 1, 2] ∧
      ∃ s1, sampleSet.Remove [1] = some s1 ∧
        s1.Values = some ([3, 1, 2].filter fun y => decide (y ≠ 1)) ∧
        s1.Contains [1] = false ∧
        (sampleSet.Contains [1] = false → s1.Values = some [3, 1, 2]) :=
  ⟨sampleSet_reachable, by decide,
    Remove_deletes_item sampleSet [3, 1, 2] 1 sampleSet_reachable (by decide)⟩

/-- C8. In every set reachable from `New` through `Add`, `Remove`, `Clear` and `FromJSON`
the ordering list holds a sequence of values without repetition, the table keys are
exactly these values, and `Size()` is the number of table keys. -/
theorem Reachable_table_matches_ordering (s : LinkedHashSet V) (hr : Reachable s) :
    ∃ xs, s.ordering.Values = some xs ∧ xs.Nodup ∧ (∀ v, v ∈ s.table ↔ v ∈ xs) ∧
      s.Size = (s.table.card : Int) := by
  obtain ⟨as, xs, i⟩ := hr.inv
  refine ⟨xs, i.chain.Values_eq, i.nodup, i.keys, ?_⟩
  have ht : s.table = xs.toFinset := by
    ext v
    rw [List.mem_toFinset]
    exact i.keys v
  rw [ht, List.toFinset_card_of_nodup i.nodup, i.chain.len_xs]
  rfl

theorem Reachable_table_matches_ordering_witness :
    Reachable sampleSet ∧
      ∃ xs, sampleSet.ordering.Values = some xs ∧ xs.Nodup ∧
        (∀ v, v ∈ sampleSet.table ↔ v ∈ xs) ∧ sampleSet.Size = (sampleSet.table.card : Int) :=
  ⟨sampleSet_reachable, Reachable_table_matches_ordering sampleSet sampleSet_reachable⟩

/-- C9. On a reachable set `Values()` returns a sequence `xs`, and `Contains(items...)`
is true exactly when every item occurs in `xs`; with no arguments it is true. -/
theorem Contains_iff_all_in_Values (s : LinkedHashSet V) (items : List V) (hr : Reachable s) :
    ∃ xs, s.Values = some xs ∧ (s.Contains items = true ↔ ∀ x ∈ items, x ∈ xs) ∧
      s.Contains [] = true := by
  obtain ⟨as, xs, i⟩ := hr.inv
  refine ⟨xs, i.set_Values_eq, ?_, rfl⟩
  rw [Contains_iff_table]
  exact ⟨fun h x hx => (i.keys x).1 (h x hx), fun h x hx => (i.keys x).2 (h x hx)⟩

theorem Contains_iff_all_in_Values_witness :
    Reachable sampleSet ∧
      ∃ xs, sampleSet.Values = some xs ∧
        (sampleSet.Contains [2, 3, 7] = true ↔ ∀ x ∈ [2, 3, 7], x ∈ xs) ∧
        sampleSet.Contains [] = true :=
  ⟨sampleSet_reachable, Contains_iff_all_in_Values sampleSet [2, 3, 7] sampleSet_reachable⟩

end linkedhashset

namespace doublylinkedlist
variable {V : Type} [Inhabited V]

/-- C10. On a well-formed list with `Values() = xs`, `Get(index)` returns
`(xs[index], true)` when `0 ≤ index < Size()` and `(zero, false)` for every other index;
for an index in range the backward walk from `last` and the forward walk from `first`
both end on the same node, which holds `xs[index]`. -/
theorem Get_returns_indexed_value (l : DList V) (xs : List V) (index : Int)
    (hwf : WellFormed l) (hv : l.Values = some xs) :
    l.Get index =
        some (if 0 ≤ index ∧ index < l.Size then (xs.getD index.toNat default, true)
          else (default, false)) ∧
      (0 ≤ index ∧ index < l.Size →
        ∃ p, walkPrev l.heap index l.size ((l.size : Int) - 1) l.last = some p ∧
          walkNext l.heap index l.size 0 l.first = some p ∧
          (load l.heap p).map (fun n => n.value) = some (xs.getD index.toNat default)) := by
  obtain ⟨as, ys, c⟩ := hwf
  have hy := c.Values_eq
  rw [hv] at hy
  have hxy : xs = ys := Option.some.inj hy
  subst hxy
  refine ⟨?_, ?_⟩
  · rw [c.Get_eq index]
    simp only [DList.Size, c.len_xs]
  · intro hw
    simp only [DList.Size] at hw
    have hi : index.toNat < l.size := by omega
    obtain ⟨x, hx, hl⟩ := c.load_at hi
    refine ⟨as[index.toNat]?, ?_, ?_, ?_⟩
    · rw [c.last, c.walkPrev_eq index l.size ((l.size : Int) - 1) (l.size - 1)
        (l.size - 1 - index.toNat) (by omega) (by omega) (by omega) (by omega)]
      congr 2; omega
    · rw [c.first, c.walkNext_eq index l.size 0 0 index.toNat (by omega) (by omega) (by omega)]
      simp
    · rw [hl]; simp [hx]

theorem Get_returns_indexed_value_witness :
    WellFormed sampleList ∧ sampleList.Values = some [10, 20, 30, 40, 50] ∧
      (sampleList.Get 3 =
        some (if 0 ≤ (3 : Int) ∧ (3 : Int) < sampleList.Size then
            ([10, 20, 30, 40, 50].getD (3 : Int).toNat default, true)
          else (default, false)) ∧
      (0 ≤ (3 : Int) ∧ (3 : Int) < sampleList.Size →
        ∃ p, walkPrev sampleList.heap 3 sampleList.size ((sampleList.size : Int) - 1)
            sampleList.last = some p ∧
          walkNext sampleList.heap 3 sampleList.size 0 sampleList.first = some p ∧
          (load sampleList.heap p).map (fun n => n.value) =
            some ([10, 20, 30, 40, 50].getD (3 : Int).toNat default))) :=
  ⟨sampleList_wellFormed, by decide,
    Get_returns_indexed_value sampleList [10, 20, 30, 40, 50] 3 sampleList_wellFormed
      (by decide)⟩

end doublylinkedlist

/-! ## Doubly-linked list: Set, Prepend, Swap and the iterator -/

namespace doublylinkedlist
variable {V : Type} [Inhabited V]

theorem WellFormed.chain_of_Values {l : DList V} {xs : List V} (hwf : WellFormed l)
    (hv : l.Values = some xs) : ∃ as, Chain l as xs := by
  obtain ⟨as, ys, c⟩ := hwf
  have hy := c.Values_eq
  rw [hv] at hy
  exact ⟨as, (Option.some.inj hy) ▸ c⟩

theorem Chain.size_eq {l : DList V} {as : List Nat} {xs : List V} (c : Chain l as xs) :
    l.Size = (xs.length : Int) := by
  simp [DList.Size, c.len_xs]

theorem Nodes.storeValue_nodes {heap : List (element V)} {as : List Nat} {xs : List V}
    {P N : Nat → Option Nat} (h : Nodes heap as xs P N) (hn : as.Nodup) {j b : Nat}
    (hj : as[j]? = some b) (v : V) :
    ∃ heap1, storeValue heap (some b) v = some heap1 ∧ heap1.length = heap.length ∧
      Nodes heap1 as (xs.set j v) P N := by
  obtain ⟨x, hx, hb⟩ := h j b hj
  have hbl : b < heap.length := (List.getElem?_eq_some.1 hb).1
  have hjl : j < xs.length := (List.getElem?_eq_some.1 hx).1
  refine ⟨heap.set b (element.mk v (P j) (N j)), by simp [storeValue, hb], by simp, ?_⟩
  intro k a hk
  obtain ⟨y, hy, ha⟩ := h k a hk
  rw [List.getElem?_set, List.getElem?_set]
  by_cases hba : b = a
  · subst hba
    have hkj : k = j := nodup_getElem?_inj hn hk hj
    subst hkj
    exact ⟨v, by rw [if_pos rfl, if_pos hjl], by rw [if_pos rfl, if_pos hbl]⟩
  · have hkj : ¬ j = k := fun he => hba (by
      rw [← he, hj] at hk; exact Option.some.inj hk)
    exact ⟨y, by rw [if_neg hkj]; exact hy, by rw [if_neg hba]; exact ha⟩

theorem Chain.setWalkPrev_eq {l : DList V} {as : List Nat} {xs : List V} (h : Chain l as xs)
    (index : Int) (value : V) : ∀ (fuel : Nat) (e : Int) (i k : Nat) (out : List (SetLine V)),
      e = index + k → k ≤ fuel → k ≤ i → i < l.size →
      ∃ out1, setWalkPrev l.heap index value fuel e as[i]? out = some (as[i - k]?, out1) ∧
        out1.length = out.length + k := by
  intro fuel
  induction fuel with
  | zero =>
    intro e i k out he hk _ _
    have : k = 0 := by omega
    subst this
    exact ⟨out, by simp [setWalkPrev, he], rfl⟩
  | succ fuel ih =>
    intro e i k out he hk hki hi
    by_cases hz : k = 0
    · subst hz
      exact ⟨out, by simp [setWalkPrev, he], rfl⟩
    · have hne : ¬ e = index := by omega
      obtain ⟨x, _, hl⟩ := h.load_at hi
      have hp : prevPtr as i = as[i - 1]? := by
        simp [prevPtr, show i ≠ 0 by omega]
      obtain ⟨out1, e1, l1⟩ := ih (e - 1) (i - 1) (k - 1)
        (out ++ [⟨index, value, as[i]?, as[i - 1]?⟩]) (by omega) (by omega) (by omega) (by omega)
      refine ⟨out1, ?_, by simp at l1; omega⟩
      simp only [setWalkPrev, hne, if_false, hl, Option.some_bind, hp]
      rw [e1]
      congr 3; omega

theorem Chain.Set_chain {l : DList V} {as : List Nat} {xs : List V} (h : Chain l as xs)
    {index : Int} (hw : 0 ≤ index ∧ index < (l.size : Int)) (value : V) :
    ∃ l1 out, l.Set index value = some (l1, out) ∧ Chain l1 as (xs.set index.toNat value) ∧
      (out = [] ↔ ¬ ((l.size : Int) - index < index ∧ index ≠ (l.size : Int) - 1)) := by
  have hw2 : l.withinRange index = true := (withinRange_iff l index).2 hw
  have hi : index.toNat < l.size := by omega
  obtain ⟨a, x, ha, hx, hn⟩ := h.at hi
  obtain ⟨heap1, e1, hl1, n1⟩ := h.node.storeValue_nodes h.nodup ha value
  have hchain : Chain (⟨heap1, l.first, l.last, l.size⟩ : DList V) as (xs.set index.toNat value) :=
    ⟨h.len_as, by simp [h.len_xs], h.nodup, h.first, h.last, n1⟩
  by_cases hd : (l.size : Int) - index < index
  · obtain ⟨out1, w1, wl⟩ := h.setWalkPrev_eq index value l.size ((l.size : Int) - 1)
      (l.size - 1) (l.size - 1 - index.toNat) [] (by omega) (by omega) (by omega) (by omega)
    have hidx : l.size - 1 - (l.size - 1 - index.toNat) = index.toNat := by omega
    rw [hidx, ha] at w1
    refine ⟨_, out1, ?_, hchain, ?_⟩
    · simp only [DList.Set, hw2, Bool.not_true, Bool.false_eq_true, if_false, hd, if_true, h.last,
        w1, Option.some_bind, e1, Option.map_some']
    · rw [← List.length_eq_zero, wl]
      simp only [List.length_nil, Nat.zero_add]
      constructor
      · intro h0 hc; omega
      · intro h0
        by_contra hne
        exact h0 ⟨hd, by omega⟩
  · have w1 := h.walkNext_eq index l.size 0 0 index.toNat (by omega) (by omega) (by omega)
    rw [Nat.zero_add, ha] at w1
    refine ⟨_, [], ?_, hchain, ?_⟩
    · simp only [DList.Set, hw2, Bool.not_true, Bool.false_eq_true, if_false, hd, h.first, w1,
        Option.map_some', Option.some_bind, e1]
    · simp [hd]

end doublylinkedlist

namespace doublylinkedlist
variable {V : Type} [Inhabited V]

theorem Chain.prependStep_chain {l : DList V} {as : List Nat} {xs : List V} (h : Chain l as xs)
    (v : V) :
    ∃ l1, l.prependStep v = some l1 ∧ Chain l1 (l.heap.length :: as) (v :: xs) := by
  have hfresh : l.heap.length ∉ as := fun hm => Nat.lt_irrefl _ (h.lt_heap hm)
  have hnd : (l.heap.length :: as).Nodup := List.nodup_cons.2 ⟨hfresh, h.nodup⟩
  have hla := h.len_as
  have hlx := h.len_xs
  by_cases hz : l.size = 0
  · have has : as = [] := List.length_eq_zero.1 (hla.trans hz)
    have hxs : xs = [] := List.length_eq_zero.1 (hlx.trans hz)
    have hfirst : l.first = none := by rw [h.first, has]; rfl
    subst has hxs
    have he : l.prependStep v = some ⟨l.heap ++ [element.mk v none l.first], some l.heap.length,
        some l.heap.length, l.size + 1⟩ := by
      simp only [DList.prependStep, hz, if_true]
    refine ⟨_, he, ⟨by simp [hz], by simp [hz], hnd, by simp, by simp [hz], ?_⟩⟩
    intro i a hi
    have hi0 : i = 0 := by
      by_contra hne
      rw [List.getElem?_eq_none_iff.2 (by simp; omega)] at hi
      exact Option.noConfusion hi
    subst hi0
    simp only [List.getElem?_cons_zero, Option.some.injEq] at hi
    subst hi
    exact ⟨v, by simp, by simp [prevPtr, hfirst]⟩
  · obtain ⟨q, x, hq, hx, hn⟩ := h.at (show 0 < l.size by omega)
    have hql : q < l.heap.length := (List.getElem?_eq_some.1 hn).1
    have hp0 : prevPtr as 0 = none := by simp [prevPtr]
    rw [hp0] at hn
    have hst : storePrev (l.heap ++ [element.mk v none l.first]) l.first (some l.heap.length) =
        some ((l.heap ++ [element.mk v none l.first]).set q
          (element.mk x (some l.heap.length) as[0 + 1]?)) := by
      rw [h.first, hq]
      simp only [storePrev]
      rw [List.getElem?_append_left hql, hn]
      rfl
    have he : l.prependStep v = some ⟨(l.heap ++ [element.mk v none l.first]).set q
          (element.mk x (some l.heap.length) as[0 + 1]?), some l.heap.length, l.last,
        l.size + 1⟩ := by
      simp only [DList.prependStep, hz, if_false, hst, Option.map_some']
    refine ⟨_, he, ⟨by simp [hla], by simp [hlx], hnd, by simp, ?_, ?_⟩⟩
    · show l.last = (l.heap.length :: as)[l.size + 1 - 1]?
      rw [Nat.add_sub_cancel, h.last]
      have : l.size = (l.size - 1) + 1 := by omega
      conv_rhs => rw [this]
      rw [List.getElem?_cons_succ]
    · intro i a hi
      show ∃ y, (v :: xs)[i]? = some y ∧
        ((l.heap ++ [element.mk v none l.first]).set q _)[a]? = _
      beta_reduce
      rw [List.getElem?_set]
      cases i with
      | zero =>
        simp only [List.getElem?_cons_zero, Option.some.injEq] at hi
        subst hi
        have hne : ¬ q = l.heap.length := by omega
        refine ⟨v, by simp, ?_⟩
        rw [if_neg hne, List.getElem?_append_right (Nat.le_refl _)]
        simp [prevPtr, h.first]
      | succ k =>
        rw [List.getElem?_cons_succ] at hi
        obtain ⟨y, hy, hny⟩ := h.node k a hi
        have hal : a < l.heap.length := (List.getElem?_eq_some.1 hny).1
        refine ⟨y, by rw [List.getElem?_cons_succ]; exact hy, ?_⟩
        have hnext : (l.heap.length :: as)[k + 1 + 1]? = as[k + 1]? := by
          rw [List.getElem?_cons_succ]
        by_cases hqa : q = a
        · subst hqa
          have hk0 : k = 0 := nodup_getElem?_inj h.nodup hi hq
          subst hk0
          have hy2 : y = x := by rw [hx] at hy; exact (Option.some.inj hy).symm
          rw [if_pos rfl, if_pos (by simp; omega), hnext, hy2]
          simp [prevPtr]
        · have hk0 : k ≠ 0 := fun he => hqa (by
            rw [he, hq] at hi; exact Option.some.inj hi)
          rw [if_neg hqa, List.getElem?_append_left hal, hny, hnext]
          have hpp : prevPtr (l.heap.length :: as) (k + 1) = prevPtr as k := by
            simp only [prevPtr, if_neg hk0, Nat.add_sub_cancel]
            rw [if_neg (by omega)]
            have : k = (k - 1) + 1 := by omega
            conv_lhs => rw [this]
            rw [List.getElem?_cons_succ]
          rw [hpp]

theorem Chain.foldl_prependStep (ws : List V) : ∀ {l : DList V} {as : List Nat} {xs : List V},
    Chain l as xs →
      ∃ l1 as1, ws.foldlM DList.prependStep l = some l1 ∧ Chain l1 as1 (ws.reverse ++ xs) := by
  induction ws with
  | nil => intro l as xs h; exact ⟨l, as, rfl, by simpa using h⟩
  | cons w ws ih =>
    intro l as xs h
    obtain ⟨l1, e1, c1⟩ := h.prependStep_chain w
    obtain ⟨l2, as2, e2, c2⟩ := ih c1
    exact ⟨l2, as2, by simp [List.foldlM, e1, e2], by simpa using c2⟩

theorem Chain.Prepend_chain {l : DList V} {as : List Nat} {xs : List V} (h : Chain l as xs)
    (vs : List V) : ∃ l1 as1, l.Prepend vs = some l1 ∧ Chain l1 as1 (vs ++ xs) := by
  obtain ⟨l1, as1, e1, c1⟩ := h.foldl_prependStep vs.reverse
  exact ⟨l1, as1, e1, by simpa using c1⟩

theorem Chain.swapLoop_eq {l : DList V} {as : List Nat} {xs : List V} (h : Chain l as xs)
    {a b : Nat} (hab : a ≠ b) (ha : a < l.size) (hb : b < l.size) :
    ∀ (fuel e : Nat), e ≤ max a b + 1 → max a b + 1 ≤ e + fuel →
      swapLoop l.heap (a : Int) (b : Int) fuel (e : Int) as[e]?
        (if a < e then as[a]? else none) (if b < e then as[b]? else none) =
        some (as[a]?, as[b]?) := by
  have hsa : ∃ p, as[a]? = some p := by
    have hlt : a < as.length := by rw [h.len_as]; exact ha
    exact ⟨_, List.getElem?_eq_getElem hlt⟩
  have hsb : ∃ p, as[b]? = some p := by
    have hlt : b < as.length := by rw [h.len_as]; exact hb
    exact ⟨_, List.getElem?_eq_getElem hlt⟩
  obtain ⟨pa, hpa⟩ := hsa
  obtain ⟨pb, hpb⟩ := hsb
  intro fuel
  induction fuel with
  | zero =>
    intro e he hf
    have h1 : a < e := by omega
    have h2 : b < e := by omega
    simp [swapLoop, h1, h2, hpa, hpb]
  | succ fuel ih =>
    intro e he hf
    by_cases hdone : a < e ∧ b < e
    · simp [swapLoop, hdone.1, hdone.2, hpa, hpb]
    · have hcond : (if a < e then as[a]? else none) = none ∨
          (if b < e then as[b]? else none) = none := by
        by_cases h1 : a < e
        · right; rw [if_neg (fun h2 => hdone ⟨h1, h2⟩)]
        · left; rw [if_neg h1]
      have hel : e < l.size := by omega
      obtain ⟨x, _, hl⟩ := h.load_at hel
      have hrec := ih (e + 1) (by omega) (by omega)
      simp only [swapLoop, hcond, if_true, hl, Option.some_bind]
      have e1 : (if (e : Int) = (a : Int) then as[e]? else if a < e then as[a]? else none) =
          (if a < e + 1 then as[a]? else none) := by
        by_cases hea : e = a
        · subst hea; simp
        · have : ¬ (e : Int) = (a : Int) := by omega
          rw [if_neg this]
          by_cases h1 : a < e
          · rw [if_pos h1, if_pos (by omega)]
          · rw [if_neg h1, if_neg (by omega)]
      have e2 : (if (e : Int) = (a : Int) then (if b < e then as[b]? else none)
          else if (e : Int) = (b : Int) then as[e]? else if b < e then as[b]? else none) =
          (if b < e + 1 then as[b]? else none) := by
        by_cases hea : e = a
        · subst hea
          rw [if_pos rfl]
          by_cases h1 : b < e
          · rw [if_pos h1, if_pos (by omega)]
          · rw [if_neg h1, if_neg (by omega)]
        · have : ¬ (e : Int) = (a : Int) := by omega
          rw [if_neg this]
          by_cases heb : e = b
          · subst heb; simp
          · have : ¬ (e : Int) = (b : Int) := by omega
            rw [if_neg this]
            by_cases h1 : b < e
            · rw [if_pos h1, if_pos (by omega)]
            · rw [if_neg h1, if_neg (by omega)]
      rw [e1, e2]
      have hcast : ((e : Int) + 1) = ((e + 1 : Nat) : Int) := by push_cast; rfl
      rw [hcast]
      exact hrec

theorem Chain.Swap_chain {l : DList V} {as : List Nat} {xs : List V} (h : Chain l as xs)
    (i j : Int) :
    ∃ l1, l.Swap i j = some l1 ∧
      Chain l1 as (if (0 ≤ i ∧ i < (l.size : Int)) ∧ (0 ≤ j ∧ j < (l.size : Int)) then
        (xs.set i.toNat (xs.getD j.toNat default)).set j.toNat (xs.getD i.toNat default)
        else xs) := by
  by_cases hw : (0 ≤ i ∧ i < (l.size : Int)) ∧ (0 ≤ j ∧ j < (l.size : Int))
  · rw [if_pos hw]
    have hwi : l.withinRange i = true := (withinRange_iff l i).2 hw.1
    have hwj : l.withinRange j = true := (withinRange_iff l j).2 hw.2
    have hi : i.toNat < l.size := by omega
    have hj : j.toNat < l.size := by omega
    obtain ⟨pa, xa, ha, hxa, hna⟩ := h.at hi
    obtain ⟨pb, xb, hb, hxb, hnb⟩ := h.at hj
    have gxa : xs.getD i.toNat default = xa := by simp [hxa]
    have gxb : xs.getD j.toNat default = xb := by simp [hxb]
    rw [gxa, gxb]
    by_cases hij : i = j
    · subst hij
      have hxab : xa = xb := by rw [hxa] at hxb; exact Option.some.inj hxb
      subst hxab
      refine ⟨l, by simp [DList.Swap], ?_⟩
      have hs : (xs.set i.toNat xa).set i.toNat xa = xs := by
        rw [List.set_set]
        apply List.ext_getElem?
        intro k
        rw [List.getElem?_set]
        split_ifs with h1 h2
        · rw [← h1, hxa]
        · rw [← h1, List.getElem?_eq_none_iff.2 (by omega)]
        · rfl
      rw [hs]
      exact h
    · have hab : i.toNat ≠ j.toNat := by omega
      have hloop := h.swapLoop_eq hab hi hj l.size 0 (by omega) (by
        have : max i.toNat j.toNat < l.size := max_lt hi hj
        omega)
      simp only [Nat.not_lt_zero, if_false, Nat.cast_zero] at hloop
      rw [show ((i.toNat : Nat) : Int) = i by omega, show ((j.toNat : Nat) : Int) = j by omega,
        ← h.first, ha, hb] at hloop
      obtain ⟨heap1, s1, _, n1⟩ := h.node.storeValue_nodes h.nodup ha xb
      obtain ⟨heap2, s2, _, n2⟩ := n1.storeValue_nodes h.nodup hb xa
      refine ⟨⟨heap2, l.first, l.last, l.size⟩, ?_, ?_⟩
      · simp only [DList.Swap, hwi, hwj, Bool.and_self, ne_eq, hij, not_false_eq_true,
          decide_True, if_true, hloop, Option.some_bind, load, hna, hnb, s1, s2,
          Option.map_some']
      · exact ⟨h.len_as, by simp [h.len_xs], h.nodup, h.first, h.last, n2⟩
  · rw [if_neg hw]
    have hw2 : (l.withinRange i && l.withinRange j) = false := by
      rw [← Bool.not_eq_true, Bool.and_eq_true, withinRange_iff, withinRange_iff]; exact hw
    exact ⟨l, by simp [DList.Swap, hw2], h⟩

theorem indexed_take_succ (xs : List V) {e : Nat} {x : V} (hx : xs[e]? = some x) :
    indexed (xs.take (e + 1)) = indexed (xs.take e) ++ [((e : Int), x)] := by
  have hlt : e < xs.length := (List.getElem?_eq_some.1 hx).1
  have hlen : (xs.take e).length = e := by simp; omega
  rw [List.take_succ, hx]
  simp [indexed, List.enum_append, hlen, List.enumFrom_singleton]

theorem Chain.Prev_eq {l : DList V} {as : List Nat} {xs : List V} (h : Chain l as xs)
    {e : Nat} (he : e ≤ l.size) {el : Option Nat} (hel : e < l.size → el = as[e]?) :
    Iterator.Prev l ⟨(e : Int), el⟩ = some (⟨(e : Int) - 1, prevPtr as e⟩, decide (0 < e)) := by
  have hidx : (if 0 ≤ (e : Int) then (e : Int) - 1 else (e : Int)) = (e : Int) - 1 := by
    rw [if_pos (by omega)]
  simp only [Iterator.Prev, hidx]
  by_cases hz : e = 0
  · subst hz
    have hw : l.withinRange (-1) = false := by
      rw [← Bool.not_eq_true, withinRange_iff]; omega
    simp [hw, prevPtr]
  · have hw : l.withinRange ((e : Int) - 1) = true :=
      (withinRange_iff l _).2 ⟨by omega, by omega⟩
    have hp : prevPtr as e = as[e - 1]? := by simp [prevPtr, hz]
    have hpos : 0 < e := by omega
    simp only [hw, Bool.not_true, Bool.false_eq_true, if_false, hpos, decide_True]
    by_cases hn : e = l.size
    · have : (e : Int) - 1 = (l.size : Int) - 1 := by omega
      rw [if_pos this, h.last, hp, hn]
    · have hlt : e < l.size := by omega
      have : ¬ (e : Int) - 1 = (l.size : Int) - 1 := by omega
      obtain ⟨x, _, hl⟩ := h.load_at hlt
      rw [if_neg this, hel hlt, hl]
      simp

theorem Chain.nextLoop_eq {l : DList V} {as : List Nat} {xs : List V} (h : Chain l as xs) :
    ∀ (fuel e : Nat), e ≤ l.size → l.size - e < fuel →
      Iterator.nextLoop l fuel ⟨(e : Int) - 1, prevPtr as e⟩ (indexed (xs.take e)) =
        some (⟨(l.size : Int), none⟩, indexed xs) := by
  intro fuel
  induction fuel with
  | zero => intro e _ hf; omega
  | succ fuel ih =>
    intro e he hf
    simp only [Iterator.nextLoop, h.Next_eq he, Option.some_bind]
    by_cases hlt : e < l.size
    · obtain ⟨x, hx, hl⟩ := h.load_at hlt
      have hnext : (⟨(e : Int), as[e]?⟩ : Iterator) =
          ⟨((e + 1 : Nat) : Int) - 1, prevPtr as (e + 1)⟩ := by
        simp [prevPtr]
      simp only [hlt, decide_True, Bool.not_true, Bool.false_eq_true, if_false, Iterator.Value, hl,
        Option.map_some', Option.some_bind, Iterator.Index]
      rw [← indexed_take_succ xs hx, hnext]
      exact ih (e + 1) (by omega) (by omega)
    · have hee : e = l.size := by omega
      have hnone : as[e]? = none := List.getElem?_eq_none_iff.2 (by rw [h.len_as]; omega)
      simp only [hlt, decide_False, Bool.not_false, if_true, hnone]
      rw [hee, ← h.len_xs, List.take_length]

theorem Chain.prevLoop_eq {l : DList V} {as : List Nat} {xs : List V} (h : Chain l as xs) :
    ∀ (e fuel : Nat) (el : Option Nat) (seen : List (Int × V)), e ≤ l.size → e < fuel →
      (e < l.size → el = as[e]?) →
      Iterator.prevLoop l fuel ⟨(e : Int), el⟩ seen =
        some (⟨-1, none⟩, seen ++ (indexed (xs.take e)).reverse) := by
  intro e
  induction e with
  | zero =>
    intro fuel el seen he hf hel
    obtain ⟨f, rfl⟩ : ∃ f, fuel = f + 1 := ⟨fuel - 1, by omega⟩
    have hp := h.Prev_eq he hel
    simp only [Nat.cast_zero] at hp
    simp [Iterator.prevLoop, hp, indexed, prevPtr]
  | succ e ih =>
    intro fuel el seen he hf hel
    obtain ⟨f, rfl⟩ : ∃ f, fuel = f + 1 := ⟨fuel - 1, by omega⟩
    obtain ⟨x, hx, hl⟩ := h.load_at (show e < l.size by omega)
    have hp : prevPtr as (e + 1) = as[e]? := by simp [prevPtr]
    have hidx : ((e + 1 : Nat) : Int) - 1 = (e : Int) := by omega
    simp only [Iterator.prevLoop, h.Prev_eq he hel, Option.some_bind, Nat.zero_lt_succ, decide_True,
      Bool.not_true, Bool.false_eq_true, if_false, hp, hidx, Iterator.Value, hl, Option.map_some',
      Iterator.Index]
    rw [ih f as[e]? _ (by omega) (by omega) (fun _ => rfl), indexed_take_succ xs hx]
    simp

end doublylinkedlist

namespace doublylinkedlist
variable {V : Type} [Inhabited V]

/-- C11. On a well-formed list with `Values() = xs` and `0 ≤ index < Size()`,
`Remove(index)` returns, `Values()` becomes `xs[0:index] ++ xs[index+1:]`, `Size()` is one
less and the list is still well formed (so a one-element list becomes the empty list). -/
theorem Remove_drops_indexed_element (l : DList V) (xs : List V) (index : Int)
    (hwf : WellFormed l) (hv : l.Values = some xs) (hi : 0 ≤ index ∧ index < l.Size) :
    ∃ l1, l.Remove index = some l1 ∧
      l1.Values = some (xs.take index.toNat ++ xs.drop (index.toNat + 1)) ∧
      l1.Size = l.Size - 1 ∧ WellFormed l1 ∧
      (l.Size = 1 → l1.Values = some [] ∧ l1.first = none ∧ l1.last = none) := by
  obtain ⟨as, c⟩ := hwf.chain_of_Values hv
  obtain ⟨l1, e1, c1⟩ := c.Remove_chain hi
  have hlen : index.toNat < xs.length := by
    have := c.len_xs
    simp only [DList.Size] at hi
    omega
  refine ⟨l1, e1, ?_, ?_, ⟨_, _, c1⟩, ?_⟩
  · rw [← List.eraseIdx_eq_take_drop_succ]; exact c1.Values_eq
  · rw [c1.size_eq, c.size_eq, List.length_eraseIdx_of_lt hlen]
    omega
  · intro h1
    have hx1 : xs.length = 1 := by
      have := c.size_eq; omega
    have hnil : xs.eraseIdx index.toNat = [] :=
      List.eraseIdx_eq_nil.2 (Or.inr ⟨hx1, by omega⟩)
    have hs0 : l1.size = 0 := by
      have := c1.len_xs
      rw [hnil] at this
      simpa using this.symm
    have has : as.eraseIdx index.toNat = [] :=
      List.length_eq_zero.1 (c1.len_as.trans hs0)
    refine ⟨by rw [c1.Values_eq, hnil], ?_, ?_⟩
    · rw [c1.first, has]; rfl
    · rw [c1.last, has]; rfl

theorem Remove_drops_indexed_element_witness :
    WellFormed sampleList ∧ sampleList.Values = some [10, 20, 30, 40, 50] ∧
      (0 ≤ (0 : Int) ∧ (0 : Int) < sampleList.Size) ∧
      ∃ l1, sampleList.Remove 0 = some l1 ∧
        l1.Values = some ([10, 20, 30, 40, 50].take (0 : Int).toNat ++
          [10, 20, 30, 40, 50].drop ((0 : Int).toNat + 1)) ∧
        l1.Size = sampleList.Size - 1 ∧ WellFormed l1 ∧
        (sampleList.Size = 1 → l1.Values = some [] ∧ l1.first = none ∧ l1.last = none) :=
  ⟨sampleList_wellFormed, by decide, by decide,
    Remove_drops_indexed_element sampleList [10, 20, 30, 40, 50] 0 sampleList_wellFormed
      (by decide) (by decide)⟩

/-- C12. For every list, `Remove(i)` with `i < 0` or `i ≥ Size()`, and `Insert(j, vs...)`
and `Set(j, v)` with `j < 0` or `j > Size()`, return without a panic and leave the list
as it was, so that `Values()` and `Size()` are unchanged; `Set` prints nothing. -/
theorem out_of_range_mutators_do_nothing (l : DList V) (i j : Int) (vs : List V) (v : V)
    (hi : i < 0 ∨ l.Size ≤ i) (hj : j < 0 ∨ l.Size < j) :
    (∃ l1, l.Remove i = some l1 ∧ l1.Values = l.Values ∧ l1.Size = l.Size ∧ l1 = l) ∧
    (∃ l1, l.Insert j vs = some l1 ∧ l1.Values = l.Values ∧ l1.Size = l.Size ∧ l1 = l) ∧
    (∃ l1, l.Set j v = some (l1, []) ∧ l1.Values = l.Values ∧ l1.Size = l.Size ∧ l1 = l) := by
  simp only [DList.Size] at hi hj
  have hwi : l.withinRange i = false := by
    rw [← Bool.not_eq_true, withinRange_iff]; omega
  have hwj : l.withinRange j = false := by
    rw [← Bool.not_eq_true, withinRange_iff]; omega
  have hne : ¬ j = (l.size : Int) := by omega
  exact ⟨⟨l, by simp [DList.Remove, hwi], rfl, rfl, rfl⟩,
    ⟨l, by simp [DList.Insert, hwj, hne], rfl, rfl, rfl⟩,
    ⟨l, by simp [DList.Set, hwj, hne], rfl, rfl, rfl⟩⟩

theorem out_of_range_mutators_do_nothing_witness :
    ((5 : Int) < 0 ∨ sampleList.Size ≤ 5) ∧ ((-1 : Int) < 0 ∨ sampleList.Size < -1) ∧
    ((∃ l1, sampleList.Remove 5 = some l1 ∧ l1.Values = sampleList.Values ∧
        l1.Size = sampleList.Size ∧ l1 = sampleList) ∧
      (∃ l1, sampleList.Insert (-1) [7, 8] = some l1 ∧ l1.Values = sampleList.Values ∧
        l1.Size = sampleList.Size ∧ l1 = sampleList) ∧
      (∃ l1, sampleList.Set (-1) 7 = some (l1, []) ∧ l1.Values = sampleList.Values ∧
        l1.Size = sampleList.Size ∧ l1 = sampleList)) :=
  ⟨by decide, by decide,
    out_of_range_mutators_do_nothing sampleList 5 (-1) [7, 8] 7 (by decide) (by decide)⟩

/-- C13. On a well-formed list with `Values() = xs`: when `0 ≤ index < Size()`,
`Set(index, v)` returns, `Values()` is `xs` with position `index` overwritten by `v` (every
other position keeps its value) and `Size()` is unchanged; when `index == Size()`,
`Set(index, v)` appends `v`. -/
theorem Set_overwrites_or_appends (l : DList V) (xs : List V) (index : Int) (v : V)
    (hwf : WellFormed l) (hv : l.Values = some xs) (hi : 0 ≤ index ∧ index ≤ l.Size) :
    ∃ l1 out ys, l.Set index v = some (l1, out) ∧ l1.Values = some ys ∧ WellFormed l1 ∧
      (index < l.Size →
        ys = xs.set index.toNat v ∧ ys[index.toNat]? = some v ∧
        (∀ k, k ≠ index.toNat → ys[k]? = xs[k]?) ∧ l1.Size = l.Size) ∧
      (index = l.Size → ys = xs ++ [v] ∧ l1.Size = l.Size + 1) := by
  obtain ⟨as, c⟩ := hwf.chain_of_Values hv
  have hsz := c.size_eq
  by_cases hlt : index < l.Size
  · have hw : 0 ≤ index ∧ index < (l.size : Int) := by
      simp only [DList.Size] at hlt; exact ⟨hi.1, hlt⟩
    obtain ⟨l1, out, e1, c1, _⟩ := c.Set_chain hw v
    have hil : index.toNat < xs.length := by omega
    refine ⟨l1, out, _, e1, c1.Values_eq, ⟨_, _, c1⟩, fun _ => ⟨rfl, ?_, ?_, ?_⟩,
      fun he => absurd he (by omega)⟩
    · rw [List.getElem?_set, if_pos rfl, if_pos hil]
    · intro k hk
      rw [List.getElem?_set, if_neg (fun he => hk he.symm)]
    · rw [c1.size_eq, hsz, List.length_set]
  · have he : index = (l.size : Int) := by
      simp only [DList.Size] at hlt hi; omega
    have hw2 : l.withinRange index = false := by
      rw [← Bool.not_eq_true, withinRange_iff]; omega
    obtain ⟨l1, as1, e1, c1⟩ := c.Add_chain [v]
    refine ⟨l1, [], _, by rw [he] at hw2; simp [DList.Set, hw2, he, e1], c1.Values_eq,
      ⟨_, _, c1⟩,
      fun h => absurd h hlt, fun _ => ⟨rfl, ?_⟩⟩
    rw [c1.size_eq, hsz]
    simp

theorem Set_overwrites_or_appends_witness :
    WellFormed sampleList ∧ sampleList.Values = some [10, 20, 30, 40, 50] ∧
      (0 ≤ (3 : Int) ∧ (3 : Int) ≤ sampleList.Size) ∧
      ∃ l1 out ys, sampleList.Set 3 7 = some (l1, out) ∧ l1.Values = some ys ∧ WellFormed l1 ∧
        ((3 : Int) < sampleList.Size →
          ys = [10, 20, 30, 40, 50].set (3 : Int).toNat 7 ∧ ys[(3 : Int).toNat]? = some 7 ∧
          (∀ k, k ≠ (3 : Int).toNat → ys[k]? = [10, 20, 30, 40, 50][k]?) ∧
          l1.Size = sampleList.Size) ∧
        ((3 : Int) = sampleList.Size →
          ys = [10, 20, 30, 40, 50] ++ [7] ∧ l1.Size = sampleList.Size + 1) :=
  ⟨sampleList_wellFormed, by decide, by decide,
    Set_overwrites_or_appends sampleList [10, 20, 30, 40, 50] 3 7 sampleList_wellFormed
      (by decide) (by decide)⟩

/-- C14. On a well-formed list with `Values() = xs`, `Prepend(vs...)` returns, `Values()`
becomes `vs ++ xs` (the batch in argument order) and `Size()` grows by `len(vs)`. -/
theorem Prepend_puts_batch_in_front (l : DList V) (xs vs : List V)
    (hwf : WellFormed l) (hv : l.Values = some xs) :
    ∃ l1, l.Prepend vs = some l1 ∧ l1.Values = some (vs ++ xs) ∧
      l1.Size = l.Size + (vs.length : Int) ∧ WellFormed l1 := by
  obtain ⟨as, c⟩ := hwf.chain_of_Values hv
  obtain ⟨l1, as1, e1, c1⟩ := c.Prepend_chain vs
  refine ⟨l1, e1, c1.Values_eq, ?_, ⟨_, _, c1⟩⟩
  rw [c1.size_eq, c.size_eq]
  simp
  omega

theorem Prepend_puts_batch_in_front_witness :
    WellFormed sampleList ∧ sampleList.Values = some [10, 20, 30, 40, 50] ∧
      ∃ l1, sampleList.Prepend [1, 2] = some l1 ∧
        l1.Values = some ([1, 2] ++ [10, 20, 30, 40, 50]) ∧
        l1.Size = sampleList.Size + (([1, 2] : List Nat).length : Int) ∧ WellFormed l1 :=
  ⟨sampleList_wellFormed, by decide,
    Prepend_puts_batch_in_front sampleList [10, 20, 30, 40, 50] [1, 2] sampleList_wellFormed
      (by decide)⟩

/-- C15. On a well-formed list with `Values() = xs`, `Swap(i, j)` returns and `Size()` is
unchanged; when both indices are in `[0, Size())`, `Values()` is `xs` with the values at
`i` and `j` exchanged and every other position unchanged; when either index is out of
range, `Values()` is still `xs`. -/
theorem Swap_exchanges_two_positions (l : DList V) (xs : List V) (i j : Int)
    (hwf : WellFormed l) (hv : l.Values = some xs) :
    ∃ l1 ys, l.Swap i j = some l1 ∧ l1.Values = some ys ∧ l1.Size = l.Size ∧ WellFormed l1 ∧
      ((0 ≤ i ∧ i < l.Size) ∧ (0 ≤ j ∧ j < l.Size) →
        ys[i.toNat]? = xs[j.toNat]? ∧ ys[j.toNat]? = xs[i.toNat]? ∧
        ∀ k, k ≠ i.toNat → k ≠ j.toNat → ys[k]? = xs[k]?) ∧
      (¬ ((0 ≤ i ∧ i < l.Size) ∧ (0 ≤ j ∧ j < l.Size)) → ys = xs) := by
  obtain ⟨as, c⟩ := hwf.chain_of_Values hv
  obtain ⟨l1, e1, c1⟩ := c.Swap_chain i j
  have hsz := c.size_eq
  have hlx := c.len_xs
  refine ⟨l1, _, e1, c1.Values_eq, ?_, ⟨_, _, c1⟩, ?_, ?_⟩
  · rw [c1.size_eq, hsz]
    split_ifs <;> simp
  · intro hw
    simp only [DList.Size] at hw
    rw [if_pos hw]
    have hi : i.toNat < xs.length := by omega
    have hj : j.toNat < xs.length := by omega
    have gi : xs[i.toNat]? = some (xs.getD i.toNat default) := by
      rw [List.getD_eq_getElem?_getD, List.getElem?_eq_getElem hi]; rfl
    have gj : xs[j.toNat]? = some (xs.getD j.toNat default) := by
      rw [List.getD_eq_getElem?_getD, List.getElem?_eq_getElem hj]; rfl
    refine ⟨?_, ?_, ?_⟩
    · rw [List.getElem?_set, List.getElem?_set]
      by_cases hij : j.toNat = i.toNat
      · rw [if_pos hij, if_pos (by simpa using hj), hij]
        exact gi.symm
      · rw [if_neg hij, if_pos rfl, if_pos hi]
        exact gj.symm
    · rw [List.getElem?_set, if_pos rfl, if_pos (by simpa using hj)]
      exact gi.symm
    · intro k hki hkj
      rw [List.getElem?_set, if_neg (fun h => hkj h.symm), List.getElem?_set,
        if_neg (fun h => hki h.symm)]
  · intro hw
    simp only [DList.Size] at hw
    rw [if_neg hw]

theorem Swap_exchanges_two_positions_witness :
    WellFormed sampleList ∧ sampleList.Values = some [10, 20, 30, 40, 50] ∧
      ∃ l1 ys, sampleList.Swap 1 4 = some l1 ∧ l1.Values = some ys ∧
        l1.Size = sampleList.Size ∧ WellFormed l1 ∧
        ((0 ≤ (1 : Int) ∧ (1 : Int) < sampleList.Size) ∧
            (0 ≤ (4 : Int) ∧ (4 : Int) < sampleList.Size) →
          ys[(1 : Int).toNat]? = [10, 20, 30, 40, 50][(4 : Int).toNat]? ∧
          ys[(4 : Int).toNat]? = [10, 20, 30, 40, 50][(1 : Int).toNat]? ∧
          ∀ k, k ≠ (1 : Int).toNat → k ≠ (4 : Int).toNat → ys[k]? = [10, 20, 30, 40, 50][k]?) ∧
        (¬ ((0 ≤ (1 : Int) ∧ (1 : Int) < sampleList.Size) ∧
            (0 ≤ (4 : Int) ∧ (4 : Int) < sampleList.Size)) → ys = [10, 20, 30, 40, 50]) :=
  ⟨sampleList_wellFormed, by decide,
    Swap_exchanges_two_positions sampleList [10, 20, 30, 40, 50] 1 4 sampleList_wellFormed
      (by decide)⟩

end doublylinkedlist

namespace arraylist
variable {V : Type} [Inhabited V]

/-- C19. For an array list of size `n` and an iterator at index `p` with `-1 ≤ p ≤ n`:
`Next()` moves to `p + 1` when `p < n` and stays at `n` otherwise, and returns true
exactly when the new index is below `n`; `Prev()` moves to `p - 1` when `p ≥ 0` and stays
at `-1` otherwise, and returns true exactly when the new index is in `[0, n)`; `Begin()`
sets the index to `-1` and `End()` to `n`. After each of the four calls the index is in
`[-1, n]`, and `Next()` and `Prev()` move it by at most one. -/
theorem iterator_index_stays_in_range (l : ArrayList V) (p : Int)
    (hp : -1 ≤ p ∧ p ≤ l.Size) :
    ((Iterator.Next l ⟨p⟩).1.index = (if p < l.Size then p + 1 else l.Size) ∧
      ((Iterator.Next l ⟨p⟩).2 = true ↔ (Iterator.Next l ⟨p⟩).1.index < l.Size)) ∧
    ((Iterator.Prev l ⟨p⟩).1.index = (if 0 ≤ p then p - 1 else -1) ∧
      ((Iterator.Prev l ⟨p⟩).2 = true ↔
        0 ≤ (Iterator.Prev l ⟨p⟩).1.index ∧ (Iterator.Prev l ⟨p⟩).1.index < l.Size)) ∧
    (Iterator.Begin ⟨p⟩).index = -1 ∧ (Iterator.End l ⟨p⟩).index = l.Size ∧
    (-1 ≤ (Iterator.Next l ⟨p⟩).1.index ∧ (Iterator.Next l ⟨p⟩).1.index ≤ l.Size ∧
      -1 ≤ (Iterator.Prev l ⟨p⟩).1.index ∧ (Iterator.Prev l ⟨p⟩).1.index ≤ l.Size ∧
      -1 ≤ (Iterator.Begin ⟨p⟩).index ∧ (Iterator.Begin ⟨p⟩).index ≤ l.Size ∧
      -1 ≤ (Iterator.End l ⟨p⟩).index ∧ (Iterator.End l ⟨p⟩).index ≤ l.Size) ∧
    (p ≤ (Iterator.Next l ⟨p⟩).1.index ∧ (Iterator.Next l ⟨p⟩).1.index ≤ p + 1 ∧
      p - 1 ≤ (Iterator.Prev l ⟨p⟩).1.index ∧ (Iterator.Prev l ⟨p⟩).1.index ≤ p) := by
  simp only [ArrayList.Size] at hp
  have hn : (Iterator.Next l ⟨p⟩).1.index = (if p < (l.size : Int) then p + 1 else (l.size : Int)) := by
    simp only [Iterator.Next]
    split_ifs <;> omega
  have hnb : (Iterator.Next l ⟨p⟩).2 = l.withinRange (Iterator.Next l ⟨p⟩).1.index := rfl
  have hv : (Iterator.Prev l ⟨p⟩).1.index = (if 0 ≤ p then p - 1 else -1) := by
    simp only [Iterator.Prev]
    split_ifs <;> omega
  have hvb : (Iterator.Prev l ⟨p⟩).2 = l.withinRange (Iterator.Prev l ⟨p⟩).1.index := rfl
  have hb : (Iterator.Begin ⟨p⟩).index = -1 := rfl
  have he : (Iterator.End l ⟨p⟩).index = (l.size : Int) := rfl
  simp only [ArrayList.Size]
  rw [hnb, hvb, arr_withinRange_iff, arr_withinRange_iff, hb, he, hn, hv]
  refine ⟨⟨rfl, ?_⟩, ⟨rfl, Iff.rfl⟩, rfl, rfl, ?_, ?_⟩
  · constructor
    · intro h; exact h.2
    · intro h; refine ⟨?_, h⟩; split_ifs <;> omega
  · split_ifs <;> omega
  · split_ifs <;> omega

theorem iterator_index_stays_in_range_witness :
    (-1 ≤ (3 : Int) ∧ (3 : Int) ≤ sampleArrayList.Size) ∧
    (((Iterator.Next sampleArrayList ⟨3⟩).1.index =
        (if (3 : Int) < sampleArrayList.Size then 3 + 1 else sampleArrayList.Size) ∧
      ((Iterator.Next sampleArrayList ⟨3⟩).2 = true ↔
        (Iterator.Next sampleArrayList ⟨3⟩).1.index < sampleArrayList.Size)) ∧
    ((Iterator.Prev sampleArrayList ⟨3⟩).1.index = (if 0 ≤ (3 : Int) then 3 - 1 else -1) ∧
      ((Iterator.Prev sampleArrayList ⟨3⟩).2 = true ↔
        0 ≤ (Iterator.Prev sampleArrayList ⟨3⟩).1.index ∧
          (Iterator.Prev sampleArrayList ⟨3⟩).1.index < sampleArrayList.Size)) ∧
    (Iterator.Begin ⟨3⟩).index = -1 ∧
    (Iterator.End sampleArrayList ⟨3⟩).index = sampleArrayList.Size ∧
    (-1 ≤ (Iterator.Next sampleArrayList ⟨3⟩).1.index ∧
      (Iterator.Next sampleArrayList ⟨3⟩).1.index ≤ sampleArrayList.Size ∧
      -1 ≤ (Iterator.Prev sampleArrayList ⟨3⟩).1.index ∧
      (Iterator.Prev sampleArrayList ⟨3⟩).1.index ≤ sampleArrayList.Size ∧
      -1 ≤ (Iterator.Begin ⟨3⟩).index ∧ (Iterator.Begin ⟨3⟩).index ≤ sampleArrayList.Size ∧
      -1 ≤ (Iterator.End sampleArrayList ⟨3⟩).index ∧
      (Iterator.End sampleArrayList ⟨3⟩).index ≤ sampleArrayList.Size) ∧
    ((3 : Int) ≤ (Iterator.Next sampleArrayList ⟨3⟩).1.index ∧
      (Iterator.Next sampleArrayList ⟨3⟩).1.index ≤ 3 + 1 ∧
      (3 : Int) - 1 ≤ (Iterator.Prev sampleArrayList ⟨3⟩).1.index ∧
      (Iterator.Prev sampleArrayList ⟨3⟩).1.index ≤ 3)) :=
  ⟨by decide, iterator_index_stays_in_range sampleArrayList 3 (by decide)⟩

end arraylist

namespace doublylinkedlist
variable {V : Type} [Inhabited V]

/-- C20. On a well-formed list with `Values() = xs` of length `n`, the loop `for
it.Next()` from a fresh iterator ends (the call after the `n`-th visit returns false)
having visited `(0, xs[0]), ..., (n-1, xs[n-1])` as `(Index(), Value())`, and the loop
`for it.Prev()` run next on the same iterator ends having visited the same `n` pairs in
reverse order. -/
theorem forward_then_backward_visits_mirror (l : DList V) (xs : List V)
    (hwf : WellFormed l) (hv : l.Values = some xs) :
    ∃ it1 it2,
      Iterator.nextLoop l (l.size + 1) Iterator.new [] = some (it1, indexed xs) ∧
      Iterator.prevLoop l (l.size + 1) it1 [] = some (it2, (indexed xs).reverse) ∧
      (indexed xs).length = l.size ∧ (indexed xs).map Prod.snd = xs ∧
      (indexed xs).map Prod.fst = (List.range l.size).map fun (k : Nat) => (k : Int) := by
  obtain ⟨as, c⟩ := hwf.chain_of_Values hv
  have h1 := c.nextLoop_eq (l.size + 1) 0 (Nat.zero_le _) (by omega)
  have h2 := c.prevLoop_eq l.size (l.size + 1) none [] (Nat.le_refl _) (by omega)
    (fun h => absurd h (Nat.lt_irrefl _))
  rw [← c.len_xs, List.take_length, List.nil_append, c.len_xs] at h2
  refine ⟨_, _, ?_, h2, ?_, ?_, ?_⟩
  · simpa [indexed, Iterator.new, prevPtr] using h1
  · simp [indexed, c.len_xs]
  · simp only [indexed, List.map_map]
    have : (Prod.snd ∘ fun p : Nat × V => ((p.1 : Int), p.2)) = Prod.snd := rfl
    rw [this, List.enum_map_snd]
  · simp only [indexed, List.map_map]
    have : (Prod.fst ∘ fun p : Nat × V => ((p.1 : Int), p.2)) =
        (fun k : Nat => (k : Int)) ∘ Prod.fst := rfl
    rw [this, ← List.map_map, List.enum_map_fst, c.len_xs]

theorem forward_then_backward_visits_mirror_witness :
    WellFormed sampleList ∧ sampleList.Values = some [10, 20, 30, 40, 50] ∧
      ∃ it1 it2,
        Iterator.nextLoop sampleList (sampleList.size + 1) Iterator.new [] =
          some (it1, indexed [10, 20, 30, 40, 50]) ∧
        Iterator.prevLoop sampleList (sampleList.size + 1) it1 [] =
          some (it2, (indexed [10, 20, 30, 40, 50]).reverse) ∧
        (indexed [10, 20, 30, 40, 50]).length = sampleList.size ∧
        (indexed [10, 20, 30, 40, 50]).map Prod.snd = [10, 20, 30, 40, 50] ∧
        (indexed [10, 20, 30, 40, 50]).map Prod.fst =
          (List.range sampleList.size).map fun (k : Nat) => (k : Int) :=
  ⟨sampleList_wellFormed, by decide,
    forward_then_backward_visits_mirror sampleList [10, 20, 30, 40, 50] sampleList_wellFormed
      (by decide)⟩

end doublylinkedlist

namespace linkedhashset
open doublylinkedlist
variable {V : Type} [Inhabited V] [DecidableEq V]

theorem freshItems_nil_of_nodup (items : List V) : ∀ acc : List V, (acc ++ items).Nodup →
    items.foldl (fun acc item => if item ∈ acc then acc else acc ++ [item]) acc =
      acc ++ items := by
  induction items with
  | nil => intro acc _; simp
  | cons item items ih =>
    intro acc hn
    have hni : item ∉ acc := by
      intro hm
      have := (List.nodup_append.1 hn).2.2
      exact this hm (List.mem_cons_self _ _)
    have hn1 : (acc ++ [item] ++ items).Nodup := by simpa using hn
    simp only [List.foldl_cons, hni, if_false]
    rw [ih _ hn1]
    simp

/-- C18. Let `s` be a reachable set whose `ToJSON()` returned `data`, and let the codec be
lossless (decoding the encoding of a list returns that list). Then `FromJSON(data)`, on
any set `t` whatever it holds, returns without an error and leaves `t` with `Values()`
equal to `s.Values()`, in the same order. -/
theorem FromJSON_of_ToJSON_restores_Values {D E : Type} (marshal : List V → Except E D)
    (unmarshal : D → Except E (List V)) (s t : LinkedHashSet V) (data : D)
    (hcodec : ∀ xs d, marshal xs = .ok d → unmarshal d = .ok xs)
    (hr : Reachable s) (hj : s.ToJSON marshal = some (.ok data)) :
    ∃ t1 xs, t.FromJSON unmarshal data = some (t1, none) ∧ s.Values = some xs ∧
      t1.Values = some xs := by
  obtain ⟨as, xs, i⟩ := hr.inv
  have hv := i.set_Values_eq
  simp only [LinkedHashSet.ToJSON, hv, Option.map_some', Option.some.injEq] at hj
  have hd := hcodec xs data hj
  obtain ⟨t1, as1, e1, i1⟩ := (inv_Clear t).Add_inv xs
  have hf : freshItems [] xs = xs := by
    have := freshItems_nil_of_nodup xs [] (by simpa using i.nodup)
    simpa [freshItems] using this
  rw [hf, List.nil_append] at i1
  refine ⟨t1, xs, ?_, hv, i1.set_Values_eq⟩
  simp only [LinkedHashSet.FromJSON, hd, e1, Option.map_some']

theorem FromJSON_of_ToJSON_restores_Values_witness :
    (∀ (xs d : List Nat), (Except.ok xs : Except Unit (List Nat)) = .ok d →
        (Except.ok d : Except Unit (List Nat)) = .ok xs) ∧
      Reachable sampleSet ∧
      sampleSet.ToJSON (fun xs => (Except.ok xs : Except Unit (List Nat))) =
        some (.ok [3, 1, 2]) ∧
      ∃ t1 xs, (LinkedHashSet.empty : LinkedHashSet Nat).FromJSON
          (fun d => (Except.ok d : Except Unit (List Nat))) [3, 1, 2] = some (t1, none) ∧
        sampleSet.Values = some xs ∧ t1.Values = some xs :=
  ⟨fun _ _ h => by cases h; rfl, sampleSet_reachable, rfl,
    FromJSON_of_ToJSON_restores_Values (fun xs => (Except.ok xs : Except Unit (List Nat)))
      (fun d => (Except.ok d : Except Unit (List Nat))) sampleSet LinkedHashSet.empty [3, 1, 2]
      (fun _ _ h => by cases h; rfl) sampleSet_reachable rfl⟩

end linkedhashset

/-! ## Linked hash map: the JSON text and the order recovered from it -/

theorem commaJoin_eq_intercalate : ∀ (xs : List (List Nat)) (i : Int),
    commaJoin (i + (xs.length : Int) - 1) i xs = List.intercalate [44] xs
  | [], _ => by simp [commaJoin, List.intercalate]
  | [x], i => by simp [commaJoin, List.intercalate]
  | x :: y :: rest, i => by
    have ih := commaJoin_eq_intercalate (y :: rest) (i + 1)
    have hl : i + ((x :: y :: rest).length : Int) - 1 = i + 1 + ((y :: rest).length : Int) - 1 := by
      simp only [List.length_cons]; push_cast; ring
    have hne : i ≠ i + 1 + ((y :: rest).length : Int) - 1 := by
      simp only [List.length_cons]; push_cast; omega
    rw [hl]
    simp only [commaJoin, hne, ne_eq, not_false_eq_true, if_true] at ih ⊢
    rw [ih]
    simp [List.intercalate, List.intersperse]

theorem lookup_of_mem_nodup {K V : Type} [DecidableEq K] : ∀ (entries : List (K × V)) (k : K) (v : V),
    (entries.map Prod.fst).Nodup → (k, v) ∈ entries → entries.lookup k = some v
  | [], _, _, _, h => by simp at h
  | (k1, v1) :: rest, k, v, hn, h => by
    simp only [List.map_cons, List.nodup_cons] at hn
    rcases List.mem_cons.1 h with h1 | h1
    · cases h1
      simp
    · have hne : k ≠ k1 := by
        intro he
        subst he
        exact hn.1 (List.mem_map.2 ⟨(k, v), h1, rfl⟩)
      rw [List.lookup_cons]
      have : (k == k1) = false := by simpa using hne
      rw [this]
      exact lookup_of_mem_nodup rest k v hn.2 h1

namespace linkedhashmap
open doublylinkedlist
variable {K V : Type} [Inhabited K] [Inhabited V] [DecidableEq K]

theorem Holds.entry_at {m : Map K V} {entries : List (K × V)} (h : Holds m entries) {e : Nat}
    {kv : K × V} (he : entries[e]? = some kv) :
    (entries.map Prod.fst)[e]? = some kv.1 ∧ m.table kv.1 = some kv.2 := by
  refine ⟨by simp [he], ?_⟩
  rw [h.table]
  exact lookup_of_mem_nodup entries kv.1 kv.2 h.nodup (List.mem_iff_getElem?.2 ⟨e, he⟩)

theorem Holds.toJSONLoop_eq {E : Type} {m : Map K V} {entries : List (K × V)} {as : List Nat}
    (h : Holds m entries) (c : Chain m.ordering as (entries.map Prod.fst))
    (marshalK : K → Except E (List Nat)) (marshalV : V → Except E (List Nat))
    (ek : K → List Nat) (ev : V → List Nat)
    (henc : ∀ kv ∈ entries, marshalK kv.1 = .ok (ek kv.1) ∧ marshalV kv.2 = .ok (ev kv.2))
    (lastIndex : Int) :
    ∀ (fuel e : Nat) (buf : List Nat), e ≤ m.ordering.size → m.ordering.size - e < fuel →
      toJSONLoop marshalK marshalV m lastIndex fuel ⟨(e : Int) - 1, prevPtr as e⟩ (e : Int) buf =
        some (.ok (buf ++ commaJoin lastIndex (e : Int)
          ((entries.drop e).map fun kv => ek kv.1 ++ [58] ++ ev kv.2))) := by
  have hlen : entries.length = m.ordering.size := by
    have := c.len_xs; simpa using this
  intro fuel
  induction fuel with
  | zero => intro e _ _ hf; omega
  | succ fuel ih =>
    intro e buf he hf
    simp only [toJSONLoop, iterNext, iterKey, iterValue, c.Next_eq he, Option.some_bind]
    by_cases hlt : e < m.ordering.size
    · have hel : e < entries.length := by omega
      have hkv : entries[e]? = some entries[e] := List.getElem?_eq_getElem hel
      obtain ⟨hk, ht⟩ := h.entry_at hkv
      obtain ⟨x, hx, hl⟩ := c.load_at hlt
      have hxk : x = entries[e].1 := by
        rw [hk] at hx; exact (Option.some.inj hx).symm
      obtain ⟨mk, mv⟩ := henc entries[e] (List.getElem_mem hel)
      have hnext : (⟨(e : Int), as[e]?⟩ : Iterator) =
          ⟨((e + 1 : Nat) : Int) - 1, prevPtr as (e + 1)⟩ := by
        simp [prevPtr]
      have hcast : (e : Int) + 1 = ((e + 1 : Nat) : Int) := by push_cast; rfl
      simp only [hlt, decide_True, Bool.not_true, Bool.false_eq_true, if_false, Iterator.Value, hl,
        Option.map_some', Option.some_bind, hxk, mk, ht, Option.getD_some, mv]
      rw [hnext, hcast, ih (e + 1) _ (by omega) (by omega), List.drop_eq_getElem_cons hel]
      simp only [List.map_cons, commaJoin, hcast]
      simp [List.append_assoc]
    · have hee : entries.length ≤ e := by omega
      simp [hlt, List.drop_eq_nil_of_le hee, commaJoin]

end linkedhashmap

namespace linkedhashmap
open doublylinkedlist
variable {K V : Type} [Inhabited K] [Inhabited V] [DecidableEq K]

theorem holds_empty : Holds (Map.empty : Map K V) [] :=
  ⟨⟨[], chain_empty⟩, List.nodup_nil, fun _ => rfl⟩

theorem holds_Clear (m : Map K V) : Holds m.Clear [] :=
  ⟨⟨[], chain_Clear _⟩, List.nodup_nil, fun _ => rfl⟩

theorem Holds.Put_fresh {m : Map K V} {entries : List (K × V)} (h : Holds m entries) (k : K)
    (v : V) (hk : k ∉ entries.map Prod.fst) :
    ∃ m1, m.Put k v = some m1 ∧ Holds m1 (entries ++ [(k, v)]) := by
  obtain ⟨as, c⟩ := h.chain
  have hnone : m.table k = none := by
    rw [h.table, List.lookup_eq_none_iff]
    intro p hp
    have : k ≠ p.1 := fun he => hk (List.mem_map.2 ⟨p, hp, he.symm⟩)
    simpa using this
  obtain ⟨l1, e1, c1, _⟩ := c.addStep_chain k
  have e2 : m.ordering.Append [k] = some l1 := by
    simp [DList.Append, DList.Add, List.foldlM, e1]
  refine ⟨⟨Function.update m.table k (some v), l1⟩, by simp [Map.Put, hnone, e2], ?_, ?_, ?_⟩
  · exact ⟨_, by simpa using c1⟩
  · rw [List.map_append, List.nodup_append]
    refine ⟨h.nodup, by simp, ?_⟩
    intro a ha hb
    simp only [List.map_cons, List.map_nil, List.mem_singleton] at hb
    exact hk (hb ▸ ha)
  · intro k1
    show Function.update m.table k (some v) k1 = _
    rw [List.lookup_append]
    by_cases he : k1 = k
    · subst he
      rw [Function.update_same, ← h.table, hnone]
      simp
    · rw [Function.update_noteq he, h.table]
      have : (k1 == k) = false := by simpa using he
      cases hl : List.lookup k1 entries <;> simp [List.lookup_cons, this]

theorem Holds.foldl_Put (kvs : List (K × V)) : ∀ {m : Map K V} {entries : List (K × V)},
    Holds m entries → ((entries ++ kvs).map Prod.fst).Nodup →
    ∃ m1, kvs.foldlM (fun (m1 : Map K V) kv => m1.Put kv.1 kv.2) m = some m1 ∧
      Holds m1 (entries ++ kvs) := by
  induction kvs with
  | nil => intro m entries h _; exact ⟨m, rfl, by simpa using h⟩
  | cons kv kvs ih =>
    intro m entries h hn
    have hk : kv.1 ∉ entries.map Prod.fst := by
      intro hm
      rw [List.map_append, List.nodup_append] at hn
      exact hn.2.2 hm (by simp)
    obtain ⟨m1, e1, h1⟩ := h.Put_fresh kv.1 kv.2 hk
    obtain ⟨m2, e2, h2⟩ := ih h1 (by simpa using hn)
    exact ⟨m2, by simp [List.foldlM, e1, e2], by simpa using h2⟩

theorem Holds.Keys_eq {m : Map K V} {entries : List (K × V)} (h : Holds m entries) :
    m.Keys = some (entries.map Prod.fst) := by
  obtain ⟨as, c⟩ := h.chain
  exact c.Values_eq

theorem Holds.map_Values_eq {m : Map K V} {entries : List (K × V)} (h : Holds m entries) :
    m.Values = some (entries.map Prod.snd) := by
  obtain ⟨as, c⟩ := h.chain
  simp only [Map.Values, c.Values_eq, Option.map_some', Option.some.injEq, List.map_map]
  apply List.map_congr_left
  intro kv hkv
  simp only [Function.comp_apply, h.table]
  rw [lookup_of_mem_nodup entries kv.1 kv.2 h.nodup hkv]
  rfl

theorem Holds.map_Size_eq {m : Map K V} {entries : List (K × V)} (h : Holds m entries) :
    m.Size = (entries.length : Int) := by
  obtain ⟨as, c⟩ := h.chain
  have := c.len_xs
  simp only [Map.Size, DList.Size]
  simp at this
  omega

end linkedhashmap

theorem map_eq_of_injOn {K : Type} (f : K → Int) : ∀ (l1 l2 : List K),
    l1.map f = l2.map f → (∀ x ∈ l1, ∀ y ∈ l2, f x = f y → x = y) → l1 = l2
  | [], [], _, _ => rfl
  | [], _ :: _, h, _ => by simp at h
  | _ :: _, [], h, _ => by simp at h
  | a :: l1, b :: l2, h, hinj => by
    simp only [List.map_cons, List.cons.injEq] at h
    have hab : a = b := hinj a (List.mem_cons_self _ _) b (List.mem_cons_self _ _) h.1
    have := map_eq_of_injOn f l1 l2 h.2 (fun x hx y hy =>
      hinj x (List.mem_cons_of_mem _ hx) y (List.mem_cons_of_mem _ hy))
    rw [hab, this]

theorem sorted_keys_unique {K : Type} (f : K → Int) (l1 l2 : List K) (hp : l1.Perm l2)
    (h1 : l1.Pairwise fun a b => f a ≤ f b) (h2 : (l2.map f).Pairwise (· < ·)) : l1 = l2 := by
  have hperm : (l1.map f).Perm (l2.map f) := hp.map f
  have s1 : (l1.map f).Sorted (· ≤ ·) := List.pairwise_map.2 h1
  have s2 : (l2.map f).Sorted (· ≤ ·) := List.Pairwise.imp (fun h => le_of_lt h) h2
  have heq : l1.map f = l2.map f := List.eq_of_perm_of_sorted hperm s1 s2
  have hnd : (l2.map f).Nodup := List.Pairwise.imp (fun h => ne_of_lt h) h2
  have hinj := List.inj_on_of_nodup_map hnd
  exact map_eq_of_injOn f l1 l2 heq (fun x hx y hy hxy =>
    hinj (hp.subset hx) hy hxy)

theorem indexFold_eq {K V : Type} [DecidableEq K] (g : K → Int) (elements : List (K × V)) :
    ∀ init : (K → Int) × List K,
      (elements.foldl (fun (st : (K → Int) × List K) kv =>
          (Function.update st.1 kv.1 (g kv.1), st.2 ++ [kv.1])) init).2 =
        init.2 ++ elements.map Prod.fst ∧
      ∀ k ∈ elements.map Prod.fst,
        (elements.foldl (fun (st : (K → Int) × List K) kv =>
          (Function.update st.1 kv.1 (g kv.1), st.2 ++ [kv.1])) init).1 k = g k := by
  induction elements with
  | nil => intro init; simp
  | cons kv rest ih =>
    intro init
    obtain ⟨r1, r2⟩ := ih (Function.update init.1 kv.1 (g kv.1), init.2 ++ [kv.1])
    simp only [List.foldl_cons, List.map_cons]
    refine ⟨by rw [r1]; simp, ?_⟩
    intro k hk
    by_cases hm : k ∈ rest.map Prod.fst
    · exact r2 k hm
    · have hkv : k = kv.1 := by
        rcases List.mem_cons.1 hk with h | h
        · exact h
        · exact absurd h hm
      have hrest : ∀ (init1 : (K → Int) × List K),
          (rest.foldl (fun (st : (K → Int) × List K) kv =>
            (Function.update st.1 kv.1 (g kv.1), st.2 ++ [kv.1])) init1).1 k = init1.1 k := by
        clear r1 r2 ih hk
        induction rest with
        | nil => intro init1; rfl
        | cons kv2 rest2 ih2 =>
          intro init1
          have hne : k ≠ kv2.1 := fun he => hm (by simp [he])
          have hm2 : k ∉ rest2.map Prod.fst := fun h => hm (by simp [h])
          simp only [List.foldl_cons]
          rw [ih2 hm2]
          show Function.update init1.1 kv2.1 (g kv2.1) k = init1.1 k
          rw [Function.update_noteq hne]
      rw [hrest, hkv]
      show Function.update init.1 kv.1 (g kv.1) kv.1 = g kv.1
      rw [Function.update_same]

namespace linkedhashmap
open doublylinkedlist
variable {K V : Type} [Inhabited K] [Inhabited V] [DecidableEq K]

theorem Holds.foldl_Put_lookup (elements : List (K × V)) (kvs : List (K × V)) :
    ∀ {m : Map K V} {entries : List (K × V)},
    Holds m entries → ((entries ++ kvs).map Prod.fst).Nodup →
    (∀ kv ∈ kvs, elements.lookup kv.1 = some kv.2) →
    ∃ m1, (kvs.map Prod.fst).foldlM
        (fun (m1 : Map K V) key => m1.Put key ((elements.lookup key).getD default)) m = some m1 ∧
      Holds m1 (entries ++ kvs) := by
  induction kvs with
  | nil => intro m entries h _ _; exact ⟨m, rfl, by simpa using h⟩
  | cons kv kvs ih =>
    intro m entries h hn hl
    have hk : kv.1 ∉ entries.map Prod.fst := by
      intro hm
      rw [List.map_append, List.nodup_append] at hn
      exact hn.2.2 hm (by simp)
    obtain ⟨m1, e1, h1⟩ := h.Put_fresh kv.1 kv.2 hk
    obtain ⟨m2, e2, h2⟩ := ih h1 (by simpa using hn)
      (fun p hp => hl p (List.mem_cons_of_mem _ hp))
    refine ⟨m2, ?_, by simpa using h2⟩
    simp only [List.map_cons, List.foldlM, hl kv (List.mem_cons_self _ _), Option.getD_some, e1,
      Option.bind_eq_bind, Option.some_bind]
    exact e2

/-- `FromJSON` rebuilds the map from the decoded entries taken in the order of the first
offsets of their encoded keys in the text. -/
theorem FromJSON_sorts_by_offset {E : Type} (marshalK : K → Except E (List Nat))
    (unmarshal : List Nat → Except E (List (K × V)))
    (sort : List K → (K → K → Int) → List K) (t : Map K V) (data : List Nat)
    (elements sorted : List (K × V))
    (hdec : unmarshal data = .ok elements) (hperm : elements.Perm sorted)
    (hnd : (sorted.map Prod.fst).Nodup)
    (hsort : ∀ (ks : List K) (f : K → Int), (sort ks fun a b => f a - f b).Perm ks ∧
      (sort ks fun a b => f a - f b).Pairwise fun a b => f a ≤ f b)
    (hoff : (sorted.map fun kv => bytesIndex data (escOf marshalK kv.1)).Pairwise (· < ·)) :
    ∃ t1, t.FromJSON marshalK unmarshal sort data = some (t1, none) ∧ Holds t1 sorted := by
  obtain ⟨f1, f2⟩ := indexFold_eq (fun k => bytesIndex data (escOf marshalK k)) elements
    (fun _ => 0, [])
  simp only [List.nil_append] at f1
  generalize hr : (elements.foldl (fun (st : (K → Int) × List K) kv =>
      (Function.update st.1 kv.1 (bytesIndex data (escOf marshalK kv.1)), st.2 ++ [kv.1]))
      (fun _ => 0, [])) = r at f1 f2
  obtain ⟨s1, s2⟩ := hsort r.2 r.1
  have hkeys : (r.2).Perm (sorted.map Prod.fst) := by
    rw [f1]; exact hperm.map _
  have hmem : ∀ k ∈ sorted.map Prod.fst, r.1 k = bytesIndex data (escOf marshalK k) := by
    intro k hk
    exact f2 k ((hperm.map Prod.fst).mem_iff.2 hk)
  have hoff2 : ((sorted.map Prod.fst).map r.1).Pairwise (· < ·) := by
    have : (sorted.map Prod.fst).map r.1 =
        sorted.map fun kv => bytesIndex data (escOf marshalK kv.1) := by
      rw [List.map_map]
      apply List.map_congr_left
      intro kv hkv
      exact hmem kv.1 (List.mem_map.2 ⟨kv, hkv, rfl⟩)
    rw [this]; exact hoff
  have hsorted : (sort r.2 fun a b => r.1 a - r.1 b) = sorted.map Prod.fst :=
    sorted_keys_unique r.1 _ _ (s1.trans hkeys) s2 hoff2
  have hnde : (elements.map Prod.fst).Nodup := (hperm.map Prod.fst).nodup_iff.2 hnd
  have hlook : ∀ kv ∈ sorted, elements.lookup kv.1 = some kv.2 := by
    intro kv hkv
    exact lookup_of_mem_nodup elements kv.1 kv.2 hnde (hperm.mem_iff.2 hkv)
  obtain ⟨t1, e1, h1⟩ := (holds_Clear t).foldl_Put_lookup elements sorted (by simpa using hnd)
    hlook
  refine ⟨t1, ?_, by simpa using h1⟩
  simp only [Map.FromJSON, hdec, hr, hsorted, e1, Option.map_some']

end linkedhashmap

theorem sortBy_sorts {K : Type} (ks : List K) (f : K → Int) :
    (sortBy ks fun a b => f a - f b).Perm ks ∧
      (sortBy ks fun a b => f a - f b).Pairwise fun a b => f a ≤ f b := by
  haveI : IsTotal K (fun a b => f a - f b ≤ 0) := ⟨fun a b => by
    show f a - f b ≤ 0 ∨ f b - f a ≤ 0
    omega⟩
  haveI : IsTrans K (fun a b => f a - f b ≤ 0) := ⟨fun a b c h1 h2 => by
    show f a - f c ≤ 0
    have h1' : f a - f b ≤ 0 := h1
    have h2' : f b - f c ≤ 0 := h2
    omega⟩
  refine ⟨List.perm_insertionSort _ ks, ?_⟩
  have := List.sorted_insertionSort (fun a b => f a - f b ≤ 0) ks
  exact List.Pairwise.imp (fun {a b} (h : f a - f b ≤ 0) => by omega) this

namespace linkedhashmap
open doublylinkedlist
variable {K V : Type} [Inhabited K] [Inhabited V] [DecidableEq K]

theorem holds_of_puts (entries : List (K × V)) (m : Map K V)
    (hn : (entries.map Prod.fst).Nodup)
    (hm : entries.foldlM (fun (m1 : Map K V) kv => m1.Put kv.1 kv.2) Map.empty = some m) :
    Holds m entries := by
  obtain ⟨m1, e1, h1⟩ := (holds_empty : Holds (Map.empty : Map K V) []).foldl_Put entries
    (by simpa using hn)
  rw [hm] at e1
  rw [List.nil_append] at h1
  exact (Option.some.inj e1) ▸ h1

theorem sampleMap_holds : Holds sampleMap [("a", "c"), ("b", "z"), ("c", "w")] :=
  holds_of_puts _ _ (by decide) rfl

theorem orderedMap_holds : Holds orderedMap [("b", "x"), ("a", "y")] :=
  holds_of_puts _ _ (by decide) rfl

end linkedhashmap

theorem length_intercalate_comma : ∀ (xs : List (List Nat)),
    (List.intercalate [44] xs).length = (xs.map List.length).sum + (xs.length - 1)
  | [] => by simp [List.intercalate]
  | [x] => by simp [List.intercalate]
  | x :: y :: rest => by
    have ih := length_intercalate_comma (y :: rest)
    simp only [List.intercalate, List.intersperse, List.flatten, List.length_append,
      List.length_cons, List.length_nil, List.map_cons, List.sum_cons] at ih ⊢
    omega

namespace linkedhashmap
open doublylinkedlist
variable {K V : Type} [Inhabited K] [Inhabited V] [DecidableEq K]

theorem Holds.ToJSON_eq {E : Type} (marshalK : K → Except E (List Nat))
    (marshalV : V → Except E (List Nat)) (ek : K → List Nat) (ev : V → List Nat)
    (m : Map K V) (entries : List (K × V)) (hm : Holds m entries)
    (henc : ∀ kv ∈ entries, marshalK kv.1 = .ok (ek kv.1) ∧ marshalV kv.2 = .ok (ev kv.2)) :
    m.ToJSON marshalK marshalV =
        some (.ok ([123] ++
          List.intercalate [44] (entries.map fun (kv : K × V) => ek kv.1 ++ [58] ++ ev kv.2) ++
          [125])) := by
  obtain ⟨as, c⟩ := hm.chain
  have hloop := hm.toJSONLoop_eq c marshalK marshalV ek ev henc (m.Size - 1)
    (m.ordering.size + 1) 0 [123] (Nat.zero_le _) (by omega)
  have hsz := hm.map_Size_eq
  have hlast : m.Size - 1 =
      (0 : Int) + ((entries.map fun (kv : K × V) => ek kv.1 ++ [58] ++ ev kv.2).length : Int) -
        1 := by
    rw [hsz]; simp
  have hcj := commaJoin_eq_intercalate
    (entries.map fun (kv : K × V) => ek kv.1 ++ [58] ++ ev kv.2) 0
  rw [← hlast] at hcj
  simp only [Nat.cast_zero, List.drop_zero] at hloop
  rw [hcj] at hloop
  have hnew : (Iterator.new : Iterator) = ⟨(0 : Int) - 1, prevPtr as 0⟩ := by
    simp [Iterator.new, prevPtr]
  simp only [Map.ToJSON, hnew, hloop, Option.map_some']
  rfl

/-- C17. For a map that holds the entries `(k1,v1), ..., (kn,vn)` in insertion order,
all of whose keys and values encode without error, `ToJSON` returns the opening brace,
the entries `enc(ki) : enc(vi)` in that order joined by commas, and the closing brace:
`n - 1` separating commas (none for `n ≤ 1`), no trailing comma, and the two braces alone
for the empty map. -/
theorem ToJSON_joins_entries_in_order {E : Type} (marshalK : K → Except E (List Nat))
    (marshalV : V → Except E (List Nat)) (ek : K → List Nat) (ev : V → List Nat)
    (m : Map K V) (entries : List (K × V)) (hm : Holds m entries)
    (henc : ∀ kv ∈ entries, marshalK kv.1 = .ok (ek kv.1) ∧ marshalV kv.2 = .ok (ev kv.2)) :
    m.ToJSON marshalK marshalV =
        some (.ok ([123] ++
          List.intercalate [44] (entries.map fun (kv : K × V) => ek kv.1 ++ [58] ++ ev kv.2) ++ [125])) ∧
      ([123] ++ List.intercalate [44] (entries.map fun (kv : K × V) => ek kv.1 ++ [58] ++ ev kv.2) ++
          [125]).length =
        2 + ((entries.map fun (kv : K × V) => ek kv.1 ++ [58] ++ ev kv.2).map List.length).sum +
          (entries.length - 1) ∧
      (entries = [] → m.ToJSON marshalK marshalV = some (.ok [123, 125])) := by
  have hmain := hm.ToJSON_eq marshalK marshalV ek ev m entries henc
  refine ⟨hmain, ?_, ?_⟩
  · simp only [List.length_append, List.length_cons, List.length_nil,
      length_intercalate_comma, List.length_map]
    omega
  · intro he
    rw [hmain, he]
    rfl

theorem ToJSON_joins_entries_in_order_witness :
    Holds sampleMap [("a", "c"), ("b", "z"), ("c", "w")] ∧
    (∀ kv ∈ [("a", "c"), ("b", "z"), ("c", "w")],
      (Except.ok (quote kv.1) : Except Unit (List Nat)) = .ok (quote kv.1) ∧
        (Except.ok (quote kv.2) : Except Unit (List Nat)) = .ok (quote kv.2)) ∧
    (sampleMap.ToJSON (fun s => (Except.ok (quote s) : Except Unit (List Nat)))
          (fun s => (Except.ok (quote s) : Except Unit (List Nat))) =
        some (.ok ([123] ++ List.intercalate [44]
          ([("a", "c"), ("b", "z"), ("c", "w")].map fun (kv : String × String) => quote kv.1 ++ [58] ++ quote kv.2)
          ++ [125])) ∧
      ([123] ++ List.intercalate [44]
          ([("a", "c"), ("b", "z"), ("c", "w")].map fun (kv : String × String) => quote kv.1 ++ [58] ++ quote kv.2)
          ++ [125]).length =
        2 + (([("a", "c"), ("b", "z"), ("c", "w")].map
            fun (kv : String × String) => quote kv.1 ++ [58] ++ quote kv.2).map List.length).sum +
          (([("a", "c"), ("b", "z"), ("c", "w")] : List (String × String)).length - 1) ∧
      (([("a", "c"), ("b", "z"), ("c", "w")] : List (String × String)) = [] →
        sampleMap.ToJSON (fun s => (Except.ok (quote s) : Except Unit (List Nat)))
          (fun s => (Except.ok (quote s) : Except Unit (List Nat))) = some (.ok [123, 125]))) :=
  ⟨sampleMap_holds, fun _ _ => ⟨rfl, rfl⟩,
    ToJSON_joins_entries_in_order (fun s => (Except.ok (quote s) : Except Unit (List Nat)))
      (fun s => (Except.ok (quote s) : Except Unit (List Nat))) quote quote sampleMap
      [("a", "c"), ("b", "z"), ("c", "w")] sampleMap_holds (fun _ _ => ⟨rfl, rfl⟩)⟩

/-- Order recovery on an input with string keys. The map with the entries `(a, c), (b, z),
(c, w)` in insertion order has keys none of whose encodings is a substring of another's. `ToJSON`
returns `sampleText`, in which the encoding of the key `c` first occurs inside the value
of `a`, before the key `b`. `FromJSON` of that text succeeds and leaves `Keys()` equal to
`[a, c, b]` and `Values()` to `[c, w, z]`, not `[a, b, c]` and `[c, z, w]`. -/
theorem FromJSON_of_ToJSON_reorders_keys :
    Holds sampleMap [("a", "c"), ("b", "z"), ("c", "w")] ∧
    sampleMap.Keys = some ["a", "b", "c"] ∧ sampleMap.Values = some ["c", "z", "w"] ∧
    (∀ k1 ∈ ["a", "b", "c"], ∀ k2 ∈ ["a", "b", "c"], k1 ≠ k2 →
      ¬ (quote k1 <:+: quote k2)) ∧
    sampleMap.ToJSON (fun s => (Except.ok (quote s) : Except Unit (List Nat)))
      (fun s => (Except.ok (quote s) : Except Unit (List Nat))) = some (.ok sampleText) ∧
    (["a", "b", "c"].map fun k => bytesIndex sampleText (quote k)) = [1, 9, 5] ∧
    ∃ t1, sampleMap.FromJSON (fun s => (Except.ok (quote s) : Except Unit (List Nat)))
        sampleDecode sortBy sampleText = some (t1, none) ∧
      t1.Keys = some ["a", "c", "b"] ∧ t1.Values = some ["c", "w", "z"] ∧
      t1.Keys ≠ sampleMap.Keys := by
  refine ⟨sampleMap_holds, by decide, by decide, by decide, rfl, by decide, _, rfl, ?_, ?_, ?_⟩ <;>
    decide

end linkedhashmap

namespace linkedhashmap
open doublylinkedlist
variable {K V : Type} [Inhabited K] [Inhabited V] [DecidableEq K]

/-- Round trip under a decoder that accepts the text. Let the map `m` hold `entries` in
insertion order, let `ToJSON(m)` return `data`, let the decoder return exactly these entries for `data` (in whatever
order `range` visits them), let `utils.Sort` sort, and let the first offsets in `data` of
the encoded keys be strictly increasing along the insertion order. Then `FromJSON(data)`,
on any map, succeeds and leaves it with the `Keys()` and `Values()` of `m`, in order. -/
theorem FromJSON_of_ToJSON_restores_order {E : Type} (marshalK : K → Except E (List Nat))
    (marshalV : V → Except E (List Nat)) (ek : K → List Nat) (ev : V → List Nat)
    (unmarshal : List Nat → Except E (List (K × V)))
    (sort : List K → (K → K → Int) → List K) (m t : Map K V) (data : List Nat)
    (entries elements : List (K × V)) (hm : Holds m entries)
    (henc : ∀ kv ∈ entries, marshalK kv.1 = .ok (ek kv.1) ∧ marshalV kv.2 = .ok (ev kv.2))
    (hj : m.ToJSON marshalK marshalV = some (.ok data))
    (hdec : unmarshal data = .ok elements) (hperm : elements.Perm entries)
    (hsort : ∀ (ks : List K) (f : K → Int), (sort ks fun a b => f a - f b).Perm ks ∧
      (sort ks fun a b => f a - f b).Pairwise fun a b => f a ≤ f b)
    (hoff : (entries.map fun (kv : K × V) => bytesIndex data (ek kv.1)).Pairwise (· < ·)) :
    ∃ t1 ks vs, t.FromJSON marshalK unmarshal sort data = some (t1, none) ∧
      m.Keys = some ks ∧ t1.Keys = some ks ∧ m.Values = some vs ∧ t1.Values = some vs ∧
      data = [123] ++
        List.intercalate [44] (entries.map fun (kv : K × V) => ek kv.1 ++ [58] ++ ev kv.2) ++
        [125] := by
  have hoff2 : (entries.map fun (kv : K × V) =>
      bytesIndex data (escOf marshalK kv.1)).Pairwise (· < ·) := by
    have : (entries.map fun (kv : K × V) => bytesIndex data (escOf marshalK kv.1)) =
        entries.map fun (kv : K × V) => bytesIndex data (ek kv.1) := by
      apply List.map_congr_left
      intro kv hkv
      simp only [escOf, (henc kv hkv).1]
    rw [this]; exact hoff
  obtain ⟨t1, e1, h1⟩ := FromJSON_sorts_by_offset marshalK unmarshal sort t data elements
    entries hdec hperm hm.nodup hsort hoff2
  have htext := hm.ToJSON_eq marshalK marshalV ek ev m entries henc
  rw [hj] at htext
  have hdata : data = [123] ++
      List.intercalate [44] (entries.map fun (kv : K × V) => ek kv.1 ++ [58] ++ ev kv.2) ++
      [125] := by
    injection htext with h2
    injection h2
  exact ⟨t1, _, _, e1, hm.Keys_eq, h1.Keys_eq, hm.map_Values_eq, h1.map_Values_eq, hdata⟩

theorem FromJSON_of_ToJSON_restores_order_witness :
    Holds orderedMap [("b", "x"), ("a", "y")] ∧
    (∀ kv ∈ [("b", "x"), ("a", "y")],
      (Except.ok (quote kv.1) : Except Unit (List Nat)) = .ok (quote kv.1) ∧
        (Except.ok (quote kv.2) : Except Unit (List Nat)) = .ok (quote kv.2)) ∧
    orderedMap.ToJSON (fun s => (Except.ok (quote s) : Except Unit (List Nat)))
      (fun s => (Except.ok (quote s) : Except Unit (List Nat))) = some (.ok orderedText) ∧
    orderedDecode orderedText = .ok [("a", "y"), ("b", "x")] ∧
    [("a", "y"), ("b", "x")].Perm [("b", "x"), ("a", "y")] ∧
    (∀ (ks : List String) (f : String → Int), (sortBy ks fun a b => f a - f b).Perm ks ∧
      (sortBy ks fun a b => f a - f b).Pairwise fun a b => f a ≤ f b) ∧
    ([("b", "x"), ("a", "y")].map fun (kv : String × String) =>
      bytesIndex orderedText (quote kv.1)).Pairwise (· < ·) ∧
    ∃ t1 ks vs, sampleMap.FromJSON (fun s => (Except.ok (quote s) : Except Unit (List Nat)))
        orderedDecode sortBy orderedText = some (t1, none) ∧
      orderedMap.Keys = some ks ∧ t1.Keys = some ks ∧ orderedMap.Values = some vs ∧
      t1.Values = some vs ∧
      orderedText = [123] ++ List.intercalate [44]
        ([("b", "x"), ("a", "y")].map fun (kv : String × String) =>
          quote kv.1 ++ [58] ++ quote kv.2) ++ [125] :=
  ⟨orderedMap_holds, fun _ _ => ⟨rfl, rfl⟩, rfl, rfl, by decide, sortBy_sorts, by decide,
    FromJSON_of_ToJSON_restores_order (fun s => (Except.ok (quote s) : Except Unit (List Nat)))
      (fun s => (Except.ok (quote s) : Except Unit (List Nat))) quote quote orderedDecode sortBy
      orderedMap sampleMap orderedText [("b", "x"), ("a", "y")] [("a", "y"), ("b", "x")]
      orderedMap_holds (fun _ _ => ⟨rfl, rfl⟩) rfl rfl (by decide) sortBy_sorts (by decide)⟩

end linkedhashmap

/-! ## Doubly-linked list: First and Last -/

namespace doublylinkedlist
variable {V : Type} [Inhabited V]

theorem Chain.First_eq {l : DList V} {as : List Nat} {xs : List V} (h : Chain l as xs)
    (it : Iterator) :
    Iterator.First l it = some (⟨0, as[0]?⟩, decide (0 < l.size)) := by
  have := h.Next_eq (Nat.zero_le l.size)
  simpa [Iterator.First, Iterator.Begin, prevPtr] using this

theorem Chain.Last_eq {l : DList V} {as : List Nat} {xs : List V} (h : Chain l as xs)
    (it : Iterator) :
    Iterator.Last l it = some (⟨(l.size : Int) - 1, prevPtr as l.size⟩, decide (0 < l.size)) := by
  have : Iterator.Prev l ⟨(l.size : Int), l.last⟩ = _ :=
    h.Prev_eq (Nat.le_refl l.size) (fun hlt => absurd hlt (Nat.lt_irrefl _))
  simpa [Iterator.Last, Iterator.End] using this

/-- C21. On a well-formed list with `Values() = xs`, for an iterator in any state
(any index, any current node): `First()` returns, with true exactly when the list is
non-empty, and then `Index()` is 0 and `Value()` is the first element; `Last()` returns,
with true exactly when the list is non-empty, and then `Index()` is `Size() - 1` and
`Value()` is the last element. -/
theorem First_and_Last_reach_the_ends (l : DList V) (xs : List V) (it : Iterator)
    (hwf : WellFormed l) (hv : l.Values = some xs) :
    (∃ it1 b, Iterator.First l it = some (it1, b) ∧ (b = true ↔ xs ≠ []) ∧
      (b = true → it1.Index = 0 ∧ Iterator.Value l it1 = xs.head? ∧ xs.head?.isSome)) ∧
    (∃ it2 b, Iterator.Last l it = some (it2, b) ∧ (b = true ↔ xs ≠ []) ∧
      (b = true → it2.Index = l.Size - 1 ∧ Iterator.Value l it2 = xs.getLast? ∧
        xs.getLast?.isSome)) := by
  obtain ⟨as, c⟩ := hwf.chain_of_Values hv
  have hne : 0 < l.size ↔ xs ≠ [] := by
    rw [← c.len_xs, List.length_pos]
  constructor
  · refine ⟨_, _, c.First_eq it, by simpa using hne, ?_⟩
    intro hb
    have hpos : 0 < l.size := by simpa using hb
    obtain ⟨x, hx, hl⟩ := c.load_at hpos
    refine ⟨rfl, ?_, ?_⟩
    · simp only [Iterator.Value, hl, Option.map_some']
      rw [List.head?_eq_getElem?, hx]
    · rw [List.head?_eq_getElem?, hx]; rfl
  · refine ⟨_, _, c.Last_eq it, by simpa using hne, ?_⟩
    intro hb
    have hpos : 0 < l.size := by simpa using hb
    have hp : prevPtr as l.size = as[l.size - 1]? := by
      simp [prevPtr, Nat.pos_iff_ne_zero.1 hpos]
    obtain ⟨x, hx, hl⟩ := c.load_at (show l.size - 1 < l.size by omega)
    have hg : xs.getLast? = some x := by
      rw [List.getLast?_eq_getElem?, c.len_xs, hx]
    refine ⟨rfl, ?_, ?_⟩
    · simp only [Iterator.Value, hp, hl, Option.map_some', hg]
    · rw [hg]; rfl

theorem First_and_Last_reach_the_ends_witness :
    WellFormed sampleList ∧ sampleList.Values = some [10, 20, 30, 40, 50] ∧
    ((∃ it1 b, Iterator.First sampleList ⟨3, some 3⟩ = some (it1, b) ∧
        (b = true ↔ [10, 20, 30, 40, 50] ≠ []) ∧
        (b = true → it1.Index = 0 ∧
          Iterator.Value sampleList it1 = [10, 20, 30, 40, 50].head? ∧
          ([10, 20, 30, 40, 50] : List Nat).head?.isSome)) ∧
      (∃ it2 b, Iterator.Last sampleList ⟨3, some 3⟩ = some (it2, b) ∧
        (b = true ↔ [10, 20, 30, 40, 50] ≠ []) ∧
        (b = true → it2.Index = sampleList.Size - 1 ∧
          Iterator.Value sampleList it2 = [10, 20, 30, 40, 50].getLast? ∧
          ([10, 20, 30, 40, 50] : List Nat).getLast?.isSome))) :=
  ⟨sampleList_wellFormed, by decide,
    First_and_Last_reach_the_ends sampleList [10, 20, 30, 40, 50] ⟨3, some 3⟩
      sampleList_wellFormed (by decide)⟩

end doublylinkedlist

/-! ## Linked hash set: the enumerable functions -/

namespace doublylinkedlist
variable {V : Type} [Inhabited V]

theorem indexed_length (xs : List V) : (indexed xs).length = xs.length := by
  simp [indexed]

theorem indexed_getElem? (xs : List V) (e : Nat) :
    (indexed xs)[e]? = (xs[e]?).map fun x => ((e : Int), x) := by
  simp only [indexed, List.getElem?_map, List.getElem?_enum]
  cases xs[e]? <;> simp

theorem indexed_drop (xs : List V) {e : Nat} {x : V} (hx : xs[e]? = some x) :
    (indexed xs).drop e = ((e : Int), x) :: (indexed xs).drop (e + 1) := by
  have h := indexed_getElem? xs e
  rw [hx, Option.map_some'] at h
  obtain ⟨hlt, hg⟩ := List.getElem?_eq_some.1 h
  rw [List.drop_eq_getElem_cons hlt, hg]

theorem indexed_drop_length (xs : List V) : (indexed xs).drop xs.length = [] := by
  rw [List.drop_eq_nil_iff, indexed_length]

/-- One turn of a loop `for it.Next()` on a chain, the iterator having made `e` calls. -/
theorem Chain.iter_turn {l : DList V} {as : List Nat} {xs : List V} (h : Chain l as xs)
    {e : Nat} (he : e < l.size) :
    ∃ x, xs[e]? = some x ∧
      Iterator.Next l ⟨(e : Int) - 1, prevPtr as e⟩ =
        some (⟨((e + 1 : Nat) : Int) - 1, prevPtr as (e + 1)⟩, true) ∧
      Iterator.Value l ⟨((e + 1 : Nat) : Int) - 1, prevPtr as (e + 1)⟩ = some x ∧
      Iterator.Index ⟨((e + 1 : Nat) : Int) - 1, prevPtr as (e + 1)⟩ = (e : Int) := by
  obtain ⟨x, hx, hl⟩ := h.load_at he
  have hnext : (⟨(e : Int), as[e]?⟩ : Iterator) =
      ⟨((e + 1 : Nat) : Int) - 1, prevPtr as (e + 1)⟩ := by
    simp [prevPtr]
  refine ⟨x, hx, ?_, ?_, ?_⟩
  · rw [h.Next_eq (Nat.le_of_lt he), hnext]; simp [he]
  · rw [← hnext]; simp [Iterator.Value, hl]
  · simp [Iterator.Index]

theorem Chain.iter_end {l : DList V} {as : List Nat} {xs : List V} (h : Chain l as xs) :
    Iterator.Next l ⟨(l.size : Int) - 1, prevPtr as l.size⟩ =
      some (⟨(l.size : Int), none⟩, false) := by
  have hnone : as[l.size]? = none := List.getElem?_eq_none_iff.2 (by rw [h.len_as])
  rw [h.Next_eq (Nat.le_refl _), hnone]
  simp

end doublylinkedlist

namespace linkedhashset
open doublylinkedlist
variable {V : Type} [Inhabited V] [DecidableEq V]

theorem anyLoop_eq (f : Int → V → Bool) {s : LinkedHashSet V} {as : List Nat} {xs : List V}
    (h : Chain s.ordering as xs) :
    ∀ (fuel e : Nat), e ≤ s.ordering.size → s.ordering.size - e < fuel →
      LinkedHashSet.anyLoop f s fuel ⟨(e : Int) - 1, prevPtr as e⟩ =
        some (((indexed xs).drop e).any fun p => f p.1 p.2) := by
  intro fuel
  induction fuel with
  | zero => intro e _ hf; omega
  | succ fuel ih =>
    intro e he hf
    by_cases hlt : e < s.ordering.size
    · obtain ⟨x, hx, hn, hv, hi⟩ := h.iter_turn hlt
      simp only [LinkedHashSet.anyLoop, hn, Option.some_bind, hv, hi, Bool.not_true,
        Bool.false_eq_true, if_false]
      rw [indexed_drop xs hx, List.any_cons]
      by_cases hf1 : f (e : Int) x = true
      · simp [hf1]
      · rw [ih (e + 1) (by omega) (by omega)]
        simp [hf1]
    · have hee : e = s.ordering.size := by omega
      have hn := h.iter_end
      subst hee
      simp only [LinkedHashSet.anyLoop, hn, Option.some_bind, Bool.not_false, if_true]
      rw [← h.len_xs, indexed_drop_length]
      rfl

theorem allLoop_eq (f : Int → V → Bool) {s : LinkedHashSet V} {as : List Nat} {xs : List V}
    (h : Chain s.ordering as xs) :
    ∀ (fuel e : Nat), e ≤ s.ordering.size → s.ordering.size - e < fuel →
      LinkedHashSet.allLoop f s fuel ⟨(e : Int) - 1, prevPtr as e⟩ =
        some (((indexed xs).drop e).all fun p => f p.1 p.2) := by
  intro fuel
  induction fuel with
  | zero => intro e _ hf; omega
  | succ fuel ih =>
    intro e he hf
    by_cases hlt : e < s.ordering.size
    · obtain ⟨x, hx, hn, hv, hi⟩ := h.iter_turn hlt
      simp only [LinkedHashSet.allLoop, hn, Option.some_bind, hv, hi, Bool.not_true,
        Bool.false_eq_true, if_false]
      rw [indexed_drop xs hx, List.all_cons]
      by_cases hf1 : f (e : Int) x = true
      · rw [ih (e + 1) (by omega) (by omega)]
        simp [hf1]
      · simp [hf1]
    · have hee : e = s.ordering.size := by omega
      have hn := h.iter_end
      subst hee
      simp only [LinkedHashSet.allLoop, hn, Option.some_bind, Bool.not_false, if_true]
      rw [← h.len_xs, indexed_drop_length]
      rfl

theorem findLoop_eq (f : Int → V → Bool) {s : LinkedHashSet V} {as : List Nat} {xs : List V}
    (h : Chain s.ordering as xs) :
    ∀ (fuel e : Nat), e ≤ s.ordering.size → s.ordering.size - e < fuel →
      LinkedHashSet.findLoop f s fuel ⟨(e : Int) - 1, prevPtr as e⟩ =
        some (match ((indexed xs).drop e).find? fun p => f p.1 p.2 with
          | some p => (p.1, p.2, true)
          | none => (-1, default, false)) := by
  intro fuel
  induction fuel with
  | zero => intro e _ hf; omega
  | succ fuel ih =>
    intro e he hf
    by_cases hlt : e < s.ordering.size
    · obtain ⟨x, hx, hn, hv, hi⟩ := h.iter_turn hlt
      simp only [LinkedHashSet.findLoop, hn, Option.some_bind, hv, hi, Bool.not_true,
        Bool.false_eq_true, if_false]
      rw [indexed_drop xs hx, List.find?_cons]
      by_cases hf1 : f (e : Int) x = true
      · simp [hf1]
      · rw [ih (e + 1) (by omega) (by omega)]
        simp [hf1]
    · have hee : e = s.ordering.size := by omega
      have hn := h.iter_end
      subst hee
      simp only [LinkedHashSet.findLoop, hn, Option.some_bind, Bool.not_false, if_true]
      rw [← h.len_xs, indexed_drop_length]
      rfl

theorem Add_cons (s : LinkedHashSet V) (v : V) (vs : List V) :
    s.Add (v :: vs) = (s.Add [v]).bind fun s1 => s1.Add vs := by
  simp only [LinkedHashSet.Add, List.foldlM_cons, List.foldlM_nil]
  cases s.addStep v <;> rfl

theorem mapLoop_eq (f : Int → V → V) {s : LinkedHashSet V} {as : List Nat} {xs : List V}
    (h : Chain s.ordering as xs) :
    ∀ (fuel e : Nat) (newSet : LinkedHashSet V), e ≤ s.ordering.size →
      s.ordering.size - e < fuel →
      LinkedHashSet.mapLoop f s fuel ⟨(e : Int) - 1, prevPtr as e⟩ newSet =
        newSet.Add (((indexed xs).drop e).map fun p => f p.1 p.2) := by
  intro fuel
  induction fuel with
  | zero => intro e _ _ hf; omega
  | succ fuel ih =>
    intro e newSet he hf
    by_cases hlt : e < s.ordering.size
    · obtain ⟨x, hx, hn, hv, hi⟩ := h.iter_turn hlt
      simp only [LinkedHashSet.mapLoop, hn, Option.some_bind, hv, hi, Bool.not_true,
        Bool.false_eq_true, if_false]
      rw [indexed_drop xs hx, List.map_cons]
      refine Eq.trans ?_ (Add_cons newSet _ _).symm
      congr 1
      funext s1
      exact ih (e + 1) s1 (by omega) (by omega)
    · have hee : e = s.ordering.size := by omega
      have hn := h.iter_end
      subst hee
      simp only [LinkedHashSet.mapLoop, hn, Option.some_bind, Bool.not_false, if_true]
      rw [← h.len_xs, indexed_drop_length]
      rfl

theorem selectLoop_eq (f : Int → V → Bool) {s : LinkedHashSet V} {as : List Nat} {xs : List V}
    (h : Chain s.ordering as xs) :
    ∀ (fuel e : Nat) (newSet : LinkedHashSet V), e ≤ s.ordering.size →
      s.ordering.size - e < fuel →
      LinkedHashSet.selectLoop f s fuel ⟨(e : Int) - 1, prevPtr as e⟩ newSet =
        newSet.Add ((((indexed xs).drop e).filter fun p => f p.1 p.2).map Prod.snd) := by
  intro fuel
  induction fuel with
  | zero => intro e _ _ hf; omega
  | succ fuel ih =>
    intro e newSet he hf
    by_cases hlt : e < s.ordering.size
    · obtain ⟨x, hx, hn, hv, hi⟩ := h.iter_turn hlt
      simp only [LinkedHashSet.selectLoop, hn, Option.some_bind, hv, hi, Bool.not_true,
        Bool.false_eq_true, if_false]
      rw [indexed_drop xs hx]
      by_cases hf1 : f (e : Int) x = true
      · rw [List.filter_cons_of_pos (by simpa using hf1), List.map_cons, if_pos hf1]
        refine Eq.trans ?_ (Add_cons newSet _ _).symm
        congr 1
        funext s1
        exact ih (e + 1) s1 (by omega) (by omega)
      · rw [List.filter_cons_of_neg (by simpa using hf1), if_neg hf1]
        exact ih (e + 1) newSet (by omega) (by omega)
    · have hee : e = s.ordering.size := by omega
      have hn := h.iter_end
      subst hee
      simp only [LinkedHashSet.selectLoop, hn, Option.some_bind, Bool.not_false, if_true]
      rw [← h.len_xs, indexed_drop_length]
      rfl

end linkedhashset

namespace doublylinkedlist
variable {V : Type} [Inhabited V]

theorem indexed_map_snd (xs : List V) : (indexed xs).map Prod.snd = xs := by
  simp only [indexed, List.map_map]
  have : (Prod.snd ∘ fun p : Nat × V => ((p.1 : Int), p.2)) = Prod.snd := rfl
  rw [this, List.enum_map_snd]

theorem mem_indexed (xs : List V) (p : Int × V) :
    p ∈ indexed xs ↔ ∃ i : Nat, xs[i]? = some p.2 ∧ p.1 = (i : Int) := by
  rw [List.mem_iff_getElem?]
  constructor
  · rintro ⟨i, hi⟩
    rw [indexed_getElem?] at hi
    cases hx : xs[i]? with
    | none => rw [hx] at hi; cases hi
    | some x =>
      rw [hx, Option.map_some', Option.some.injEq] at hi
      subst hi
      exact ⟨i, hx, rfl⟩
  · rintro ⟨i, hi, hp⟩
    refine ⟨i, ?_⟩
    rw [indexed_getElem?, hi, Option.map_some', ← hp]

end doublylinkedlist

namespace linkedhashset
open doublylinkedlist
variable {V : Type} [Inhabited V] [DecidableEq V]

theorem freshItems_nil_eq (ys : List V) (hn : ys.Nodup) : freshItems [] ys = ys := by
  have := freshItems_nil_of_nodup ys [] (by simpa using hn)
  simpa [freshItems] using this

theorem New_nil : LinkedHashSet.New ([] : List V) = some LinkedHashSet.empty := by
  simp [LinkedHashSet.New]

theorem Inv.Select_eq {s : LinkedHashSet V} {as : List Nat} {xs : List V} (h : Inv s as xs)
    (f : Int → V → Bool) :
    ∃ t as1, s.Select f = some t ∧
      Inv t as1 (((indexed xs).filter fun p => f p.1 p.2).map Prod.snd) := by
  have hl := selectLoop_eq f h.chain (s.ordering.size + 1) 0 LinkedHashSet.empty
    (Nat.zero_le _) (by omega)
  have hsub : (((indexed xs).filter fun p => f p.1 p.2).map Prod.snd).Sublist xs := by
    have := (List.filter_sublist (indexed xs) :
      ((indexed xs).filter fun p => f p.1 p.2).Sublist (indexed xs)).map Prod.snd
    rwa [indexed_map_snd] at this
  obtain ⟨t, as1, e1, i1⟩ := (inv_empty : Inv (LinkedHashSet.empty : LinkedHashSet V) [] []).Add_inv
    (((indexed xs).filter fun p => f p.1 p.2).map Prod.snd)
  rw [freshItems_nil_eq _ (hsub.nodup h.nodup), List.nil_append] at i1
  refine ⟨t, as1, ?_, i1⟩
  simp only [LinkedHashSet.Select, New_nil, Option.some_bind]
  rw [← e1]
  simpa [Iterator.new, prevPtr] using hl

theorem Inv.Map_eq {s : LinkedHashSet V} {as : List Nat} {xs : List V} (h : Inv s as xs)
    (f : Int → V → V) :
    ∃ t as1, s.Map f = some t ∧
      Inv t as1 (freshItems [] ((indexed xs).map fun p => f p.1 p.2)) := by
  have hl := mapLoop_eq f h.chain (s.ordering.size + 1) 0 LinkedHashSet.empty
    (Nat.zero_le _) (by omega)
  obtain ⟨t, as1, e1, i1⟩ := (inv_empty : Inv (LinkedHashSet.empty : LinkedHashSet V) [] []).Add_inv
    ((indexed xs).map fun p => f p.1 p.2)
  rw [List.nil_append] at i1
  refine ⟨t, as1, ?_, i1⟩
  simp only [LinkedHashSet.Map, New_nil, Option.some_bind]
  rw [← e1]
  simpa [Iterator.new, prevPtr] using hl

theorem Inv.Size_eq {s : LinkedHashSet V} {as : List Nat} {xs : List V} (h : Inv s as xs) :
    s.Size = (xs.length : Int) := by
  simp [LinkedHashSet.Size, DList.Size, h.chain.len_xs]

/-- C22. On a reachable set with `Values() = xs`, for every predicate `f`, `Select(f)`
returns a new set whose `Values()` is the list of the `xs[i]` with `f(i, xs[i])` true, in
the order of `xs`: a subsequence of `xs` holding exactly the selected elements. The
receiver is only read (its `Values()` is still `xs`). -/
theorem Select_keeps_matching_elements_in_order (s : LinkedHashSet V) (xs : List V)
    (f : Int → V → Bool) (hr : Reachable s) (hv : s.Values = some xs) :
    ∃ t, s.Select f = some t ∧
      t.Values = some (((indexed xs).filter fun p => f p.1 p.2).map Prod.snd) ∧
      (((indexed xs).filter fun p => f p.1 p.2).map Prod.snd).Sublist xs ∧
      (∀ v, v ∈ ((indexed xs).filter fun p => f p.1 p.2).map Prod.snd ↔
        ∃ i : Nat, xs[i]? = some v ∧ f (i : Int) v = true) ∧
      s.Values = some xs := by
  obtain ⟨as, i⟩ := hr.inv_of_Values hv
  obtain ⟨t, as1, e1, i1⟩ := i.Select_eq f
  refine ⟨t, e1, i1.set_Values_eq, ?_, ?_, hv⟩
  · have := (List.filter_sublist (indexed xs) :
      ((indexed xs).filter fun p => f p.1 p.2).Sublist (indexed xs)).map Prod.snd
    rwa [indexed_map_snd] at this
  · intro v
    simp only [List.mem_map, List.mem_filter, mem_indexed]
    constructor
    · rintro ⟨p, ⟨⟨k, hk, hp⟩, hf⟩, rfl⟩
      exact ⟨k, hk, by rw [← hp]; exact hf⟩
    · rintro ⟨k, hk, hf⟩
      exact ⟨((k : Int), v), ⟨⟨k, hk, rfl⟩, hf⟩, rfl⟩

theorem Select_keeps_matching_elements_in_order_witness :
    Reachable sampleSet ∧ sampleSet.Values = some [3, 1, 2] ∧
    ∃ t, sampleSet.Select (fun i v => decide (i ≠ 1 ∧ 1 < v)) = some t ∧
      t.Values = some (((indexed [3, 1, 2]).filter
        fun p => (fun (i : Int) (v : Nat) => decide (i ≠ 1 ∧ 1 < v)) p.1 p.2).map Prod.snd) ∧
      (((indexed [3, 1, 2]).filter
        fun p => (fun (i : Int) (v : Nat) => decide (i ≠ 1 ∧ 1 < v)) p.1 p.2).map
          Prod.snd).Sublist [3, 1, 2] ∧
      (∀ v, v ∈ ((indexed [3, 1, 2]).filter
          fun p => (fun (i : Int) (v : Nat) => decide (i ≠ 1 ∧ 1 < v)) p.1 p.2).map Prod.snd ↔
        ∃ i : Nat, [3, 1, 2][i]? = some v ∧
          (fun (i : Int) (v : Nat) => decide (i ≠ 1 ∧ 1 < v)) (i : Int) v = true) ∧
      sampleSet.Values = some [3, 1, 2] :=
  ⟨sampleSet_reachable, by decide,
    Select_keeps_matching_elements_in_order sampleSet [3, 1, 2]
      (fun i v => decide (i ≠ 1 ∧ 1 < v)) sampleSet_reachable (by decide)⟩

/-- C23. On a reachable set with `Values() = xs`, for every predicate `f`, `Find(f)`
returns: either `(i, xs[i], true)` where `i` is the smallest index with `f(i, xs[i])` true,
or `(-1, zero value, false)` when `f(i, xs[i])` is false for every element; the second
case is the one of the empty set. -/
theorem Find_returns_first_match (s : LinkedHashSet V) (xs : List V)
    (f : Int → V → Bool) (hr : Reachable s) (hv : s.Values = some xs) :
    ∃ r, s.Find f = some r ∧
      ((∃ (i : Nat) (v : V), xs[i]? = some v ∧ f (i : Int) v = true ∧
          (∀ (j : Nat) (w : V), j < i → xs[j]? = some w → f (j : Int) w = false) ∧
          r = ((i : Int), v, true)) ∨
        ((∀ (i : Nat) (v : V), xs[i]? = some v → f (i : Int) v = false) ∧
          r = (-1, default, false))) ∧
      (xs = [] → r = (-1, default, false)) := by
  obtain ⟨as, i⟩ := hr.inv_of_Values hv
  have hl := findLoop_eq f i.chain (s.ordering.size + 1) 0 (Nat.zero_le _) (by omega)
  have hF : s.Find f = some (match (indexed xs).find? fun p => f p.1 p.2 with
      | some p => (p.1, p.2, true)
      | none => (-1, default, false)) := by
    simpa [LinkedHashSet.Find, Iterator.new, prevPtr] using hl
  refine ⟨_, hF, ?_, ?_⟩
  · cases hfind : (indexed xs).find? fun p => f p.1 p.2 with
    | none =>
      right
      refine ⟨?_, rfl⟩
      intro k v hk
      have := List.find?_eq_none.1 hfind ((k : Int), v) ((mem_indexed xs _).2 ⟨k, hk, rfl⟩)
      simpa using this
    | some p =>
      left
      obtain ⟨hp, pre, post, hsplit, hpre⟩ := List.find?_eq_some.1 hfind
      have hat : (indexed xs)[pre.length]? = some p := by
        rw [hsplit, List.getElem?_append_right (Nat.le_refl _)]
        simp
      rw [indexed_getElem?] at hat
      cases hx : xs[pre.length]? with
      | none => rw [hx] at hat; cases hat
      | some x =>
        rw [hx, Option.map_some', Option.some.injEq] at hat
        subst hat
        refine ⟨pre.length, x, hx, hp, ?_, rfl⟩
        intro j w hj hw
        have hjat : (indexed xs)[j]? = some ((j : Int), w) := by
          rw [indexed_getElem?, hw, Option.map_some']
        rw [hsplit, List.getElem?_append_left hj] at hjat
        have := hpre _ (List.mem_iff_getElem?.2 ⟨j, hjat⟩)
        simpa using this
  · intro hnil
    subst hnil
    rfl

theorem Find_returns_first_match_witness :
    Reachable sampleSet ∧ sampleSet.Values = some [3, 1, 2] ∧
    ∃ r, sampleSet.Find (fun _ v => decide (v < 3)) = some r ∧
      ((∃ (i : Nat) (v : Nat), [3, 1, 2][i]? = some v ∧
          (fun (_ : Int) (v : Nat) => decide (v < 3)) (i : Int) v = true ∧
          (∀ (j : Nat) (w : Nat), j < i → [3, 1, 2][j]? = some w →
            (fun (_ : Int) (v : Nat) => decide (v < 3)) (j : Int) w = false) ∧
          r = ((i : Int), v, true)) ∨
        ((∀ (i : Nat) (v : Nat), [3, 1, 2][i]? = some v →
            (fun (_ : Int) (v : Nat) => decide (v < 3)) (i : Int) v = false) ∧
          r = (-1, default, false))) ∧
      (([3, 1, 2] : List Nat) = [] → r = (-1, default, false)) :=
  ⟨sampleSet_reachable, by decide,
    Find_returns_first_match sampleSet [3, 1, 2] (fun _ v => decide (v < 3))
      sampleSet_reachable (by decide)⟩

end linkedhashset

namespace linkedhashset
open doublylinkedlist
variable {V : Type} [Inhabited V] [DecidableEq V]

/-- C24. On a reachable set with `Values() = xs`, for every predicate `f`, `Any(f)` and
`All(f)` return: `Any(f)` is true exactly when `f(i, xs[i])` is true for at least one
element, `All(f)` exactly when it is true for every element; on the empty set `Any` is
false and `All` is true; and `All(f)` is the negation of `Any(not f)`. -/
theorem Any_and_All_quantify_over_elements (s : LinkedHashSet V) (xs : List V)
    (f : Int → V → Bool) (hr : Reachable s) (hv : s.Values = some xs) :
    ∃ a b c, s.Any f = some a ∧ s.All f = some b ∧ s.Any (fun i v => !f i v) = some c ∧
      (a = true ↔ ∃ (i : Nat) (v : V), xs[i]? = some v ∧ f (i : Int) v = true) ∧
      (b = true ↔ ∀ (i : Nat) (v : V), xs[i]? = some v → f (i : Int) v = true) ∧
      (xs = [] → a = false ∧ b = true) ∧ b = !c := by
  obtain ⟨as, i⟩ := hr.inv_of_Values hv
  have ha := anyLoop_eq f i.chain (s.ordering.size + 1) 0 (Nat.zero_le _) (by omega)
  have hb := allLoop_eq f i.chain (s.ordering.size + 1) 0 (Nat.zero_le _) (by omega)
  have hc := anyLoop_eq (fun i v => !f i v) i.chain (s.ordering.size + 1) 0 (Nat.zero_le _)
    (by omega)
  refine ⟨_, _, _, by simpa [LinkedHashSet.Any, Iterator.new, prevPtr] using ha,
    by simpa [LinkedHashSet.All, Iterator.new, prevPtr] using hb,
    by simpa [LinkedHashSet.Any, Iterator.new, prevPtr] using hc, ?_, ?_, ?_, ?_⟩
  · simp only [List.drop_zero, List.any_eq_true, mem_indexed]
    constructor
    · rintro ⟨p, ⟨k, hk, hp⟩, hf⟩
      exact ⟨k, p.2, hk, by rw [← hp]; exact hf⟩
    · rintro ⟨k, v, hk, hf⟩
      exact ⟨((k : Int), v), ⟨k, hk, rfl⟩, hf⟩
  · simp only [List.drop_zero, List.all_eq_true, mem_indexed]
    constructor
    · intro h k v hk
      exact h ((k : Int), v) ⟨k, hk, rfl⟩
    · rintro h p ⟨k, hk, hp⟩
      rw [hp]
      exact h k p.2 hk
  · intro hnil
    subst hnil
    exact ⟨rfl, rfl⟩
  · rw [List.all_eq_not_any_not]

theorem Any_and_All_quantify_over_elements_witness :
    Reachable sampleSet ∧ sampleSet.Values = some [3, 1, 2] ∧
    ∃ a b c, sampleSet.Any (fun _ v => decide (v < 3)) = some a ∧
      sampleSet.All (fun _ v => decide (v < 3)) = some b ∧
      sampleSet.Any (fun i v => !(fun (_ : Int) (v : Nat) => decide (v < 3)) i v) = some c ∧
      (a = true ↔ ∃ (i : Nat) (v : Nat), [3, 1, 2][i]? = some v ∧
        (fun (_ : Int) (v : Nat) => decide (v < 3)) (i : Int) v = true) ∧
      (b = true ↔ ∀ (i : Nat) (v : Nat), [3, 1, 2][i]? = some v →
        (fun (_ : Int) (v : Nat) => decide (v < 3)) (i : Int) v = true) ∧
      (([3, 1, 2] : List Nat) = [] → a = false ∧ b = true) ∧ b = !c :=
  ⟨sampleSet_reachable, by decide,
    Any_and_All_quantify_over_elements sampleSet [3, 1, 2] (fun _ v => decide (v < 3))
      sampleSet_reachable (by decide)⟩

/-- C25, on a failing input. The set with `Values() = [3, 1, 2]` and the transform that
returns 0 for every element: `Map` returns a set with `Values() = [0]` and `Size() = 1`,
not `[0, 0, 0]` and 3. -/
theorem Map_merges_equal_results :
    sampleSet.Values = some [3, 1, 2] ∧
    ∃ t, sampleSet.Map (fun _ _ => 0) = some t ∧ t.Values = some [0] ∧ t.Size = 1 ∧
      t.Values ≠ some ((indexed [3, 1, 2]).map fun p => (fun (_ : Int) (_ : Nat) => 0) p.1 p.2) ∧
      t.Size ≠ 3 := by
  obtain ⟨as, i⟩ := sampleSet_reachable.inv_of_Values (show sampleSet.Values = some [3, 1, 2] by decide)
  obtain ⟨t, as1, e1, i1⟩ := i.Map_eq (fun _ _ => 0)
  have hfresh : freshItems [] ((indexed [3, 1, 2]).map
      fun p => (fun (_ : Int) (_ : Nat) => 0) p.1 p.2) = [0] := by decide
  rw [hfresh] at i1
  refine ⟨by decide, t, e1, i1.set_Values_eq, i1.Size_eq, ?_, ?_⟩
  · rw [i1.set_Values_eq]; decide
  · rw [i1.Size_eq]; decide

/-- C25, amended. On a reachable set with `Values() = xs` of length `n`, for every
transform `f` whose results `f(0, xs[0]), ..., f(n-1, xs[n-1])` are pairwise distinct,
`Map(f)` returns a new set with `Values()` equal to that list of results, in order, and
`Size()` equal to `n`. -/
theorem Map_applies_transform_in_order (s : LinkedHashSet V) (xs : List V)
    (f : Int → V → V) (hr : Reachable s) (hv : s.Values = some xs)
    (hd : ((indexed xs).map fun p => f p.1 p.2).Nodup) :
    ∃ t, s.Map f = some t ∧ t.Values = some ((indexed xs).map fun p => f p.1 p.2) ∧
      t.Size = (xs.length : Int) ∧
      ((indexed xs).map fun p => f p.1 p.2).length = xs.length ∧
      ∀ (i : Nat) (v : V), xs[i]? = some v →
        ((indexed xs).map fun p => f p.1 p.2)[i]? = some (f (i : Int) v) := by
  obtain ⟨as, i⟩ := hr.inv_of_Values hv
  obtain ⟨t, as1, e1, i1⟩ := i.Map_eq f
  rw [freshItems_nil_eq _ hd] at i1
  refine ⟨t, e1, i1.set_Values_eq, ?_, ?_, ?_⟩
  · rw [i1.Size_eq]; simp [indexed_length]
  · simp [indexed_length]
  · intro k v hk
    rw [List.getElem?_map, indexed_getElem?, hk]
    rfl

theorem Map_applies_transform_in_order_witness :
    Reachable sampleSet ∧ sampleSet.Values = some [3, 1, 2] ∧
    ((indexed [3, 1, 2]).map fun p => (fun (i : Int) (v : Nat) => v * 10 + i.toNat) p.1 p.2).Nodup ∧
    ∃ t, sampleSet.Map (fun i v => v * 10 + i.toNat) = some t ∧
      t.Values = some ((indexed [3, 1, 2]).map
        fun p => (fun (i : Int) (v : Nat) => v * 10 + i.toNat) p.1 p.2) ∧
      t.Size = (([3, 1, 2] : List Nat).length : Int) ∧
      ((indexed [3, 1, 2]).map
        fun p => (fun (i : Int) (v : Nat) => v * 10 + i.toNat) p.1 p.2).length =
          ([3, 1, 2] : List Nat).length ∧
      ∀ (i : Nat) (v : Nat), [3, 1, 2][i]? = some v →
        ((indexed [3, 1, 2]).map
          fun p => (fun (i : Int) (v : Nat) => v * 10 + i.toNat) p.1 p.2)[i]? =
            some ((fun (i : Int) (v : Nat) => v * 10 + i.toNat) (i : Int) v) :=
  ⟨sampleSet_reachable, by decide, by decide,
    Map_applies_transform_in_order sampleSet [3, 1, 2] (fun i v => v * 10 + i.toNat)
      sampleSet_reachable (by decide) (by decide)⟩

end linkedhashset

/-! ## utils: the string comparator -/

namespace utils

theorem lexSign_drop_end (a b : List Nat) (n : Nat)
    (hn : n = if a.length < b.length then a.length else b.length) :
    lexSign (a.drop n) (b.drop n) = stringComparatorSign a b 0 := by
  simp only [stringComparatorSign, if_true]
  by_cases hlt : a.length < b.length
  · rw [if_pos hlt] at hn
    have ha : a.drop n = [] := List.drop_eq_nil_iff.2 (by omega)
    obtain ⟨y, hy⟩ : ∃ y, b[n]? = some y := by
      have hlt2 : n < b.length := by omega
      exact ⟨_, List.getElem?_eq_getElem hlt2⟩
    have hb : b.drop n = y :: b.drop (n + 1) := by
      obtain ⟨hl, hg⟩ := List.getElem?_eq_some.1 hy
      rw [List.drop_eq_getElem_cons hl, hg]
    rw [ha, hb, lexSign, if_pos (by omega)]
  · rw [if_neg hlt] at hn
    have hb : b.drop n = [] := List.drop_eq_nil_iff.2 (by omega)
    by_cases heq : a.length = b.length
    · have ha : a.drop n = [] := List.drop_eq_nil_iff.2 (by omega)
      rw [ha, hb, lexSign, if_neg (by omega), if_neg (by omega)]
    · obtain ⟨x, hx⟩ : ∃ x, a[n]? = some x := by
        have hlt2 : n < a.length := by omega
        exact ⟨_, List.getElem?_eq_getElem hlt2⟩
      have ha : a.drop n = x :: a.drop (n + 1) := by
        obtain ⟨hl, hg⟩ := List.getElem?_eq_some.1 hx
        rw [List.drop_eq_getElem_cons hl, hg]
      rw [ha, hb, lexSign, if_neg (by omega), if_pos (by omega)]

theorem stringComparatorLoop_eq (a b : List Nat) (n : Nat)
    (hn : n = if a.length < b.length then a.length else b.length) :
    ∀ (fuel i : Nat), i ≤ n → n - i ≤ fuel →
      ∃ d, stringComparatorLoop a b n fuel i 0 = some d ∧
        stringComparatorSign a b d = lexSign (a.drop i) (b.drop i) := by
  intro fuel
  induction fuel with
  | zero =>
    intro i hi hf
    have hin : i = n := by omega
    subst hin
    refine ⟨0, by simp [stringComparatorLoop], (lexSign_drop_end a b i hn).symm⟩
  | succ fuel ih =>
    intro i hi hf
    by_cases hlt : i < n
    · have hla : i < a.length := by split_ifs at hn <;> omega
      have hlb : i < b.length := by split_ifs at hn <;> omega
      have hx : a[i]? = some a[i] := List.getElem?_eq_getElem hla
      have hy : b[i]? = some b[i] := List.getElem?_eq_getElem hlb
      have ha : a.drop i = a[i] :: a.drop (i + 1) := List.drop_eq_getElem_cons hla
      have hb : b.drop i = b[i] :: b.drop (i + 1) := List.drop_eq_getElem_cons hlb
      rw [ha, hb]
      simp only [stringComparatorLoop, hlt, true_and, if_true, hx, hy, Option.some_bind]
      by_cases heq : a[i] = b[i]
      · obtain ⟨d, hd, hs⟩ := ih (i + 1) (by omega) (by omega)
        refine ⟨d, ?_, ?_⟩
        · rw [heq, sub_self]; exact hd
        · rw [hs, lexSign, heq, if_neg (Nat.lt_irrefl _), if_neg (Nat.lt_irrefl _)]
      · have hne : ((a[i] : Nat) : Int) - ((b[i] : Nat) : Int) ≠ 0 := by omega
        refine ⟨((a[i] : Nat) : Int) - ((b[i] : Nat) : Int), ?_, ?_⟩
        · cases fuel <;> simp [stringComparatorLoop, hne]
        · simp only [stringComparatorSign, if_neg hne, lexSign]
          by_cases hab : a[i] < b[i]
          · have h1 : ((a[i] : Nat) : Int) - ((b[i] : Nat) : Int) < 0 := by omega
            rw [if_pos hab, if_pos h1]
          · have h1 : ¬ ((a[i] : Nat) : Int) - ((b[i] : Nat) : Int) < 0 := by omega
            have h2 : ((a[i] : Nat) : Int) - ((b[i] : Nat) : Int) > 0 := by omega
            have h3 : b[i] < a[i] := by omega
            rw [if_neg hab, if_pos h3, if_neg h1, if_pos h2]
    · have hin : i = n := by omega
      subst hin
      refine ⟨0, by simp [stringComparatorLoop], (lexSign_drop_end a b i hn).symm⟩

theorem StringComparator_eq (a b : List Nat) : StringComparator a b = some (lexSign a b) := by
  obtain ⟨d, hd, hs⟩ := stringComparatorLoop_eq a b _ rfl
    (if a.length < b.length then a.length else b.length) 0 (Nat.zero_le _) (by omega)
  simp only [StringComparator, hd, Option.map_some', hs, List.drop_zero]

theorem lexSign_neg : ∀ (a b : List Nat), lexSign b a = - lexSign a b
  | [], [] => rfl
  | [], _ :: _ => rfl
  | _ :: _, [] => rfl
  | x :: a, y :: b => by
    simp only [lexSign]
    by_cases h1 : x < y
    · have h2 : ¬ y < x := by omega
      simp [h1, h2]
    · by_cases h2 : y < x
      · simp [h1, h2]
      · simp only [h1, h2, if_false]
        exact lexSign_neg a b

theorem lexSign_range : ∀ (a b : List Nat), lexSign a b = -1 ∨ lexSign a b = 0 ∨ lexSign a b = 1
  | [], [] => Or.inr (Or.inl rfl)
  | [], _ :: _ => Or.inl rfl
  | _ :: _, [] => Or.inr (Or.inr rfl)
  | x :: a, y :: b => by
    simp only [lexSign]
    split_ifs
    · exact Or.inl rfl
    · exact Or.inr (Or.inr rfl)
    · exact lexSign_range a b

theorem lexSign_eq_zero : ∀ (a b : List Nat), lexSign a b = 0 ↔ a = b
  | [], [] => by simp [lexSign]
  | [], _ :: _ => by simp [lexSign]
  | _ :: _, [] => by simp [lexSign]
  | x :: a, y :: b => by
    simp only [lexSign, List.cons.injEq]
    by_cases h1 : x < y
    · rw [if_pos h1]
      constructor
      · intro h; cases h
      · rintro ⟨h, _⟩; omega
    · by_cases h2 : y < x
      · rw [if_neg h1, if_pos h2]
        constructor
        · intro h; cases h
        · rintro ⟨h, _⟩; omega
      · rw [if_neg h1, if_neg h2, lexSign_eq_zero a b]
        constructor
        · intro h; exact ⟨by omega, h⟩
        · rintro ⟨_, h⟩; exact h

theorem lexSign_eq_neg_one : ∀ (a b : List Nat),
    lexSign a b = -1 ↔ List.Lex (fun x y : Nat => x < y) a b
  | [], [] => by
    simp only [lexSign]
    constructor
    · intro h; cases h
    · intro h; cases h
  | [], _ :: _ => by
    simp only [lexSign, true_iff]
    exact List.Lex.nil
  | _ :: _, [] => by
    simp only [lexSign]
    constructor
    · intro h; cases h
    · intro h; cases h
  | x :: a, y :: b => by
    simp only [lexSign]
    by_cases h1 : x < y
    · rw [if_pos h1]
      simp only [true_iff]
      exact List.Lex.rel h1
    · by_cases h2 : y < x
      · rw [if_neg h1, if_pos h2]
        constructor
        · intro h; cases h
        · intro h
          cases h with
          | cons h => omega
          | rel h => omega
      · rw [if_neg h1, if_neg h2, lexSign_eq_neg_one a b]
        have hxy : x = y := by omega
        subst hxy
        constructor
        · intro h; exact List.Lex.cons h
        · intro h
          cases h with
          | cons h => exact h
          | rel h => omega

theorem lexSign_eq_one (a b : List Nat) :
    lexSign a b = 1 ↔ List.Lex (fun x y : Nat => x < y) b a := by
  rw [← lexSign_eq_neg_one b a, lexSign_neg a b]
  constructor <;> intro h <;> omega

theorem lexSign_prefix : ∀ (a t : List Nat), t ≠ [] → lexSign a (a ++ t) = -1
  | [], [], h => absurd rfl h
  | [], _ :: _, _ => rfl
  | x :: a, t, h => by
    simp only [List.cons_append, lexSign, if_neg (Nat.lt_irrefl x)]
    exact lexSign_prefix a t h

theorem lexSign_trans (a b c : List Nat) :
    (lexSign a b ≤ 0 → lexSign b c ≤ 0 → lexSign a c ≤ 0) ∧
    (lexSign a b < 0 → lexSign b c < 0 → lexSign a c < 0) := by
  have hle : ∀ u v : List Nat,
      lexSign u v ≤ 0 ↔ List.Lex (fun x y : Nat => x < y) u v ∨ u = v := by
    intro u v
    rw [← lexSign_eq_neg_one, ← lexSign_eq_zero]
    rcases lexSign_range u v with h | h | h <;> rw [h] <;> simp
  have hlt : ∀ u v : List Nat,
      lexSign u v < 0 ↔ List.Lex (fun x y : Nat => x < y) u v := by
    intro u v
    rw [← lexSign_eq_neg_one]
    rcases lexSign_range u v with h | h | h <;> rw [h] <;> simp
  have htr : ∀ {u v w : List Nat}, List.Lex (fun x y : Nat => x < y) u v →
      List.Lex (fun x y : Nat => x < y) v w → List.Lex (fun x y : Nat => x < y) u w :=
    fun h1 h2 => Trans.trans h1 h2
  constructor
  · rw [hle, hle, hle]
    rintro (h1 | h1) (h2 | h2)
    · exact Or.inl (htr h1 h2)
    · exact Or.inl (h2 ▸ h1)
    · exact Or.inl (h1 ▸ h2)
    · exact Or.inr (h1.trans h2)
  · rw [hlt, hlt, hlt]
    exact fun h1 h2 => htr h1 h2

/-- C30. For all byte strings `a`, `b` and `c`, `StringComparator(a, b)` returns, and the
result is -1, 0 or 1: -1 exactly when `a` is smaller than `b` in the lexicographic order
by byte values, 0 exactly when `a == b`, 1 exactly when `a` is greater; a proper prefix is
smaller than the longer string. `StringComparator(b, a)` is the negated result, and the
comparator is transitive: results `<= 0` for `(a, b)` and `(b, c)` give a result `<= 0` for
`(a, c)`, and likewise with `< 0`. -/
theorem StringComparator_is_lexicographic_order (a b c : List Nat) :
    ∃ r r2 r3, StringComparator a b = some r ∧ StringComparator b c = some r2 ∧
      StringComparator a c = some r3 ∧
      (r = -1 ∨ r = 0 ∨ r = 1) ∧
      (r = -1 ↔ List.Lex (fun x y : Nat => x < y) a b) ∧
      (r = 0 ↔ a = b) ∧
      (r = 1 ↔ List.Lex (fun x y : Nat => x < y) b a) ∧
      ((∃ t, t ≠ [] ∧ b = a ++ t) → r = -1) ∧
      StringComparator b a = some (-r) ∧
      (r ≤ 0 → r2 ≤ 0 → r3 ≤ 0) ∧ (r < 0 → r2 < 0 → r3 < 0) := by
  refine ⟨_, _, _, StringComparator_eq a b, StringComparator_eq b c, StringComparator_eq a c,
    lexSign_range a b, lexSign_eq_neg_one a b, lexSign_eq_zero a b, lexSign_eq_one a b, ?_,
    ?_, (lexSign_trans a b c).1, (lexSign_trans a b c).2⟩
  · rintro ⟨t, ht, rfl⟩
    exact lexSign_prefix a t ht
  · rw [StringComparator_eq, lexSign_neg a b]

end utils

/-! ## Array stack: a LIFO view of the array list -/

namespace arraylist
variable {V : Type} [Inhabited V]

theorem Models.stores {l : ArrayList V} {xs : List V} (h : Models l xs) : Stores l xs :=
  ⟨h.size_le, Nat.le_of_eq h.len_eq, h.content⟩

theorem Stores.length_xs {l : ArrayList V} {xs : List V} (h : Stores l xs) :
    xs.length = l.size := by
  have h1 := h.size_le
  have h2 := h.len_le
  rw [← h.content, List.length_take]
  omega

theorem Stores.Get_stores {l : ArrayList V} {xs : List V} (h : Stores l xs) (index : Int) :
    l.Get index =
      some (if 0 ≤ index ∧ index < (xs.length : Int) then (xs.getD index.toNat default, true)
        else (default, false)) := by
  have hlen := h.length_xs
  obtain ⟨h1, h2, h3⟩ := h
  by_cases hw : 0 ≤ index ∧ index < (l.size : Int)
  · have hw2 : l.withinRange index = true := (arr_withinRange_iff l index).2 hw
    have hi : index.toNat < l.size := by omega
    have hi2 : index.toNat < l.values.len := by omega
    have hx : xs[index.toNat]? = l.values.arr[index.toNat]? := by
      rw [← h3, List.getElem?_take]; simp [hi]
    have hi3 : index.toNat < l.values.arr.length := by omega
    have hi4 : index.toNat < xs.length := by omega
    simp only [ArrayList.Get, hw2, Slice.get?, hi2, hlen, hw, List.getD_eq_getElem?_getD, hx]
    simp [hi3]
  · have hw2 : l.withinRange index = false := by
      rw [← Bool.not_eq_true, arr_withinRange_iff]; exact hw
    simp [ArrayList.Get, hw2, hlen, hw]

theorem Stores.resize_size {l : ArrayList V} {xs : List V} (h : Stores l xs) :
    Models (l.resize l.size) xs := by
  obtain ⟨h1, h2, h3⟩ := h
  have hr : l.resize l.size = ⟨⟨List.take l.size l.values.arr, l.size⟩, l.size⟩ := by
    have hk : min l.size (min l.values.len l.values.arr.length) = l.size := by omega
    simp [ArrayList.resize, Slice.make, Slice.copyFrom, Slice.toList, List.take_take, hk]
    omega
  rw [hr]
  refine ⟨?_, Nat.le_refl _, ?_⟩
  · simp; omega
  · show List.take l.size (List.take l.size l.values.arr) = xs
    rw [List.take_take, Nat.min_self]
    exact h3

theorem Stores.shrink_stores {l : ArrayList V} {xs : List V} (h : Stores l xs) :
    Stores l.shrink xs ∧ l.shrink.size = l.size := by
  unfold ArrayList.shrink
  simp only
  split_ifs
  · exact ⟨h.resize_size.stores, by simp [ArrayList.resize]; split <;> rfl⟩
  · exact ⟨h, rfl⟩

theorem Stores.Remove_stores {l : ArrayList V} {xs : List V} (h : Stores l xs) (index : Int) :
    ∃ l1, l.Remove index = some l1 ∧ Stores l1 (refStep xs (.remove index)) := by
  have hlen := h.length_xs
  by_cases hw : 0 ≤ index ∧ index < (l.size : Int)
  · have hw2 : l.withinRange index = true := (arr_withinRange_iff l index).2 hw
    have hr : refStep xs (.remove index) = xs.eraseIdx index.toNat := by
      simp [refStep, hlen, hw]
    rw [hr]
    obtain ⟨h1, h2, h3⟩ := h
    have hi : index.toNat < l.size := by omega
    simp only [ArrayList.Remove, hw2, Bool.not_true, Bool.false_eq_true, if_false]
    generalize index.toNat = i at hi ⊢
    have hi2 : i < l.values.len := by omega
    have hi3 : i < l.values.arr.length := by omega
    have e1 : l.values.set? i default = some ⟨l.values.arr.set i default, l.values.len⟩ := by
      simp [Slice.set?, hi2, hi3]
    have hsrc : ((l.values.arr.set i default).drop (i + 1)).take (l.size - (i + 1)) =
        (l.values.arr.drop (i + 1)).take (l.size - (i + 1)) := by
      rw [List.drop_set_of_lt _ _ (Nat.lt_succ_self i)]
    have hsl : ((l.values.arr.drop (i + 1)).take (l.size - (i + 1))).length =
        l.size - (i + 1) := by
      simp; omega
    have e2 : (⟨l.values.arr.set i default, l.values.len⟩ : Slice V).copyWithin i (i + 1) l.size =
        some ⟨l.values.arr.take i ++ (l.values.arr.drop (i + 1)).take (l.size - (i + 1)) ++
          (l.values.arr.set i default).drop (i + (l.size - (i + 1))), l.values.len⟩ := by
      have c1 : i + 1 ≤ l.size ∧ l.size ≤ (l.values.arr.set i default).length := by
        simp; omega
      simp only [Slice.copyWithin, c1, and_self, if_true, hsrc]
      rw [copyFrom_fits _ _ _ (by simp only [hsl]; omega) (by simp; omega)]
      simp only [hsl, take_set_self]
    simp only [e1, e2, Option.bind_eq_bind, Option.some_bind, Option.pure_def]
    have hm : Stores (⟨⟨l.values.arr.take i ++
          (l.values.arr.drop (i + 1)).take (l.size - (i + 1)) ++
          (l.values.arr.set i default).drop (i + (l.size - (i + 1))), l.values.len⟩,
          l.size - 1⟩ : ArrayList V) (xs.eraseIdx i) := by
      refine ⟨?_, ?_, ?_⟩
      · show l.size - 1 ≤ l.values.len
        omega
      · simp; omega
      · show List.take (l.size - 1) (_ ++ _ ++ _) = _
        rw [List.take_left' (by simp; omega), ← h3, List.eraseIdx_eq_take_drop_succ,
          List.take_take, List.drop_take, Nat.min_eq_left (Nat.le_of_lt hi)]
    exact ⟨_, rfl, hm.shrink_stores.1⟩
  · have hw2 : l.withinRange index = false := by
      rw [← Bool.not_eq_true, arr_withinRange_iff]; exact hw
    refine ⟨l, by simp [ArrayList.Remove, hw2], ?_⟩
    simpa [refStep, hlen, hw] using h

end arraylist

namespace arraystack
open arraylist
variable {V : Type} [Inhabited V]

theorem replicate_set_last {α : Type} (d x : α) (n : Nat) (ys : List α) :
    (List.replicate (n + 1) d ++ ys).set n x = List.replicate n d ++ x :: ys := by
  induction n with
  | zero => rfl
  | succ n ih =>
    show d :: (List.replicate (n + 1) d ++ ys).set n x = d :: (List.replicate n d ++ x :: ys)
    rw [ih]

theorem stack_valuesLoop_eq {l : ArrayList V} {xs : List V} (h : Stores l xs) :
    ∀ (fuel k : Nat), k ≤ l.size → l.size - k ≤ fuel →
      valuesLoop l l.size fuel (k + 1)
        ⟨List.replicate (l.size - k) default ++ (xs.take k).reverse, l.size⟩ =
        some ⟨xs.reverse, l.size⟩ := by
  have hlen := h.length_xs
  intro fuel
  induction fuel with
  | zero =>
    intro k hk hf
    have hks : k = l.size := by omega
    subst hks
    have : ¬ l.size + 1 ≤ l.size := by omega
    simp only [valuesLoop, this, if_false, Nat.sub_self, List.replicate_zero, List.nil_append]
    rw [← hlen, List.take_length]
  | succ fuel ih =>
    intro k hk hf
    by_cases hlt : k < l.size
    · have hget := h.Get_stores (((k + 1 : Nat) : Int) - 1)
      have hc : 0 ≤ ((k + 1 : Nat) : Int) - 1 ∧ ((k + 1 : Nat) : Int) - 1 < (xs.length : Int) := by
        omega
      have hx : k < xs.length := by omega
      rw [if_pos hc, show (((k + 1 : Nat) : Int) - 1).toNat = k by omega] at hget
      have hgd : xs.getD k default = xs[k] := by
        rw [List.getD_eq_getElem?_getD, List.getElem?_eq_getElem hx]; rfl
      have hnext : l.size - k = (l.size - (k + 1)) + 1 := by omega
      have hset : (⟨List.replicate (l.size - k) default ++ (xs.take k).reverse, l.size⟩ :
          Slice V).set? (l.size - (k + 1)) xs[k] =
          some ⟨List.replicate (l.size - (k + 1)) default ++ (xs.take (k + 1)).reverse,
            l.size⟩ := by
        have hb : l.size - (k + 1) < l.size ∧
            l.size - (k + 1) <
              (List.replicate (l.size - k) (default : V) ++ (xs.take k).reverse).length := by
          simp; omega
        have ht : (xs.take (k + 1)).reverse = xs[k] :: (xs.take k).reverse := by
          rw [List.take_succ, List.getElem?_eq_getElem hx]; simp
        simp only [Slice.set?, hb, and_self, if_true]
        rw [ht]
        generalize l.size - (k + 1) = n at hnext
        rw [hnext, replicate_set_last]
      simp only [valuesLoop, show k + 1 ≤ l.size from hlt, if_true, hget, Option.some_bind,
        hgd, hset]
      exact ih (k + 1) hlt (by omega)
    · have hks : k = l.size := by omega
      subst hks
      have : ¬ l.size + 1 ≤ l.size := by omega
      simp only [valuesLoop, this, if_false, Nat.sub_self, List.replicate_zero, List.nil_append]
      rw [← hlen, List.take_length]

theorem Stores.stack_Values {s : Stack V} {xs : List V} (h : Stores s.list xs) :
    s.Values = some xs.reverse := by
  have := stack_valuesLoop_eq h s.list.size 0 (Nat.zero_le _) (by omega)
  have hlen := h.length_xs
  simp only [Nat.sub_zero, List.take_zero, List.reverse_nil, List.append_nil, Nat.zero_add] at this
  simp only [Stack.Values, Slice.make, this, Option.map_some', Slice.toList]
  rw [← hlen, ← List.length_reverse xs, List.take_length]

theorem Stores.Peek_stores {s : Stack V} {xs : List V} (h : Stores s.list xs) :
    s.Peek = some (match xs.getLast? with
      | some v => (v, true)
      | none => (default, false)) := by
  have hlen := h.length_xs
  rw [Stack.Peek, h.Get_stores, ArrayList.Size, ← hlen]
  cases hx : xs.getLast? with
  | none =>
    have : xs = [] := List.getLast?_eq_none_iff.1 hx
    subst this
    simp
  | some v =>
    have hne : xs ≠ [] := by rintro rfl; simp at hx
    have hpos : 0 < xs.length := List.length_pos.2 hne
    have hc : 0 ≤ (xs.length : Int) - 1 ∧ (xs.length : Int) - 1 < (xs.length : Int) := by omega
    rw [if_pos hc, show ((xs.length : Int) - 1).toNat = xs.length - 1 by omega,
      List.getD_eq_getElem?_getD, ← List.getLast?_eq_getElem?, hx]
    rfl

theorem Stores.Pop_stores {s : Stack V} {xs : List V} (h : Stores s.list xs) :
    ∃ s1, s.Pop = some (match xs.getLast? with
        | some v => (v, true, s1)
        | none => (default, false, s1)) ∧
      Stores s1.list xs.dropLast := by
  have hlen := h.length_xs
  obtain ⟨l1, e1, m1⟩ := h.Remove_stores (s.list.Size - 1)
  have hp := Stores.Peek_stores h
  rw [Stack.Peek] at hp
  have hd : refStep xs (.remove (s.list.Size - 1)) = xs.dropLast := by
    rw [ArrayList.Size, ← hlen]
    by_cases hne : xs = []
    · subst hne; simp [refStep]
    · have hpos : 0 < xs.length := List.length_pos.2 hne
      have hc : 0 ≤ (xs.length : Int) - 1 ∧ (xs.length : Int) - 1 < (xs.length : Int) := by
        omega
      simp only [refStep, hc, and_self, if_true]
      rw [show ((xs.length : Int) - 1).toNat = xs.length - 1 by omega,
        List.dropLast_eq_eraseIdx (show xs.length - 1 + 1 = xs.length by omega)]
  rw [hd] at m1
  refine ⟨⟨l1⟩, ?_, m1⟩
  simp only [Stack.Pop, hp, e1, Option.some_bind, Option.map_some']
  cases xs.getLast? <;> rfl

end arraystack

/-! ## The JSON array decoder on a slice -/

theorem unmarshalElement_step {V : Type} [Inhabited V] (s : Slice V) (i : Nat) (x : V)
    (pre : List V) (h1 : s.len ≤ s.arr.length) (h2 : i ≤ s.len) (h3 : s.arr.take i = pre) :
    (unmarshalElement (s, i) x).2 = i + 1 ∧
      (unmarshalElement (s, i) x).1.len ≤ (unmarshalElement (s, i) x).1.arr.length ∧
      i + 1 ≤ (unmarshalElement (s, i) x).1.len ∧
      (unmarshalElement (s, i) x).1.arr.take (i + 1) = pre ++ [x] := by
  by_cases hc : s.cap ≤ i
  · have hcap : s.arr.length = i := by simp only [Slice.cap] at hc; omega
    have hlen : s.len = i := by omega
    have hnew : i < (if s.cap + s.cap / 2 < 4 then 4 else s.cap + s.cap / 2) := by
      simp only [Slice.cap, hcap]
      split_ifs <;> omega
    have htl : s.toList = pre := by
      rw [Slice.toList, hlen, h3]
    have hpl : pre.length = i := by
      rw [← h3, List.length_take]; omega
    have hu : unmarshalElement (s, i) x =
        (⟨(pre ++ List.replicate
          ((if s.cap + s.cap / 2 < 4 then 4 else s.cap + s.cap / 2) - i) default).set i x,
          i + 1⟩, i + 1) := by
      simp only [unmarshalElement, hc, if_true, hlen, Nat.le_refl, htl]
    rw [hu]
    generalize (if s.cap + s.cap / 2 < 4 then 4 else s.cap + s.cap / 2) = newcap at hnew
    refine ⟨rfl, ?_, Nat.le_refl _, ?_⟩
    · simp only [List.length_set, List.length_append, List.length_replicate, hpl]
      omega
    · show List.take (i + 1) ((pre ++ List.replicate (newcap - i) default).set i x) = _
      rw [arraylist.take_succ_set _ _ _ (by simp [hpl]; omega), List.take_left' hpl]
  · have hlt : i < s.arr.length := by simp only [Slice.cap] at hc; omega
    have ht : (s.arr.set i x).take (i + 1) = pre ++ [x] := by
      rw [arraylist.take_succ_set _ _ _ hlt, h3]
    by_cases hl : s.len ≤ i
    · have hu : unmarshalElement (s, i) x = (⟨s.arr.set i x, i + 1⟩, i + 1) := by
        simp only [unmarshalElement, hc, if_false, hl, if_true]
      rw [hu]
      exact ⟨rfl, by simp only [List.length_set]; omega, Nat.le_refl _, ht⟩
    · have hu : unmarshalElement (s, i) x = (⟨s.arr.set i x, s.len⟩, i + 1) := by
        simp only [unmarshalElement, hc, if_false, hl]
      rw [hu]
      exact ⟨rfl, by simp only [List.length_set]; omega, by show i + 1 ≤ s.len; omega, ht⟩

theorem unmarshalElement_foldl {V : Type} [Inhabited V] (elements : List V) :
    ∀ (s : Slice V) (i : Nat) (pre : List V), s.len ≤ s.arr.length → i ≤ s.len →
      s.arr.take i = pre →
      (elements.foldl unmarshalElement (s, i)).2 = i + elements.length ∧
        (elements.foldl unmarshalElement (s, i)).1.len ≤
          (elements.foldl unmarshalElement (s, i)).1.arr.length ∧
        i + elements.length ≤ (elements.foldl unmarshalElement (s, i)).1.len ∧
        (elements.foldl unmarshalElement (s, i)).1.arr.take (i + elements.length) =
          pre ++ elements := by
  induction elements with
  | nil =>
    intro s i pre h1 h2 h3
    simpa using ⟨h1, h2, h3⟩
  | cons x elements ih =>
    intro s i pre h1 h2 h3
    obtain ⟨e1, e2, e3, e4⟩ := unmarshalElement_step s i x pre h1 h2 h3
    have hst : unmarshalElement (s, i) x = ((unmarshalElement (s, i) x).1, i + 1) := by
      rw [← e1]
    have := ih (unmarshalElement (s, i) x).1 (i + 1) (pre ++ [x]) e2 e3 e4
    rw [← hst] at this
    simpa [List.foldl_cons, Nat.add_assoc, Nat.add_comm 1] using this

/-- The decoder `unmarshalArray` is lossless on every real slice: the slice it leaves
holds exactly the decoded elements, within its capacity. -/
theorem unmarshalArray_toList {V : Type} [Inhabited V] (elements : List V) (s : Slice V)
    (h : s.len ≤ s.cap) :
    (unmarshalArray elements s).toList = elements ∧
      (unmarshalArray elements s).len ≤ (unmarshalArray elements s).cap ∧
      (unmarshalArray elements s).len = elements.length := by
  obtain ⟨e1, e2, e3, e4⟩ := unmarshalElement_foldl elements s 0 [] h (Nat.zero_le _) rfl
  simp only [Nat.zero_add, List.nil_append] at e1 e3 e4
  by_cases hz : elements = []
  · subst hz
    simp [unmarshalArray, Slice.empty, Slice.toList, Slice.cap]
  · have hpos : 0 < elements.length := List.length_pos.2 hz
    have hne : ¬ (elements.foldl unmarshalElement (s, 0)).2 = 0 := by omega
    by_cases hlt : (elements.foldl unmarshalElement (s, 0)).2 <
        (elements.foldl unmarshalElement (s, 0)).1.len
    · have hu : unmarshalArray elements s =
          { (elements.foldl unmarshalElement (s, 0)).1 with
            len := (elements.foldl unmarshalElement (s, 0)).2 } := by
        simp only [unmarshalArray, hne, if_false, hlt, if_true]
      rw [hu, e1]
      refine ⟨e4, ?_, rfl⟩
      simp only [Slice.cap]; omega
    · have hu : unmarshalArray elements s = (elements.foldl unmarshalElement (s, 0)).1 := by
        simp only [unmarshalArray, hne, if_false, hlt]
      have hl : (elements.foldl unmarshalElement (s, 0)).1.len = elements.length := by omega
      rw [hu]
      refine ⟨?_, e2, hl⟩
      rw [Slice.toList, hl, e4]

namespace arraystack
open arraylist
variable {V : Type} [Inhabited V]

theorem stack_New_eq : (Stack.New : Option (Stack V)) = some ⟨ArrayList.empty⟩ := by
  simp [Stack.New, ArrayList.New]

theorem Models.Push_models {s : Stack V} {xs : List V} (h : Models s.list xs) (v : V) :
    ∃ s1, s.Push v = some s1 ∧ Models s1.list (xs ++ [v]) := by
  obtain ⟨l1, e1, m1⟩ := Add_models h [v]
  exact ⟨⟨l1⟩, by simp [Stack.Push, e1], m1⟩

theorem Models.foldl_Push (vs : List V) : ∀ {s : Stack V} {xs : List V}, Models s.list xs →
    ∃ s1, vs.foldlM Stack.Push s = some s1 ∧ Models s1.list (xs ++ vs) := by
  induction vs with
  | nil => intro s xs h; exact ⟨s, rfl, by simpa using h⟩
  | cons v vs ih =>
    intro s xs h
    obtain ⟨s1, e1, m1⟩ := Models.Push_models h v
    obtain ⟨s2, e2, m2⟩ := ih m1
    exact ⟨s2, by simp [List.foldlM, e1, e2], by simpa using m2⟩

/-- On a stack whose list is full to its length (`len(values) == cap(values)`, as it is
after `New`, `Push`, `Pop` and `Clear`), `Push(v)` followed by `Pop()` returns `(v, true)`
and leaves `Values()` and `Size()` as they were. -/
theorem Models.Push_then_Pop {s : Stack V} {xs : List V} (h : Models s.list xs) (v : V) :
    ∃ s1 s2, s.Push v = some s1 ∧ s1.Pop = some (v, true, s2) ∧
      s2.Values = s.Values ∧ s2.Size = s.Size := by
  obtain ⟨s1, e1, m1⟩ := Models.Push_models h v
  obtain ⟨s2, e2, m2⟩ := Stores.Pop_stores m1.stores
  rw [List.getLast?_concat] at e2
  rw [List.dropLast_concat] at m2
  refine ⟨s1, s2, e1, e2, ?_, ?_⟩
  · rw [Stores.stack_Values m2, Stores.stack_Values h.stores]
  · simp only [Stack.Size, ArrayList.Size, ← m2.length_xs, ← h.length_eq]

/-- C26. For every sequence `vs` of values pushed in that order onto a new stack: every
`Push` returns, `Values()` is `vs` reversed, `Size()` is the number of values, `Empty()`
is true exactly when there is none, and when there is one `Peek()` returns the last value
pushed, which is the first of `Values()`, and true. `Peek` only reads the stack. -/
theorem Push_builds_LIFO_stack (vs : List V) :
    ∃ s0 s, (Stack.New : Option (Stack V)) = some s0 ∧ vs.foldlM Stack.Push s0 = some s ∧
      s.Values = some vs.reverse ∧ s.Size = (vs.length : Int) ∧
      (s.Empty = true ↔ vs = []) ∧
      (vs ≠ [] → ∃ v, vs.getLast? = some v ∧ vs.reverse.head? = some v ∧
        s.Peek = some (v, true)) := by
  obtain ⟨s, e, m⟩ := Models.foldl_Push vs
    (show Models (Stack.mk (ArrayList.empty : ArrayList V)).list [] from models_empty)
  rw [List.nil_append] at m
  have hlen := m.length_eq
  refine ⟨_, s, stack_New_eq, e, Stores.stack_Values m.stores, ?_, ?_, ?_⟩
  · simp [Stack.Size, ArrayList.Size, hlen]
  · simp only [Stack.Empty, ArrayList.Empty, decide_eq_true_eq, ← hlen, List.length_eq_zero]
  · intro hne
    have hp := Stores.Peek_stores m.stores
    cases hx : vs.getLast? with
    | none => exact absurd (List.getLast?_eq_none_iff.1 hx) hne
    | some v =>
      rw [hx] at hp
      exact ⟨v, rfl, by rw [List.head?_reverse, hx], hp⟩

/-- C27, on a failing input. `Push(1)`, `Push(2)`, `Push(3)` on a new stack give the
stack `sampleStack`, whose slice has length and capacity 6. `FromJSON` of the text `[7]`
succeeds and leaves `Values() = [7]` and `Size() = 1`, with a slice of length 1 and
capacity 6. The next `Push(8)` panics: `growBy` sees `1 + 1 < 6` and does not resize, and
`l.values[1]` is out of range for the length 1. -/
theorem Push_after_FromJSON_panics :
    ∃ s0, (Stack.New : Option (Stack Nat)) = some s0 ∧
      [1, 2, 3].foldlM Stack.Push s0 = some sampleStack ∧
      sampleStack.Values = some [3, 2, 1] ∧
      sampleStack.FromJSON
          (fun (d : List Nat) sl => (unmarshalArray d sl, (none : Option Unit))) [7] =
        (⟨⟨⟨[7, 2, 3, 0, 0, 0], 1⟩, 1⟩⟩, none) ∧
      (Stack.mk ⟨⟨[7, 2, 3, 0, 0, 0], 1⟩, 1⟩ : Stack Nat).Values = some [7] ∧
      (Stack.mk ⟨⟨[7, 2, 3, 0, 0, 0], 1⟩, 1⟩ : Stack Nat).Size = 1 ∧
      (Stack.mk ⟨⟨[7, 2, 3, 0, 0, 0], 1⟩, 1⟩ : Stack Nat).Push 8 = none := by
  refine ⟨_, stack_New_eq, ?_, ?_, ?_, ?_, ?_, ?_⟩ <;> decide

/-- Stacks whose list stores its elements. On every stack with `Empty()` true, `Pop()` and
`Peek()` return the zero value and false, and `Pop()` leaves the stack as it was, with `Size() == 0` and `Values()`
empty. On every stack with `Empty()` false whose list stores its elements in its slice
(`size ≤ len(values) ≤ cap(values)`), `Pop()` and `Peek()` return the top element and
true. -/
theorem Pop_and_Peek_report_emptiness (s : Stack V) (xs : List V) :
    (s.Empty = true →
      s.Pop = some (default, false, s) ∧ s.Peek = some (default, false) ∧ s.Size = 0 ∧
        s.Values = some []) ∧
    (s.Empty = false → Stores s.list xs →
      ∃ v s1, s.Pop = some (v, true, s1) ∧ s.Peek = some (v, true) ∧
        s.Values = some (v :: xs.dropLast.reverse) ∧ s1.Values = some xs.dropLast.reverse) := by
  constructor
  · intro he
    have hz : s.list.size = 0 := by simpa [Stack.Empty, ArrayList.Empty] using he
    have hw : s.list.withinRange (s.list.Size - 1) = false := by
      rw [← Bool.not_eq_true, arr_withinRange_iff, ArrayList.Size, hz]
      omega
    refine ⟨?_, ?_, ?_, ?_⟩
    · simp [Stack.Pop, ArrayList.Get, ArrayList.Remove, hw]
    · simp [Stack.Peek, ArrayList.Get, hw]
    · simp [Stack.Size, ArrayList.Size, hz]
    · simp [Stack.Values, hz, valuesLoop, Slice.make, Slice.toList]
  · intro he h
    have hz : s.list.size ≠ 0 := by simpa [Stack.Empty, ArrayList.Empty] using he
    have hlen := h.length_xs
    have hne : xs ≠ [] := by
      intro h0; rw [h0] at hlen; exact hz hlen.symm
    obtain ⟨s1, e1, m1⟩ := Stores.Pop_stores h
    have hp := Stores.Peek_stores h
    cases hx : xs.getLast? with
    | none => exact absurd (List.getLast?_eq_none_iff.1 hx) hne
    | some v =>
      rw [hx] at e1 hp
      refine ⟨v, s1, e1, hp, ?_, Stores.stack_Values m1⟩
      rw [Stores.stack_Values h]
      have hsplit : xs = xs.dropLast ++ [v] := by
        have := List.dropLast_append_getLast? v (Option.mem_def.2 hx)
        exact this.symm
      conv_lhs => rw [hsplit]
      simp

theorem Pop_and_Peek_report_emptiness_witness :
    (Stack.mk (ArrayList.empty : ArrayList Nat)).Empty = true ∧
    sampleStack.Empty = false ∧ Stores sampleStack.list [1, 2, 3] ∧
    (((Stack.mk (ArrayList.empty : ArrayList Nat)).Empty = true →
      (Stack.mk (ArrayList.empty : ArrayList Nat)).Pop =
          some (default, false, Stack.mk (ArrayList.empty : ArrayList Nat)) ∧
        (Stack.mk (ArrayList.empty : ArrayList Nat)).Peek = some (default, false) ∧
        (Stack.mk (ArrayList.empty : ArrayList Nat)).Size = 0 ∧
        (Stack.mk (ArrayList.empty : ArrayList Nat)).Values = some []) ∧
    (sampleStack.Empty = false → Stores sampleStack.list [1, 2, 3] →
      ∃ v s1, sampleStack.Pop = some (v, true, s1) ∧ sampleStack.Peek = some (v, true) ∧
        sampleStack.Values = some (v :: ([1, 2, 3] : List Nat).dropLast.reverse) ∧
        s1.Values = some ([1, 2, 3] : List Nat).dropLast.reverse)) :=
  ⟨by decide, by decide, ⟨by decide, by decide, by decide⟩,
    (Pop_and_Peek_report_emptiness (Stack.mk (ArrayList.empty : ArrayList Nat)) []).1,
    (Pop_and_Peek_report_emptiness sampleStack [1, 2, 3]).2⟩

/-- C29. Let the stack `s` store the elements `xs` (bottom first) in its slice, let the
encoder accept `xs` and return `data`, and let the codec be lossless: decoding the
encoding of a list into any slice reports no error and leaves a slice holding exactly
that list. Then `ToJSON()` returns `data`, reading the stack only, and `FromJSON(data)`,
on `s` itself or on any stack `t` whatever it holds, succeeds and leaves `Values()` and
`Size()` equal to those of `s`: `xs` in LIFO order. -/
theorem FromJSON_of_ToJSON_restores_stack {D E : Type} (marshal : List V → Except E D)
    (unmarshal : D → Slice V → Slice V × Option E) (s t : Stack V) (xs : List V) (data : D)
    (hs : Stores s.list xs) (ht : t.list.values.len ≤ t.list.values.cap)
    (hm : marshal xs = .ok data)
    (hcodec : ∀ ys d sl, sl.len ≤ sl.cap → marshal ys = .ok d →
      (unmarshal d sl).2 = none ∧ (unmarshal d sl).1.toList = ys ∧
        (unmarshal d sl).1.len ≤ (unmarshal d sl).1.cap) :
    s.ToJSON marshal = some (.ok data) ∧ s.Values = some xs.reverse ∧
      s.Size = (xs.length : Int) ∧
      (t.FromJSON unmarshal data).2 = none ∧
      (t.FromJSON unmarshal data).1.Values = some xs.reverse ∧
      (t.FromJSON unmarshal data).1.Size = (xs.length : Int) ∧
      (s.FromJSON unmarshal data).2 = none ∧
      (s.FromJSON unmarshal data).1.Values = s.Values ∧
      (s.FromJSON unmarshal data).1.Size = s.Size := by
  have hlen := hs.length_xs
  have hsv := Stores.stack_Values hs
  have hsz : s.Size = (xs.length : Int) := by simp [Stack.Size, ArrayList.Size, hlen]
  have key : ∀ u : Stack V, u.list.values.len ≤ u.list.values.cap →
      (u.FromJSON unmarshal data).2 = none ∧
      (u.FromJSON unmarshal data).1.Values = some xs.reverse ∧
      (u.FromJSON unmarshal data).1.Size = (xs.length : Int) := by
    intro u hu
    obtain ⟨c1, c2, c3⟩ := hcodec xs data u.list.values hu hm
    have hst : Stores (⟨(unmarshal data u.list.values).1,
        (unmarshal data u.list.values).1.len⟩ : ArrayList V) xs :=
      ⟨Nat.le_refl _, c3, c2⟩
    have hf : u.list.FromJSON unmarshal data =
        (⟨(unmarshal data u.list.values).1, (unmarshal data u.list.values).1.len⟩, none) := by
      simp only [ArrayList.FromJSON, c1]
    refine ⟨?_, ?_, ?_⟩
    · simp only [Stack.FromJSON, hf]
    · simp only [Stack.FromJSON, hf]
      exact @Stores.stack_Values V _ ⟨_⟩ xs hst
    · simp only [Stack.FromJSON, hf, Stack.Size, ArrayList.Size]
      exact_mod_cast hst.length_xs.symm
  have hsl : s.list.values.len ≤ s.list.values.cap := hs.len_le
  refine ⟨?_, hsv, hsz, (key t ht).1, (key t ht).2.1, (key t ht).2.2, (key s hsl).1, ?_, ?_⟩
  · have hc : s.list.size ≤ s.list.values.cap := by
      have := hs.size_le
      have := hs.len_le
      simp only [Slice.cap]
      omega
    simp only [Stack.ToJSON, ArrayList.ToJSON, hc, if_true, hs.content, hm]
  · rw [(key s hsl).2.1, hsv]
  · rw [(key s hsl).2.2, hsz]

theorem FromJSON_of_ToJSON_restores_stack_witness :
    Stores sampleStack.list [1, 2, 3] ∧
    (Stack.mk ⟨⟨[9, 0], 2⟩, 1⟩ : Stack Nat).list.values.len ≤
      (Stack.mk ⟨⟨[9, 0], 2⟩, 1⟩ : Stack Nat).list.values.cap ∧
    (Except.ok [1, 2, 3] : Except Unit (List Nat)) = .ok [1, 2, 3] ∧
    (∀ (ys d : List Nat) (sl : Slice Nat), sl.len ≤ sl.cap →
      (Except.ok ys : Except Unit (List Nat)) = .ok d →
      ((unmarshalArray d sl, (none : Option Unit))).2 = none ∧
        ((unmarshalArray d sl, (none : Option Unit))).1.toList = ys ∧
        ((unmarshalArray d sl, (none : Option Unit))).1.len ≤
          ((unmarshalArray d sl, (none : Option Unit))).1.cap) ∧
    (sampleStack.ToJSON (fun ys => (Except.ok ys : Except Unit (List Nat))) =
        some (.ok [1, 2, 3]) ∧
      sampleStack.Values = some ([1, 2, 3] : List Nat).reverse ∧
      sampleStack.Size = ((([1, 2, 3] : List Nat).length : Nat) : Int) ∧
      ((Stack.mk ⟨⟨[9, 0], 2⟩, 1⟩ : Stack Nat).FromJSON
        (fun d sl => (unmarshalArray d sl, (none : Option Unit))) [1, 2, 3]).2 = none ∧
      ((Stack.mk ⟨⟨[9, 0], 2⟩, 1⟩ : Stack Nat).FromJSON
        (fun d sl => (unmarshalArray d sl, (none : Option Unit))) [1, 2, 3]).1.Values =
          some ([1, 2, 3] : List Nat).reverse ∧
      ((Stack.mk ⟨⟨[9, 0], 2⟩, 1⟩ : Stack Nat).FromJSON
        (fun d sl => (unmarshalArray d sl, (none : Option Unit))) [1, 2, 3]).1.Size =
          ((([1, 2, 3] : List Nat).length : Nat) : Int) ∧
      (sampleStack.FromJSON
        (fun d sl => (unmarshalArray d sl, (none : Option Unit))) [1, 2, 3]).2 = none ∧
      (sampleStack.FromJSON
        (fun d sl => (unmarshalArray d sl, (none : Option Unit))) [1, 2, 3]).1.Values =
          sampleStack.Values ∧
      (sampleStack.FromJSON
        (fun d sl => (unmarshalArray d sl, (none : Option Unit))) [1, 2, 3]).1.Size =
          sampleStack.Size) :=
  ⟨⟨by decide, by decide, by decide⟩, by decide, rfl,
    fun ys d sl hsl h => by
      cases h
      exact ⟨rfl, (unmarshalArray_toList ys sl hsl).1, (unmarshalArray_toList ys sl hsl).2.1⟩,
    FromJSON_of_ToJSON_restores_stack (fun ys => (Except.ok ys : Except Unit (List Nat)))
      (fun d sl => (unmarshalArray d sl, (none : Option Unit))) sampleStack
      (Stack.mk ⟨⟨[9, 0], 2⟩, 1⟩) [1, 2, 3] [1, 2, 3] ⟨by decide, by decide, by decide⟩
      (by decide) rfl
      (fun ys d sl hsl h => by
        cases h
        exact ⟨rfl, (unmarshalArray_toList ys sl hsl).1,
          (unmarshalArray_toList ys sl hsl).2.1⟩)⟩

end arraystack

/-! ## Doubly-linked list: the empty batch of Insert and the output of Set -/

namespace doublylinkedlist
variable {V : Type} [Inhabited V]

/-- C38, on a failing input. The well-formed list `sampleList` has `Values() = [10, 20,
30, 40, 50]`. `Insert(0)` with the empty batch panics: the head branch leaves
`beforeElement` nil and then assigns `beforeElement.next`. `Insert(4)` with the empty
batch panics too: the backward walk makes no step, `beforeElement` is nil and
`beforeElement.next` is read. At the indices 1, 2 and 3 the empty batch leaves
`Values()` as it was. -/
theorem Insert_of_empty_batch_panics :
    WellFormed sampleList ∧ sampleList.Values = some [10, 20, 30, 40, 50] ∧
    sampleList.Insert 0 [] = none ∧ sampleList.Insert 4 [] = none ∧
    (sampleList.Insert 1 []).bind DList.Values = some [10, 20, 30, 40, 50] ∧
    (sampleList.Insert 2 []).bind DList.Values = some [10, 20, 30, 40, 50] ∧
    (sampleList.Insert 3 []).bind DList.Values = some [10, 20, 30, 40, 50] := by
  refine ⟨sampleList_wellFormed, ?_, ?_, ?_, ?_, ?_, ?_⟩ <;> decide

/-- C40, on a failing input. On the well-formed list `sampleList`, of size 5, `Set(3, 99)`
walks backward from `last` and makes one step: it writes one line to standard output,
with the arguments `3`, `99`, the node found so far and its `prev` link. `Set(4, 99)` and
`Set(1, 99)` write nothing. -/
theorem Set_backward_walk_prints :
    WellFormed sampleList ∧
    (sampleList.Set 3 99).map Prod.snd = some [⟨3, 99, some 4, some 3⟩] ∧
    ((sampleList.Set 3 99).bind fun r => r.1.Values) = some [10, 20, 30, 99, 50] ∧
    (sampleList.Set 4 99).map Prod.snd = some [] ∧
    (sampleList.Set 1 99).map Prod.snd = some [] := by
  refine ⟨sampleList_wellFormed, ?_, ?_, ?_, ?_⟩ <;> decide

end doublylinkedlist

/-! ## Linked hash set: first occurrences in Map and FromJSON -/

theorem dedupFirst_length_le {V : Type} [DecidableEq V] : ∀ ys : List V,
    (dedupFirst ys).length ≤ ys.length
  | [] => Nat.le_refl _
  | x :: ys => by
    have h1 := dedupFirst_length_le ys
    have h2 := List.length_filter_le (fun y => decide (y ≠ x)) (dedupFirst ys)
    simp only [dedupFirst, List.length_cons]
    omega

theorem dedupFirst_of_nodup {V : Type} [DecidableEq V] : ∀ ys : List V, ys.Nodup →
    dedupFirst ys = ys
  | [], _ => rfl
  | x :: ys, h => by
    obtain ⟨hx, hn⟩ := List.nodup_cons.1 h
    rw [dedupFirst, dedupFirst_of_nodup ys hn, List.filter_eq_self.2]
    intro y hy
    simp only [decide_eq_true_eq]
    rintro rfl
    exact hx hy

theorem mem_dedupFirst {V : Type} [DecidableEq V] : ∀ (ys : List V) (v : V),
    v ∈ dedupFirst ys ↔ v ∈ ys
  | [], v => Iff.rfl
  | x :: ys, v => by
    simp only [dedupFirst, List.mem_cons, List.mem_filter, mem_dedupFirst ys v,
      decide_eq_true_eq]
    by_cases h : v = x
    · simp [h]
    · simp [h]

theorem dedupFirst_nodup {V : Type} [DecidableEq V] : ∀ ys : List V, (dedupFirst ys).Nodup
  | [] => List.nodup_nil
  | x :: ys => by
    rw [dedupFirst, List.nodup_cons]
    refine ⟨?_, (dedupFirst_nodup ys).filter _⟩
    simp [List.mem_filter]

theorem dedupFirst_length_eq_iff {V : Type} [DecidableEq V] (ys : List V) :
    (dedupFirst ys).length = ys.length ↔ ys.Nodup := by
  constructor
  · intro h
    have hs : (dedupFirst ys).Sublist ys := by
      induction ys with
      | nil => exact List.Sublist.slnil
      | cons x ys ih =>
        have h1 := dedupFirst_length_le ys
        have h2 := List.length_filter_le (fun y => decide (y ≠ x)) (dedupFirst ys)
        simp only [dedupFirst, List.length_cons] at h
        have h3 : (dedupFirst ys).length = ys.length := by omega
        rw [dedupFirst]
        exact ((List.filter_sublist _).trans (ih h3)).cons₂ x
    have := hs.eq_of_length h
    rw [← this]
    exact dedupFirst_nodup ys
  · intro h
    rw [dedupFirst_of_nodup ys h]

namespace linkedhashset
open doublylinkedlist
variable {V : Type} [Inhabited V] [DecidableEq V]

theorem freshItems_foldl_dedupFirst (items : List V) : ∀ acc : List V,
    items.foldl (fun acc item => if item ∈ acc then acc else acc ++ [item]) acc =
      acc ++ (dedupFirst items).filter fun y => decide (y ∉ acc) := by
  induction items with
  | nil => intro acc; simp [dedupFirst]
  | cons x items ih =>
    intro acc
    by_cases hx : x ∈ acc
    · simp only [List.foldl_cons, hx, if_true, ih, dedupFirst, List.filter_cons,
        decide_not, decide_True, Bool.not_true, Bool.false_eq_true, if_false, List.filter_filter]
      congr 1
      apply List.filter_congr
      intro y _
      by_cases hy : y ∈ acc
      · simp [hy]
      · have : y ≠ x := by rintro rfl; exact hy hx
        simp [hy, this]
    · simp only [List.foldl_cons, hx, if_false, ih, dedupFirst, List.filter_cons,
        decide_not, decide_False, Bool.not_false, if_true, List.filter_filter,
        List.append_assoc, List.singleton_append]
      congr 2
      apply List.filter_congr
      intro y _
      by_cases hy : y ∈ acc
      · simp [hy]
      · by_cases hyx : y = x
        · simp [hyx]
        · simp [hy, hyx]

theorem freshItems_nil_dedupFirst (items : List V) : freshItems [] items = dedupFirst items := by
  have := freshItems_foldl_dedupFirst items []
  simpa [freshItems] using this

/-- C36. On a reachable set with `Values() = xs` of length `n`, for every transform `f`,
`Map(f)` returns a set whose `Values()` is the list `f(0, xs[0]), ..., f(n-1, xs[n-1])`
with every later duplicate removed (first occurrences kept, in order); its `Size()` is at
most `n`, and equal to `n` exactly when the results are pairwise distinct. -/
theorem Map_keeps_first_occurrences (s : LinkedHashSet V) (xs : List V) (f : Int → V → V)
    (hr : Reachable s) (hv : s.Values = some xs) :
    ∃ t, s.Map f = some t ∧
      t.Values = some (dedupFirst ((indexed xs).map fun p => f p.1 p.2)) ∧
      ((indexed xs).map fun p => f p.1 p.2).length = xs.length ∧
      (∀ (i : Nat) (v : V), xs[i]? = some v →
        ((indexed xs).map fun p => f p.1 p.2)[i]? = some (f (i : Int) v)) ∧
      t.Size ≤ (xs.length : Int) ∧
      (t.Size = (xs.length : Int) ↔ ((indexed xs).map fun p => f p.1 p.2).Nodup) := by
  obtain ⟨as, i⟩ := hr.inv_of_Values hv
  obtain ⟨t, as1, e1, i1⟩ := i.Map_eq f
  rw [freshItems_nil_dedupFirst] at i1
  have hl : ((indexed xs).map fun p => f p.1 p.2).length = xs.length := by
    simp [indexed_length]
  have hle := dedupFirst_length_le ((indexed xs).map fun p => f p.1 p.2)
  have hiff := dedupFirst_length_eq_iff ((indexed xs).map fun p => f p.1 p.2)
  refine ⟨t, e1, i1.set_Values_eq, hl, ?_, ?_, ?_⟩
  · intro k v hk
    rw [List.getElem?_map, indexed_getElem?, hk]
    rfl
  · rw [i1.Size_eq]
    omega
  · rw [i1.Size_eq, ← hiff]
    omega

theorem Map_keeps_first_occurrences_witness :
    Reachable sampleSet ∧ sampleSet.Values = some [3, 1, 2] ∧
    ∃ t, sampleSet.Map (fun _ v => v % 2) = some t ∧
      t.Values = some (dedupFirst ((indexed [3, 1, 2]).map
        fun p => (fun (_ : Int) (v : Nat) => v % 2) p.1 p.2)) ∧
      ((indexed [3, 1, 2]).map fun p => (fun (_ : Int) (v : Nat) => v % 2) p.1 p.2).length =
        ([3, 1, 2] : List Nat).length ∧
      (∀ (i : Nat) (v : Nat), [3, 1, 2][i]? = some v →
        ((indexed [3, 1, 2]).map fun p => (fun (_ : Int) (v : Nat) => v % 2) p.1 p.2)[i]? =
          some ((fun (_ : Int) (v : Nat) => v % 2) (i : Int) v)) ∧
      t.Size ≤ ((([3, 1, 2] : List Nat).length : Nat) : Int) ∧
      (t.Size = ((([3, 1, 2] : List Nat).length : Nat) : Int) ↔
        ((indexed [3, 1, 2]).map
          fun p => (fun (_ : Int) (v : Nat) => v % 2) p.1 p.2).Nodup) :=
  ⟨sampleSet_reachable, by decide,
    Map_keeps_first_occurrences sampleSet [3, 1, 2] (fun _ v => v % 2) sampleSet_reachable
      (by decide)⟩

/-- C37. For every set `s`, whatever it holds, and every input: when decoding fails,
`FromJSON` returns the decoder's error and the set it leaves is `s` itself, so `Values()`
and every `Contains` result are as before; when decoding succeeds with the element list
`ds`, `FromJSON` returns no error, the previous content is gone, `Values()` is `ds` with
every later duplicate removed and `Contains` holds exactly for the values of `ds`. -/
theorem FromJSON_keeps_set_on_error {D E : Type} (unmarshal : D → Except E (List V))
    (s : LinkedHashSet V) (data : D) :
    (∀ err, unmarshal data = .error err →
      s.FromJSON unmarshal data = some (s, some err)) ∧
    (∀ ds, unmarshal data = .ok ds →
      ∃ s1, s.FromJSON unmarshal data = some (s1, none) ∧
        s1.Values = some (dedupFirst ds) ∧ s1.Size = ((dedupFirst ds).length : Int) ∧
        ∀ x, s1.Contains [x] = true ↔ x ∈ ds) := by
  constructor
  · intro err he
    simp only [LinkedHashSet.FromJSON, he]
  · intro ds hd
    obtain ⟨s1, as1, e1, i1⟩ := (inv_Clear s).Add_inv ds
    rw [List.nil_append, freshItems_nil_dedupFirst] at i1
    refine ⟨s1, ?_, i1.set_Values_eq, i1.Size_eq, ?_⟩
    · simp only [LinkedHashSet.FromJSON, hd, e1, Option.map_some']
    · intro x
      rw [Contains_iff_table]
      simp only [List.mem_singleton, forall_eq, i1.keys x, mem_dedupFirst]

theorem FromJSON_keeps_set_on_error_witness :
    (fun (d : List Nat) => if d = [] then (Except.error () : Except Unit (List Nat))
      else .ok d) [] = .error () ∧
    (fun (d : List Nat) => if d = [] then (Except.error () : Except Unit (List Nat))
      else .ok d) [5, 3, 5] = .ok [5, 3, 5] ∧
    sampleSet.FromJSON (fun (d : List Nat) =>
      if d = [] then (Except.error () : Except Unit (List Nat)) else .ok d) [] =
        some (sampleSet, some ()) ∧
    ∃ s1, sampleSet.FromJSON (fun (d : List Nat) =>
        if d = [] then (Except.error () : Except Unit (List Nat)) else .ok d) [5, 3, 5] =
          some (s1, none) ∧
      s1.Values = some (dedupFirst [5, 3, 5]) ∧
      s1.Size = ((dedupFirst [5, 3, 5]).length : Int) ∧
      ∀ x, s1.Contains [x] = true ↔ x ∈ [5, 3, 5] :=
  ⟨rfl, rfl,
    (FromJSON_keeps_set_on_error (fun (d : List Nat) =>
      if d = [] then (Except.error () : Except Unit (List Nat)) else .ok d)
      sampleSet []).1 () rfl,
    (FromJSON_keeps_set_on_error (fun (d : List Nat) =>
      if d = [] then (Except.error () : Except Unit (List Nat)) else .ok d)
      sampleSet [5, 3, 5]).2 [5, 3, 5] rfl⟩

end linkedhashset

/-! ## Doubly-linked list: sorting -/

theorem sortBy_totalOrder {V : Type} (c : V → V → Int) (vs : List V) (hc : TotalOrder c) :
    (sortBy vs c).Perm vs ∧ (sortBy vs c).Chain' (fun x y => c x y ≤ 0) := by
  haveI : IsTotal V (fun a b => c a b ≤ 0) := ⟨hc.total⟩
  haveI : IsTrans V (fun a b => c a b ≤ 0) := ⟨hc.trans⟩
  refine ⟨List.perm_insertionSort _ vs, ?_⟩
  have := List.sorted_insertionSort (fun a b => c a b ≤ 0) vs
  exact List.Pairwise.chain' this

namespace doublylinkedlist
variable {V : Type} [Inhabited V]

theorem Chain.SortWith_chain {l : DList V} {as : List Nat} {xs : List V} (h : Chain l as xs)
    (sort : List V → (V → V → Int) → List V) (comparator : V → V → Int) :
    ∃ l1 as1, l.SortWith sort comparator = some l1 ∧
      Chain l1 as1 (if l.size < 2 then xs else sort xs comparator) := by
  by_cases h2 : l.size < 2
  · exact ⟨l, as, by simp [DList.SortWith, h2], by simpa [h2] using h⟩
  · obtain ⟨l1, as1, e1, c1⟩ := (chain_Clear l).Add_chain (sort xs comparator)
    refine ⟨l1, as1, ?_, ?_⟩
    · simp only [DList.SortWith, h2, if_false, h.Values_eq, Option.some_bind, e1]
    · simpa [h2] using c1

/-- C31. On a well-formed list with `Values() = xs`, for a comparator that decides a total
order, and with `utils.Sort` returning, for such comparators, a permutation of its input
in which no adjacent pair is out of order: `Sort(comparator)` returns, and afterwards
`Values()` is a permutation of `xs` in which no adjacent pair `x, y` has
`comparator(x, y) > 0`, `Size()` is unchanged and the list is well formed. -/
theorem Sort_orders_values (sort : List V → (V → V → Int) → List V) (l : DList V)
    (xs : List V) (comparator : V → V → Int) (hwf : WellFormed l) (hv : l.Values = some xs)
    (hc : TotalOrder comparator)
    (hsort : ∀ (c : V → V → Int) (vs : List V), TotalOrder c →
      (sort vs c).Perm vs ∧ (sort vs c).Chain' (fun x y => c x y ≤ 0)) :
    ∃ l1 ys, l.SortWith sort comparator = some l1 ∧ l1.Values = some ys ∧ ys.Perm xs ∧
      ys.Chain' (fun x y => ¬ comparator x y > 0) ∧ l1.Size = l.Size ∧ WellFormed l1 := by
  obtain ⟨as, c⟩ := hwf.chain_of_Values hv
  obtain ⟨l1, as1, e1, c1⟩ := c.SortWith_chain sort comparator
  have hp : (if l.size < 2 then xs else sort xs comparator).Perm xs := by
    split_ifs
    · exact List.Perm.refl _
    · exact (hsort comparator xs hc).1
  refine ⟨l1, _, e1, c1.Values_eq, hp, ?_, ?_, ⟨as1, _, c1⟩⟩
  · split_ifs with h2
    · have hl : xs.length < 2 := by rw [c.len_xs]; exact h2
      match xs, hl with
      | [], _ => exact List.chain'_nil
      | [_], _ => exact List.chain'_singleton _
      | _ :: _ :: _, hl => simp only [List.length_cons] at hl; omega
    · exact List.Chain'.imp (fun {x y} (h : comparator x y ≤ 0) => by omega)
        (hsort comparator xs hc).2
  · rw [c1.size_eq, c.size_eq, hp.length_eq]

theorem Sort_orders_values_witness :
    WellFormed (⟨[⟨3, none, some 1⟩, ⟨1, some 0, some 2⟩, ⟨2, some 1, none⟩], some 0, some 2,
      3⟩ : DList Nat) ∧
    (⟨[⟨3, none, some 1⟩, ⟨1, some 0, some 2⟩, ⟨2, some 1, none⟩], some 0, some 2, 3⟩ :
      DList Nat).Values = some [3, 1, 2] ∧
    TotalOrder (fun (a b : Nat) => (a : Int) - (b : Int)) ∧
    (∀ (c : Nat → Nat → Int) (vs : List Nat), TotalOrder c →
      (sortBy vs c).Perm vs ∧ (sortBy vs c).Chain' (fun x y => c x y ≤ 0)) ∧
    ∃ l1 ys, (⟨[⟨3, none, some 1⟩, ⟨1, some 0, some 2⟩, ⟨2, some 1, none⟩], some 0, some 2,
        3⟩ : DList Nat).SortWith sortBy (fun (a b : Nat) => (a : Int) - (b : Int)) = some l1 ∧
      l1.Values = some ys ∧ ys.Perm [3, 1, 2] ∧
      ys.Chain' (fun x y => ¬ (fun (a b : Nat) => (a : Int) - (b : Int)) x y > 0) ∧
      l1.Size = (⟨[⟨3, none, some 1⟩, ⟨1, some 0, some 2⟩, ⟨2, some 1, none⟩], some 0, some 2,
        3⟩ : DList Nat).Size ∧ WellFormed l1 :=
  ⟨@New_wellFormed Nat _ [3, 1, 2] _ (by decide), by decide,
    ⟨fun a b => by omega, fun a b c h1 h2 => by omega⟩,
    fun c vs hc => sortBy_totalOrder c vs hc,
    Sort_orders_values sortBy _ [3, 1, 2] (fun (a b : Nat) => (a : Int) - (b : Int))
      (@New_wellFormed Nat _ [3, 1, 2] _ (by decide)) (by decide)
      ⟨fun a b => by omega, fun a b c h1 h2 => by omega⟩
      (fun c vs hc => sortBy_totalOrder c vs hc)⟩

end doublylinkedlist

/-! ## Doubly-linked list: sequences of iterator calls -/

namespace doublylinkedlist
variable {V : Type} [Inhabited V]

theorem Chain.Next_at {l : DList V} {as : List Nat} {xs : List V} (h : Chain l as xs)
    {it : Iterator} {p : Nat} (hp : p ≤ l.size + 1) (hi : it.index = (p : Int) - 1)
    (he : it.element = prevPtr as p ∨ (p = l.size + 1 ∧ it.element = l.last)) :
    Iterator.Next l it =
      some (⟨((min (p + 1) (l.size + 1) : Nat) : Int) - 1, prevPtr as (min (p + 1) (l.size + 1))⟩,
        decide (p < l.size)) := by
  by_cases hps : p = l.size + 1
  · subst hps
    have hw : l.withinRange (((l.size + 1 : Nat) : Int) - 1) = false := by
      rw [← Bool.not_eq_true, withinRange_iff]; omega
    have hnone : prevPtr as (l.size + 1) = none := by
      simp only [prevPtr, Nat.add_sub_cancel, if_neg (Nat.succ_ne_zero _)]
      exact List.getElem?_eq_none_iff.2 (by rw [h.len_as])
    have hm : min (l.size + 1 + 1) (l.size + 1) = l.size + 1 := by omega
    have hidx : (if it.index < (l.size : Int) then it.index + 1 else it.index) =
        ((l.size + 1 : Nat) : Int) - 1 := by
      rw [hi, if_neg (by omega)]
    rw [hm, hnone]
    simp only [Iterator.Next, hidx, hw, Bool.not_false, if_true]
    simp
  · have hple : p ≤ l.size := by omega
    have hel : it.element = prevPtr as p := by
      rcases he with he | ⟨he, _⟩
      · exact he
      · exact absurd he hps
    have hit : it = ⟨(p : Int) - 1, prevPtr as p⟩ := by
      cases it
      simp only [Iterator.mk.injEq]
      exact ⟨hi, hel⟩
    have hm : min (p + 1) (l.size + 1) = p + 1 := by omega
    rw [hit, h.Next_eq hple, hm]
    simp [prevPtr]

theorem Chain.Prev_at {l : DList V} {as : List Nat} {xs : List V} (h : Chain l as xs)
    {it : Iterator} {p : Nat} (hp : p ≤ l.size + 1) (hi : it.index = (p : Int) - 1)
    (he : it.element = prevPtr as p ∨ (p = l.size + 1 ∧ it.element = l.last)) :
    Iterator.Prev l it =
      some (⟨((p - 1 : Nat) : Int) - 1, prevPtr as (p - 1)⟩, decide (2 ≤ p)) := by
  by_cases hz : p = 0
  · subst hz
    have hw : l.withinRange (-1) = false := by
      rw [← Bool.not_eq_true, withinRange_iff]; omega
    have hidx : (if 0 ≤ it.index then it.index - 1 else it.index) = -1 := by
      rw [hi, if_neg (by omega)]; omega
    simp only [Iterator.Prev, hidx, hw, Bool.not_false, if_true]
    simp [prevPtr]
  · have hit : it = ⟨((p - 1 : Nat) : Int), it.element⟩ := by
      cases it
      simp only [Iterator.mk.injEq, and_true]
      simp only at hi
      omega
    have hel : p - 1 < l.size → it.element = as[p - 1]? := by
      intro hlt
      rcases he with he | ⟨he, _⟩
      · rw [he]; simp [prevPtr, hz]
      · omega
    rw [hit, h.Prev_eq (show p - 1 ≤ l.size by omega) hel]
    congr 2
    simp only [decide_eq_decide]
    omega

theorem runCalls_append (l : DList V) (calls : List IterCall) (c : IterCall) :
    runCalls l (calls ++ [c]) = (runCalls l calls).bind fun st => IterCall.call l st c := by
  simp only [runCalls, List.foldlM_append, List.foldlM_cons, List.foldlM_nil]
  cases List.foldlM (IterCall.call l) (⟨Iterator.new, none, none⟩ : IterState) calls with
  | none => rfl
  | some st =>
    show (IterCall.call l st c).bind pure = _
    simp

/-- After any sequence of iterator calls the iterator is at a position `p - 1` with
`p ≤ size + 1`, and its node link is the node at that position (nil at both sentinels),
except right after `End`, which leaves the link on the last node. -/
theorem Chain.runCalls_inv {l : DList V} {as : List Nat} {xs : List V} (h : Chain l as xs)
    (calls : List IterCall) :
    ∃ st p, runCalls l calls = some st ∧ p ≤ l.size + 1 ∧
      st.iterator.index = (p : Int) - 1 ∧
      (st.iterator.element = prevPtr as p ∨
        (calls.getLast? = some .toEnd ∧ p = l.size + 1 ∧ st.iterator.element = l.last)) ∧
      (st.latest = some true → 1 ≤ p ∧ p ≤ l.size ∧ st.iterator.element = prevPtr as p) := by
  induction calls using List.reverseRecOn with
  | nil =>
    exact ⟨_, 0, rfl, by omega, rfl, Or.inl rfl, fun hl => by cases hl⟩
  | append_singleton calls c ih =>
    obtain ⟨st, p, e, hp, hi, he, _⟩ := ih
    have he2 : st.iterator.element = prevPtr as p ∨
        (p = l.size + 1 ∧ st.iterator.element = l.last) := by
      rcases he with he | ⟨_, h2, h3⟩
      · exact Or.inl he
      · exact Or.inr ⟨h2, h3⟩
    have hN := h.Next_at hp hi he2
    have hP := h.Prev_at hp hi he2
    have hF := @Chain.Next_at V _ l as xs h st.iterator.Begin 0 (by omega) rfl (Or.inl rfl)
    have hL := @Chain.Prev_at V _ l as xs h (Iterator.End l st.iterator) (l.size + 1)
      (by omega) (by simp [Iterator.End]) (Or.inr ⟨rfl, rfl⟩)
    rw [runCalls_append, e, Option.some_bind, List.getLast?_concat]
    cases c with
    | begin =>
      exact ⟨_, 0, rfl, by omega, rfl, Or.inl rfl, fun hl => by cases hl⟩
    | toEnd =>
      refine ⟨_, l.size + 1, rfl, by omega, ?_, Or.inr ⟨rfl, rfl, rfl⟩, fun hl => by cases hl⟩
      simp [Iterator.End]
    | first =>
      have hc : IterCall.call l st .first =
          some ⟨⟨((min (0 + 1) (l.size + 1) : Nat) : Int) - 1,
            prevPtr as (min (0 + 1) (l.size + 1))⟩, some (decide (0 < l.size)),
            some (decide (0 < l.size))⟩ := by
        simp only [IterCall.call, Iterator.First, hF, Option.map_some']
      refine ⟨_, min (0 + 1) (l.size + 1), hc, by omega, rfl, Or.inl rfl, ?_⟩
      intro hl
      have hlt : 0 < l.size := by simpa using hl
      exact ⟨by omega, by omega, rfl⟩
    | last =>
      have hc : IterCall.call l st .last =
          some ⟨⟨((l.size + 1 - 1 : Nat) : Int) - 1, prevPtr as (l.size + 1 - 1)⟩,
            some (decide (2 ≤ l.size + 1)), some (decide (2 ≤ l.size + 1))⟩ := by
        simp only [IterCall.call, Iterator.Last, hL, Option.map_some']
      refine ⟨_, l.size + 1 - 1, hc, by omega, rfl, Or.inl rfl, ?_⟩
      intro hl
      have hlt : 2 ≤ l.size + 1 := by simpa using hl
      exact ⟨by omega, by omega, rfl⟩
    | next =>
      have hc : IterCall.call l st .next =
          some ⟨⟨((min (p + 1) (l.size + 1) : Nat) : Int) - 1,
            prevPtr as (min (p + 1) (l.size + 1))⟩, some (decide (p < l.size)),
            some (decide (p < l.size))⟩ := by
        simp only [IterCall.call, hN, Option.map_some']
      refine ⟨_, min (p + 1) (l.size + 1), hc, by omega, rfl, Or.inl rfl, ?_⟩
      intro hl
      have hlt : p < l.size := by simpa using hl
      exact ⟨by omega, by omega, rfl⟩
    | prev =>
      have hc : IterCall.call l st .prev =
          some ⟨⟨((p - 1 : Nat) : Int) - 1, prevPtr as (p - 1)⟩, some (decide (2 ≤ p)),
            some (decide (2 ≤ p))⟩ := by
        simp only [IterCall.call, hP, Option.map_some']
      refine ⟨_, p - 1, hc, by omega, rfl, Or.inl rfl, ?_⟩
      intro hl
      have hlt : 2 ≤ p := by simpa using hl
      exact ⟨by omega, by omega, rfl⟩

/-- C33, on a failing input. On the well-formed list `sampleList`, of size 5, after the
calls `Next()`, `Begin()` the most recent `Next`, `Prev`, `First` or `Last` call returned
true, yet `Index()` is -1 and `Value()` dereferences nil; after `Next()`, `End()` it is
also so, `Index()` is 5 and `Value()` is the last value while `Get(5)` finds nothing. -/
theorem recent_true_call_then_Begin_or_End :
    WellFormed sampleList ∧ sampleList.Size = 5 ∧
    (∃ st, runCalls sampleList [.next, .begin] = some st ∧ st.recent = some true ∧
      st.iterator.Index = -1 ∧
      ¬ (0 ≤ st.iterator.Index ∧ st.iterator.Index < sampleList.Size) ∧
      Iterator.Value sampleList st.iterator = none) ∧
    (∃ st, runCalls sampleList [.next, .toEnd] = some st ∧ st.recent = some true ∧
      st.iterator.Index = 5 ∧
      ¬ (0 ≤ st.iterator.Index ∧ st.iterator.Index < sampleList.Size) ∧
      Iterator.Value sampleList st.iterator = some 50 ∧
      sampleList.Get st.iterator.Index = some (0, false)) := by
  refine ⟨sampleList_wellFormed, by decide, ⟨_, rfl, ?_, ?_, ?_, ?_⟩,
    ⟨_, rfl, ?_, ?_, ?_, ?_, ?_⟩⟩ <;> decide

/-- C33, amended. On a well-formed list with `Values() = xs`, every finite sequence of
`Begin`, `End`, `First`, `Last`, `Next` and `Prev` calls on the iterator `l.Iterator()`
completes, `Index()` stays in `[-1, Size()]`, and whenever the last call of the sequence
is a `Next`, `Prev`, `First` or `Last` call that returned true, `Index()` lies in
`[0, Size())` and `Value()` is the value that `Get(Index())` returns, `xs[Index()]`. -/
theorem latest_true_call_is_on_a_node (l : DList V) (xs : List V) (calls : List IterCall)
    (hwf : WellFormed l) (hv : l.Values = some xs) :
    ∃ st, runCalls l calls = some st ∧
      (-1 ≤ st.iterator.Index ∧ st.iterator.Index ≤ l.Size) ∧
      (st.latest = some true →
        (0 ≤ st.iterator.Index ∧ st.iterator.Index < l.Size) ∧
        ∃ v, Iterator.Value l st.iterator = some v ∧
          l.Get st.iterator.Index = some (v, true) ∧
          xs[st.iterator.Index.toNat]? = some v) := by
  obtain ⟨as, c⟩ := hwf.chain_of_Values hv
  obtain ⟨st, p, e, hp, hi, _, hl⟩ := c.runCalls_inv calls
  refine ⟨st, e, ?_, ?_⟩
  · simp only [Iterator.Index, DList.Size, hi]
    omega
  · intro ht
    obtain ⟨h1, h2, h3⟩ := hl ht
    have hlt : p - 1 < l.size := by omega
    obtain ⟨x, hx, hld⟩ := c.load_at hlt
    have hel : st.iterator.element = as[p - 1]? := by
      rw [h3]; simp [prevPtr, show p ≠ 0 by omega]
    have hidx : st.iterator.index = ((p - 1 : Nat) : Int) := by omega
    refine ⟨?_, x, ?_, ?_, ?_⟩
    · simp only [Iterator.Index, DList.Size, hidx]
      omega
    · simp only [Iterator.Value, hel, hld, Option.map_some']
    · have hg := c.Get_eq ((p - 1 : Nat) : Int)
      have hcond : 0 ≤ ((p - 1 : Nat) : Int) ∧ ((p - 1 : Nat) : Int) < (xs.length : Int) := by
        rw [c.len_xs]; omega
      rw [if_pos hcond, Int.toNat_ofNat, List.getD_eq_getElem?_getD, hx] at hg
      simpa [Iterator.Index, hidx] using hg
    · simp only [Iterator.Index, hidx, Int.toNat_ofNat, hx]

theorem latest_true_call_is_on_a_node_witness :
    WellFormed sampleList ∧ sampleList.Values = some [10, 20, 30, 40, 50] ∧
    ∃ st, runCalls sampleList [.toEnd, .prev, .prev, .begin, .next, .next] = some st ∧
      (-1 ≤ st.iterator.Index ∧ st.iterator.Index ≤ sampleList.Size) ∧
      (st.latest = some true →
        (0 ≤ st.iterator.Index ∧ st.iterator.Index < sampleList.Size) ∧
        ∃ v, Iterator.Value sampleList st.iterator = some v ∧
          sampleList.Get st.iterator.Index = some (v, true) ∧
          [10, 20, 30, 40, 50][st.iterator.Index.toNat]? = some v) :=
  ⟨sampleList_wellFormed, by decide,
    latest_true_call_is_on_a_node sampleList [10, 20, 30, 40, 50]
      [.toEnd, .prev, .prev, .begin, .next, .next] sampleList_wellFormed (by decide)⟩

/-- C34, on a failing input. On the well-formed list `sampleList`, of size 5, after the
call `End()` on a new iterator `Index()` is 5, which is `Size()`, and the current-node link
is the last node, not nil. -/
theorem End_keeps_link_to_last_node :
    WellFormed sampleList ∧ sampleList.Size = 5 ∧
    ∃ st, runCalls sampleList [.toEnd] = some st ∧ st.iterator.Index = sampleList.Size ∧
      st.iterator.element = some 4 ∧ st.iterator.element ≠ none ∧
      st.iterator.element = sampleList.last := by
  refine ⟨sampleList_wellFormed, by decide, _, rfl, ?_, ?_, ?_, ?_⟩ <;> decide

/-- C34, amended. On a well-formed list, after every finite sequence of `Begin`, `End`,
`First`, `Last`, `Next` and `Prev` calls on the iterator `l.Iterator()`: the current-node
link is nil whenever `Index()` is -1; it is nil whenever `Index()` is `Size()` and the
last call was not `End()`; and right after `End()`, `Index()` is `Size()` and the link is
`l.last`, the last node (nil only on an empty list). -/
theorem sentinel_link_is_nil_except_after_End (l : DList V) (calls : List IterCall)
    (hwf : WellFormed l) :
    ∃ st, runCalls l calls = some st ∧
      (st.iterator.Index = -1 → st.iterator.element = none) ∧
      (st.iterator.Index = l.Size → calls.getLast? ≠ some .toEnd →
        st.iterator.element = none) ∧
      (calls.getLast? = some .toEnd →
        st.iterator.Index = l.Size ∧ st.iterator.element = l.last ∧
        (st.iterator.element = none ↔ l.Size = 0)) := by
  obtain ⟨as, xs, c⟩ := hwf
  obtain ⟨st, p, e, hp, hi, he, _⟩ := c.runCalls_inv calls
  have hnone : prevPtr as (l.size + 1) = none := by
    simp only [prevPtr, Nat.add_sub_cancel, if_neg (Nat.succ_ne_zero _)]
    exact List.getElem?_eq_none_iff.2 (by rw [c.len_as])
  refine ⟨st, e, ?_, ?_, ?_⟩
  · intro h1
    have hp0 : p = 0 := by simp only [Iterator.Index] at h1; omega
    rcases he with he | ⟨_, h2, _⟩
    · rw [he, hp0]; rfl
    · omega
  · intro h1 h2
    have hps : p = l.size + 1 := by simp only [Iterator.Index, DList.Size] at h1; omega
    rcases he with he | ⟨h3, _, _⟩
    · rw [he, hps, hnone]
    · exact absurd h3 h2
  · intro h1
    obtain ⟨calls0, rfl⟩ : ∃ calls0, calls = calls0 ++ [IterCall.toEnd] := by
      have := List.getLast?_eq_some_iff.1 h1
      exact this
    rw [runCalls_append] at e
    cases h0 : runCalls l calls0 with
    | none => rw [h0] at e; cases e
    | some st0 =>
      rw [h0, Option.some_bind] at e
      simp only [IterCall.call, Option.some.injEq] at e
      subst e
      refine ⟨rfl, rfl, ?_⟩
      simp only [Iterator.End, DList.Size]
      rw [c.last]
      constructor
      · intro hn
        by_contra hne
        have hpos : l.size - 1 < as.length := by
          rw [c.len_as]
          have : (l.size : Int) ≠ 0 := hne
          omega
        rw [List.getElem?_eq_getElem hpos] at hn
        cases hn
      · intro hz
        have hz2 : l.size = 0 := by exact_mod_cast hz
        rw [hz2]
        exact List.getElem?_eq_none_iff.2 (by rw [c.len_as, hz2])

theorem sentinel_link_is_nil_except_after_End_witness :
    WellFormed sampleList ∧
    ∃ st, runCalls sampleList [.toEnd, .next] = some st ∧
      (st.iterator.Index = -1 → st.iterator.element = none) ∧
      (st.iterator.Index = sampleList.Size →
        ([.toEnd, .next] : List IterCall).getLast? ≠ some .toEnd →
        st.iterator.element = none) ∧
      (([.toEnd, .next] : List IterCall).getLast? = some .toEnd →
        st.iterator.Index = sampleList.Size ∧ st.iterator.element = sampleList.last ∧
        (st.iterator.element = none ↔ sampleList.Size = 0)) :=
  ⟨sampleList_wellFormed,
    sentinel_link_is_nil_except_after_End sampleList [.toEnd, .next] sampleList_wellFormed⟩

end doublylinkedlist

/-! ## Array list: the growth policy of Add -/

namespace arraylist
variable {V : Type} [Inhabited V]

theorem foldl_addStep_cap (vs : List V) : ∀ {l : ArrayList V} {xs : List V}, Models l xs →
    l.size + vs.length ≤ l.values.arr.length →
    ∃ l1, vs.foldlM ArrayList.addStep l = some l1 ∧ Models l1 (xs ++ vs) ∧
      l1.values.arr.length = l.values.arr.length := by
  induction vs with
  | nil => intro l xs h _; exact ⟨l, rfl, by simpa using h, rfl⟩
  | cons v vs ih =>
    intro l xs h hlen
    simp only [List.length_cons] at hlen
    obtain ⟨l1, e1, m1, c1⟩ := addStep_models h v (by omega)
    have hs : l1.size = l.size + 1 := by
      have := m1.length_eq; have := h.length_eq; simp at *; omega
    obtain ⟨l2, e2, m2, c2⟩ := ih m1 (by omega)
    exact ⟨l2, by simp [List.foldlM, e1, e2], by simpa using m2, by omega⟩

theorem growBy_cap {l : ArrayList V} {xs : List V} (h : Models l xs) (n : Nat) :
    (l.values.cap ≤ l.size + n →
      l.growBy n = l.resize (2 * float32 (l.values.cap + n)) ∧
        (l.growBy n).values.cap = 2 * float32 (l.values.cap + n)) ∧
    (l.size + n < l.values.cap → l.growBy n = l) := by
  have hf := float32_ge_half (l.values.cap + n)
  have h2 := h.size_le
  have h1 := h.len_eq
  constructor
  · intro hg
    have hr : l.growBy n = l.resize (2 * float32 (l.values.cap + n)) := by
      simp only [ArrayList.growBy]; rw [if_pos hg]
    have hc : l.size ≤ 2 * float32 (l.values.cap + n) := by
      simp only [Slice.cap] at hf hg ⊢; omega
    obtain ⟨_, r2, _⟩ := resize_models h _ hc
    exact ⟨hr, by rw [hr]; exact r2⟩
  · intro hg
    simp only [ArrayList.growBy]
    rw [if_neg (by omega)]

theorem Add_cap {l : ArrayList V} {xs : List V} (h : Models l xs) (vs : List V) :
    ∃ l1, l.Add vs = some l1 ∧ Models l1 (xs ++ vs) ∧
      l1.values.cap = (l.growBy vs.length).values.cap := by
  obtain ⟨g1, g2, g3⟩ := growBy_models h vs.length
  obtain ⟨l1, e1, m1, c1⟩ := foldl_addStep_cap vs g1 (by omega)
  exact ⟨l1, e1, m1, c1⟩

theorem log2_of_pow24_succ : Nat.log2 16777217 = 24 := by
  have h1 : Nat.log2 16777217 < 25 := (Nat.log2_lt (by norm_num)).2 (by norm_num)
  have h2 : 24 ≤ Nat.log2 16777217 := (Nat.le_log2 (by norm_num)).2 (by norm_num)
  omega

theorem float32_rounds_to_even : float32 16777217 = 16777216 := by
  unfold float32
  simp only [log2_of_pow24_succ]
  norm_num

theorem Add_to_zeros (c s : Nat) (hs : s ≤ c) (hc : c ≤ s + 1) :
    ∃ l1, (⟨⟨List.replicate c 0, c⟩, s⟩ : ArrayList Nat).Add [0] = some l1 ∧
      l1.values.cap = 2 * float32 (c + 1) := by
  have hm : Models (⟨⟨List.replicate c 0, c⟩, s⟩ : ArrayList Nat) (List.replicate s 0) :=
    ⟨by simp, hs, by
      show List.take s (List.replicate c 0) = _
      rw [List.take_replicate, Nat.min_eq_left hs]⟩
  obtain ⟨l1, e1, _, c1⟩ := Add_cap hm [0]
  have hcap : (⟨⟨List.replicate c 0, c⟩, s⟩ : ArrayList Nat).values.cap = c := by
    simp [Slice.cap]
  have hg := (growBy_cap hm [0].length).1 (by rw [hcap]; simpa using hc)
  rw [hg.2, hcap, List.length_singleton] at c1
  exact ⟨l1, e1, c1⟩

/-- C35, on failing inputs. The list after `New(1)` has size 1 and capacity 2: appending
one value does not exceed the capacity, yet `Add` resizes and the capacity becomes 6. A
list of size `2^24 - 1` and capacity `2^24` to which one value is added is resized to the
capacity `2^25 = 33554432`, not `2 * (2^24 + 1) = 33554434`: `float32(2^24 + 1)` is
`2^24`. The list after `New(1, 2, 3)` and `FromJSON` of the text `[7]` has size 1 in a
slice of length 1 and capacity 6: `Add(8)` does not resize and panics, so that there is
no capacity after `Add`. -/
theorem Add_resizes_at_capacity_and_rounds :
    ArrayList.New [1] = some (⟨⟨[1, 0], 2⟩, 1⟩ : ArrayList Nat) ∧
    ¬ ((⟨⟨[1, 0], 2⟩, 1⟩ : ArrayList Nat).size + [2].length >
      (⟨⟨[1, 0], 2⟩, 1⟩ : ArrayList Nat).values.cap) ∧
    (∃ l1, (⟨⟨[1, 0], 2⟩, 1⟩ : ArrayList Nat).Add [2] = some l1 ∧ l1.values.cap = 6 ∧
      l1.values.cap ≠ (⟨⟨[1, 0], 2⟩, 1⟩ : ArrayList Nat).values.cap) ∧
    (∃ l1, (⟨⟨List.replicate 16777216 0, 16777216⟩, 16777215⟩ : ArrayList Nat).Add [0] =
        some l1 ∧
      l1.values.cap = 33554432 ∧ l1.values.cap ≠ 2 * (16777216 + [0].length)) ∧
    ArrayList.New [1, 2, 3] = some sampleArrayList ∧
    sampleArrayList.FromJSON
        (fun (d : List Nat) sl => (unmarshalArray d sl, (none : Option Unit))) [7] =
      (⟨⟨[7, 2, 3, 0, 0, 0], 1⟩, 1⟩, none) ∧
    (⟨⟨[7, 2, 3, 0, 0, 0], 1⟩, 1⟩ : ArrayList Nat).size + [8].length <
      (⟨⟨[7, 2, 3, 0, 0, 0], 1⟩, 1⟩ : ArrayList Nat).values.cap ∧
    (⟨⟨[7, 2, 3, 0, 0, 0], 1⟩, 1⟩ : ArrayList Nat).Add [8] = none := by
  refine ⟨by decide, by decide, ⟨_, rfl, by decide, by decide⟩, ?_, by decide, by decide,
    by decide, by decide⟩
  obtain ⟨l1, e1, c1⟩ := Add_to_zeros 16777216 16777215 (by omega) (by omega)
  rw [show (16777216 + 1 : Nat) = 16777217 from rfl, float32_rounds_to_even] at c1
  exact ⟨l1, e1, c1, by rw [c1]; simp⟩

theorem resize_full (l : ArrayList V) (c : Nat) :
    (l.resize c).size = l.size ∧ (l.resize c).values.len = c ∧
      (l.resize c).values.arr.length = c := by
  simp only [ArrayList.resize, Slice.make, Slice.copyFrom, List.length_replicate, Nat.zero_le,
    Nat.le_refl, and_self, if_true, Nat.sub_zero, Nat.zero_add, List.take_zero, List.nil_append]
  refine ⟨trivial, trivial, ?_⟩
  simp only [List.length_append, List.length_take, List.length_drop, List.length_replicate]
  omega

theorem foldl_addStep_fits (vs : List V) : ∀ (l : ArrayList V),
    l.size + vs.length ≤ l.values.len → l.size + vs.length ≤ l.values.arr.length →
    ∃ l1, vs.foldlM ArrayList.addStep l = some l1 := by
  induction vs with
  | nil => intro l _ _; exact ⟨l, rfl⟩
  | cons v vs ih =>
    intro l h1 h2
    simp only [List.length_cons] at h1 h2
    have hs : l.values.set? l.size v = some { l.values with arr := l.values.arr.set l.size v } := by
      simp only [Slice.set?]
      rw [if_pos ⟨by omega, by omega⟩]
    obtain ⟨l1, e1⟩ := ih ⟨{ l.values with arr := l.values.arr.set l.size v }, l.size + 1⟩
      (by show l.size + 1 + vs.length ≤ l.values.len; omega)
      (by show l.size + 1 + vs.length ≤ (l.values.arr.set l.size v).length
          rw [List.length_set]; omega)
    refine ⟨l1, ?_⟩
    rw [List.foldlM_cons]
    simp only [ArrayList.addStep, hs, Option.map_some', Option.bind_eq_bind, Option.some_bind]
    exact e1

theorem foldl_addStep_size (vs : List V) : ∀ (l l1 : ArrayList V),
    vs.foldlM ArrayList.addStep l = some l1 →
    l1.size = l.size + vs.length ∧ l1.values.len = l.values.len ∧
      l1.values.arr.length = l.values.arr.length ∧
      (vs ≠ [] → l.size + vs.length ≤ l.values.len ∧
        l.size + vs.length ≤ l.values.arr.length) := by
  induction vs with
  | nil =>
    intro l l1 e
    have : l = l1 := Option.some.inj e
    subst this
    exact ⟨rfl, rfl, rfl, fun h => absurd rfl h⟩
  | cons v vs ih =>
    intro l l1 e
    rw [List.foldlM_cons] at e
    by_cases hb : l.size < l.values.len ∧ l.size < l.values.arr.length
    · have hs : l.values.set? l.size v =
          some { l.values with arr := l.values.arr.set l.size v } := by
        simp only [Slice.set?]
        rw [if_pos hb]
      simp only [ArrayList.addStep, hs, Option.map_some', Option.bind_eq_bind,
        Option.some_bind] at e
      obtain ⟨i1, i2, i3, i4⟩ := ih _ l1 e
      simp only [List.length_set] at i1 i2 i3 i4
      refine ⟨by simp only [List.length_cons]; omega, i2, i3, fun _ => ?_⟩
      simp only [List.length_cons]
      by_cases hv : vs = []
      · subst hv
        simp only [List.length_nil]
        omega
      · have := i4 hv
        omega
    · have hs : l.values.set? l.size v = none := by
        simp only [Slice.set?]
        rw [if_neg hb]
      simp [ArrayList.addStep, hs] at e

/-- C35, amended. Let the array list `l` have size `s`, a slice of length `k` and capacity
`c`, and let `n` values be added. `Add` resizes the backing store, once for the whole
batch, exactly when the new size reaches the capacity, `s + n >= c`: the capacity is then
`int(2.0 * float32(c + n))`, which is `2 * (c + n)` as long as `c + n` is below `2^24`;
otherwise `growBy` leaves the list as it is. When `Add` does not resize, the batch is not
empty and `s + n` is above the length `k` of the slice, `Add` panics. In every other
case, `s` being at most `c`, `Add` returns. Whenever `Add` returns, the size is `s + n`,
the capacity is the one `growBy` left and, `s` being at most `c`, it is at least the new
size `s + n`. -/
theorem Add_resizes_when_capacity_is_reached (l : ArrayList V) (vs : List V) :
    (l.values.cap ≤ l.size + vs.length →
      l.growBy vs.length = l.resize (2 * float32 (l.values.cap + vs.length)) ∧
      (l.growBy vs.length).values.cap = 2 * float32 (l.values.cap + vs.length) ∧
      (l.values.cap + vs.length < 2 ^ 24 →
        (l.growBy vs.length).values.cap = 2 * (l.values.cap + vs.length)) ∧
      (l.size ≤ l.values.cap → ∃ l1, l.Add vs = some l1)) ∧
    (l.size + vs.length < l.values.cap →
      l.growBy vs.length = l ∧
      (vs ≠ [] → l.values.len < l.size + vs.length → l.Add vs = none) ∧
      (vs = [] ∨ l.size + vs.length ≤ l.values.len → ∃ l1, l.Add vs = some l1)) ∧
    (∀ l1, l.Add vs = some l1 →
      l1.size = l.size + vs.length ∧ l1.values.cap = (l.growBy vs.length).values.cap ∧
      (l.size ≤ l.values.cap → l.size + vs.length ≤ l1.values.cap)) := by
  have hf := float32_ge_half (l.values.cap + vs.length)
  refine ⟨?_, ?_, ?_⟩
  · intro hg
    have hr : l.growBy vs.length = l.resize (2 * float32 (l.values.cap + vs.length)) := by
      simp only [ArrayList.growBy]; rw [if_pos hg]
    obtain ⟨r1, r2, r3⟩ := resize_full l (2 * float32 (l.values.cap + vs.length))
    have hc : (l.growBy vs.length).values.cap = 2 * float32 (l.values.cap + vs.length) := by
      rw [hr]; exact r3
    refine ⟨hr, hc, ?_, ?_⟩
    · intro hlt
      rw [hc, float32, if_pos hlt]
    · intro hs
      simp only [ArrayList.Add]
      rw [hr]
      exact foldl_addStep_fits vs _ (by rw [r1, r2]; omega) (by rw [r1, r3]; omega)
  · intro hg
    have hr : l.growBy vs.length = l := by
      simp only [ArrayList.growBy]; rw [if_neg (by omega)]
    refine ⟨hr, ?_, ?_⟩
    · intro hv hk
      cases hA : l.Add vs with
      | none => rfl
      | some l1 =>
        simp only [ArrayList.Add, hr] at hA
        have := (foldl_addStep_size vs l l1 hA).2.2.2 hv
        omega
    · intro hk
      simp only [ArrayList.Add, hr]
      rcases hk with hk | hk
      · subst hk
        exact ⟨l, rfl⟩
      · exact foldl_addStep_fits vs l hk (by simp only [Slice.cap] at hg; omega)
  · intro l1 hA
    simp only [ArrayList.Add] at hA
    obtain ⟨i1, _, i3, i4⟩ := foldl_addStep_size vs _ l1 hA
    have hsz : (l.growBy vs.length).size = l.size := by
      simp only [ArrayList.growBy]
      split_ifs
      · exact (resize_full l _).1
      · rfl
    refine ⟨by rw [i1, hsz], i3, ?_⟩
    intro hs
    by_cases hv : vs = []
    · subst hv
      show l.size + 0 ≤ l1.values.arr.length
      rw [i3, Nat.add_zero]
      have hcap : l.size ≤ (l.growBy 0).values.arr.length := by
        simp only [ArrayList.growBy]
        split_ifs
        · rw [(resize_full l _).2.2]
          have hf0 := float32_ge_half (l.values.cap + 0)
          simp only [Slice.cap, Nat.add_zero] at hf0 hs ⊢
          omega
        · exact hs
      exact hcap
    · have := (i4 hv).2
      show l.size + vs.length ≤ l1.values.arr.length
      rw [i3]
      omega


theorem Add_resizes_when_capacity_is_reached_witness :
    (sampleArrayList.values.cap ≤ sampleArrayList.size + [4, 5, 6].length ∧
      sampleArrayList.size ≤ sampleArrayList.values.cap) ∧
    (sampleArrayList.growBy [4, 5, 6].length =
        sampleArrayList.resize (2 * float32 (sampleArrayList.values.cap + [4, 5, 6].length)) ∧
      (sampleArrayList.growBy [4, 5, 6].length).values.cap =
        2 * float32 (sampleArrayList.values.cap + [4, 5, 6].length) ∧
      (sampleArrayList.values.cap + [4, 5, 6].length < 2 ^ 24 →
        (sampleArrayList.growBy [4, 5, 6].length).values.cap =
          2 * (sampleArrayList.values.cap + [4, 5, 6].length)) ∧
      (sampleArrayList.size ≤ sampleArrayList.values.cap →
        ∃ l1, sampleArrayList.Add [4, 5, 6] = some l1)) ∧
    (∃ l1, sampleArrayList.Add [4, 5, 6] = some l1 ∧
      l1.size = sampleArrayList.size + [4, 5, 6].length ∧
      l1.values.cap = (sampleArrayList.growBy [4, 5, 6].length).values.cap ∧
      sampleArrayList.size + [4, 5, 6].length ≤ l1.values.cap) ∧
    ((⟨⟨[7, 2, 3, 0, 0, 0], 1⟩, 1⟩ : ArrayList Nat).size + [8].length <
        (⟨⟨[7, 2, 3, 0, 0, 0], 1⟩, 1⟩ : ArrayList Nat).values.cap ∧
      (⟨⟨[7, 2, 3, 0, 0, 0], 1⟩, 1⟩ : ArrayList Nat).values.len <
        (⟨⟨[7, 2, 3, 0, 0, 0], 1⟩, 1⟩ : ArrayList Nat).size + [8].length ∧
      (⟨⟨[7, 2, 3, 0, 0, 0], 1⟩, 1⟩ : ArrayList Nat).Add [8] = none) :=
  ⟨⟨by decide, by decide⟩,
    (Add_resizes_when_capacity_is_reached sampleArrayList [4, 5, 6]).1 (by decide),
    (((Add_resizes_when_capacity_is_reached sampleArrayList [4, 5, 6]).1
      (by decide)).2.2.2 (by decide)).elim fun l1 e =>
        ⟨l1, e, ((Add_resizes_when_capacity_is_reached sampleArrayList [4, 5, 6]).2.2 l1 e).1,
          ((Add_resizes_when_capacity_is_reached sampleArrayList [4, 5, 6]).2.2 l1 e).2.1,
          ((Add_resizes_when_capacity_is_reached sampleArrayList [4, 5, 6]).2.2 l1 e).2.2
            (by decide)⟩,
    by decide, by decide,
    ((Add_resizes_when_capacity_is_reached
      (⟨⟨[7, 2, 3, 0, 0, 0], 1⟩, 1⟩ : ArrayList Nat) [8]).2.1 (by decide)).2.1 (by decide)
      (by decide)⟩

end arraylist

/-! ## Doubly-linked list: the locating loops -/

namespace doublylinkedlist
variable {V : Type} [Inhabited V]

/-- C39. On a well-formed list with `Values() = xs`, for an index in `[0, Size())` and two
distinct indices `i`, `j` in `[0, Size())`: the node-locating loop of `Get` and `Remove`,
the one of `Set` and the one of `Swap`, each given `Size()` link hops, end within them
and reach the node at the index (the nodes at `i` and `j` for `Swap`), a node that exists
and holds `xs[index]`; no step reads the links of a nil node. `Get`, `Remove`, `Set` and
`Swap` return. -/
theorem locating_loops_end_within_size (l : DList V) (xs : List V) (index i j : Int) (v : V)
    (hwf : WellFormed l) (hv : l.Values = some xs)
    (hw : 0 ≤ index ∧ index < l.Size) (hi : 0 ≤ i ∧ i < l.Size) (hj : 0 ≤ j ∧ j < l.Size)
    (hij : i ≠ j) :
    (∃ a n, (if (l.size : Int) - index < index then
          walkPrev l.heap index l.size ((l.size : Int) - 1) l.last
        else walkNext l.heap index l.size 0 l.first) = some (some a) ∧
      load l.heap (some a) = some n ∧ xs[index.toNat]? = some n.value) ∧
    (∃ a n out, (if (l.size : Int) - index < index then
          setWalkPrev l.heap index v l.size ((l.size : Int) - 1) l.last []
        else (walkNext l.heap index l.size 0 l.first).map fun p => (p, [])) =
          some (some a, out) ∧
      load l.heap (some a) = some n ∧ xs[index.toNat]? = some n.value) ∧
    (∃ a b n1 n2, swapLoop l.heap i j l.size 0 l.first none none = some (some a, some b) ∧
      load l.heap (some a) = some n1 ∧ xs[i.toNat]? = some n1.value ∧
      load l.heap (some b) = some n2 ∧ xs[j.toNat]? = some n2.value) ∧
    (∃ r, l.Get index = some r) ∧ (∃ l1, l.Remove index = some l1) ∧
    (∃ r, l.Set index v = some r) ∧ (∃ l1, l.Swap i j = some l1) := by
  obtain ⟨as, c⟩ := hwf.chain_of_Values hv
  simp only [DList.Size] at hw hi hj
  have node : ∀ k : Nat, k < l.size → ∃ a n, as[k]? = some a ∧
      load l.heap (some a) = some n ∧ xs[k]? = some n.value := by
    intro k hk
    obtain ⟨a, x, ha, hx, hn⟩ := c.at hk
    exact ⟨a, ⟨x, prevPtr as k, as[k + 1]?⟩, ha, by simp [load, hn], hx⟩
  obtain ⟨a, n, ha, hl, hx⟩ := node index.toNat (by omega)
  obtain ⟨a1, n1, ha1, hl1, hx1⟩ := node i.toNat (by omega)
  obtain ⟨a2, n2, ha2, hl2, hx2⟩ := node j.toNat (by omega)
  refine ⟨⟨a, n, ?_, hl, hx⟩, ⟨a, n, ?_⟩, ⟨a1, a2, n1, n2, ?_, hl1, hx1, hl2, hx2⟩, ⟨_, c.Get_eq index⟩,
    ?_, ?_, ?_⟩
  · rw [c.locate hw, ha]
  · by_cases hd : (l.size : Int) - index < index
    · obtain ⟨out1, e1, _⟩ := c.setWalkPrev_eq index v l.size ((l.size : Int) - 1) (l.size - 1)
        (l.size - 1 - index.toNat) [] (by omega) (by omega) (by omega) (by omega)
      refine ⟨out1, ?_, hl, hx⟩
      rw [if_pos hd, c.last, e1]
      have : l.size - 1 - (l.size - 1 - index.toNat) = index.toNat := by omega
      rw [this, ha]
    · refine ⟨[], ?_, hl, hx⟩
      have := c.locate hw
      rw [if_neg hd] at this
      rw [if_neg hd, this, ha]
      rfl
  · have hne : i.toNat ≠ j.toNat := by omega
    have := c.swapLoop_eq hne (show i.toNat < l.size by omega) (show j.toNat < l.size by omega)
      l.size 0 (by omega) (by omega)
    simp only [Nat.not_lt_zero, if_false, Nat.cast_zero] at this
    rw [show ((i.toNat : Nat) : Int) = i by omega, show ((j.toNat : Nat) : Int) = j by omega,
      ← c.first, ha1, ha2] at this
    exact this
  · obtain ⟨l1, e1, _⟩ := c.Remove_chain hw
    exact ⟨l1, e1⟩
  · obtain ⟨l1, out, e1, _⟩ := c.Set_chain hw v
    exact ⟨_, e1⟩
  · obtain ⟨l1, e1, _⟩ := c.Swap_chain i j
    exact ⟨l1, e1⟩

theorem locating_loops_end_within_size_witness :
    WellFormed sampleList ∧ sampleList.Values = some [10, 20, 30, 40, 50] ∧
    (0 ≤ (3 : Int) ∧ (3 : Int) < sampleList.Size) ∧
    (0 ≤ (0 : Int) ∧ (0 : Int) < sampleList.Size) ∧
    (0 ≤ (4 : Int) ∧ (4 : Int) < sampleList.Size) ∧ (0 : Int) ≠ 4 ∧
    ((∃ a n, (if (sampleList.size : Int) - 3 < 3 then
          walkPrev sampleList.heap 3 sampleList.size ((sampleList.size : Int) - 1)
            sampleList.last
        else walkNext sampleList.heap 3 sampleList.size 0 sampleList.first) = some (some a) ∧
      load sampleList.heap (some a) = some n ∧
      [10, 20, 30, 40, 50][(3 : Int).toNat]? = some n.value) ∧
    (∃ a n out, (if (sampleList.size : Int) - 3 < 3 then
          setWalkPrev sampleList.heap 3 99 sampleList.size ((sampleList.size : Int) - 1)
            sampleList.last []
        else (walkNext sampleList.heap 3 sampleList.size 0 sampleList.first).map
          fun p => (p, [])) = some (some a, out) ∧
      load sampleList.heap (some a) = some n ∧
      [10, 20, 30, 40, 50][(3 : Int).toNat]? = some n.value) ∧
    (∃ a b n1 n2, swapLoop sampleList.heap 0 4 sampleList.size 0 sampleList.first none none =
        some (some a, some b) ∧
      load sampleList.heap (some a) = some n1 ∧
      [10, 20, 30, 40, 50][(0 : Int).toNat]? = some n1.value ∧
      load sampleList.heap (some b) = some n2 ∧
      [10, 20, 30, 40, 50][(4 : Int).toNat]? = some n2.value) ∧
    (∃ r, sampleList.Get 3 = some r) ∧ (∃ l1, sampleList.Remove 3 = some l1) ∧
    (∃ r, sampleList.Set 3 99 = some r) ∧ (∃ l1, sampleList.Swap 0 4 = some l1)) :=
  ⟨sampleList_wellFormed, by decide, by decide, by decide, by decide, by decide,
    locating_loops_end_within_size sampleList [10, 20, 30, 40, 50] 3 0 4 99
      sampleList_wellFormed (by decide) (by decide) (by decide) (by decide) (by decide)⟩

end doublylinkedlist

/-! ## Doubly-linked list: Insert keeps the chain, and reachable lists are well formed -/

theorem getElem?_splice_one {α : Type} (as : List α) (m : Nat) (a : α) (hm : m < as.length)
    (k : Nat) :
    (as.take (m + 1) ++ a :: as.drop (m + 1))[k]? =
      if k ≤ m then as[k]? else if k = m + 1 then some a else as[k - 1]? := by
  have hl : (as.take (m + 1)).length = m + 1 := by
    rw [List.length_take]; omega
  by_cases h1 : k ≤ m
  · rw [if_pos h1, List.getElem?_append_left (by omega), List.getElem?_take]
    rw [if_pos (by omega)]
  · rw [if_neg h1, List.getElem?_append_right (by omega), hl]
    by_cases h2 : k = m + 1
    · rw [if_pos h2, h2, Nat.sub_self]
      exact List.getElem?_cons_zero
    · rw [if_neg h2]
      have : k - (m + 1) = (k - (m + 2)) + 1 := by omega
      rw [this, List.getElem?_cons_succ, List.getElem?_drop]
      congr 1
      omega

theorem take_splice_one {α : Type} (as : List α) (m : Nat) (a : α) (hm : m < as.length) :
    (as.take (m + 1) ++ a :: as.drop (m + 1)).take (m + 1 + 1) = as.take (m + 1) ++ [a] := by
  have hl : (as.take (m + 1)).length = m + 1 := by
    rw [List.length_take]; omega
  have := @List.take_append _ (as.take (m + 1)) (a :: as.drop (m + 1)) 1
  rw [hl] at this
  rw [this]
  rfl

theorem drop_splice_one {α : Type} (as : List α) (m : Nat) (a : α) (hm : m < as.length) :
    (as.take (m + 1) ++ a :: as.drop (m + 1)).drop (m + 1 + 1) = as.drop (m + 1) := by
  have hl : (as.take (m + 1)).length = m + 1 := by
    rw [List.length_take]; omega
  have := @List.drop_append _ (as.take (m + 1)) (a :: as.drop (m + 1)) 1
  rw [hl] at this
  rw [this]
  rfl

theorem getElem?_splice {α : Type} (as news : List α) (j : Nat) (hj : j ≤ as.length) (i : Nat) :
    (as.take j ++ news ++ as.drop j)[i]? =
      if i < j then as[i]? else if i < j + news.length then news[i - j]?
        else as[i - news.length]? := by
  have hl : (as.take j).length = j := by
    rw [List.length_take]; omega
  by_cases h1 : i < j
  · rw [if_pos h1, List.append_assoc, List.getElem?_append_left (by omega), List.getElem?_take,
      if_pos h1]
  · rw [if_neg h1, List.append_assoc, List.getElem?_append_right (by omega), hl]
    by_cases h2 : i < j + news.length
    · rw [if_pos h2, List.getElem?_append_left (by omega)]
    · rw [if_neg h2, List.getElem?_append_right (by omega), List.getElem?_drop]
      congr 1
      omega

namespace doublylinkedlist
variable {V : Type} [Inhabited V]

theorem Nodes.cell_lt_heap {heap : List (element V)} {as : List Nat} {xs : List V}
    {P N : Nat → Option Nat} (h : Nodes heap as xs P N) {a : Nat} (ha : a ∈ as) :
    a < heap.length := by
  obtain ⟨i, hi⟩ := List.mem_iff_getElem?.1 ha
  obtain ⟨x, _, hn⟩ := h i a hi
  exact (List.getElem?_eq_some.1 hn).1

/-- Appending a new cell that points back to the node at position `m` and putting it in
the sequence right after that node: every node keeps its cell, the positions after `m`
move up by one. -/
theorem Nodes.append_cell {heap : List (element V)} {as : List Nat} {xs : List V}
    {m : Nat} {pj nj : Option Nat} (hm : m < as.length) (hx : xs.length = as.length)
    (h : Nodes heap as xs (Function.update (prevPtr as) (m + 1) pj)
      (Function.update (fun i => as[i + 1]?) m nj)) (v : V) :
    Nodes (heap ++ [element.mk v as[m]? none])
      (as.take (m + 1) ++ heap.length :: as.drop (m + 1))
      (xs.take (m + 1) ++ v :: xs.drop (m + 1))
      (Function.update (prevPtr (as.take (m + 1) ++ heap.length :: as.drop (m + 1))) (m + 2) pj)
      (Function.update (Function.update
        (fun i => (as.take (m + 1) ++ heap.length :: as.drop (m + 1))[i + 1]?) (m + 1) none)
        m nj) := by
  intro k a hk
  rw [getElem?_splice_one as m _ hm] at hk
  simp only [getElem?_splice_one xs m v (by omega)]
  have hpp : ∀ j, prevPtr (as.take (m + 1) ++ heap.length :: as.drop (m + 1)) j =
      if j ≤ m + 1 then prevPtr as j else if j = m + 2 then some heap.length
        else prevPtr as (j - 1) := by
    intro j
    simp only [prevPtr, getElem?_splice_one as m _ hm]
    by_cases hj0 : j = 0
    · simp [hj0]
    · by_cases hj1 : j ≤ m + 1
      · simp only [hj0, if_false, hj1, if_true, show j - 1 ≤ m by omega]
      · by_cases hj2 : j = m + 2
        · simp [hj2]
        · simp only [hj0, if_false, hj1, hj2, show ¬ j - 1 ≤ m by omega,
            show ¬ j - 1 = m + 1 by omega, show ¬ j - 1 = 0 by omega]
  by_cases h1 : k ≤ m
  · rw [if_pos h1] at hk
    obtain ⟨x, hxk, hn⟩ := h k a hk
    have hal : a < heap.length := (List.getElem?_eq_some.1 hn).1
    refine ⟨x, by rw [if_pos h1]; exact hxk, ?_⟩
    rw [List.getElem?_append_left hal, hn]
    have hP : Function.update (prevPtr (as.take (m + 1) ++ heap.length :: as.drop (m + 1)))
        (m + 2) pj k = Function.update (prevPtr as) (m + 1) pj k := by
      rw [Function.update_noteq (by omega), Function.update_noteq (by omega), hpp,
        if_pos (by omega)]
    rw [hP]
    by_cases hkm : k = m
    · subst hkm
      simp only [Function.update_same]
    · have hN : Function.update (Function.update
          (fun i => (as.take (m + 1) ++ heap.length :: as.drop (m + 1))[i + 1]?)
          (m + 1) none) m nj k = Function.update (fun i => as[i + 1]?) m nj k := by
        rw [Function.update_noteq hkm, Function.update_noteq (by omega),
          Function.update_noteq hkm]
        simp only [getElem?_splice_one as m _ hm, show k + 1 ≤ m by omega, if_true]
      rw [hN]
  · rw [if_neg h1] at hk
    by_cases h2 : k = m + 1
    · subst h2
      rw [if_pos rfl] at hk
      have ha : a = heap.length := (Option.some.inj hk).symm
      subst ha
      refine ⟨v, by rw [if_neg h1, if_pos rfl], ?_⟩
      rw [List.getElem?_append_right (Nat.le_refl _), Nat.sub_self]
      rw [Function.update_noteq (by omega), Function.update_noteq (by omega),
        Function.update_same, hpp, if_pos (Nat.le_refl _)]
      simp [prevPtr]
    · rw [if_neg h2] at hk
      obtain ⟨x, hxk, hn⟩ := h (k - 1) a hk
      have hal : a < heap.length := (List.getElem?_eq_some.1 hn).1
      refine ⟨x, by rw [if_neg h1, if_neg h2]; exact hxk, ?_⟩
      rw [List.getElem?_append_left hal, hn]
      have hN : Function.update (Function.update
          (fun i => (as.take (m + 1) ++ heap.length :: as.drop (m + 1))[i + 1]?)
          (m + 1) none) m nj k = Function.update (fun i => as[i + 1]?) m nj (k - 1) := by
        rw [Function.update_noteq (by omega), Function.update_noteq h2,
          Function.update_noteq (by omega)]
        simp only [getElem?_splice_one as m _ hm, show ¬ k + 1 ≤ m by omega,
          show ¬ k + 1 = m + 1 by omega, if_false]
        congr 1
        omega
      rw [hN]
      by_cases h3 : k = m + 2
      · subst h3
        rw [show m + 2 - 1 = m + 1 from rfl, Function.update_same, Function.update_same]
      · rw [Function.update_noteq h3, Function.update_noteq (by omega), hpp,
          if_neg (by omega), if_neg h3]

/-- One pass of the inserting loop on a chain that is open after position `m`. -/
theorem Nodes.insertMidStep_nodes {heap : List (element V)} {as : List Nat} {xs : List V}
    {m : Nat} {pj nj : Option Nat} (hm : m < as.length) (hx : xs.length = as.length)
    (hn : as.Nodup)
    (h : Nodes heap as xs (Function.update (prevPtr as) (m + 1) pj)
      (Function.update (fun i => as[i + 1]?) m nj)) (v : V) :
    ∃ heap1, insertMidStep (heap, as[m]?) v = some (heap1, some heap.length) ∧
      (as.take (m + 1) ++ heap.length :: as.drop (m + 1)).Nodup ∧
      Nodes heap1 (as.take (m + 1) ++ heap.length :: as.drop (m + 1))
        (xs.take (m + 1) ++ v :: xs.drop (m + 1))
        (Function.update (prevPtr (as.take (m + 1) ++ heap.length :: as.drop (m + 1)))
          (m + 1 + 1) pj)
        (Function.update
          (fun i => (as.take (m + 1) ++ heap.length :: as.drop (m + 1))[i + 1]?)
          (m + 1) none) := by
  have hfresh : heap.length ∉ as := fun hmem => Nat.lt_irrefl _ (h.cell_lt_heap hmem)
  have hnd : (as.take (m + 1) ++ heap.length :: as.drop (m + 1)).Nodup := by
    have hp : (as.take (m + 1) ++ heap.length :: as.drop (m + 1)).Perm (heap.length :: as) := by
      refine List.perm_middle.trans ?_
      rw [List.take_append_drop]
    exact hp.nodup_iff.2 (List.nodup_cons.2 ⟨hfresh, hn⟩)
  have hc := h.append_cell hm hx v
  have hb : (as.take (m + 1) ++ heap.length :: as.drop (m + 1))[m]? = some as[m] := by
    rw [getElem?_splice_one as m _ hm, if_pos (Nat.le_refl _)]
    exact List.getElem?_eq_getElem hm
  obtain ⟨heap1, e1, _, n1⟩ := hc.storeNext_nodes hnd hb (some heap.length)
  refine ⟨heap1, ?_, hnd, ?_⟩
  · rw [List.getElem?_eq_getElem hm] at e1
    simp only [insertMidStep, List.getElem?_eq_getElem hm, e1, Option.map_some']
  · refine n1.congr (fun k _ => rfl) ?_
    intro k _
    by_cases hk : k = m
    · subst hk
      rw [Function.update_same, Function.update_noteq (by omega)]
      simp only [getElem?_splice_one as k _ hm, show ¬ k + 1 ≤ k by omega, if_false, if_true]
    · rw [Function.update_noteq hk, Function.update_noteq hk]

/-- The inserting loop of `Insert` on a chain that is open after position `m`: the new
cells are put in the sequence after that position, and the chain is then open after the
last new cell. -/
theorem Nodes.foldl_insertMidStep (vs : List V) : ∀ {heap : List (element V)} {as : List Nat}
    {xs : List V} {m : Nat} {pj nj : Option Nat}, m < as.length → xs.length = as.length →
    as.Nodup →
    Nodes heap as xs (Function.update (prevPtr as) (m + 1) pj)
      (Function.update (fun i => as[i + 1]?) m nj) →
    ∃ heap1 news nj1, news.length = vs.length ∧
      vs.foldlM insertMidStep (heap, as[m]?) =
        some (heap1, (as.take (m + 1) ++ news ++ as.drop (m + 1))[m + vs.length]?) ∧
      (as.take (m + 1) ++ news ++ as.drop (m + 1)).Nodup ∧
      Nodes heap1 (as.take (m + 1) ++ news ++ as.drop (m + 1))
        (xs.take (m + 1) ++ vs ++ xs.drop (m + 1))
        (Function.update (prevPtr (as.take (m + 1) ++ news ++ as.drop (m + 1)))
          (m + vs.length + 1) pj)
        (Function.update (fun i => (as.take (m + 1) ++ news ++ as.drop (m + 1))[i + 1]?)
          (m + vs.length) nj1) := by
  induction vs with
  | nil =>
    intro heap as xs m pj nj hm hx hn h
    refine ⟨heap, [], nj, rfl, ?_, ?_, ?_⟩
    · simp only [List.foldlM, List.append_nil, List.take_append_drop, List.length_nil,
        Nat.add_zero]
      rfl
    · simpa using hn
    · simpa using h
  | cons v vs ih =>
    intro heap as xs m pj nj hm hx hn h
    obtain ⟨heap1, e1, nd1, n1⟩ := h.insertMidStep_nodes hm hx hn v
    have hl1 : (as.take (m + 1) ++ heap.length :: as.drop (m + 1)).length = as.length + 1 := by
      simp only [List.length_append, List.length_take, List.length_cons, List.length_drop]
      omega
    have hlx1 : (xs.take (m + 1) ++ v :: xs.drop (m + 1)).length =
        (as.take (m + 1) ++ heap.length :: as.drop (m + 1)).length := by
      simp only [List.length_append, List.length_take, List.length_cons, List.length_drop]
      omega
    have hs : (as.take (m + 1) ++ heap.length :: as.drop (m + 1))[m + 1]? = some heap.length := by
      rw [getElem?_splice_one as m _ hm]
      simp
    obtain ⟨heap2, news, nj2, hl2, e2, nd2, n2⟩ :=
      @ih heap1 _ _ (m + 1) pj none (by omega) hlx1 nd1 n1
    rw [take_splice_one as m _ hm, drop_splice_one as m _ hm] at e2 nd2 n2
    rw [take_splice_one xs m _ (by omega), drop_splice_one xs m _ (by omega)] at n2
    rw [hs] at e2
    have ea : as.take (m + 1) ++ [heap.length] ++ news ++ as.drop (m + 1) =
        as.take (m + 1) ++ (heap.length :: news) ++ as.drop (m + 1) := by simp
    have ex : xs.take (m + 1) ++ [v] ++ vs ++ xs.drop (m + 1) =
        xs.take (m + 1) ++ (v :: vs) ++ xs.drop (m + 1) := by simp
    have el : m + 1 + vs.length = m + (v :: vs).length := by
      simp only [List.length_cons]; omega
    rw [ea, el] at e2 n2
    rw [ea] at nd2
    rw [ex] at n2
    refine ⟨heap2, heap.length :: news, nj2, by simp [hl2], ?_, nd2, n2⟩
    rw [List.foldlM_cons, e1]
    exact e2

/-- The two closing assignments of `Insert` on a chain that is open after position `g`. -/
theorem Nodes.close_gap {heap : List (element V)} {as : List Nat} {xs : List V}
    {g b c : Nat} {pj nj : Option Nat} (hn : as.Nodup) (hb : as[g]? = some b)
    (hc : as[g + 1]? = some c)
    (h : Nodes heap as xs (Function.update (prevPtr as) (g + 1) pj)
      (Function.update (fun i => as[i + 1]?) g nj)) :
    ∃ heap1 heap2, storePrev heap (some c) (some b) = some heap1 ∧
      storeNext heap1 (some b) (some c) = some heap2 ∧
      Nodes heap2 as xs (prevPtr as) (fun i => as[i + 1]?) := by
  obtain ⟨heap1, e1, _, n1⟩ := h.storePrev_nodes hn hc (some b)
  obtain ⟨heap2, e2, _, n2⟩ := n1.storeNext_nodes hn hb (some c)
  refine ⟨heap1, heap2, e1, e2, n2.congr ?_ ?_⟩
  · intro k _
    by_cases hk : k = g + 1
    · subst hk
      rw [Function.update_same]
      simp [prevPtr, hb]
    · rw [Function.update_noteq hk, Function.update_noteq hk]
  · intro k _
    by_cases hk : k = g
    · subst hk
      rw [Function.update_same, hc]
    · rw [Function.update_noteq hk, Function.update_noteq hk]

theorem Chain.insertWalkNext_eq {l : DList V} {as : List Nat} {xs : List V} (h : Chain l as xs)
    (index : Int) : ∀ (fuel : Nat) (e : Int) (i k : Nat) (b : Option Nat), index = e + k →
      k ≤ fuel → i + k ≤ l.size →
      insertWalkNext l.heap index fuel e b as[i]? =
        some (if k = 0 then b else as[i + k - 1]?, as[i + k]?) := by
  intro fuel
  induction fuel with
  | zero =>
    intro e i k b he hk _
    have : k = 0 := by omega
    subst this
    simp [insertWalkNext, he]
  | succ fuel ih =>
    intro e i k b he hk hik
    by_cases hk0 : k = 0
    · subst hk0
      simp [insertWalkNext, he]
    · have hne : ¬ e = index := by omega
      obtain ⟨x, _, hl⟩ := h.load_at (show i < l.size by omega)
      rw [insertWalkNext, if_neg hne, hl, Option.some_bind,
        ih (e + 1) (i + 1) (k - 1) as[i]? (by omega) (by omega) (by omega), if_neg hk0]
      by_cases hk1 : k - 1 = 0
      · rw [if_pos hk1]
        have : k = 1 := by omega
        subst this
        rfl
      · rw [if_neg hk1]
        congr 3 <;> omega

theorem Chain.insertWalkPrev_eq {l : DList V} {as : List Nat} {xs : List V} (h : Chain l as xs)
    (index : Int) : ∀ (fuel : Nat) (e : Int) (i k : Nat) (b : Option Nat), e = index + k →
      k ≤ fuel → k ≤ i → i < l.size →
      insertWalkPrev l.heap index fuel e b as[i]? =
        some (if k = 0 then b else as[i - k]?, as[i - k]?) := by
  intro fuel
  induction fuel with
  | zero =>
    intro e i k b he hk _ _
    have : k = 0 := by omega
    subst this
    simp [insertWalkPrev, he]
  | succ fuel ih =>
    intro e i k b he hk hki hi
    by_cases hk0 : k = 0
    · subst hk0
      simp [insertWalkPrev, he]
    · have hne : ¬ e = index := by omega
      obtain ⟨x, _, hl⟩ := h.load_at hi
      have hp : prevPtr as i = as[i - 1]? := by
        simp only [prevPtr, show ¬ i = 0 by omega, if_false]
      rw [insertWalkPrev, if_neg hne, hl, Option.some_bind]
      simp only [hp]
      rw [ih (e - 1) (i - 1) (k - 1) as[i - 1]? (by omega) (by omega) (by omega) (by omega),
        if_neg hk0]
      have e1 : i - 1 - (k - 1) = i - k := by omega
      rw [e1]
      by_cases hk1 : k - 1 = 0
      · rw [if_pos hk1]
        have : k = 1 := by omega
        subst this
        rfl
      · rw [if_neg hk1]

/-- The inserting loop of `Insert` followed by its two closing assignments, on a chain
that is open after position `m`: the new cells are linked in after that position. -/
theorem Nodes.insert_close (vs : List V) {heap : List (element V)} {as : List Nat}
    {xs : List V} {m : Nat} {pj nj : Option Nat} (hm : m + 1 < as.length)
    (hx : xs.length = as.length) (hn : as.Nodup)
    (h : Nodes heap as xs (Function.update (prevPtr as) (m + 1) pj)
      (Function.update (fun i => as[i + 1]?) m nj)) :
    ∃ heap1 b1 heap2 heap3 news, news.length = vs.length ∧
      vs.foldlM insertMidStep (heap, as[m]?) = some (heap1, b1) ∧
      storePrev heap1 as[m + 1]? b1 = some heap2 ∧
      storeNext heap2 b1 as[m + 1]? = some heap3 ∧
      (as.take (m + 1) ++ news ++ as.drop (m + 1)).Nodup ∧
      Nodes heap3 (as.take (m + 1) ++ news ++ as.drop (m + 1))
        (xs.take (m + 1) ++ vs ++ xs.drop (m + 1))
        (prevPtr (as.take (m + 1) ++ news ++ as.drop (m + 1)))
        (fun i => (as.take (m + 1) ++ news ++ as.drop (m + 1))[i + 1]?) := by
  obtain ⟨heap1, news, nj1, hl, e1, nd1, n1⟩ :=
    Nodes.foldl_insertMidStep vs (by omega) hx hn h
  have hlen : (as.take (m + 1) ++ news ++ as.drop (m + 1)).length = as.length + vs.length := by
    simp only [List.length_append, List.length_take, List.length_drop, hl]
    omega
  have hb : (as.take (m + 1) ++ news ++ as.drop (m + 1))[m + vs.length]? =
      some ((as.take (m + 1) ++ news ++ as.drop (m + 1))[m + vs.length]) :=
    List.getElem?_eq_getElem (by omega)
  have hc : (as.take (m + 1) ++ news ++ as.drop (m + 1))[m + vs.length + 1]? =
      some as[m + 1] := by
    rw [getElem?_splice as news (m + 1) (by omega), if_neg (by omega), if_neg (by omega),
      show m + vs.length + 1 - news.length = m + 1 by omega]
    exact List.getElem?_eq_getElem hm
  obtain ⟨heap2, heap3, e2, e3, n3⟩ := Nodes.close_gap nd1 hb hc n1
  refine ⟨heap1, _, heap2, heap3, news, hl, e1, ?_, ?_, nd1, n3⟩
  · rw [List.getElem?_eq_getElem hm, hb]
    exact e2
  · rw [List.getElem?_eq_getElem hm, hb]
    exact e3

/-- Linking a batch in after the node at position `m` of a chain, when that node is not
the last one: the result is a chain again. -/
theorem Chain.insert_mid {l : DList V} {as : List Nat} {xs : List V} (h : Chain l as xs)
    {m : Nat} (hm : m + 1 < l.size) (vs : List V) :
    (load l.heap as[m]?).map (fun n => n.next) = some as[m + 1]? ∧
    ∃ heap1 b1 heap2 heap3,
      vs.foldlM insertMidStep (l.heap, as[m]?) = some (heap1, b1) ∧
      storePrev heap1 as[m + 1]? b1 = some heap2 ∧
      storeNext heap2 b1 as[m + 1]? = some heap3 ∧
      ∃ as1, Chain ⟨heap3, l.first, l.last, l.size + vs.length⟩ as1
        (xs.take (m + 1) ++ vs ++ xs.drop (m + 1)) := by
  have hla := h.len_as
  have hlx := h.len_xs
  obtain ⟨x, _, hld⟩ := h.load_at (show m < l.size by omega)
  refine ⟨by rw [hld]; rfl, ?_⟩
  have hg : Nodes l.heap as xs (Function.update (prevPtr as) (m + 1) (prevPtr as (m + 1)))
      (Function.update (fun i => as[i + 1]?) m as[m + 1]?) := by
    have e2 : Function.update (fun i => as[i + 1]?) m as[m + 1]? = fun i => as[i + 1]? :=
      Function.update_eq_self m _
    rw [Function.update_eq_self, e2]
    exact h.node
  obtain ⟨heap1, b1, heap2, heap3, news, hl, e1, e2, e3, nd, n3⟩ :=
    Nodes.insert_close vs (by omega) (by omega) h.nodup hg
  refine ⟨heap1, b1, heap2, heap3, e1, e2, e3, as.take (m + 1) ++ news ++ as.drop (m + 1), ?_⟩
  refine ⟨?_, ?_, nd, ?_, ?_, n3⟩
  · simp only [List.length_append, List.length_take, List.length_drop, hl]
    omega
  · simp only [List.length_append, List.length_take, List.length_drop]
    omega
  · show l.first = _
    rw [getElem?_splice as news (m + 1) (by omega), if_pos (by omega)]
    exact h.first
  · show l.last = (as.take (m + 1) ++ news ++ as.drop (m + 1))[l.size + vs.length - 1]?
    rw [getElem?_splice as news (m + 1) (by omega), if_neg (by omega), if_neg (by omega),
      show l.size + vs.length - 1 - news.length = l.size - 1 by omega]
    exact h.last

/-- After its first pass, the head loop of `Insert` does what the other loop does. -/
theorem foldl_insertHeadStep_succ (vs : List V) : ∀ (heap : List (element V))
    (f b : Option Nat) (i : Nat),
    vs.foldlM insertHeadStep (heap, f, b, i + 1) =
      (vs.foldlM insertMidStep (heap, b)).map fun r => (r.1, f, r.2, i + 1 + vs.length) := by
  induction vs with
  | nil => intro heap f b i; rfl
  | cons v vs ih =>
    intro heap f b i
    rw [List.foldlM_cons, List.foldlM_cons]
    simp only [insertHeadStep, insertMidStep, Nat.add_one_ne_zero, if_false]
    cases storeNext (heap ++ [element.mk v b none]) b (some heap.length) with
    | none => rfl
    | some heap1 =>
      simp only [Option.map_some', Option.bind_eq_bind, Option.some_bind]
      rw [ih heap1 f (some heap.length) (i + 1)]
      simp only [List.length_cons]
      congr 1
      funext r
      congr 3
      omega

/-- Linking a batch that is not empty in before the first node of a chain. -/
theorem Chain.insert_head {l : DList V} {as : List Nat} {xs : List V} (h : Chain l as xs)
    (hs : 0 < l.size) (v : V) (vs : List V) :
    ∃ heap1 b1 heap2 heap3,
      (v :: vs).foldlM insertHeadStep (l.heap, l.first, none, 0) =
        some (heap1, some l.heap.length, b1, 1 + vs.length) ∧
      storePrev heap1 l.first b1 = some heap2 ∧
      storeNext heap2 b1 l.first = some heap3 ∧
      ∃ as1, Chain ⟨heap3, some l.heap.length, l.last, l.size + (v :: vs).length⟩ as1
        (v :: vs ++ xs) := by
  have hla := h.len_as
  have hlx := h.len_xs
  have hg : Nodes (l.heap ++ [element.mk v none none]) (l.heap.length :: as) (v :: xs)
      (Function.update (prevPtr (l.heap.length :: as)) (0 + 1) none)
      (Function.update (fun i => (l.heap.length :: as)[i + 1]?) 0 none) := by
    intro k a hk
    cases k with
    | zero =>
      have ha : a = l.heap.length := by simpa using hk.symm
      subst ha
      refine ⟨v, List.getElem?_cons_zero, ?_⟩
      rw [List.getElem?_append_right (Nat.le_refl _), Nat.sub_self, Function.update_same,
        Function.update_noteq (by omega)]
      rfl
    | succ k =>
      rw [List.getElem?_cons_succ] at hk
      obtain ⟨x, hx, hn⟩ := h.node k a hk
      have hal : a < l.heap.length := (List.getElem?_eq_some.1 hn).1
      refine ⟨x, by rw [List.getElem?_cons_succ]; exact hx, ?_⟩
      rw [List.getElem?_append_left hal, hn, Function.update_noteq (Nat.succ_ne_zero k)]
      simp only [List.getElem?_cons_succ]
      by_cases hk0 : k = 0
      · subst hk0
        rw [Function.update_same]
        rfl
      · rw [Function.update_noteq (by omega)]
        have : prevPtr (l.heap.length :: as) (k + 1) = prevPtr as k := by
          obtain ⟨j, rfl⟩ := Nat.exists_eq_succ_of_ne_zero hk0
          simp only [prevPtr, Nat.add_one_ne_zero, if_false, Nat.succ_eq_add_one,
            Nat.add_sub_cancel, List.getElem?_cons_succ]
        rw [this]
  have hfresh : l.heap.length ∉ as := fun hm => Nat.lt_irrefl _ (h.lt_heap hm)
  obtain ⟨heap1, b1, heap2, heap3, news, hl, e1, e2, e3, nd, n3⟩ :=
    Nodes.insert_close vs (show 0 + 1 < (l.heap.length :: as).length by
      simp only [List.length_cons]; omega) (by simp only [List.length_cons]; omega)
      (List.nodup_cons.2 ⟨hfresh, h.nodup⟩) hg
  have hf : (l.heap.length :: as)[0 + 1]? = l.first := by
    rw [h.first]; exact List.getElem?_cons_succ
  rw [hf] at e2 e3
  rw [List.getElem?_cons_zero] at e1
  refine ⟨heap1, b1, heap2, heap3, ?_, e2, e3,
    (l.heap.length :: as).take (0 + 1) ++ news ++ (l.heap.length :: as).drop (0 + 1), ?_⟩
  · rw [List.foldlM_cons]
    have e0 : insertHeadStep (l.heap, l.first, none, 0) v =
        some (l.heap ++ [element.mk v none none], some l.heap.length, some l.heap.length, 0 + 1) := by
      simp [insertHeadStep]
    rw [e0]
    show vs.foldlM insertHeadStep _ = _
    rw [foldl_insertHeadStep_succ]
    have e1b : vs.foldlM insertMidStep (l.heap ++ [element.mk v none none], some l.heap.length) =
        some (heap1, b1) := e1
    rw [e1b]
    simp
  · have n4 : Nodes heap3 ((l.heap.length :: as).take (0 + 1) ++ news ++
        (l.heap.length :: as).drop (0 + 1)) (v :: vs ++ xs)
        (prevPtr ((l.heap.length :: as).take (0 + 1) ++ news ++
          (l.heap.length :: as).drop (0 + 1)))
        (fun i => ((l.heap.length :: as).take (0 + 1) ++ news ++
          (l.heap.length :: as).drop (0 + 1))[i + 1]?) := by
      simpa using n3
    refine ⟨?_, ?_, nd, ?_, ?_, n4⟩
    · simp only [List.length_append, List.length_take, List.length_drop, List.length_cons, hl]
      omega
    · simp only [List.length_append, List.length_cons]
      omega
    · show some l.heap.length = _
      rw [getElem?_splice _ news (0 + 1) (by simp), if_pos (by omega)]
      exact List.getElem?_cons_zero.symm
    · show l.last = ((l.heap.length :: as).take (0 + 1) ++ news ++
        (l.heap.length :: as).drop (0 + 1))[l.size + (v :: vs).length - 1]?
      rw [getElem?_splice _ news (0 + 1) (by simp), if_neg (by simp only [List.length_cons]; omega),
        if_neg (by simp only [List.length_cons]; omega),
        show l.size + (v :: vs).length - 1 - news.length = (l.size - 1) + 1 by
          simp only [List.length_cons]; omega,
        List.getElem?_cons_succ]
      exact h.last

/-- Whenever `Insert` returns, it returns a chain. -/
theorem Chain.Insert_chain {l : DList V} {as : List Nat} {xs : List V} (h : Chain l as xs)
    (index : Int) (vs : List V) {l1 : DList V} (e : l.Insert index vs = some l1) :
    WellFormed l1 := by
  have hla := h.len_as
  have hlx := h.len_xs
  by_cases hw : l.withinRange index = true
  · obtain ⟨h0, hn⟩ := (withinRange_iff l index).1 hw
    simp only [DList.Insert, hw, Bool.not_true, Bool.false_eq_true, if_false] at e
    have hidx : index = (index.toNat : Int) := by omega
    by_cases hd : ((l.size + vs.length : Nat) : Int) - index < index
    · have hwalk := h.insertWalkPrev_eq index (l.size + vs.length)
        (((l.size + vs.length : Nat) : Int) - 1) (l.size - 1)
        (l.size + vs.length - 1 - index.toNat) none (by omega) (by omega) (by omega) (by omega)
      rw [← h.last] at hwalk
      rw [if_pos hd, hwalk] at e
      have hp : l.size - 1 - (l.size + vs.length - 1 - index.toNat) =
          index.toNat - vs.length := by omega
      rw [hp] at e
      have hne : ¬ as[index.toNat - vs.length]? = l.first := by
        rw [h.first]
        intro hc
        have h1 : as[index.toNat - vs.length]? = some as[index.toNat - vs.length] :=
          List.getElem?_eq_getElem (by omega)
        have := nodup_getElem?_inj h.nodup h1 (hc ▸ h1)
        omega
      simp only [Option.bind_eq_bind, Option.some_bind, if_neg hne] at e
      by_cases hh : l.size + vs.length - 1 - index.toNat = 0
      · simp [hh, load] at e
      · simp only [if_neg hh] at e
        obtain ⟨eo, heap1, b1, heap2, heap3, e1, e2, e3, as1, c1⟩ :=
          h.insert_mid (show index.toNat - vs.length + 1 < l.size by omega) vs
        simp only [eo, e1, e2, e3, Option.some_bind, Option.pure_def, Option.some.injEq] at e
        exact ⟨as1, _, e ▸ c1⟩
    · have hwalk := h.insertWalkNext_eq index (l.size + vs.length) 0 0 index.toNat none
        (by omega) (by omega) (by omega)
      rw [← h.first] at hwalk
      rw [if_neg hd, hwalk] at e
      simp only [Nat.zero_add, Option.bind_eq_bind, Option.some_bind] at e
      by_cases hi0 : index.toNat = 0
      · simp only [hi0, if_true, ← h.first] at e
        cases vs with
        | nil =>
          obtain ⟨a, x, ha, _, hcell⟩ := h.at (show 0 < l.size by omega)
          simp [h.first, ha, storePrev, storeNext, hcell] at e
        | cons v vs =>
          obtain ⟨heap1, b1, heap2, heap3, e1, e2, e3, as1, c1⟩ :=
            h.insert_head (by omega) v vs
          simp only [e1, e2, e3, Option.some_bind, Option.pure_def, Option.some.injEq] at e
          exact ⟨as1, _, e ▸ c1⟩
      · have hne : ¬ as[index.toNat]? = l.first := by
          rw [h.first]
          intro hc
          have h1 : as[index.toNat]? = some as[index.toNat] :=
            List.getElem?_eq_getElem (by omega)
          have := nodup_getElem?_inj h.nodup h1 (hc ▸ h1)
          omega
        simp only [if_neg hi0, if_neg hne] at e
        obtain ⟨eo, heap1, b1, heap2, heap3, e1, e2, e3, as1, c1⟩ :=
          h.insert_mid (show index.toNat - 1 + 1 < l.size by omega) vs
        rw [show index.toNat - 1 + 1 = index.toNat by omega] at eo e2 e3
        simp only [eo, e1, e2, e3, Option.some_bind, Option.pure_def, Option.some.injEq] at e
        exact ⟨as1, _, e ▸ c1⟩
  · simp only [DList.Insert, hw, Bool.not_false, if_true] at e
    by_cases hi : index = (l.size : Int)
    · rw [if_pos hi] at e
      obtain ⟨l2, as2, e2, c2⟩ := h.Add_chain vs
      rw [e2] at e
      exact ⟨as2, _, (Option.some.inj e) ▸ c2⟩
    · rw [if_neg hi] at e
      exact ⟨as, xs, (Option.some.inj e) ▸ h⟩

/-- Every reachable list is a chain. -/
theorem ReachableList.chain {l : DList V} (h : ReachableList l) : WellFormed l := by
  induction h with
  | new values l e =>
    obtain ⟨l1, as, e1, c1⟩ := @New_chain V _ values
    rw [e1] at e
    exact ⟨as, _, (Option.some.inj e) ▸ c1⟩
  | add l values l1 _ e ih =>
    obtain ⟨as, xs, c⟩ := ih
    obtain ⟨l2, as2, e2, c2⟩ := c.Add_chain values
    rw [e2] at e
    exact ⟨as2, _, (Option.some.inj e) ▸ c2⟩
  | append l values l1 _ e ih =>
    obtain ⟨as, xs, c⟩ := ih
    obtain ⟨l2, as2, e2, c2⟩ := c.Add_chain values
    rw [DList.Append, e2] at e
    exact ⟨as2, _, (Option.some.inj e) ▸ c2⟩
  | prepend l values l1 _ e ih =>
    obtain ⟨as, xs, c⟩ := ih
    obtain ⟨l2, as2, e2, c2⟩ := c.Prepend_chain values
    rw [e2] at e
    exact ⟨as2, _, (Option.some.inj e) ▸ c2⟩
  | insert l index values l1 _ e ih =>
    obtain ⟨as, xs, c⟩ := ih
    exact c.Insert_chain index values e
  | remove l index l1 _ e ih =>
    obtain ⟨as, xs, c⟩ := ih
    by_cases hw : 0 ≤ index ∧ index < (l.size : Int)
    · obtain ⟨l2, e2, c2⟩ := c.Remove_chain hw
      rw [e2] at e
      exact ⟨_, _, (Option.some.inj e) ▸ c2⟩
    · have hw2 : l.withinRange index = false := by
        rw [← Bool.not_eq_true, withinRange_iff]; exact hw
      simp only [DList.Remove, hw2, Bool.not_false, if_true] at e
      exact ⟨as, xs, (Option.some.inj e) ▸ c⟩
  | set l index value l1 out _ e ih =>
    obtain ⟨as, xs, c⟩ := ih
    by_cases hw : 0 ≤ index ∧ index < (l.size : Int)
    · obtain ⟨l2, out2, e2, c2, _⟩ := c.Set_chain hw value
      rw [e2] at e
      have : l2 = l1 := congrArg Prod.fst (Option.some.inj e)
      exact ⟨_, _, this ▸ c2⟩
    · have hw2 : l.withinRange index = false := by
        rw [← Bool.not_eq_true, withinRange_iff]; exact hw
      simp only [DList.Set, hw2, Bool.not_false, if_true] at e
      by_cases hi : index = (l.size : Int)
      · obtain ⟨l2, as2, e2, c2⟩ := c.Add_chain [value]
        rw [if_pos hi, e2] at e
        have : l2 = l1 := congrArg Prod.fst (Option.some.inj e)
        exact ⟨as2, _, this ▸ c2⟩
      · rw [if_neg hi] at e
        have : l = l1 := congrArg Prod.fst (Option.some.inj e)
        exact ⟨as, xs, this ▸ c⟩
  | swap l i j l1 _ e ih =>
    obtain ⟨as, xs, c⟩ := ih
    obtain ⟨l2, e2, c2⟩ := c.Swap_chain i j
    rw [e2] at e
    exact ⟨_, _, (Option.some.inj e) ▸ c2⟩
  | sort sort l comparator l1 _ e ih =>
    obtain ⟨as, xs, c⟩ := ih
    obtain ⟨l2, as2, e2, c2⟩ := c.SortWith_chain sort comparator
    rw [e2] at e
    exact ⟨as2, _, (Option.some.inj e) ▸ c2⟩
  | clear l _ ih => exact ⟨[], [], chain_Clear l⟩

theorem followNext_nil (heap : List (element V)) : ∀ k, followNext heap k none = none
  | 0 => rfl
  | k + 1 => by
    rw [followNext]
    exact followNext_nil heap k

theorem followPrev_nil (heap : List (element V)) : ∀ k, followPrev heap k none = none
  | 0 => rfl
  | k + 1 => by
    rw [followPrev]
    exact followPrev_nil heap k

theorem Chain.followNext_eq {l : DList V} {as : List Nat} {xs : List V} (h : Chain l as xs) :
    ∀ (k i : Nat), followNext l.heap k as[i]? = as[i + k]? := by
  intro k
  induction k with
  | zero => intro i; rfl
  | succ k ih =>
    intro i
    rw [followNext]
    by_cases hi : i < l.size
    · obtain ⟨x, _, hl⟩ := h.load_at hi
      rw [hl, Option.some_bind, ih (i + 1)]
      congr 1
      omega
    · have h1 : as[i]? = none := List.getElem?_eq_none (by rw [h.len_as]; omega)
      have h2 : as[i + (k + 1)]? = none := List.getElem?_eq_none (by rw [h.len_as]; omega)
      rw [h1, h2]
      exact followNext_nil l.heap k

theorem Chain.followPrev_eq {l : DList V} {as : List Nat} {xs : List V} (h : Chain l as xs) :
    ∀ (k i : Nat), i < l.size →
      followPrev l.heap k as[i]? = if k ≤ i then as[i - k]? else none := by
  intro k
  induction k with
  | zero => intro i _; simp [followPrev]
  | succ k ih =>
    intro i hi
    rw [followPrev]
    obtain ⟨x, _, hl⟩ := h.load_at hi
    rw [hl, Option.some_bind]
    by_cases hi0 : i = 0
    · subst hi0
      simp only [prevPtr, if_true]
      rw [followPrev_nil, if_neg (by omega)]
    · have hp : prevPtr as i = as[i - 1]? := by
        simp only [prevPtr, hi0, if_false]
      simp only [hp]
      rw [ih (i - 1) (by omega)]
      by_cases hk : k + 1 ≤ i
      · rw [if_pos hk, if_pos (by omega)]
        congr 1
        omega
      · rw [if_neg hk, if_neg (by omega)]

/-- C32. Every list built by `New` and then changed by any calls of `Add`, `Append`,
`Prepend`, `Insert`, `Remove`, `Set`, `Swap`, `Sort` and `Clear` that return is well
formed: `size` is 0 exactly when `first` and `last` are both nil; the node `first` has
no `prev` link and the node `last` no `next` link; every node `n` reached from `first`
by `next` links whose `next` is a node `m` is the `prev` of `m`; the walk from `first`
by `next` links meets `size` nodes, all different, and then nil; and so does the walk
from `last` by `prev` links. -/
theorem reachable_lists_are_well_formed (l : DList V) (h : ReachableList l) :
    (l.size = 0 ↔ l.first = none ∧ l.last = none) ∧
    (∀ p, l.first = some p → ∃ n, load l.heap (some p) = some n ∧ n.prev = none) ∧
    (∀ p, l.last = some p → ∃ n, load l.heap (some p) = some n ∧ n.next = none) ∧
    (∀ k p, followNext l.heap k l.first = some p →
      ∃ n, load l.heap (some p) = some n ∧
        ∀ q, n.next = some q → ∃ m, load l.heap (some q) = some m ∧ m.prev = some p) ∧
    ((∀ k, k < l.size → followNext l.heap k l.first ≠ none) ∧
      followNext l.heap l.size l.first = none ∧
      ∀ j k, j < l.size → k < l.size →
        followNext l.heap j l.first = followNext l.heap k l.first → j = k) ∧
    ((∀ k, k < l.size → followPrev l.heap k l.last ≠ none) ∧
      followPrev l.heap l.size l.last = none ∧
      ∀ j k, j < l.size → k < l.size →
        followPrev l.heap j l.last = followPrev l.heap k l.last → j = k) := by
  obtain ⟨as, xs, c⟩ := h.chain
  have hla := c.len_as
  have hsome : ∀ i, i < l.size → ∃ a, as[i]? = some a := fun i hi =>
    ⟨_, List.getElem?_eq_getElem (show i < as.length by omega)⟩
  have hnext : ∀ k, followNext l.heap k l.first = as[k]? := by
    intro k
    rw [c.first, c.followNext_eq k 0, Nat.zero_add]
  have hprev : ∀ k, k < l.size → followPrev l.heap k l.last = as[l.size - 1 - k]? := by
    intro k hk
    rw [c.last, c.followPrev_eq k (l.size - 1) (by omega), if_pos (by omega)]
  refine ⟨?_, ?_, ?_, ?_, ⟨?_, ?_, ?_⟩, ⟨?_, ?_, ?_⟩⟩
  · constructor
    · intro h0
      have : as = [] := List.length_eq_zero.1 (by omega)
      rw [c.first, c.last, this]
      exact ⟨rfl, rfl⟩
    · intro hf
      by_contra hne
      obtain ⟨a, ha⟩ := hsome 0 (by omega)
      rw [← c.first, hf.1] at ha
      exact Option.noConfusion ha
  · intro p hp
    rw [c.first] at hp
    obtain ⟨x, _, hn⟩ := c.node 0 p hp
    exact ⟨_, by simp only [load, Option.some_bind]; exact hn, rfl⟩
  · intro p hp
    rw [c.last] at hp
    have hlt : l.size - 1 < as.length := (List.getElem?_eq_some.1 hp).1
    obtain ⟨x, _, hn⟩ := c.node (l.size - 1) p hp
    refine ⟨_, by simp only [load, Option.some_bind]; exact hn, ?_⟩
    exact List.getElem?_eq_none (by omega)
  · intro k p hk
    rw [hnext] at hk
    obtain ⟨x, _, hn⟩ := c.node k p hk
    refine ⟨_, by simp only [load, Option.some_bind]; exact hn, ?_⟩
    intro q hq
    obtain ⟨y, _, hm⟩ := c.node (k + 1) q hq
    refine ⟨_, by simp only [load, Option.some_bind]; exact hm, ?_⟩
    simp only [prevPtr, Nat.add_one_ne_zero, if_false, Nat.add_sub_cancel]
    exact hk
  · intro k hk
    obtain ⟨a, ha⟩ := hsome k hk
    rw [hnext, ha]
    exact Option.some_ne_none _
  · rw [hnext]
    exact List.getElem?_eq_none (by omega)
  · intro j k hj hk e
    obtain ⟨a, ha⟩ := hsome k hk
    rw [hnext, hnext, ha] at e
    exact nodup_getElem?_inj c.nodup e ha
  · intro k hk
    obtain ⟨a, ha⟩ := hsome (l.size - 1 - k) (by omega)
    rw [hprev k hk, ha]
    exact Option.some_ne_none _
  · by_cases h0 : l.size = 0
    · have : as = [] := List.length_eq_zero.1 (by omega)
      rw [c.last, this, h0]
      rfl
    · rw [c.last, c.followPrev_eq l.size (l.size - 1) (by omega), if_neg (by omega)]
  · intro j k hj hk e
    obtain ⟨a, ha⟩ := hsome (l.size - 1 - k) (by omega)
    rw [hprev j hj, hprev k hk, ha] at e
    have := nodup_getElem?_inj c.nodup e ha
    omega

theorem reachable_lists_are_well_formed_witness :
    ReachableList insertedList ∧
    ((insertedList.size = 0 ↔ insertedList.first = none ∧ insertedList.last = none) ∧
    (∀ p, insertedList.first = some p →
      ∃ n, load insertedList.heap (some p) = some n ∧ n.prev = none) ∧
    (∀ p, insertedList.last = some p →
      ∃ n, load insertedList.heap (some p) = some n ∧ n.next = none) ∧
    (∀ k p, followNext insertedList.heap k insertedList.first = some p →
      ∃ n, load insertedList.heap (some p) = some n ∧
        ∀ q, n.next = some q →
          ∃ m, load insertedList.heap (some q) = some m ∧ m.prev = some p) ∧
    ((∀ k, k < insertedList.size →
        followNext insertedList.heap k insertedList.first ≠ none) ∧
      followNext insertedList.heap insertedList.size insertedList.first = none ∧
      ∀ j k, j < insertedList.size → k < insertedList.size →
        followNext insertedList.heap j insertedList.first =
          followNext insertedList.heap k insertedList.first → j = k) ∧
    ((∀ k, k < insertedList.size →
        followPrev insertedList.heap k insertedList.last ≠ none) ∧
      followPrev insertedList.heap insertedList.size insertedList.last = none ∧
      ∀ j k, j < insertedList.size → k < insertedList.size →
        followPrev insertedList.heap j insertedList.last =
          followPrev insertedList.heap k insertedList.last → j = k)) :=
  ⟨ReachableList.insert sampleList 1 [7, 8] insertedList
      (ReachableList.new [10, 20, 30, 40, 50] sampleList (by decide)) (by decide),
    reachable_lists_are_well_formed insertedList
      (ReachableList.insert sampleList 1 [7, 8] insertedList
        (ReachableList.new [10, 20, 30, 40, 50] sampleList (by decide)) (by decide))⟩

end doublylinkedlist

/-! ## Linked hash map: the round trip with keys that are not strings -/

namespace linkedhashmap
open doublylinkedlist

theorem intMap_holds : Holds intMap [(2, "b"), (1, "a")] :=
  holds_of_puts _ _ (by decide) rfl

/-- C16, on a failing input: the claim's own example. The map built by `Put(2, "b")`,
`Put(1, "a")` has `Keys() = [2, 1]`, and neither key's encoding is a substring of the
other's. `ToJSON` writes each key as `json.Marshal` encodes it, an `int` without quotes,
and returns the text `{2:"b",1:"a"}`, which is not a JSON object: its first key does not
begin with a quote, and the syntax check of `json.Unmarshal` fails. `FromJSON` of that
text, on any map, returns the error and leaves the map as it was; a new map keeps
`Keys()` empty, not `[2, 1]`. -/
theorem FromJSON_rejects_ToJSON_of_int_keys :
    [((2 : Int), "b"), (1, "a")].foldlM (fun (m : Map Int String) kv => m.Put kv.1 kv.2)
      Map.empty = some intMap ∧
    Holds intMap [(2, "b"), (1, "a")] ∧
    intMap.Keys = some [2, 1] ∧ intMap.Values = some ["b", "a"] ∧
    (∀ k1 ∈ [(2 : Int), 1], ∀ k2 ∈ [(2 : Int), 1], k1 ≠ k2 →
      ¬ (escOf marshalInt k1 <:+: escOf marshalInt k2)) ∧
    intMap.ToJSON marshalInt (fun s => (Except.ok (quote s) : Except Unit (List Nat))) =
      some (.ok intText) ∧
    intText = [123, 50, 58, 34, 98, 34, 44, 49, 58, 34, 97, 34, 125] ∧
    objectKeyStarts intText = false ∧
    (∀ (decode : List Nat → Except Unit (List (Int × String)))
        (sort : List Int → (Int → Int → Int) → List Int) (t : Map Int String),
      t.FromJSON marshalInt (unmarshalObject () decode) sort intText = some (t, some ())) ∧
    (Map.empty : Map Int String).Keys = some [] ∧
    (Map.empty : Map Int String).Keys ≠ intMap.Keys := by
  refine ⟨rfl, intMap_holds, by decide, by decide, by decide, rfl, by decide, by decide, ?_,
    by decide, by decide⟩
  intro decode sort t
  have h : unmarshalObject () decode intText = .error () := by
    simp only [unmarshalObject, show objectKeyStarts intText = false by decide]
    rfl
  simp only [Map.FromJSON, h]

end linkedhashmap

/-! ## Array stack: Peek and Pop after a failed FromJSON -/

namespace arraystack
open arraylist

/-- C28, on a failing input. `Push(1)`, `Push(2)`, `Push(3)` on a new stack give the
stack `sampleStack`, whose slice has length and capacity 6. `FromJSON` of the text
`["x"]`, an array of one element that is not a number, returns the type error after
`json.Unmarshal` has cut the slice to the length 1; the size stays 3. The stack is not
empty, `Empty()` is false and `Size()` is 3, yet `Peek()` and `Pop()` panic: they read
`l.values[2]` in a slice of length 1. -/
theorem Peek_after_failed_FromJSON_panics :
    ∃ s0, (Stack.New : Option (Stack Nat)) = some s0 ∧
      [1, 2, 3].foldlM Stack.Push s0 = some sampleStack ∧
      sampleStack.Values = some [3, 2, 1] ∧
      sampleStack.FromJSON (fun (d : List (Option Nat)) sl => unmarshalMixed d sl) [none] =
        (⟨⟨⟨[1, 2, 3, 0, 0, 0], 1⟩, 3⟩⟩, some ()) ∧
      (Stack.mk ⟨⟨[1, 2, 3, 0, 0, 0], 1⟩, 3⟩ : Stack Nat).Empty = false ∧
      (Stack.mk ⟨⟨[1, 2, 3, 0, 0, 0], 1⟩, 3⟩ : Stack Nat).Size = 3 ∧
      (Stack.mk ⟨⟨[1, 2, 3, 0, 0, 0], 1⟩, 3⟩ : Stack Nat).Peek = none ∧
      (Stack.mk ⟨⟨[1, 2, 3, 0, 0, 0], 1⟩, 3⟩ : Stack Nat).Pop = none := by
  refine ⟨_, stack_New_eq, ?_, ?_, ?_, ?_, ?_, ?_, ?_⟩ <;> decide

end arraystack
